import Mathlib

/-!
NTX functional model: accumulator arithmetic, loop driver and opcodes.

A shallow embedding of the bit-true emulation model of the NTX co-processor
(`src/api/fp32_mac.hpp`, `src/api/fp32_mac.cpp`, `src/api/ntx_api.hpp`,
`src/api/ntx_api.cpp`) together with machine-checked properties of it.

Conventions of the embedding.

* `uint32_t`, `uint64_t` values are natural numbers; every operation that can
  leave the machine range is followed by an explicit truncation (`u32`, `u64`).
* `int32_t`, `int64_t` values are integers; conversions between the signed and
  unsigned views are explicit (`toInt64`, `ofInt64`, `wrapS32`).
* The accumulator `fp32_accuType` (an array of five `uint64_t`) is a record of
  five limbs, limb 0 least significant.
* A failed `assert` ends a run: functions that contain assertions return an
  `Outcome`, which is either `done` (ran to completion) or `trap` (an assertion
  failed; the payload is the state at that moment).
* Pointers are integers (byte addresses); memory is a map from byte addresses
  to bytes, and a word access touches four bytes, least significant first.
* The phases of an opcode are functions on an explicit engine state; the job
  descriptor they read is a parameter.
-/

set_option exponentiation.threshold 512
set_option maxRecDepth 8192

namespace Ntx

/-! ## Constants of `fp32_mac.hpp` -/

abbrev C_FP32_N_ACCU_OFLOW_BITS : Nat := 4
abbrev C_FP32_N_ACCU_WORDS : Nat := 5
abbrev C_FP32_ZERO_VAL : Nat := 0x00000000
abbrev C_FP32_ONE_VAL : Nat := 0x3F800000
abbrev C_FP32_INF_VAL : Nat := 0x7F800000
abbrev C_FP32_EXP_WIDTH : Nat := 8
abbrev C_FP32_MANT_WIDTH : Nat := 23
abbrev C_FP32_EXP_MASK : Nat := 0x7F800000
abbrev C_FP32_EXP_MASK_ALIGNED : Nat := 0x000000FF
abbrev C_FP32_MANT_MASK : Nat := 0x007FFFFF
abbrev C_FP32_MANT_MASK_EXT : Nat := 0x00FFFFFF
abbrev C_FP32_SIGN_MASK : Nat := 0x80000000
abbrev C_FP32_BIAS : Nat := 127
abbrev C_FP32_PCS_WIDTH : Nat :=
  1 + (1 <<< C_FP32_EXP_WIDTH) + C_FP32_MANT_WIDTH + C_FP32_N_ACCU_OFLOW_BITS

/-! ## Machine words -/

/-- Truncation to `uint32_t`. -/
def u32 (x : Nat) : Nat := x % 2 ^ 32

/-- Truncation to `uint64_t`. -/
def u64 (x : Nat) : Nat := x % 2 ^ 64

/-- Bitwise complement `~x` of a `uint64_t`. -/
def not64 (x : Nat) : Nat := x ^^^ (2 ^ 64 - 1)

/-- Bitwise complement `~x` of a `uint32_t`. -/
def not32 (x : Nat) : Nat := x ^^^ (2 ^ 32 - 1)

/-- Reinterpretation of a `uint64_t` as `int64_t`. -/
def toInt64 (x : Nat) : Int := if x < 2 ^ 63 then (x : Int) else (x : Int) - 2 ^ 64

/-- Reinterpretation of an `int64_t` as `uint64_t`. -/
def ofInt64 (z : Int) : Nat := (z % 2 ^ 64).toNat

/-- The number of binary digits of `x`, for `x < 2 ^ fuel`. -/
def bitLen : Nat → Nat → Nat
  | 0, _ => 0
  | fuel + 1, x => if x = 0 then 0 else bitLen fuel (x / 2) + 1

/-- GCC `__builtin_clzll`: the number of leading zero bits of a nonzero
`uint64_t` (the builtin is undefined at 0 and the code never calls it there). -/
def clzll (x : Nat) : Nat := 64 - bitLen 64 x

/-! ## The accumulator type -/

/-- The type `fp32_accuType = arr1D<uint64_t, 5>`: five limbs `w[0..4]`. -/
structure fp32_accuType where
  w0 : Nat
  w1 : Nat
  w2 : Nat
  w3 : Nat
  w4 : Nat
  deriving DecidableEq, Repr

namespace fp32_accuType

/-- The all-zero accumulator (`arr1D()` and `clear()`). -/
def zero : fp32_accuType := ⟨0, 0, 0, 0, 0⟩

/-- Read of `w[k]`. Indices outside `0..4` are outside the array; the model
reads 0 there and the code never does so. -/
def get (a : fp32_accuType) (k : Nat) : Nat :=
  match k with
  | 0 => a.w0
  | 1 => a.w1
  | 2 => a.w2
  | 3 => a.w3
  | 4 => a.w4
  | _ => 0

/-- Write `w[k] = v`. Indices outside `0..4` are outside the array; the model
drops such a write and the code never does one. -/
def set (a : fp32_accuType) (k : Nat) (v : Nat) : fp32_accuType :=
  match k with
  | 0 => { a with w0 := v }
  | 1 => { a with w1 := v }
  | 2 => { a with w2 := v }
  | 3 => { a with w3 := v }
  | 4 => { a with w4 := v }
  | _ => a

/-- Every limb is a `uint64_t`. -/
def wf (a : fp32_accuType) : Prop :=
  a.w0 < 2 ^ 64 ∧ a.w1 < 2 ^ 64 ∧ a.w2 < 2 ^ 64 ∧ a.w3 < 2 ^ 64 ∧ a.w4 < 2 ^ 64

instance (a : fp32_accuType) : Decidable a.wf := by
  unfold wf; infer_instance

/-- The five limbs read as one unsigned 320-bit integer. -/
def toNat (a : fp32_accuType) : Nat :=
  a.w0 + a.w1 * 2 ^ 64 + a.w2 * 2 ^ 128 + a.w3 * 2 ^ 192 + a.w4 * 2 ^ 256

/-- The five limbs read as one signed 320-bit integer (complement of two). -/
def toInt (a : fp32_accuType) : Int :=
  if a.toNat < 2 ^ 319 then (a.toNat : Int) else (a.toNat : Int) - 2 ^ 320

/-- Canonical form: bits 284..319 of the 320-bit image repeat bit 283. -/
def canonical (a : fp32_accuType) : Prop :=
  ∀ i, 284 ≤ i → i < 320 → a.toNat.testBit i = a.toNat.testBit 283

instance (a : fp32_accuType) : Decidable a.canonical := by
  unfold canonical; infer_instance

end fp32_accuType

/-- The split of a 320-bit image into five limbs. -/
def accuOfNat (n : Nat) : fp32_accuType :=
  ⟨n % 2 ^ 64, n / 2 ^ 64 % 2 ^ 64, n / 2 ^ 128 % 2 ^ 64, n / 2 ^ 192 % 2 ^ 64,
   n / 2 ^ 256 % 2 ^ 64⟩

/-- Sign extension from bit 283 of a 284-bit value to a 320-bit image. -/
def signExt284 (v : Nat) : Nat :=
  if v < 2 ^ 283 then v else v + (2 ^ 320 - 2 ^ 284)

/-! ## Field extraction (`fp32_mac.hpp`) -/

/-- The helper `fp32_isZero`: `((~C_FP32_SIGN_MASK) & input) == C_FP32_ZERO_VAL`. -/
def fp32_isZero (input : Nat) : Bool :=
  (not32 C_FP32_SIGN_MASK &&& input) == C_FP32_ZERO_VAL

/-- The helper `fp32_isInf`. -/
def fp32_isInf (input : Nat) : Bool :=
  (input &&& C_FP32_EXP_MASK) == C_FP32_EXP_MASK

/-- The helper `fp32_getMant`. -/
def fp32_getMant (input : Nat) : Nat := C_FP32_MANT_MASK &&& input

/-- The helper `fp32_getMantFull`. -/
def fp32_getMantFull (input : Nat) : Nat :=
  fp32_getMant input ||| (1 <<< C_FP32_MANT_WIDTH)

/-- The helper `fp32_getSign`. -/
def fp32_getSign (input : Nat) : Bool :=
  decide ((input &&& C_FP32_SIGN_MASK) > 0)

/-- The helper `fp32_getExp`. -/
def fp32_getExp (input : Nat) : Int :=
  ((C_FP32_EXP_MASK_ALIGNED &&& (input >>> C_FP32_MANT_WIDTH) : Nat) : Int)

/-! ## Accumulator primitives (`fp32_mac.cpp`) -/

/-- The loop of `pcsInv` for an output object distinct from the input:
`n` iterations remain, `k` is the loop index. -/
def pcsInvLoop (inp : fp32_accuType) :
    Nat → Nat → Nat → fp32_accuType → fp32_accuType
  | 0, _, _, out => out
  | n + 1, k, carryIn, out =>
    let tmp := u64 (not64 (inp.get k) + carryIn)
    let carry := if tmp < not64 (inp.get k) ∨ tmp < carryIn then 1 else 0
    pcsInvLoop inp n (k + 1) carry (out.set k tmp)

/-- The function `pcsInv` as a function of the input value: the contents of the
output object after the call (all five limbs are written). -/
def pcsInv (inp : fp32_accuType) : fp32_accuType :=
  pcsInvLoop inp C_FP32_N_ACCU_WORDS 0 1 fp32_accuType.zero

/-- The loop of `pcsAdd` for an output object distinct from the inputs. -/
def pcsAddLoop (opA opB : fp32_accuType) :
    Nat → Nat → Nat → fp32_accuType → fp32_accuType
  | 0, _, _, out => out
  | n + 1, k, carryIn, out =>
    let tmp := u64 (opA.get k + opB.get k)
    let carryOut :=
      if tmp < opA.get k ∨ tmp < opB.get k then 1
      else if carryIn = 1 ∧ tmp = 0xFFFFFFFFFFFFFFFF then 1
      else 0
    let tmp := u64 (tmp + carryIn)
    pcsAddLoop opA opB n (k + 1) carryOut (out.set k tmp)

/-- The tail of `pcsAdd`: the bits of the top limb above the guard bits are
replaced by copies of the top guard bit (shift left, arithmetic shift right). -/
def pcsAddClamp (out : fp32_accuType) : fp32_accuType :=
  let tmp := 64 - (C_FP32_PCS_WIDTH &&& 0x3F)
  let tmp2 : Int := toInt64 (u64 (out.get (C_FP32_N_ACCU_WORDS - 1) <<< tmp))
  out.set (C_FP32_N_ACCU_WORDS - 1) (ofInt64 (tmp2 >>> tmp))

/-- The function `pcsAdd` as a function of the input values. -/
def pcsAdd (opA opB : fp32_accuType) : fp32_accuType :=
  pcsAddClamp (pcsAddLoop opA opB C_FP32_N_ACCU_WORDS 0 0 fp32_accuType.zero)

/-! ### Calls by reference

`pcsInv` and `pcsAdd` take their operands by reference, and the code calls them
with the output naming the same object as an input (`pcsInv(output, output)` in
`extFp32ToPcs`, `pcsAdd(tmp1, accuState, accuState)` in `pcsMac`). The following
versions run the same loops on a store of accumulator objects, reading each
operand limb from the store at the moment the code reads it. -/

/-- A store of accumulator objects, addressed by object number. -/
abbrev AccuStore := Nat → fp32_accuType

/-- The assignment `obj.w[k] = v` in a store. -/
def AccuStore.setLimb (st : AccuStore) (obj k v : Nat) : AccuStore :=
  fun r => if r = obj then (st obj).set k v else st r

/-- The loop of `pcsInv` on references `inp`, `out` into a store. -/
def pcsInvRefLoop (inp out : Nat) : Nat → Nat → Nat → AccuStore → AccuStore
  | 0, _, _, st => st
  | n + 1, k, carryIn, st =>
    let tmp := u64 (not64 ((st inp).get k) + carryIn)
    let carry := if tmp < not64 ((st inp).get k) ∨ tmp < carryIn then 1 else 0
    pcsInvRefLoop inp out n (k + 1) carry (st.setLimb out k tmp)

/-- The function `pcsInv(in, out)` on references into a store. -/
def pcsInvRef (st : AccuStore) (inp out : Nat) : AccuStore :=
  pcsInvRefLoop inp out C_FP32_N_ACCU_WORDS 0 1 st

/-- The loop of `pcsAdd` on references `opA`, `opB`, `out` into a store. -/
def pcsAddRefLoop (opA opB out : Nat) : Nat → Nat → Nat → AccuStore → AccuStore
  | 0, _, _, st => st
  | n + 1, k, carryIn, st =>
    let tmp := u64 ((st opA).get k + (st opB).get k)
    let carryOut :=
      if tmp < (st opA).get k ∨ tmp < (st opB).get k then 1
      else if carryIn = 1 ∧ tmp = 0xFFFFFFFFFFFFFFFF then 1
      else 0
    let tmp := u64 (tmp + carryIn)
    pcsAddRefLoop opA opB out n (k + 1) carryOut (st.setLimb out k tmp)

/-- The function `pcsAdd(opA, opB, out)` on references into a store. -/
def pcsAddRef (st : AccuStore) (opA opB out : Nat) : AccuStore :=
  let st1 := pcsAddRefLoop opA opB out C_FP32_N_ACCU_WORDS 0 0 st
  fun r => if r = out then pcsAddClamp (st1 out) else st1 r

/-- The function `extFp32ToPcs(sign, exponent, mantissa, output)`: the contents
of `output` after the call. -/
def extFp32ToPcs (sign : Bool) (exponent : Int) (mantissa : Nat) : fp32_accuType :=
  let output := fp32_accuType.zero
  if exponent < 0 then output
  else
    let tmpExp : Int :=
      if exponent ≥ C_FP32_EXP_MASK_ALIGNED then C_FP32_EXP_MASK_ALIGNED else exponent
    let tmpMant : Nat :=
      if exponent ≥ C_FP32_EXP_MASK_ALIGNED then 1 <<< (C_FP32_MANT_WIDTH * 2) else mantissa
    let shiftSize : Int := tmpExp - C_FP32_MANT_WIDTH
    let output :=
      if shiftSize < 0 then output.set 0 (tmpMant >>> (-shiftSize).toNat)
      else
        let off := shiftSize.toNat >>> 6
        let shiftSize := shiftSize.toNat &&& 0x3F
        let output := output.set off (u64 (tmpMant <<< shiftSize))
        if shiftSize + (2 + 2 * C_FP32_MANT_WIDTH) > 64 then
          output.set (off + 1) (tmpMant >>> (64 - shiftSize))
        else output
    if sign then pcsInv output else output

/-- The function `fp32ToPcs(input, output)`: the contents of `output` after the call. -/
def fp32ToPcs (input : Nat) : fp32_accuType :=
  let sign := fp32_getSign input
  let exponent := fp32_getExp input
  let mantissa :=
    if fp32_isZero input then 0 else u64 (fp32_getMantFull input <<< C_FP32_MANT_WIDTH)
  extFp32ToPcs sign exponent mantissa

/-- The scan loop of `pcsToFp32` (`for k = 4 downto 0`), with `n = k + 1`
limbs still to visit; the result is `(off, lzCnt, tmpExp)` at loop exit. -/
def pcsToFp32Scan (tmpIn : fp32_accuType) : Nat → Int → Nat × Nat × Int
  | 0, tmpExp => (0, 0, tmpExp)
  | k + 1, tmpExp =>
    if tmpIn.get k ≠ 0 then (k, clzll (tmpIn.get k), tmpExp - clzll (tmpIn.get k))
    else pcsToFp32Scan tmpIn k (tmpExp - 64)

/-- The function `pcsToFp32(input, output)`: the word `output` after the call. -/
def pcsToFp32 (input : fp32_accuType) : Nat :=
  let neg := decide (input.get (C_FP32_N_ACCU_WORDS - 1) >>> 63 ≠ 0)
  let output : Nat := if neg then C_FP32_SIGN_MASK else 0
  let tmpIn := if neg then pcsInv input else input
  let tmpExp0 : Int := C_FP32_N_ACCU_WORDS * 64 - C_FP32_MANT_WIDTH - 1
  let scan := pcsToFp32Scan tmpIn C_FP32_N_ACCU_WORDS tmpExp0
  let off := scan.1
  let lzCnt : Int := scan.2.1
  let tmpExp := scan.2.2
  if tmpExp < 0 then output ||| C_FP32_ZERO_VAL
  else if tmpExp ≥ C_FP32_EXP_MASK_ALIGNED then output ||| C_FP32_INF_VAL
  else
    let output := output ||| (tmpExp.toNat <<< C_FP32_MANT_WIDTH)
    let lzCnt : Int := 64 - 1 - C_FP32_MANT_WIDTH - lzCnt
    if lzCnt ≥ 0 then
      u32 (output ||| ((tmpIn.get off >>> lzCnt.toNat) &&& C_FP32_MANT_MASK))
    else
      let output := u32 (output ||| (u64 (tmpIn.get off <<< (-lzCnt).toNat) &&& C_FP32_MANT_MASK))
      u32 (output ||| (tmpIn.get (off - 1) >>> (64 + lzCnt).toNat))

/-- The function `pcsMac`: the pair `(accuState, res)` after the call. -/
def pcsMac (opA opB : Nat) (accuSel subEn normEn : Nat)
    (accuState : fp32_accuType) (res : Nat) : fp32_accuType × Nat :=
  let expTmp : Int := fp32_getExp opA + fp32_getExp opB - C_FP32_BIAS
  let mantTmp : Nat := u64 (fp32_getMantFull opA * fp32_getMantFull opB)
  let signTmp : Bool := xor (fp32_getSign opA) (fp32_getSign opB)
  let zero := fp32_isZero opA || fp32_isZero opB
  let mantTmp := if zero then 0 else mantTmp
  let expTmp := if zero then 0 else expTmp
  let tmp1 := extFp32ToPcs (xor signTmp (decide (subEn ≠ 0))) expTmp mantTmp
  let accuState := if accuSel ≠ 0 then tmp1 else pcsAdd tmp1 accuState
  let res := if normEn ≠ 0 then pcsToFp32 accuState else res
  (accuState, res)

/-- The accumulator after the execute phase of the MAC opcode has run over
the operand pairs `ops` in list order: each step is the call
`pcsMac(a, b, accuSel = 0, subEn, normEn = 0, accuState, res)` of
`nstMacOp::execute` (the word `res` is a local of the caller that the call
leaves untouched). -/
def macReduce (subEn : Nat) (accu : fp32_accuType) (ops : List (Nat × Nat)) : fp32_accuType :=
  ops.foldl (fun acc ab => (pcsMac ab.1 ab.2 0 subEn 0 acc 0).1) accu

/-! ### The single iterations of the limb loops

The value written and the carry left by one loop iteration of `pcsInv` and
`pcsAdd`, and the top-limb clamp of `pcsAdd` in arithmetic form, named so that
the unrolled loops can be stated. -/

/-- The placement step of `extFp32ToPcs`: the contents of `output` before the
sign is applied, for the clamped exponent `tmpExp` and mantissa `tmpMant`. -/
def extPlace (tmpExp : Int) (tmpMant : Nat) : fp32_accuType :=
  let shiftSize : Int := tmpExp - C_FP32_MANT_WIDTH
  if shiftSize < 0 then fp32_accuType.zero.set 0 (tmpMant >>> (-shiftSize).toNat)
  else
    let off := shiftSize.toNat >>> 6
    let shiftSize := shiftSize.toNat &&& 0x3F
    let output := fp32_accuType.zero.set off (u64 (tmpMant <<< shiftSize))
    if shiftSize + (2 + 2 * C_FP32_MANT_WIDTH) > 64 then
      output.set (off + 1) (tmpMant >>> (64 - shiftSize))
    else output

/-- The part of `pcsToFp32` after the sign has been taken: the word built
from the initial `output` (0 or the sign mask) and the magnitude `tmpIn`. -/
def pcsToFp32Mag (output : Nat) (tmpIn : fp32_accuType) : Nat :=
  let tmpExp0 : Int := C_FP32_N_ACCU_WORDS * 64 - C_FP32_MANT_WIDTH - 1
  let scan := pcsToFp32Scan tmpIn C_FP32_N_ACCU_WORDS tmpExp0
  let off := scan.1
  let lzCnt : Int := scan.2.1
  let tmpExp := scan.2.2
  if tmpExp < 0 then output ||| C_FP32_ZERO_VAL
  else if tmpExp ≥ C_FP32_EXP_MASK_ALIGNED then output ||| C_FP32_INF_VAL
  else
    let output := output ||| (tmpExp.toNat <<< C_FP32_MANT_WIDTH)
    let lzCnt : Int := 64 - 1 - C_FP32_MANT_WIDTH - lzCnt
    if lzCnt ≥ 0 then
      u32 (output ||| ((tmpIn.get off >>> lzCnt.toNat) &&& C_FP32_MANT_MASK))
    else
      let output := u32 (output ||| (u64 (tmpIn.get off <<< (-lzCnt).toNat) &&& C_FP32_MANT_MASK))
      u32 (output ||| (tmpIn.get (off - 1) >>> (64 + lzCnt).toNat))

/-- The limb written by one iteration of `pcsInv`. -/
def invLimb (x carryIn : Nat) : Nat := u64 (not64 x + carryIn)

/-- The carry left by one iteration of `pcsInv`. -/
def invCarry (x carryIn : Nat) : Nat :=
  if invLimb x carryIn < not64 x ∨ invLimb x carryIn < carryIn then 1 else 0

/-- The limb written by one iteration of `pcsAdd`. -/
def addLimb (a b carryIn : Nat) : Nat := u64 (u64 (a + b) + carryIn)

/-- The carry left by one iteration of `pcsAdd`. -/
def addCarry (a b carryIn : Nat) : Nat :=
  if u64 (a + b) < a ∨ u64 (a + b) < b then 1
  else if carryIn = 1 ∧ u64 (a + b) = 0xFFFFFFFFFFFFFFFF then 1
  else 0

/-- The top-limb clamp of `pcsAdd` in arithmetic form. -/
def clampLimb (w : Nat) : Nat :=
  if w % 2 ^ 28 < 2 ^ 27 then w % 2 ^ 28 else w % 2 ^ 28 + (2 ^ 64 - 2 ^ 28)

/-! ## Constants of `ntx_api.hpp` -/

abbrev C_N_HW_LOOPS : Nat := 5
abbrev C_HW_LOOP_WIDTH : Nat := 16
abbrev C_N_AGUS : Nat := 3
abbrev C_NTX_OPCODE_WIDTH : Nat := 4
abbrev C_NTX_LOOP_LEVEL_WIDTH : Nat := 3
abbrev C_N_NTX_OPCODES : Nat := 9

/-! ## Runs with assertions -/

/-- The result of running code that contains `assert`: `done` when the code ran
to completion, `trap` when an assertion failed, with the state at that moment. -/
inductive Outcome (α : Type) where
  | done (a : α)
  | trap (a : α)

namespace Outcome

/-- Sequencing: the second part runs only when the first ran to completion. -/
def bind {α : Type} (x : Outcome α) (f : α → Outcome α) : Outcome α :=
  match x with
  | done a => f a
  | trap a => trap a

/-- The state at the end of the run (at the failed assertion for a `trap`). -/
def state {α : Type} : Outcome α → α
  | done a => a
  | trap a => a

/-- Whether the run completed. -/
def isDone {α : Type} : Outcome α → Bool
  | done _ => true
  | trap _ => false

/-- A change of the view of the state. -/
def map {α β : Type} (f : α → β) : Outcome α → Outcome β
  | done a => done (f a)
  | trap a => trap (f a)

end Outcome

/-! ## 32-bit signed arithmetic -/

/-- Conversion of an `int32_t` to `uint32_t` (value modulo `2^32`). -/
def toU32 (z : Int) : Nat := (z % 2 ^ 32).toNat

/-- Reinterpretation of a `uint32_t` as `int32_t`. -/
def toS32 (x : Nat) : Int := if x < 2 ^ 31 then (x : Int) else (x : Int) - 2 ^ 32

/-- The `int32_t` that a 32-bit operation leaves for the exact result `z`. -/
def wrapS32 (z : Int) : Int := toS32 (toU32 z)

/-! ## The job descriptor (`class ntx_api`)

The staging area and configuration fields of `ntx_api` in emulation mode, for a
descriptor that is not a broadcast alias (`broadcast == nullptr`). Arrays are
functions of the index (`loopBound[k]`, `k < 5`; `aguOff[a]`, `a < 3`;
`aguStride[a][level]`). Pointers are byte addresses, as integers. -/

/-- The descriptor fields of `class ntx_api`. -/
structure ntx_api where
  prepNstCmd : Nat
  loopLevels : Nat
  tcdmLow : Int
  tcdmHigh : Int
  checkTcdmAddrs : Bool
  initLevel : Nat
  innerLevel : Nat
  outerLevel : Nat
  opCode : Nat
  initSel : Nat
  auxFunc : Nat
  irqCfg : Nat
  polarity : Bool
  irqReg : Bool
  loopBound : Nat → Nat
  aguOff : Nat → Int
  aguStride : Nat → Nat → Int

/-- The freshly constructed descriptor (`ntx_api()`): every field zero. -/
def ntx_api.fresh : ntx_api where
  prepNstCmd := 0
  loopLevels := 0
  tcdmLow := 0
  tcdmHigh := 0
  checkTcdmAddrs := false
  initLevel := 0
  innerLevel := 0
  outerLevel := 0
  opCode := 0
  initSel := 0
  auxFunc := 0
  irqCfg := 0
  polarity := false
  irqReg := false
  loopBound := fun _ => 0
  aguOff := fun _ => 0
  aguStride := fun _ _ => 0

/-- The state a job run works on: the live AGU pointers `agu[0..2]` and the
state `st` owned by the opcode phases (accumulator, ALU, counter and index
registers, the scratchpad, and the fields of the opcode object). -/
structure NstRun (σ : Type) where
  agu : Nat → Int
  st : σ

/-- The opcode interface `nstInternalOp`: the three phases, each reading the
AGU pointers and updating the state it owns. -/
structure nstInternalOp (σ : Type) where
  init : (Nat → Int) → σ → σ
  execute : (Nat → Int) → σ → σ
  store : (Nat → Int) → σ → σ

/-! ## Staging (`ntx_api.hpp`) -/

/-- The first loop of `stageLoopNest` (`for k < outerLevel_`), `n` iterations
remaining at index `k`: both assertions on `loopBound_[k]`, then
`loopBound[k] = loopBound_[k] - 1`. -/
def stageBoundLoop (loopBound_ : Nat → Nat) : Nat → Nat → ntx_api → Outcome ntx_api
  | 0, _, ntx => Outcome.done ntx
  | n + 1, k, ntx =>
    if ¬ (loopBound_ k < 2 ^ C_HW_LOOP_WIDTH) then Outcome.trap ntx
    else if ¬ (loopBound_ k > 0) then Outcome.trap ntx
    else
      stageBoundLoop loopBound_ n (k + 1)
        { ntx with loopBound := Function.update ntx.loopBound k (loopBound_ k - 1) }

/-- One of the three stride loops of `stageLoopNest` (`for s < outerLevel_`), for
AGU `a`, `n` iterations remaining at level `s` with running offset `tmp2`:
`tmp1 = (aguStride_[a][s] - tmp2) << 2`,
`tmp2 += (loopBound_[s] - 1) * aguStride_[a][s]` (the product and the sum are
formed in `uint32_t`), `aguStride[a][s] = tmp1`. -/
def stageStrideLoop (loopBound_ : Nat → Nat) (aguStride_ : Nat → Nat → Int) (a : Nat) :
    Nat → Nat → Int → ntx_api → ntx_api
  | 0, _, _, ntx => ntx
  | n + 1, s, tmp2, ntx =>
    let tmp1 : Int := wrapS32 ((aguStride_ a s - tmp2) * 4)
    let tmp2 : Int :=
      toS32 (u32 (toU32 tmp2 + u32 (u32 (loopBound_ s + (2 ^ 32 - 1)) * toU32 (aguStride_ a s))))
    stageStrideLoop loopBound_ aguStride_ a n (s + 1) tmp2
      { ntx with aguStride :=
          (Function.update ntx.aguStride a (Function.update (ntx.aguStride a) s tmp1)) }

/-- The function `ntx_api::stageLoopNest` in emulation mode. -/
def stageLoopNest (ntx : ntx_api) (initLevel_ innerLevel_ outerLevel_ : Nat)
    (loopBound_ : Nat → Nat) (aguStride_ : Nat → Nat → Int) : Outcome ntx_api :=
  if ¬ (initLevel_ ≥ innerLevel_) then Outcome.trap ntx
  else if ¬ (outerLevel_ ≥ innerLevel_) then Outcome.trap ntx
  else if ¬ (outerLevel_ ≥ initLevel_) then Outcome.trap ntx
  else if ¬ (C_N_HW_LOOPS ≥ outerLevel_) then Outcome.trap ntx
  else
    let ntx := { ntx with initLevel := initLevel_, innerLevel := innerLevel_,
                          outerLevel := outerLevel_ }
    let loopLevels := u32 ((outerLevel_ &&& 0x7) <<<
      (2 * C_NTX_LOOP_LEVEL_WIDTH + C_NTX_OPCODE_WIDTH))
    let loopLevels := loopLevels ||| u32 ((innerLevel_ &&& 0x7) <<<
      (C_NTX_LOOP_LEVEL_WIDTH + C_NTX_OPCODE_WIDTH))
    let loopLevels := loopLevels ||| u32 ((initLevel_ &&& 0x7) <<< C_NTX_OPCODE_WIDTH)
    let ntx := { ntx with loopLevels := loopLevels }
    (stageBoundLoop loopBound_ outerLevel_ 0 ntx).bind fun ntx =>
      let ntx := stageStrideLoop loopBound_ aguStride_ 0 outerLevel_ 0 0 ntx
      let ntx := stageStrideLoop loopBound_ aguStride_ 1 outerLevel_ 0 0 ntx
      let ntx := stageStrideLoop loopBound_ aguStride_ 2 outerLevel_ 0 0 ntx
      Outcome.done ntx

/-- The function `ntx_api::stageAguOffs` in emulation mode. -/
def stageAguOffs (ntx : ntx_api) (aguOff0_ aguOff1_ aguOff2_ : Int) : ntx_api :=
  { ntx with aguOff :=
      (Function.update (Function.update (Function.update ntx.aguOff 0 aguOff0_) 1 aguOff1_)
        2 aguOff2_) }

/-! ## The loop driver (`ntx_api.cpp`) -/

/-- The address assertions at the entry of a loop frame. -/
def tcdmOk (ntx : ntx_api) (agu : Nat → Int) : Prop :=
  (agu 0 ≥ ntx.tcdmLow ∧ agu 0 ≤ ntx.tcdmHigh) ∧
  (agu 1 ≥ ntx.tcdmLow ∧ agu 1 ≤ ntx.tcdmHigh) ∧
  (agu 2 ≥ ntx.tcdmLow ∧ agu 2 ≤ ntx.tcdmHigh)

instance (ntx : ntx_api) (agu : Nat → Int) : Decidable (tcdmOk ntx agu) := by
  unfold tcdmOk; infer_instance

/-- The AGU update at the end of a frame: `agu[o] += aguStride[o][level]` for
`o < C_N_AGUS`. -/
def aguUpdate (ntx : ntx_api) (level : Nat) (agu : Nat → Int) : Nat → Int :=
  fun o => if o < C_N_AGUS then agu o + ntx.aguStride o level else agu o

/-- The loop `for (k = 0; k <= bound; k++) body(k)` of a frame, `n` iterations
remaining at index `k`. It is run with `n = bound + 1`; `nstFuncModel` has
asserted `bound < 2^16` before, so that the `uint32_t` index does not wrap. -/
def nstLoop {α : Type} (body : Nat → α → Outcome α) : Nat → Nat → α → Outcome α
  | 0, _, r => Outcome.done r
  | n + 1, k, r => (body k r).bind (nstLoop body n (k + 1))

/-- One frame of `nstLooper` at `level`, around the body `inner` (the execute
phase at level 0, the loop over the frames one level down otherwise). -/
def nstFrame {σ : Type} (ntx : ntx_api) (op : nstInternalOp σ) (level : Nat) (isLast : Bool)
    (inner : NstRun σ → Outcome (NstRun σ)) (r : NstRun σ) : Outcome (NstRun σ) :=
  if ntx.checkTcdmAddrs = true ∧ ¬ tcdmOk ntx r.agu then Outcome.trap r
  else
    let r := if ntx.initLevel = level then { r with st := op.init r.agu r.st } else r
    (inner r).bind fun r =>
      let r := if ntx.innerLevel = level then { r with st := op.store r.agu r.st } else r
      let r := if level < C_N_HW_LOOPS ∧ isLast = false
        then { r with agu := aguUpdate ntx level r.agu } else r
      Outcome.done r

/-- The recursive function `nstLooper(level, op, isLast)` of `nstFuncModel`. -/
def nstLooper {σ : Type} (ntx : ntx_api) (op : nstInternalOp σ) :
    Nat → Bool → NstRun σ → Outcome (NstRun σ)
  | 0, isLast, r =>
    nstFrame ntx op 0 isLast (fun r => Outcome.done { r with st := op.execute r.agu r.st }) r
  | level + 1, isLast, r =>
    nstFrame ntx op (level + 1) isLast
      (nstLoop (fun k => nstLooper ntx op level (decide (k = ntx.loopBound level)))
        (ntx.loopBound level + 1) 0) r

/-- The function `ntx_api::nstFuncModel`, for the table `ops` of opcode
implementations (`ops c` is the object the `switch` creates for opcode `c`). -/
def nstFuncModel {σ : Type} (ntx : ntx_api) (ops : Nat → nstInternalOp σ) (r : NstRun σ) :
    Outcome (NstRun σ) :=
  if ¬ (ntx.initLevel ≥ ntx.innerLevel) then Outcome.trap r
  else if ¬ (ntx.outerLevel ≥ ntx.innerLevel) then Outcome.trap r
  else if ¬ (ntx.outerLevel ≥ ntx.initLevel) then Outcome.trap r
  else if ¬ (C_N_HW_LOOPS ≥ ntx.outerLevel) then Outcome.trap r
  else if ¬ (C_N_NTX_OPCODES > ntx.opCode) then Outcome.trap r
  else if ¬ (∀ k, k < C_N_HW_LOOPS → ntx.loopBound k < 2 ^ C_HW_LOOP_WIDTH) then Outcome.trap r
  else nstLooper ntx (ops ntx.opCode) ntx.outerLevel true { r with agu := ntx.aguOff }

/-! ## The loop driver with a record of what it does

The same recursion as `nstLooper`, keeping a log: one event at the entry of
every frame and one at every call of a phase, each with the level of the frame,
the loop indices of the enclosing frames (innermost first) and the AGU pointers
at that moment. Dropping the log gives back `nstLooper`. -/

/-- What an event of the log records. -/
inductive EventKind where
  | frame
  | init
  | execute
  | store
  deriving DecidableEq, Repr

/-- An event of the log of a run. -/
structure Event where
  kind : EventKind
  level : Nat
  path : List Nat
  agu : Nat → Int

/-- The state of a logged run. -/
structure NstLogged (σ : Type) where
  run : NstRun σ
  log : List Event

/-- One frame of the logged loop driver. -/
def nstFrameLog {σ : Type} (ntx : ntx_api) (op : nstInternalOp σ) (level : Nat) (isLast : Bool)
    (path : List Nat) (inner : NstLogged σ → Outcome (NstLogged σ)) (t : NstLogged σ) :
    Outcome (NstLogged σ) :=
  let t := { t with log := t.log ++ [⟨EventKind.frame, level, path, t.run.agu⟩] }
  if ntx.checkTcdmAddrs = true ∧ ¬ tcdmOk ntx t.run.agu then Outcome.trap t
  else
    let t : NstLogged σ := if ntx.initLevel = level then
        { run := { t.run with st := op.init t.run.agu t.run.st },
          log := t.log ++ [⟨EventKind.init, level, path, t.run.agu⟩] }
      else t
    (inner t).bind fun t =>
      let t : NstLogged σ := if ntx.innerLevel = level then
          { run := { t.run with st := op.store t.run.agu t.run.st },
            log := t.log ++ [⟨EventKind.store, level, path, t.run.agu⟩] }
        else t
      let t : NstLogged σ := if level < C_N_HW_LOOPS ∧ isLast = false
        then { t with run := { t.run with agu := aguUpdate ntx level t.run.agu } } else t
      Outcome.done t

/-- The logged loop driver. -/
def nstLooperLog {σ : Type} (ntx : ntx_api) (op : nstInternalOp σ) :
    Nat → Bool → List Nat → NstLogged σ → Outcome (NstLogged σ)
  | 0, isLast, path, t =>
    nstFrameLog ntx op 0 isLast path
      (fun t => Outcome.done
        { run := { t.run with st := op.execute t.run.agu t.run.st },
          log := t.log ++ [⟨EventKind.execute, 0, path, t.run.agu⟩] }) t
  | level + 1, isLast, path, t =>
    nstFrameLog ntx op (level + 1) isLast path
      (nstLoop (fun k => nstLooperLog ntx op level (decide (k = ntx.loopBound level)) (k :: path))
        (ntx.loopBound level + 1) 0) t

/-- The logged `nstFuncModel`, started with an empty log. -/
def nstFuncModelLog {σ : Type} (ntx : ntx_api) (ops : Nat → nstInternalOp σ) (r : NstRun σ) :
    Outcome (NstLogged σ) :=
  if ¬ (ntx.initLevel ≥ ntx.innerLevel) then Outcome.trap ⟨r, []⟩
  else if ¬ (ntx.outerLevel ≥ ntx.innerLevel) then Outcome.trap ⟨r, []⟩
  else if ¬ (ntx.outerLevel ≥ ntx.initLevel) then Outcome.trap ⟨r, []⟩
  else if ¬ (C_N_HW_LOOPS ≥ ntx.outerLevel) then Outcome.trap ⟨r, []⟩
  else if ¬ (C_N_NTX_OPCODES > ntx.opCode) then Outcome.trap ⟨r, []⟩
  else if ¬ (∀ k, k < C_N_HW_LOOPS → ntx.loopBound k < 2 ^ C_HW_LOOP_WIDTH) then
    Outcome.trap ⟨r, []⟩
  else nstLooperLog ntx (ops ntx.opCode) ntx.outerLevel true [] ⟨{ r with agu := ntx.aguOff }, []⟩

/-- The three phases of an opcode. -/
inductive Phase where
  | init
  | execute
  | store
  deriving DecidableEq, Repr

/-- The phase call an event records, if it records one. -/
def Event.phase (e : Event) : Option Phase :=
  match e.kind with
  | EventKind.frame => none
  | EventKind.init => some Phase.init
  | EventKind.execute => some Phase.execute
  | EventKind.store => some Phase.store

/-- The sequence of phase calls in a log. -/
def phaseCalls (log : List Event) : List Phase := log.filterMap Event.phase

/-- The list `l` repeated `n` times. -/
def rep {α : Type} (n : Nat) (l : List α) : List α := (List.replicate n l).flatten

/-- The phase sequence `(init (execute^E store)^S)^I`. -/
def phaseSeq (E S I : Nat) : List Phase :=
  rep I ([Phase.init] ++ rep S (rep E [Phase.execute] ++ [Phase.store]))

/-- The phase calls of one frame at `level`, read off the recursion: `init`
if the level is `initLevel`, the calls of the body (`execute` at level 0, the
frames one level down, once per loop iteration, otherwise), `store` if the
level is `innerLevel`. -/
def frameTrace (ntx : ntx_api) : Nat → List Phase
  | 0 =>
    (if ntx.initLevel = 0 then [Phase.init] else []) ++ [Phase.execute] ++
      (if ntx.innerLevel = 0 then [Phase.store] else [])
  | level + 1 =>
    (if ntx.initLevel = level + 1 then [Phase.init] else []) ++
      rep (ntx.loopBound level + 1) (frameTrace ntx level) ++
      (if ntx.innerLevel = level + 1 then [Phase.store] else [])

/-- The number of iterations of the loops at levels `lo ≤ l < hi`:
the product of `loopBound[l] + 1`. -/
def loopCount (ntx : ntx_api) (lo hi : Nat) : Nat :=
  ∏ l ∈ Finset.Ico lo hi, (ntx.loopBound l + 1)

/-- The offset, in elements, that the loops below `level` have added to AGU `a`
when they have all reached their last iteration:
`sum_{j < level} (n_j - 1) * S[a][j]`. -/
def lowerOffset (n : Nat → Nat) (S : Nat → Nat → Int) (a : Nat) : Nat → Int
  | 0 => 0
  | level + 1 => lowerOffset n S a level + ((n level - 1 : Nat) : Int) * S a level

/-- The offset, in elements, of the loop indices `path = [i_level, i_(level+1), ...]`:
`sum_l i_l * S[a][l]`. -/
def pathOffset (S : Nat → Nat → Int) (a : Nat) : Nat → List Nat → Int
  | _, [] => 0
  | level, i :: path => (i : Int) * S a level + pathOffset S a (level + 1) path

/-- The staged strides are exact: none of the 32-bit values
`4 * (S[a][s] - sum_{j<s} (n_j - 1) * S[a][j])` overflows. -/
def strideFits (outerLevel : Nat) (n : Nat → Nat) (S : Nat → Nat → Int) : Prop :=
  ∀ a, a < C_N_AGUS → ∀ s, s < outerLevel →
    -2 ^ 31 ≤ 4 * (S a s - lowerOffset n S a s) ∧ 4 * (S a s - lowerOffset n S a s) < 2 ^ 31

instance (outerLevel : Nat) (n : Nat → Nat) (S : Nat → Nat → Int) :
    Decidable (strideFits outerLevel n S) := by
  unfold strideFits; infer_instance

/-- An event agrees with absolute addressing from the bases `base`: its path
lists the loop indices of the levels from its own up to `outerLevel`, and each
AGU pointer is `base[a] + 4 * sum_l i_l * S[a][l]`; at a `store`, which runs at
the end of its frame, the offset `sum_{j < level} (n_j - 1) * S[a][j]` of the
loops below is added. -/
def Event.absolute (base : Nat → Int) (n : Nat → Nat) (S : Nat → Nat → Int) (outerLevel : Nat)
    (e : Event) : Prop :=
  e.level + e.path.length = outerLevel ∧
  ∀ a, a < C_N_AGUS →
    e.agu a = base a + 4 * (pathOffset S a e.level e.path +
      (if e.kind = EventKind.store then lowerOffset n S a e.level else 0))


/-! ## A staged job of the test generator

The arguments of the 3-D MAC test of `genTestData.cpp`:
`stageLoopNest(3, 3, 5, {10,10,10,10,10}, {1,20,400,1,20, 1,20,400,1,20, 0,0,0,1,10})`,
with example base addresses. -/

/-- The loop counts of the 3-D MAC test. -/
def test3dBounds : Nat → Nat := fun _ => 10

/-- The element strides of the 3-D MAC test. -/
def test3dStrides : Nat → Nat → Int := fun a l =>
  ([[1, 20, 400, 1, 20], [1, 20, 400, 1, 20], [0, 0, 0, 1, 10]].getD a []).getD l 0

/-- An opcode whose phases do nothing, on a state without content. -/
def nopOp : nstInternalOp Unit := ⟨fun _ s => s, fun _ s => s, fun _ s => s⟩

/-- A small staged job: levels `(initLevel, innerLevel, outerLevel) = (2, 1, 3)`,
counts `2, 3, 2`, the strides of the 3-D MAC test, bases `1000, 2000, 3000`. -/
def smallJob : ntx_api :=
  stageAguOffs
    (stageLoopNest ntx_api.fresh 2 1 3 (fun k => [2, 3, 2].getD k 0) test3dStrides).state
    1000 2000 3000

/-- A descriptor with ordered levels `(1, 1, 1)` whose stored loop bound at
level 0 is `2^16`. -/
def overlongJob : ntx_api :=
  { ntx_api.fresh with
    initLevel := 1, innerLevel := 1, outerLevel := 1,
    loopBound := fun k => if k = 0 then 65536 else 0 }

/-- Two accumulator objects used to instantiate statements about calls by
reference: object 0 holds `2^283 - 1` (the largest canonical value), every
other object holds 1. -/
def exampleStore : AccuStore :=
  fun r => if r = 0 then ⟨2 ^ 64 - 1, 2 ^ 64 - 1, 2 ^ 64 - 1, 2 ^ 64 - 1, 2 ^ 27 - 1⟩
    else ⟨1, 0, 0, 0, 0⟩

/-! ## The scratchpad memory and the state of the engine

The phases dereference the AGU pointers as `uint32_t *`. Memory is a map from
byte addresses to bytes; a word access reads or writes the four bytes from its
address on, least significant byte first. -/

/-- Memory: the byte stored at every byte address. -/
abbrev Mem := Int → Nat

/-- The word `*(uint32_t *)a`. -/
def load32 (mem : Mem) (a : Int) : Nat :=
  mem a % 256 + mem (a + 1) % 256 * 2 ^ 8 + mem (a + 2) % 256 * 2 ^ 16
    + mem (a + 3) % 256 * 2 ^ 24

/-- Memory after the assignment `*(uint32_t *)a = v`. -/
def store32 (mem : Mem) (a : Int) (v : Nat) : Mem :=
  fun b =>
    if b = a then v % 256
    else if b = a + 1 then v / 2 ^ 8 % 256
    else if b = a + 2 then v / 2 ^ 16 % 256
    else if b = a + 3 then v / 2 ^ 24 % 256
    else mem b

/-- The state the opcode phases work on: memory, the state registers of
`ntx_api` (`accuState`, `aluState`, `cntState`, `idxState`) and the fields of the
opcode object (`tst`, and the operand pointers `opA` of `nstMaskOp` and
`nstMaskMacOp` and `opB` of `nstThTstOp`). -/
structure NtxState where
  mem : Mem
  accuState : fp32_accuType
  aluState : Nat
  cntState : Nat
  idxState : Nat
  tst : Bool
  opA : Int
  opB : Int

/-! ## Comparison of words as `float`

`fp32ToFloat` reinterprets a word as an IEEE 754 binary32 value. Comparisons
with a NaN operand are false. On the other patterns (zeros, subnormal and
normal numbers, infinities) the order of the values is the order of the
sign-magnitude integers `(-1)^sign * (low 31 bits)`, the two zeros being equal. -/

/-- The word is a NaN pattern: exponent field 255 and a nonzero fraction. -/
def fp32_isNaN (x : Nat) : Bool :=
  decide (x / 2 ^ 23 % 2 ^ 8 = 255) && decide (x % 2 ^ 23 ≠ 0)

/-- The sign-magnitude integer of a word, which orders the non-NaN values. -/
def fp32Key (x : Nat) : Int :=
  if x / 2 ^ 31 % 2 = 1 then -((x % 2 ^ 31 : Nat) : Int) else ((x % 2 ^ 31 : Nat) : Int)

/-- The test `fp32ToFloat(x) > fp32ToFloat(y)`. -/
def floatGt (x y : Nat) : Bool :=
  !fp32_isNaN x && !fp32_isNaN y && decide (fp32Key x > fp32Key y)

/-- The test `fp32ToFloat(x) >= fp32ToFloat(y)`. -/
def floatGe (x y : Nat) : Bool :=
  !fp32_isNaN x && !fp32_isNaN y && decide (fp32Key x ≥ fp32Key y)

/-- The test `fp32ToFloat(x) == fp32ToFloat(y)`. -/
def floatEq (x y : Nat) : Bool :=
  !fp32_isNaN x && !fp32_isNaN y && decide (fp32Key x = fp32Key y)

/-! ## Staging and issuing the command (`ntx_api.hpp`) -/

/-- The function `ntx_api::stageCmd` in emulation mode; the first four
arguments are `uint8_t` values. -/
def stageCmd (ntx : ntx_api) (opCode_ initSel_ auxFunc_ irqCfg_ : Nat) (polarity_ : Bool) :
    ntx_api :=
  let ntx := { ntx with opCode := opCode_, initSel := initSel_, auxFunc := auxFunc_,
                        irqCfg := irqCfg_, polarity := polarity_ }
  let prepNstCmd : Nat := if polarity_ then 1 else 0
  let prepNstCmd := u32 (prepNstCmd <<< 2)
  let prepNstCmd := prepNstCmd ||| (irqCfg_ &&& 0x3)
  let prepNstCmd := u32 (prepNstCmd <<< 3)
  let prepNstCmd := prepNstCmd ||| (auxFunc_ &&& 0x7)
  let prepNstCmd := u32 (prepNstCmd <<< 2)
  let prepNstCmd := prepNstCmd ||| (initSel_ &&& 0x3)
  let prepNstCmd := u32 (prepNstCmd <<< (3 * C_NTX_LOOP_LEVEL_WIDTH + C_NTX_OPCODE_WIDTH))
  let prepNstCmd := prepNstCmd ||| (opCode_ ||| ntx.loopLevels)
  { ntx with prepNstCmd := prepNstCmd }


/-! ## The opcode implementations (`ntx_api.cpp`)

Each opcode object holds a pointer to the descriptor and reads its command
fields `initSel`, `auxFunc` and `polarity`; the phases get the AGU pointers
`agu[0..2]` and update the state. -/

/-- The `uint8_t` that the `bool` polarity passes for `subEn`. -/
def polarityBit (p : Bool) : Nat := if p then 1 else 0

/-- The load of the init value, as `nstOuterPOp`, `nstMaxMinOp`, `nstThTstOp`,
`nstMaskOp` and `nstCopyOp` write it:
`aluState = initSel >= 3 ? C_FP32_ZERO_VAL : *(uint32_t *)agu[initSel]`. -/
def initAlu (ntx : ntx_api) (agu : Nat → Int) (s : NtxState) : Nat :=
  if ntx.initSel ≥ 3 then C_FP32_ZERO_VAL else load32 s.mem (agu ntx.initSel)

/-- The store phase that `nstMacOp`, `nstVAddSubOp`, `nstVMultOp` and
`nstOuterPOp` each spell out: `pcsMac(0, 0, 0, 0, 1, accuState, *res)` with
`res = agu[2]`, then `if (auxFunc && fp32_getSign(*res)) *res = 0`. -/
def macStore (ntx : ntx_api) (agu : Nat → Int) (s : NtxState) : NtxState :=
  let res := agu 2
  let r := pcsMac C_FP32_ZERO_VAL C_FP32_ZERO_VAL 0 0 1 s.accuState (load32 s.mem res)
  let w := if ntx.auxFunc ≠ 0 ∧ fp32_getSign r.2 = true then C_FP32_ZERO_VAL else r.2
  { s with accuState := r.1, mem := store32 s.mem res w }

/-- The opcode `NTX_MAC` (`nstMacOp`). In `init` and `execute` the call of
`pcsMac` has `normEn = 0` and writes no result word. -/
def nstMacOp (ntx : ntx_api) : nstInternalOp NtxState where
  init := fun agu s =>
    if ntx.initSel ≥ 3 then { s with accuState := fp32_accuType.zero }
    else
      let res := agu ntx.initSel
      { s with accuState :=
          (pcsMac (load32 s.mem res) C_FP32_ONE_VAL 1 0 0 s.accuState (load32 s.mem res)).1 }
  execute := fun agu s =>
    let opA := agu 0
    let opB := agu 1
    { s with accuState :=
        (pcsMac (load32 s.mem opA) (load32 s.mem opB) 0 (polarityBit ntx.polarity) 0
          s.accuState 0).1 }
  store := macStore ntx

/-- The opcode `NTX_VADDSUB` (`nstVAddSubOp`). -/
def nstVAddSubOp (ntx : ntx_api) : nstInternalOp NtxState where
  init := fun agu s =>
    if ntx.initSel ≥ 3 then { s with accuState := fp32_accuType.zero }
    else
      let res := agu ntx.initSel
      { s with accuState :=
          (pcsMac (load32 s.mem res) C_FP32_ONE_VAL 1 (polarityBit ntx.polarity) 0 s.accuState
            (load32 s.mem res)).1 }
  execute := fun agu s =>
    let opA := agu 0
    { s with accuState := (pcsMac (load32 s.mem opA) C_FP32_ONE_VAL 0 0 0 s.accuState 0).1 }
  store := macStore ntx

/-- The opcode `NTX_VMULT` (`nstVMultOp`). -/
def nstVMultOp (ntx : ntx_api) : nstInternalOp NtxState where
  init := fun _ s => s
  execute := fun agu s =>
    let opA := agu 0
    let opB := agu 1
    { s with accuState :=
        (pcsMac (load32 s.mem opA) (load32 s.mem opB) 1 (polarityBit ntx.polarity) 0
          s.accuState 0).1 }
  store := macStore ntx

/-- The opcode `NTX_OUTERP` (`nstOuterPOp`). -/
def nstOuterPOp (ntx : ntx_api) : nstInternalOp NtxState where
  init := fun agu s =>
    { s with aluState := initAlu ntx agu s, accuState := fp32_accuType.zero }
  execute := fun agu s =>
    let opA := agu 0
    { s with accuState :=
        (pcsMac (load32 s.mem opA) s.aluState 1 (polarityBit ntx.polarity) 0 s.accuState 0).1 }
  store := macStore ntx

/-- The opcode `NTX_MAXMIN` (`nstMaxMinOp`). -/
def nstMaxMinOp (ntx : ntx_api) : nstInternalOp NtxState where
  init := fun agu s => { s with aluState := initAlu ntx agu s, cntState := 0 }
  execute := fun agu s =>
    let opB := agu 1
    let tst := xor (floatGt s.aluState (load32 s.mem opB)) (!ntx.polarity)
    let s := if tst then { s with aluState := load32 s.mem opB, idxState := s.cntState } else s
    { s with cntState := u32 (s.cntState + 1) }
  store := fun agu s =>
    let res := agu 2
    if ntx.auxFunc ≠ 0 then { s with mem := store32 s.mem res s.idxState }
    else { s with mem := store32 s.mem res s.aluState }

/-- The opcode `NTX_THTST` (`nstThTstOp`). -/
def nstThTstOp (ntx : ntx_api) : nstInternalOp NtxState where
  init := fun agu s => { s with aluState := initAlu ntx agu s }
  execute := fun agu s =>
    let s := { s with opB := agu 1 }
    let sel := ntx.auxFunc &&& 0x3
    let tst :=
      if sel = 0 then xor (floatEq s.aluState (load32 s.mem s.opB)) ntx.polarity
      else if sel = 1 then xor (floatGt s.aluState (load32 s.mem s.opB)) ntx.polarity
      else if sel = 2 then xor (floatGe s.aluState (load32 s.mem s.opB)) ntx.polarity
      else false
    { s with tst := tst }
  store := fun agu s =>
    let res := agu 2
    if ntx.auxFunc &&& 0x4 ≠ 0 then
      { s with mem := store32 s.mem res (if s.tst then C_FP32_ONE_VAL else C_FP32_ZERO_VAL) }
    else
      { s with mem := store32 s.mem res (if s.tst then load32 s.mem s.opB else s.aluState) }

/-- The `switch (auxFunc)` of `nstMaskOp::execute` and `nstMaskMacOp::execute`:
the test of `aluState` against the operand word `b` or the counter. -/
def maskTest (ntx : ntx_api) (s : NtxState) (b : Nat) : Bool :=
  if ntx.auxFunc = 0 then xor (floatEq s.aluState b) ntx.polarity
  else if ntx.auxFunc = 1 then xor (floatGt s.aluState b) ntx.polarity
  else if ntx.auxFunc = 2 then xor (floatGe s.aluState b) ntx.polarity
  else if ntx.auxFunc = 4 then xor (decide (s.cntState = s.aluState)) ntx.polarity
  else false

/-- The opcode `NTX_MASK` (`nstMaskOp`). -/
def nstMaskOp (ntx : ntx_api) : nstInternalOp NtxState where
  init := fun agu s => { s with aluState := initAlu ntx agu s, cntState := 0 }
  execute := fun agu s =>
    let s := { s with opA := agu 0 }
    let opB := agu 1
    let s := { s with tst := maskTest ntx s (load32 s.mem opB) }
    { s with cntState := u32 (s.cntState + 1) }
  store := fun agu s =>
    let res := agu 2
    { s with mem := store32 s.mem res (if s.tst then load32 s.mem s.opA else C_FP32_ZERO_VAL) }

/-- The opcode `NTX_MASKMAC` (`nstMaskMacOp`). -/
def nstMaskMacOp (ntx : ntx_api) : nstInternalOp NtxState where
  init := fun agu s =>
    let s := { s with aluState :=
      if ntx.initSel ≥ 3 then C_FP32_ZERO_VAL else load32 s.mem (agu 1) }
    let res := agu 0
    let s := { s with accuState :=
      (pcsMac (load32 s.mem res) C_FP32_ONE_VAL 1 0 0 s.accuState (load32 s.mem res)).1 }
    { s with cntState := 0 }
  execute := fun agu s =>
    let s := { s with opA := agu 2 }
    let opB := if ¬ (ntx.auxFunc &&& 0x4 ≠ 0) then agu 1 else s.opA
    let s := { s with tst := maskTest ntx s (load32 s.mem opB) }
    { s with cntState := u32 (s.cntState + 1) }
  store := fun agu s =>
    let res := agu 2
    if s.tst then
      let r := pcsMac (load32 s.mem s.opA) C_FP32_ONE_VAL 0 0 1 s.accuState (load32 s.mem res)
      { s with accuState := r.1, mem := store32 s.mem res r.2 }
    else s

/-- The opcode `NTX_COPY` (`nstCopyOp`). -/
def nstCopyOp (ntx : ntx_api) : nstInternalOp NtxState where
  init := fun agu s =>
    if ¬ (ntx.auxFunc &&& 0x1 ≠ 0) then { s with aluState := initAlu ntx agu s } else s
  execute := fun agu s =>
    if ntx.auxFunc &&& 0x1 ≠ 0 then { s with aluState := load32 s.mem (agu 0) } else s
  store := fun agu s =>
    let res := agu 2
    { s with mem := store32 s.mem res s.aluState }

/-- The `switch (opCode)` of `nstFuncModel`: the opcode object created for
opcode `c`. The `default` branch is `assert(0)`; it is not reached, because
`nstFuncModel` has asserted `opCode < C_N_NTX_OPCODES` before. -/
def nstOps (ntx : ntx_api) (c : Nat) : nstInternalOp NtxState :=
  if c = 0 then nstMacOp ntx
  else if c = 1 then nstVAddSubOp ntx
  else if c = 2 then nstVMultOp ntx
  else if c = 3 then nstOuterPOp ntx
  else if c = 4 then nstMaxMinOp ntx
  else if c = 5 then nstThTstOp ntx
  else if c = 6 then nstMaskOp ntx
  else if c = 7 then nstMaskMacOp ntx
  else nstCopyOp ntx

/-- The function `ntx_api::issueCmd` in emulation mode: `nstFuncModel()`, then
`irqReg = irqCfg > 0`. The result is the descriptor and the run state. -/
def issueCmd (ntx : ntx_api) (r : NstRun NtxState) : Outcome (ntx_api × NstRun NtxState) :=
  match nstFuncModel ntx (nstOps ntx) r with
  | Outcome.done r => Outcome.done ({ ntx with irqReg := decide (ntx.irqCfg > 0) }, r)
  | Outcome.trap r => Outcome.trap (ntx, r)

/-! ## The events of a run, without the state

The recursion of `nstLooper` determines the frames, the phase calls and the AGU
pointers of a run that completes, whatever the opcode does. `frameEvents` lists
them; the state at the end is got by applying the phase calls in order. -/

/-- The effect on the state of the phase call that an event records. -/
def Event.apply {σ : Type} (op : nstInternalOp σ) (e : Event) (s : σ) : σ :=
  match e.kind with
  | EventKind.frame => s
  | EventKind.init => op.init e.agu s
  | EventKind.execute => op.execute e.agu s
  | EventKind.store => op.store e.agu s

/-- The state after the phase calls of a list of events, applied in order. -/
def replay {σ : Type} (op : nstInternalOp σ) (log : List Event) (s : σ) : σ :=
  log.foldl (fun s e => e.apply op s) s

/-- The events of the loop `for (k = 0; k <= bound; k++) body(k)`, `n` iterations
remaining at index `k`, and the AGU pointers after it. -/
def loopEvents (body : Nat → (Nat → Int) → List Event × (Nat → Int)) :
    Nat → Nat → (Nat → Int) → List Event × (Nat → Int)
  | 0, _, agu => ([], agu)
  | n + 1, k, agu =>
    let r := body k agu
    let r2 := loopEvents body n (k + 1) r.2
    (r.1 ++ r2.1, r2.2)

/-- The events of one call `nstLooper(level, op, isLast)` entered with the
pointers `agu` under the loop indices `path`, and the pointers it leaves. -/
def frameEvents (ntx : ntx_api) : Nat → Bool → List Nat → (Nat → Int) →
    List Event × (Nat → Int)
  | 0, isLast, path, agu =>
    ([⟨EventKind.frame, 0, path, agu⟩]
        ++ (if ntx.initLevel = 0 then [⟨EventKind.init, 0, path, agu⟩] else [])
        ++ [⟨EventKind.execute, 0, path, agu⟩]
        ++ (if ntx.innerLevel = 0 then [⟨EventKind.store, 0, path, agu⟩] else []),
      if 0 < C_N_HW_LOOPS ∧ isLast = false then aguUpdate ntx 0 agu else agu)
  | level + 1, isLast, path, agu =>
    let inner := loopEvents
      (fun k => frameEvents ntx level (decide (k = ntx.loopBound level)) (k :: path))
      (ntx.loopBound level + 1) 0 agu
    ([⟨EventKind.frame, level + 1, path, agu⟩]
        ++ (if ntx.initLevel = level + 1 then [⟨EventKind.init, level + 1, path, agu⟩] else [])
        ++ inner.1
        ++ (if ntx.innerLevel = level + 1 then [⟨EventKind.store, level + 1, path, inner.2⟩]
            else []),
      if level + 1 < C_N_HW_LOOPS ∧ isLast = false then aguUpdate ntx (level + 1) inner.2
      else inner.2)

/-! ## Jobs with one loop level

With `outerLevel = 1` a run is one frame at level 1 around a loop of
`loopBound[0] + 1` frames at level 0; iteration `j` is entered with the pointers
`agu[o] + j * aguStride[o][0]`. -/

/-- The AGU pointers at the entry of iteration `j` of the loop at level 0, for
the pointers `agu` at the entry of the loop. -/
def aguAt (ntx : ntx_api) (agu : Nat → Int) (j : Nat) : Nat → Int :=
  fun o => if o < C_N_AGUS then agu o + (j : Int) * ntx.aguStride o 0 else agu o

/-- The phase calls of iteration `j` of the loop at level 0. -/
def oneLevelStep {σ : Type} (ntx : ntx_api) (op : nstInternalOp σ) (agu : Nat → Int)
    (s : σ) (j : Nat) : σ :=
  let s := if ntx.initLevel = 0 then op.init (aguAt ntx agu j) s else s
  let s := op.execute (aguAt ntx agu j) s
  if ntx.innerLevel = 0 then op.store (aguAt ntx agu j) s else s

/-- The state that the phase calls of a job with one loop level leave. -/
def oneLevelRun {σ : Type} (ntx : ntx_api) (op : nstInternalOp σ) (agu : Nat → Int)
    (s : σ) : σ :=
  let s := if ntx.initLevel = 1 then op.init agu s else s
  let s := (List.range (ntx.loopBound 0 + 1)).foldl (oneLevelStep ntx op agu) s
  if ntx.innerLevel = 1 then op.store (aguAt ntx agu (ntx.loopBound 0)) s else s

/-! ## The product image (stated from the specification of the MAC)

The accumulator image of the product of two operand words under polarity `p`,
in the words of the specification: `extFp32ToPcs` of the sign
`sign(a) xor sign(b) xor p`, the exponent `bexp(a) + bexp(b) - 127` and the
mantissa `mant_full(a) * mant_full(b)`; zero if either operand is zero. -/

/-- The accumulator image of the product `a * b` under polarity `p`. -/
def productImage (p : Bool) (a b : Nat) : fp32_accuType :=
  if fp32_isZero a = true ∨ fp32_isZero b = true then fp32_accuType.zero
  else extFp32ToPcs (xor (xor (fp32_getSign a) (fp32_getSign b)) p)
    (fp32_getExp a + fp32_getExp b - 127) (fp32_getMantFull a * fp32_getMantFull b)

/-! ## Example memories and jobs -/

/-- The memory that holds the words `ws` from address 0 on (word `k` at byte
address `4 * k`, least significant byte first) and zero bytes elsewhere. -/
def wordMem (ws : List Nat) : Mem :=
  fun a => if a < 0 then 0 else ws.getD (a.toNat / 4) 0 / 2 ^ (8 * (a.toNat % 4)) % 256

/-- A run state over the memory `wordMem ws`, with every register zero. -/
def exampleRun (ws : List Nat) : NstRun NtxState :=
  ⟨fun _ => 0, ⟨wordMem ws, fp32_accuType.zero, 0, 0, 0, false, 0, 0⟩⟩

/-- The element strides of the vector tests: 1 on every AGU and level. -/
def unitStrides : Nat → Nat → Int := fun _ _ => 1

/-- A job with one loop level and two elements, staged on a fresh descriptor as
the tests do: `stageLoopNest(initLevel, innerLevel, 1, {2, ..}, S)`, operands at
byte addresses 16 and 32, result at 0, `irqCfg = 1`. -/
def exampleJob (S : Nat → Nat → Int) (initLevel innerLevel opCode initSel auxFunc : Nat)
    (polarity : Bool) : ntx_api :=
  stageCmd
    (stageAguOffs (stageLoopNest ntx_api.fresh initLevel innerLevel 1 (fun _ => 2) S).state
      16 32 0)
    opCode initSel auxFunc 1 polarity

/-- Memory for the two-element jobs: the result word `1.0` at address 0, the
operands `2.0, 3.0` at 16 and `4.0, 0.5` at 32. -/
def exampleWords : List Nat :=
  [0x3F800000, 0, 0, 0, 0x40000000, 0x40400000, 0, 0, 0x40800000, 0x3F000000]

/-- Memory for the MAXMIN examples with a tie: the stream `4.0, 4.0` at
address 32. -/
def tieWords : List Nat :=
  [0, 0, 0, 0, 0, 0, 0, 0, 0x40800000, 0x40800000]

/-- Memory for the MAXMIN examples whose minimum comes first: the stream
`0.5, 4.0` at address 32. -/
def firstMinWords : List Nat :=
  [0, 0, 0, 0, 0, 0, 0, 0, 0x3F000000, 0x40800000]

/-- A run state over the memory `wordMem ws` in which an earlier command has
left `idxState = 7`. -/
def staleRun (ws : List Nat) : NstRun NtxState :=
  ⟨fun _ => 0, ⟨wordMem ws, fp32_accuType.zero, 0, 0, 7, false, 0, 0⟩⟩

/-! ## Counting the execute calls of a list of events -/

/-- The number of execute calls among the events. -/
def execCount (log : List Event) : Nat :=
  log.countP (fun e => decide (e.kind = EventKind.execute))

/-- The flag `tst` of the opcode object right after each execute call of the
events, in order. -/
def tstTrace (op : nstInternalOp NtxState) : List Event → NtxState → List Bool
  | [], _ => []
  | e :: l, s =>
    (if e.kind = EventKind.execute then [(e.apply op s).tst] else [])
      ++ tstTrace op l (e.apply op s)

/-- A descriptor with `auxFunc = 2` (bit 0 clear, the value nonzero). -/
def auxTwoJob : ntx_api := { ntx_api.fresh with auxFunc := 2 }

/-- A state over empty memory whose accumulator is `a`. -/
def accuState0 (a : fp32_accuType) : NtxState :=
  ⟨wordMem [], a, 0, 0, 0, false, 0, 0⟩

/-! ## Index tuples of a loop nest -/

/-- The list `t = [i_0, .., i_(outer-1)]` is an index tuple of the loop nest
with counts `n`: one index per level, `i_l < n_l`. -/
def tupleOk (n : Nat → Nat) (outer : Nat) (t : List Nat) : Prop :=
  t.length = outer ∧ ∀ l, l < outer → t.getD l 0 < n l

instance (n : Nat → Nat) (outer : Nat) (t : List Nat) : Decidable (tupleOk n outer t) := by
  unfold tupleOk; infer_instance

/-- Element strides whose source stride at level 0 is `2^30`, so that the
staged byte stride `4 * 2^30` does not fit 32 bits; 1 on the other AGUs. -/
def farStrides : Nat → Nat → Int := fun a _ => if a = 0 then 2 ^ 30 else 1

/-- A memory with the word 1 at address 16 and the word 2 at address
`16 + 2^32`. -/
def farMem : Mem := fun a => if a = 16 then 1 else if a = 16 + 2 ^ 32 then 2 else 0

/-- A run state over `farMem`, with every register zero. -/
def farRun : NstRun NtxState :=
  ⟨fun _ => 0, ⟨farMem, fp32_accuType.zero, 0, 0, 0, false, 0, 0⟩⟩


/-! ## The value of a word as a binary32 number

Modelled from IEEE 754 (binary32), to relate `fp32Key` to the order of the
values: a word with sign `s`, exponent field `e` and fraction `m` has the value
`(-1)^s * m * 2^(-149)` when `e = 0` and `(-1)^s * (2^23 + m) * 2^(e - 150)`
otherwise. The same formula is used for the exponent field 255, so that the two
infinities take the values `2^128` and `-2^128`, beyond all finite values. -/

/-- The magnitude of the value of a word, in units of `2^(-149)`. -/
def fp32Scaled (x : Nat) : Nat :=
  if x / 2 ^ 23 % 2 ^ 8 = 0 then x % 2 ^ 23
  else (2 ^ 23 + x % 2 ^ 23) * 2 ^ (x / 2 ^ 23 % 2 ^ 8 - 1)

/-- The value of a word as a rational number. -/
def fp32Value (x : Nat) : ℚ :=
  (if x / 2 ^ 31 % 2 = 1 then -(fp32Scaled x : ℚ) else (fp32Scaled x : ℚ)) / 2 ^ 149


/-! ## The magnitude of an accumulator and the clamp by two shifts

Stated from the specification, to compare with the code: the magnitude of the
320-bit complement-of-two image, and a clamp of the top limb written as a left
shift followed by an arithmetic right shift by the same amount. -/

/-- The magnitude of the 320-bit complement-of-two image of an accumulator. -/
def accuMagnitude (a : fp32_accuType) : Nat :=
  if a.toNat < 2 ^ 319 then a.toNat else 2 ^ 320 - a.toNat

/-- The `uint64_t` got from `t` by a shift left by `s` bits followed by an
arithmetic shift right by `s` bits. -/
def clampShift (s : Nat) (t : Nat) : Nat :=
  ofInt64 (toInt64 (u64 (t <<< s)) >>> s)


/-! ## The state registers at construction and runs of accumulating calls -/

/-- The state registers of a freshly constructed descriptor: `accuState` is
built by `arr1D() : w{0}`, and `aluState`, `cntState` and `idxState` have the
initialisers `= 0`. The memory and the fields of the opcode object (`tst`,
`opA`, `opB`), which the constructor does not set, are parameters. -/
def NtxState.fresh (mem : Mem) (tst : Bool) (opA opB : Int) : NtxState :=
  ⟨mem, fp32_accuType.zero, 0, 0, 0, tst, opA, opB⟩

/-- The accumulator after the accumulating calls
`pcsMac(a, b, accuSel = 0, subEn, normEn = 0, accuState, res)` for the triples
`(a, b, subEn)` of `calls`, in list order. -/
def pcsMacCalls (accu : fp32_accuType) (calls : List (Nat × Nat × Nat)) : fp32_accuType :=
  calls.foldl (fun acc c => (pcsMac c.1 c.2.1 0 c.2.2 0 acc 0).1) accu

/-- The exact sum of the signed product images of the calls. -/
def imageSum (calls : List (Nat × Nat × Nat)) : Int :=
  (calls.map (fun c => (productImage (decide (c.2.2 ≠ 0)) c.1 c.2.1).toInt)).sum

/-- Seventeen copies of the product of `0x5F7FFFFF` and `0x5FFFFFFF` (exponent
fields 190 and 191, all fraction bits set). -/
def wrapCalls : List (Nat × Nat × Nat) := List.replicate 17 (0x5F7FFFFF, 0x5FFFFFFF, 0)


/-! ## The conversions with every limb access, shift and count checked

The statements of `extFp32ToPcs` and `pcsToFp32` in the order of the source,
where each access `w[k]` with a computed index asks for `0 ≤ k ≤ 4`, each shift
by a computed amount asks for an amount in `0..63`, and `__builtin_clzll` asks
for a nonzero argument; the result is `none` as soon as one of them fails. The
shifts by the constants 6, 23, 46 and 63 are in range as written, and the loops
of `pcsInv` and of the scan visit the indices `0..4` by their bounds. -/

/-- An index into the five limbs. -/
def limbIndex (k : Int) : Option Nat :=
  if 0 ≤ k ∧ k < C_FP32_N_ACCU_WORDS then some k.toNat else none

/-- A shift amount for a 64-bit value. -/
def shiftAmount (n : Int) : Option Nat :=
  if 0 ≤ n ∧ n < 64 then some n.toNat else none

/-- The call `__builtin_clzll(x)`, defined for nonzero `x`. -/
def clzllChecked (x : Nat) : Option Nat :=
  if x ≠ 0 then some (clzll x) else none

/-- The function `extFp32ToPcs` with its limb indices and shift amounts checked. -/
def extFp32ToPcsChecked (sign : Bool) (exponent : Int) (mantissa : Nat) :
    Option fp32_accuType :=
  let output := fp32_accuType.zero
  if exponent < 0 then some output
  else
    let tmpExp : Int :=
      if exponent ≥ C_FP32_EXP_MASK_ALIGNED then C_FP32_EXP_MASK_ALIGNED else exponent
    let tmpMant : Nat :=
      if exponent ≥ C_FP32_EXP_MASK_ALIGNED then 1 <<< (C_FP32_MANT_WIDTH * 2) else mantissa
    let shiftSize : Int := tmpExp - C_FP32_MANT_WIDTH
    let placed : Option fp32_accuType :=
      if shiftSize < 0 then
        (limbIndex 0).bind fun k =>
        (shiftAmount (-shiftSize)).bind fun n =>
        some (output.set k (tmpMant >>> n))
      else
        let off := shiftSize.toNat >>> 6
        let shiftSize := shiftSize.toNat &&& 0x3F
        (limbIndex off).bind fun k =>
        (shiftAmount shiftSize).bind fun n =>
        let output := output.set k (u64 (tmpMant <<< n))
        if shiftSize + (2 + 2 * C_FP32_MANT_WIDTH) > 64 then
          (limbIndex (off + 1)).bind fun k1 =>
          (shiftAmount (64 - shiftSize)).bind fun n1 =>
          some (output.set k1 (tmpMant >>> n1))
        else some output
    placed.map fun output => if sign then pcsInv output else output

/-- The scan loop of `pcsToFp32` with the limb read and the count checked. -/
def pcsToFp32ScanChecked (tmpIn : fp32_accuType) : Nat → Int → Option (Nat × Nat × Int)
  | 0, tmpExp => some (0, 0, tmpExp)
  | k + 1, tmpExp =>
    (limbIndex k).bind fun i =>
    if tmpIn.get i ≠ 0 then
      (clzllChecked (tmpIn.get i)).bind fun lz => some (k, lz, tmpExp - lz)
    else pcsToFp32ScanChecked tmpIn k (tmpExp - 64)

/-- The function `pcsToFp32` with its limb indices, shift amounts and the
argument of the count checked. -/
def pcsToFp32Checked (input : fp32_accuType) : Option Nat :=
  (limbIndex (C_FP32_N_ACCU_WORDS - 1)).bind fun top =>
  let neg := decide (input.get top >>> 63 ≠ 0)
  let output : Nat := if neg then C_FP32_SIGN_MASK else 0
  let tmpIn := if neg then pcsInv input else input
  let tmpExp0 : Int := C_FP32_N_ACCU_WORDS * 64 - C_FP32_MANT_WIDTH - 1
  (pcsToFp32ScanChecked tmpIn C_FP32_N_ACCU_WORDS tmpExp0).bind fun scan =>
  let off := scan.1
  let lzCnt : Int := scan.2.1
  let tmpExp := scan.2.2
  if tmpExp < 0 then some (output ||| C_FP32_ZERO_VAL)
  else if tmpExp ≥ C_FP32_EXP_MASK_ALIGNED then some (output ||| C_FP32_INF_VAL)
  else
    let output := output ||| (tmpExp.toNat <<< C_FP32_MANT_WIDTH)
    let lzCnt : Int := 64 - 1 - C_FP32_MANT_WIDTH - lzCnt
    if lzCnt ≥ 0 then
      (limbIndex off).bind fun i =>
      (shiftAmount lzCnt).bind fun n =>
      some (u32 (output ||| ((tmpIn.get i >>> n) &&& C_FP32_MANT_MASK)))
    else
      (limbIndex off).bind fun i =>
      (shiftAmount (-lzCnt)).bind fun n =>
      let output := u32 (output ||| (u64 (tmpIn.get i <<< n) &&& C_FP32_MANT_MASK))
      (limbIndex ((off : Int) - 1)).bind fun i1 =>
      (shiftAmount (64 + lzCnt)).bind fun n1 =>
      some (u32 (output ||| (tmpIn.get i1 >>> n1)))


/-! ## Example descriptors for the reserved selector and the assertions of staging -/

/-- A descriptor with polarity set and the reserved comparison selector
(`auxFunc & 3 = 3`), thresholding output. -/
def reservedJob : ntx_api := { ntx_api.fresh with auxFunc := 3, polarity := true }

/-- A descriptor with polarity set and the reserved comparison selector, binary
output (`auxFunc & 4` set). -/
def reservedBinJob : ntx_api := { ntx_api.fresh with auxFunc := 7, polarity := true }

/-- A state over the memory `wordMem ws` with `aluState = 5`. -/
def aluFive (ws : List Nat) : NtxState := ⟨wordMem ws, fp32_accuType.zero, 5, 0, 0, false, 0, 0⟩

/-- The pointers `agu[0] = 0`, `agu[1] = 4`, `agu[2] = 8`. -/
def aguWords : Nat → Int := fun o => 4 * (o : Int)


/-! ## Where the phase calls sit in a log

A log is read from left to right with the pointers `cur` of the most recent
frame entry and a flag `ex` telling whether an execute call has been seen since
that entry. -/

/-- Every init, execute and store call of the log has the pointers of the most
recent frame entry before it (`cur` when there is none in the log), and every
store call comes after an execute call of that frame. -/
def phasesAt : (Nat → Int) → Bool → List Event → Prop
  | _, _, [] => True
  | cur, ex, e :: l =>
    match e.kind with
    | EventKind.frame => phasesAt e.agu false l
    | EventKind.init => e.agu = cur ∧ phasesAt cur ex l
    | EventKind.execute => e.agu = cur ∧ phasesAt cur true l
    | EventKind.store => (e.agu = cur ∧ ex = true) ∧ phasesAt cur ex l

/-- The pointers of the most recent frame entry and the execute flag at the end
of a log. -/
def phasesEnd : (Nat → Int) → Bool → List Event → (Nat → Int) × Bool
  | cur, ex, [] => (cur, ex)
  | cur, ex, e :: l =>
    match e.kind with
    | EventKind.frame => phasesEnd e.agu false l
    | EventKind.init => phasesEnd cur ex l
    | EventKind.execute => phasesEnd cur true l
    | EventKind.store => phasesEnd cur ex l

/-- The small staged job with the address check enabled for the byte range
`[1000, 4000]`. -/
def checkedJob : ntx_api :=
  { smallJob with checkTcdmAddrs := true, tcdmLow := 1000, tcdmHigh := 4000 }

/-- A MASKMAC job with one loop level and two elements, store at level 1. -/
def maskMacJob : ntx_api := exampleJob unitStrides 1 1 7 0 1 false


/-! ## The stream of a MAXMIN frame and the index its words single out

The words that the execute calls of a log read through `agu[1]`, in order, and
the condition of the specification on an index: for polarity 0 the word `b_i` is
at least the init value and every earlier word, for polarity 1 it is below the
init value and every earlier word (in the order of the values, NaN apart). -/

/-- The words `*agu[1]` read by the execute calls of MAXMIN when the phase
calls of the events run in order from the state `s`. -/
def maxminReads (ntx : ntx_api) : List Event → NtxState → List Nat
  | [], _ => []
  | e :: l, s =>
    (if e.kind = EventKind.execute then [load32 s.mem (e.agu 1)] else [])
      ++ maxminReads ntx l (e.apply (nstMaxMinOp ntx) s)

/-- The condition on index `i`: `b_i >= max(v, b_0..b_(i-1))` for polarity 0
and `b_i < min(v, b_0..b_(i-1))` for polarity 1. -/
def maxminCond (p : Bool) (v : Nat) (bs : List Nat) (i : Nat) : Prop :=
  if p then
    fp32Key (bs.getD i 0) < fp32Key v ∧ ∀ j, j < i → fp32Key (bs.getD i 0) < fp32Key (bs.getD j 0)
  else
    fp32Key v ≤ fp32Key (bs.getD i 0) ∧ ∀ j, j < i → fp32Key (bs.getD j 0) ≤ fp32Key (bs.getD i 0)

instance (p : Bool) (v : Nat) (bs : List Nat) (i : Nat) : Decidable (maxminCond p v bs i) := by
  unfold maxminCond; infer_instance

/-- The index `i` is the largest index of the stream with the condition. -/
def maxminIndex (p : Bool) (v : Nat) (bs : List Nat) (i : Nat) : Prop :=
  i < bs.length ∧ maxminCond p v bs i ∧ ∀ j, j < bs.length → i < j → ¬ maxminCond p v bs j

instance (p : Bool) (v : Nat) (bs : List Nat) (i : Nat) : Decidable (maxminIndex p v bs i) := by
  unfold maxminIndex; infer_instance

/-- The key that MAXMIN maximises: the order of the values for polarity 0, the
reverse order for polarity 1. -/
def maxminKey (p : Bool) (x : Nat) : Int := if p then -fp32Key x else fp32Key x

/-- A MAXMIN descriptor with polarity 0 whose init value is zero
(`initSel = 3`). -/
def maxZeroJob : ntx_api := { ntx_api.fresh with opCode := 4, initSel := 3 }

/-- An init call with every pointer zero. -/
def initEvent : Event := ⟨EventKind.init, 1, [], fun _ => 0⟩

/-- An execute call with every pointer zero. -/
def executeEvent : Event := ⟨EventKind.execute, 0, [], fun _ => 0⟩

/-- A descriptor with ordered levels `(1, 1, 1)`, loop bounds zero and the
opcode 9, which is not an opcode. -/
def badOpJob : ntx_api :=
  { ntx_api.fresh with initLevel := 1, innerLevel := 1, outerLevel := 1, opCode := 9 }

/-- A descriptor with levels `(initLevel, innerLevel, outerLevel) = (0, 0, 1)`,
three iterations at level 0 that advance every pointer by 4 bytes from 0, and
the address check enabled for the byte range `[0, 4]`. -/
def tightJob : ntx_api :=
  { ntx_api.fresh with
    outerLevel := 1, loopBound := fun k => if k = 0 then 2 else 0,
    aguStride := fun _ l => if l = 0 then 4 else 0,
    checkTcdmAddrs := true, tcdmLow := 0, tcdmHigh := 4 }

/-! # Properties -/

/-! ## Machine-word lemmas -/

theorem not64_eq (x : Nat) (h : x < 2 ^ 64) : not64 x = 2 ^ 64 - 1 - x := by
  unfold not64
  apply Nat.eq_of_testBit_eq
  intro i
  have h2 : 2 ^ 64 - 1 - x = 2 ^ 64 - (x + 1) := by omega
  rw [h2, Nat.testBit_two_pow_sub_succ h, Nat.testBit_xor, Nat.testBit_two_pow_sub_one]
  by_cases hi : i < 64
  · simp [hi]
  · have : x.testBit i = false := by
      apply Nat.testBit_lt_two_pow
      calc x < 2 ^ 64 := h
        _ ≤ 2 ^ i := Nat.pow_le_pow_right (by norm_num) (by omega)
    simp [hi, this]

/-! ## Limb access -/

theorem fp32_accuType.get_set_eq (a : fp32_accuType) (k v : Nat) (hk : k < 5) :
    (a.set k v).get k = v := by
  interval_cases k <;> rfl

theorem fp32_accuType.get_set_ne (a : fp32_accuType) (k j v : Nat) (h : j ≠ k) :
    (a.set k v).get j = a.get j := by
  unfold fp32_accuType.set
  split <;> first | rfl | (unfold fp32_accuType.get; split <;> first | rfl | omega)

theorem fp32_accuType.ext_get (a b : fp32_accuType)
    (h : ∀ j, j < 5 → a.get j = b.get j) : a = b := by
  have h0 := h 0 (by omega)
  have h1 := h 1 (by omega)
  have h2 := h 2 (by omega)
  have h3 := h 3 (by omega)
  have h4 := h 4 (by omega)
  cases a; cases b
  simp only [fp32_accuType.get] at h0 h1 h2 h3 h4
  simp [h0, h1, h2, h3, h4]

/-! ## Negation -/

theorem pcsInvLoop_succ (inp : fp32_accuType) (n k c : Nat) (out : fp32_accuType) :
    pcsInvLoop inp (n + 1) k c out
      = pcsInvLoop inp n (k + 1) (invCarry (inp.get k) c) (out.set k (invLimb (inp.get k) c)) :=
  rfl

theorem inv_step (x c : Nat) (hx : x < 2 ^ 64) (hc : c ≤ 1) :
    invLimb x c < 2 ^ 64 ∧ invCarry x c ≤ 1 ∧
      invLimb x c + invCarry x c * 2 ^ 64 = 2 ^ 64 - 1 - x + c := by
  unfold invCarry invLimb u64
  rw [not64_eq x hx]
  split_ifs <;> omega

theorem pcsInv_eq (a : fp32_accuType) :
    pcsInv a =
      ⟨invLimb a.w0 1,
       invLimb a.w1 (invCarry a.w0 1),
       invLimb a.w2 (invCarry a.w1 (invCarry a.w0 1)),
       invLimb a.w3 (invCarry a.w2 (invCarry a.w1 (invCarry a.w0 1))),
       invLimb a.w4 (invCarry a.w3 (invCarry a.w2 (invCarry a.w1 (invCarry a.w0 1))))⟩ := by
  rfl

theorem pcsInv_wf (a : fp32_accuType) : (pcsInv a).wf := by
  rw [pcsInv_eq]
  simp only [fp32_accuType.wf, invLimb, u64]
  refine ⟨?_, ?_, ?_, ?_, ?_⟩ <;> exact Nat.mod_lt _ (by norm_num)

theorem pcsInv_toNat (a : fp32_accuType) (h : a.wf) :
    (pcsInv a).toNat = (2 ^ 320 - a.toNat) % 2 ^ 320 := by
  obtain ⟨h0, h1, h2, h3, h4⟩ := h
  rw [pcsInv_eq]
  simp only [fp32_accuType.toNat]
  obtain ⟨b0, c0, e0⟩ := inv_step a.w0 1 h0 (by omega)
  generalize invLimb a.w0 1 = t0 at *
  generalize invCarry a.w0 1 = k0 at *
  obtain ⟨b1, c1, e1⟩ := inv_step a.w1 k0 h1 c0
  generalize invLimb a.w1 k0 = t1 at *
  generalize invCarry a.w1 k0 = k1 at *
  obtain ⟨b2, c2, e2⟩ := inv_step a.w2 k1 h2 c1
  generalize invLimb a.w2 k1 = t2 at *
  generalize invCarry a.w2 k1 = k2 at *
  obtain ⟨b3, c3, e3⟩ := inv_step a.w3 k2 h3 c2
  generalize invLimb a.w3 k2 = t3 at *
  generalize invCarry a.w3 k2 = k3 at *
  obtain ⟨b4, c4, e4⟩ := inv_step a.w4 k3 h4 c3
  generalize invLimb a.w4 k3 = t4 at *
  generalize invCarry a.w4 k3 = k4 at *
  omega

theorem pcsInv_lt (a : fp32_accuType) (h : a.wf) : (pcsInv a).toNat < 2 ^ 320 := by
  rw [pcsInv_toNat a h]
  exact Nat.mod_lt _ (by norm_num)

theorem pcsInvLoop_congr (inp inp2 : fp32_accuType) (n : Nat) :
    ∀ (k c : Nat) (out : fp32_accuType), (∀ j, k ≤ j → inp.get j = inp2.get j) →
      pcsInvLoop inp n k c out = pcsInvLoop inp2 n k c out := by
  induction n with
  | zero => intro k c out _; rfl
  | succ n ih =>
    intro k c out h
    rw [pcsInvLoop_succ, pcsInvLoop_succ, h k (le_refl k)]
    exact ih _ _ _ (fun j hj => h j (by omega))

theorem pcsInvLoop_out (inp : fp32_accuType) (n : Nat) :
    ∀ (k c : Nat) (out out2 : fp32_accuType), k + n = 5 →
      (∀ j, j < k → out.get j = out2.get j) →
      pcsInvLoop inp n k c out = pcsInvLoop inp n k c out2 := by
  induction n with
  | zero =>
    intro k c out out2 hk h
    exact fp32_accuType.ext_get _ _ (fun j hj => h j (by omega))
  | succ n ih =>
    intro k c out out2 hk h
    rw [pcsInvLoop_succ, pcsInvLoop_succ]
    apply ih _ _ _ _ (by omega)
    intro j hj
    by_cases hjk : j = k
    · subst hjk
      rw [fp32_accuType.get_set_eq _ _ _ (by omega), fp32_accuType.get_set_eq _ _ _ (by omega)]
    · rw [fp32_accuType.get_set_ne _ _ _ _ hjk, fp32_accuType.get_set_ne _ _ _ _ hjk]
      exact h j (by omega)

theorem pcsInvRefLoop_out (i o : Nat) (n : Nat) :
    ∀ (k c : Nat) (st : AccuStore),
      pcsInvRefLoop i o n k c st o = pcsInvLoop (st i) n k c (st o) := by
  induction n with
  | zero => intro k c st; rfl
  | succ n ih =>
    intro k c st
    show pcsInvRefLoop i o n (k + 1) (invCarry ((st i).get k) c)
        (st.setLimb o k (invLimb ((st i).get k) c)) o = _
    rw [ih, pcsInvLoop_succ]
    have ho : (st.setLimb o k (invLimb ((st i).get k) c)) o
        = (st o).set k (invLimb ((st i).get k) c) := by
      simp [AccuStore.setLimb]
    rw [ho]
    apply pcsInvLoop_congr
    intro j hj
    unfold AccuStore.setLimb
    split
    · next h => subst h; exact fp32_accuType.get_set_ne _ _ _ _ (by omega)
    · rfl

theorem pcsInvRefLoop_other (i o r : Nat) (h : r ≠ o) (n : Nat) :
    ∀ (k c : Nat) (st : AccuStore), pcsInvRefLoop i o n k c st r = st r := by
  induction n with
  | zero => intro k c st; rfl
  | succ n ih =>
    intro k c st
    show pcsInvRefLoop i o n (k + 1) _ (st.setLimb o k _) r = _
    rw [ih]
    simp [AccuStore.setLimb, h]

/-- A call `pcsInv(in, out)` on references leaves in `out` the value `pcsInv`
computes from the contents of `in` before the call, whether or not `out` and
`in` name the same object. -/
theorem pcsInvRef_out (st : AccuStore) (i o : Nat) :
    pcsInvRef st i o o = pcsInv (st i) := by
  unfold pcsInvRef pcsInv
  rw [pcsInvRefLoop_out]
  exact pcsInvLoop_out _ _ _ _ _ _ (by norm_num) (fun j hj => absurd hj (by omega))

theorem pcsInvRef_other (st : AccuStore) (i o r : Nat) (h : r ≠ o) :
    pcsInvRef st i o r = st r :=
  pcsInvRefLoop_other i o r h _ _ _ _

/-! ## Addition -/

theorem pcsAddLoop_succ (opA opB : fp32_accuType) (n k c : Nat) (out : fp32_accuType) :
    pcsAddLoop opA opB (n + 1) k c out
      = pcsAddLoop opA opB n (k + 1) (addCarry (opA.get k) (opB.get k) c)
          (out.set k (addLimb (opA.get k) (opB.get k) c)) :=
  rfl

theorem add_step (a b c : Nat) (ha : a < 2 ^ 64) (hb : b < 2 ^ 64) (hc : c ≤ 1) :
    addLimb a b c < 2 ^ 64 ∧ addCarry a b c ≤ 1 ∧
      addLimb a b c + addCarry a b c * 2 ^ 64 = a + b + c := by
  unfold addCarry addLimb u64
  split_ifs <;> omega

theorem clamp_eq (w : Nat) :
    ofInt64 (toInt64 (u64 (w <<< (64 - (C_FP32_PCS_WIDTH &&& 0x3F)))) >>>
      (64 - (C_FP32_PCS_WIDTH &&& 0x3F))) = clampLimb w := by
  have h36 : 64 - (C_FP32_PCS_WIDTH &&& 0x3F) = 36 := by decide
  rw [h36, Nat.shiftLeft_eq, Int.shiftRight_eq_div_pow]
  unfold ofInt64 toInt64 u64 clampLimb
  split_ifs <;> omega

theorem pcsAddClamp_eq (a : fp32_accuType) :
    pcsAddClamp a = ⟨a.w0, a.w1, a.w2, a.w3, clampLimb a.w4⟩ := by
  unfold pcsAddClamp
  simp only [clamp_eq]
  rfl

theorem pcsAdd_eq (a b : fp32_accuType) :
    pcsAdd a b =
      ⟨addLimb a.w0 b.w0 0,
       addLimb a.w1 b.w1 (addCarry a.w0 b.w0 0),
       addLimb a.w2 b.w2 (addCarry a.w1 b.w1 (addCarry a.w0 b.w0 0)),
       addLimb a.w3 b.w3 (addCarry a.w2 b.w2 (addCarry a.w1 b.w1 (addCarry a.w0 b.w0 0))),
       clampLimb (addLimb a.w4 b.w4
         (addCarry a.w3 b.w3 (addCarry a.w2 b.w2 (addCarry a.w1 b.w1 (addCarry a.w0 b.w0 0)))))⟩ := by
  unfold pcsAdd
  rw [pcsAddClamp_eq]
  rfl

theorem clampLimb_lt (w : Nat) : clampLimb w < 2 ^ 64 := by
  unfold clampLimb; split_ifs <;> omega

theorem pcsAdd_wf (a b : fp32_accuType) : (pcsAdd a b).wf := by
  rw [pcsAdd_eq]
  refine ⟨?_, ?_, ?_, ?_, clampLimb_lt _⟩ <;>
    exact Nat.mod_lt _ (by norm_num)

theorem pcsAdd_toNat (a b : fp32_accuType) (ha : a.wf) (hb : b.wf) :
    (pcsAdd a b).toNat = signExt284 ((a.toNat + b.toNat) % 2 ^ 284) := by
  obtain ⟨ha0, ha1, ha2, ha3, ha4⟩ := ha
  obtain ⟨hb0, hb1, hb2, hb3, hb4⟩ := hb
  rw [pcsAdd_eq]
  simp only [fp32_accuType.toNat]
  obtain ⟨b0, c0, e0⟩ := add_step a.w0 b.w0 0 ha0 hb0 (by omega)
  generalize addLimb a.w0 b.w0 0 = t0 at *
  generalize addCarry a.w0 b.w0 0 = k0 at *
  obtain ⟨b1, c1, e1⟩ := add_step a.w1 b.w1 k0 ha1 hb1 c0
  generalize addLimb a.w1 b.w1 k0 = t1 at *
  generalize addCarry a.w1 b.w1 k0 = k1 at *
  obtain ⟨b2, c2, e2⟩ := add_step a.w2 b.w2 k1 ha2 hb2 c1
  generalize addLimb a.w2 b.w2 k1 = t2 at *
  generalize addCarry a.w2 b.w2 k1 = k2 at *
  obtain ⟨b3, c3, e3⟩ := add_step a.w3 b.w3 k2 ha3 hb3 c2
  generalize addLimb a.w3 b.w3 k2 = t3 at *
  generalize addCarry a.w3 b.w3 k2 = k3 at *
  obtain ⟨b4, c4, e4⟩ := add_step a.w4 b.w4 k3 ha4 hb4 c3
  generalize addLimb a.w4 b.w4 k3 = t4 at *
  generalize addCarry a.w4 b.w4 k3 = k4 at *
  unfold clampLimb signExt284
  split_ifs <;> omega

theorem pcsAddLoop_congr (a b a2 b2 : fp32_accuType) (n : Nat) :
    ∀ (k c : Nat) (out : fp32_accuType),
      (∀ j, k ≤ j → a.get j = a2.get j) → (∀ j, k ≤ j → b.get j = b2.get j) →
      pcsAddLoop a b n k c out = pcsAddLoop a2 b2 n k c out := by
  induction n with
  | zero => intro k c out _ _; rfl
  | succ n ih =>
    intro k c out ha hb
    rw [pcsAddLoop_succ, pcsAddLoop_succ, ha k (le_refl k), hb k (le_refl k)]
    exact ih _ _ _ (fun j hj => ha j (by omega)) (fun j hj => hb j (by omega))

theorem pcsAddLoop_out (a b : fp32_accuType) (n : Nat) :
    ∀ (k c : Nat) (out out2 : fp32_accuType), k + n = 5 →
      (∀ j, j < k → out.get j = out2.get j) →
      pcsAddLoop a b n k c out = pcsAddLoop a b n k c out2 := by
  induction n with
  | zero =>
    intro k c out out2 hk h
    exact fp32_accuType.ext_get _ _ (fun j hj => h j (by omega))
  | succ n ih =>
    intro k c out out2 hk h
    rw [pcsAddLoop_succ, pcsAddLoop_succ]
    apply ih _ _ _ _ (by omega)
    intro j hj
    by_cases hjk : j = k
    · subst hjk
      rw [fp32_accuType.get_set_eq _ _ _ (by omega), fp32_accuType.get_set_eq _ _ _ (by omega)]
    · rw [fp32_accuType.get_set_ne _ _ _ _ hjk, fp32_accuType.get_set_ne _ _ _ _ hjk]
      exact h j (by omega)

theorem AccuStore.setLimb_get_ge (st : AccuStore) (o k v r j : Nat) (hj : k + 1 ≤ j) :
    (st.setLimb o k v r).get j = (st r).get j := by
  unfold AccuStore.setLimb
  split
  · next h => subst h; exact fp32_accuType.get_set_ne _ _ _ _ (by omega)
  · rfl

theorem pcsAddRefLoop_out (a b o : Nat) (n : Nat) :
    ∀ (k c : Nat) (st : AccuStore),
      pcsAddRefLoop a b o n k c st o = pcsAddLoop (st a) (st b) n k c (st o) := by
  induction n with
  | zero => intro k c st; rfl
  | succ n ih =>
    intro k c st
    show pcsAddRefLoop a b o n (k + 1) (addCarry ((st a).get k) ((st b).get k) c)
        (st.setLimb o k (addLimb ((st a).get k) ((st b).get k) c)) o = _
    rw [ih, pcsAddLoop_succ]
    have ho : (st.setLimb o k (addLimb ((st a).get k) ((st b).get k) c)) o
        = (st o).set k (addLimb ((st a).get k) ((st b).get k) c) := by
      simp [AccuStore.setLimb]
    rw [ho]
    exact pcsAddLoop_congr _ _ _ _ _ _ _ _
      (fun j hj => AccuStore.setLimb_get_ge _ _ _ _ _ _ hj)
      (fun j hj => AccuStore.setLimb_get_ge _ _ _ _ _ _ hj)

theorem pcsAddRefLoop_other (a b o r : Nat) (h : r ≠ o) (n : Nat) :
    ∀ (k c : Nat) (st : AccuStore), pcsAddRefLoop a b o n k c st r = st r := by
  induction n with
  | zero => intro k c st; rfl
  | succ n ih =>
    intro k c st
    show pcsAddRefLoop a b o n (k + 1) _ (st.setLimb o k _) r = _
    rw [ih]
    simp [AccuStore.setLimb, h]

/-- A call `pcsAdd(opA, opB, out)` on references leaves in `out` the value
`pcsAdd` computes from the contents of `opA` and `opB` before the call, for
every way in which the three references coincide. -/
theorem pcsAddRef_out (st : AccuStore) (a b o : Nat) :
    pcsAddRef st a b o o = pcsAdd (st a) (st b) := by
  unfold pcsAddRef pcsAdd
  simp only [if_true]
  rw [pcsAddRefLoop_out]
  exact congrArg pcsAddClamp
    (pcsAddLoop_out _ _ _ _ _ _ _ (by norm_num) (fun j hj => absurd hj (by omega)))

theorem pcsAddRef_other (st : AccuStore) (a b o r : Nat) (h : r ≠ o) :
    pcsAddRef st a b o r = st r := by
  unfold pcsAddRef
  simp only [h, if_false]
  exact pcsAddRefLoop_other a b o r h _ _ _ _

/-! ## Values of accumulators -/

theorem fp32_accuType.toNat_lt (a : fp32_accuType) (h : a.wf) : a.toNat < 2 ^ 320 := by
  obtain ⟨h0, h1, h2, h3, h4⟩ := h
  unfold fp32_accuType.toNat
  omega

theorem fp32_accuType.toNat_inj (a b : fp32_accuType) (ha : a.wf) (hb : b.wf)
    (h : a.toNat = b.toNat) : a = b := by
  obtain ⟨ha0, ha1, ha2, ha3, ha4⟩ := ha
  obtain ⟨hb0, hb1, hb2, hb3, hb4⟩ := hb
  cases a; cases b
  simp only [fp32_accuType.toNat] at *
  simp only [fp32_accuType.mk.injEq]
  refine ⟨?_, ?_, ?_, ?_, ?_⟩ <;> omega

/-- Negating twice gives back the accumulator. -/
theorem pcsInv_pcsInv (A : fp32_accuType) (h : A.wf) : pcsInv (pcsInv A) = A := by
  apply fp32_accuType.toNat_inj _ _ (pcsInv_wf _) h
  rw [pcsInv_toNat _ (pcsInv_wf _), pcsInv_toNat _ h]
  have := A.toNat_lt h
  omega

theorem allBitsEq (q : Nat) (hq : q < 2 ^ 37) :
    (∀ j, j < 37 → q.testBit j = q.testBit 0) ↔ (q = 0 ∨ q = 2 ^ 37 - 1) := by
  constructor
  · intro h
    cases hb : q.testBit 0
    · left
      apply Nat.eq_of_testBit_eq
      intro i
      rw [Nat.zero_testBit]
      by_cases hi : i < 37
      · rw [h i hi, hb]
      · exact Nat.testBit_lt_two_pow
          (lt_of_lt_of_le hq (Nat.pow_le_pow_right (by norm_num) (by omega)))
    · right
      apply Nat.eq_of_testBit_eq
      intro i
      rw [Nat.testBit_two_pow_sub_one]
      by_cases hi : i < 37
      · rw [h i hi, hb]; simp [hi]
      · rw [Nat.testBit_lt_two_pow
          (lt_of_lt_of_le hq (Nat.pow_le_pow_right (by norm_num) (by omega)))]
        simp [hi]
  · rintro (h | h) j hj
    · subst h; simp
    · subst h
      rw [Nat.testBit_two_pow_sub_one, Nat.testBit_two_pow_sub_one]
      simp [hj]

theorem fp32_accuType.canonical_iff (a : fp32_accuType) (h : a.wf) :
    a.canonical ↔ (a.toNat / 2 ^ 283 = 0 ∨ a.toNat / 2 ^ 283 = 2 ^ 37 - 1) := by
  have hlt := a.toNat_lt h
  have hq : a.toNat / 2 ^ 283 < 2 ^ 37 := by omega
  rw [← allBitsEq _ hq]
  unfold fp32_accuType.canonical
  have key : ∀ j, (a.toNat / 2 ^ 283).testBit j = a.toNat.testBit (283 + j) := by
    intro j
    rw [← Nat.shiftRight_eq_div_pow, Nat.testBit_shiftRight]
  constructor
  · intro hc j hj
    rw [key, key]
    by_cases h0 : j = 0
    · subst h0; rfl
    · exact hc (283 + j) (by omega) (by omega)
  · intro hc i hi1 hi2
    have := hc (i - 283) (by omega)
    rw [key, key] at this
    have e : 283 + (i - 283) = i := by omega
    rw [e] at this
    exact this

theorem fp32_accuType.set_wf (a : fp32_accuType) (k v : Nat) (ha : a.wf) (hv : v < 2 ^ 64) :
    (a.set k v).wf := by
  obtain ⟨h0, h1, h2, h3, h4⟩ := ha
  unfold fp32_accuType.set
  split <;> simp only [fp32_accuType.wf] <;> refine ⟨?_, ?_, ?_, ?_, ?_⟩ <;> assumption

theorem fp32_accuType.zero_wf : fp32_accuType.zero.wf := by decide

theorem shiftRight_lt (m n : Nat) (h : m < 2 ^ 64) : m >>> n < 2 ^ 64 := by
  rw [Nat.shiftRight_eq_div_pow]
  exact lt_of_le_of_lt (Nat.div_le_self _ _) h

theorem u64_lt (x : Nat) : u64 x < 2 ^ 64 := Nat.mod_lt _ (by norm_num)

theorem extFp32ToPcs_eq (sign : Bool) (exponent : Int) (mantissa : Nat) :
    extFp32ToPcs sign exponent mantissa =
      if exponent < 0 then fp32_accuType.zero
      else if sign then
        pcsInv (extPlace
          (if exponent ≥ C_FP32_EXP_MASK_ALIGNED then C_FP32_EXP_MASK_ALIGNED else exponent)
          (if exponent ≥ C_FP32_EXP_MASK_ALIGNED then 1 <<< (C_FP32_MANT_WIDTH * 2) else mantissa))
      else
        extPlace
          (if exponent ≥ C_FP32_EXP_MASK_ALIGNED then C_FP32_EXP_MASK_ALIGNED else exponent)
          (if exponent ≥ C_FP32_EXP_MASK_ALIGNED then 1 <<< (C_FP32_MANT_WIDTH * 2) else mantissa) :=
  rfl

theorem extPlace_wf (tmpExp : Int) (tmpMant : Nat) (hM : tmpMant < 2 ^ 64) :
    (extPlace tmpExp tmpMant).wf := by
  have hz := fp32_accuType.zero_wf
  unfold extPlace
  simp only []
  split
  · exact fp32_accuType.set_wf _ _ _ hz (shiftRight_lt _ _ hM)
  · split
    · exact fp32_accuType.set_wf _ _ _ (fp32_accuType.set_wf _ _ _ hz (u64_lt _))
        (shiftRight_lt _ _ hM)
    · exact fp32_accuType.set_wf _ _ _ hz (u64_lt _)

theorem extFp32ToPcs_wf (sign : Bool) (exponent : Int) (mantissa : Nat)
    (hm : mantissa < 2 ^ 64) : (extFp32ToPcs sign exponent mantissa).wf := by
  rw [extFp32ToPcs_eq]
  have hM : (if exponent ≥ (C_FP32_EXP_MASK_ALIGNED : Int) then 1 <<< (C_FP32_MANT_WIDTH * 2)
      else mantissa) < 2 ^ 64 := by
    split
    · decide
    · exact hm
  split
  · exact fp32_accuType.zero_wf
  · split
    · exact pcsInv_wf _
    · exact extPlace_wf _ _ hM

theorem fp32ToPcs_wf (x : Nat) : (fp32ToPcs x).wf := by
  unfold fp32ToPcs
  apply extFp32ToPcs_wf
  split
  · norm_num
  · exact u64_lt _

/-- The accumulator image of one product, as `pcsMac` forms it. -/
theorem pcsMac_accumulate (opA opB subEn normEn : Nat) (accu : fp32_accuType) (res : Nat) :
    ∃ t : fp32_accuType, t.wf ∧ (pcsMac opA opB 0 subEn normEn accu res).1 = pcsAdd t accu ∧
      ∀ accu2 res2, (pcsMac opA opB 0 subEn normEn accu2 res2).1 = pcsAdd t accu2 := by
  refine ⟨extFp32ToPcs
      (xor (xor (fp32_getSign opA) (fp32_getSign opB)) (decide (subEn ≠ 0)))
      (if fp32_isZero opA || fp32_isZero opB then 0
        else fp32_getExp opA + fp32_getExp opB - C_FP32_BIAS)
      (if fp32_isZero opA || fp32_isZero opB then 0
        else u64 (fp32_getMantFull opA * fp32_getMantFull opB)), ?_, ?_, ?_⟩
  · apply extFp32ToPcs_wf
    split
    · norm_num
    · exact u64_lt _
  · simp [pcsMac]
  · intro accu2 res2
    simp [pcsMac]

theorem pcsAdd_left_comm (t1 t2 a : fp32_accuType) (h1 : t1.wf) (h2 : t2.wf) (ha : a.wf) :
    pcsAdd t1 (pcsAdd t2 a) = pcsAdd t2 (pcsAdd t1 a) := by
  apply fp32_accuType.toNat_inj _ _ (pcsAdd_wf _ _) (pcsAdd_wf _ _)
  rw [pcsAdd_toNat _ _ h1 (pcsAdd_wf _ _), pcsAdd_toNat _ _ h2 (pcsAdd_wf _ _),
    pcsAdd_toNat _ _ h2 ha, pcsAdd_toNat _ _ h1 ha]
  have b1 := t1.toNat_lt h1
  have b2 := t2.toNat_lt h2
  have b3 := a.toNat_lt ha
  unfold signExt284
  split_ifs <;> omega

theorem macReduce_cons (p : Nat) (accu : fp32_accuType) (x : Nat × Nat) (l : List (Nat × Nat)) :
    macReduce p accu (x :: l) = macReduce p (pcsMac x.1 x.2 0 p 0 accu 0).1 l :=
  rfl

theorem macReduce_wf (p : Nat) (l : List (Nat × Nat)) :
    ∀ accu : fp32_accuType, accu.wf → (macReduce p accu l).wf := by
  induction l with
  | nil => intro accu h; exact h
  | cons x l ih =>
    intro accu h
    rw [macReduce_cons]
    apply ih
    obtain ⟨t, _, e, _⟩ := pcsMac_accumulate x.1 x.2 p 0 accu 0
    rw [e]
    exact pcsAdd_wf _ _

theorem macReduce_perm (p : Nat) (l1 l2 : List (Nat × Nat)) (h : l1.Perm l2) :
    ∀ accu : fp32_accuType, accu.wf → macReduce p accu l1 = macReduce p accu l2 := by
  induction h with
  | nil => intro accu _; rfl
  | cons x _ ih =>
    intro accu ha
    rw [macReduce_cons, macReduce_cons]
    apply ih
    obtain ⟨t, _, e, _⟩ := pcsMac_accumulate x.1 x.2 p 0 accu 0
    rw [e]
    exact pcsAdd_wf _ _
  | swap x y l =>
    intro accu ha
    rw [macReduce_cons, macReduce_cons, macReduce_cons, macReduce_cons]
    obtain ⟨tx, hx, _, ex⟩ := pcsMac_accumulate x.1 x.2 p 0 accu 0
    obtain ⟨ty, hy, _, ey⟩ := pcsMac_accumulate y.1 y.2 p 0 accu 0
    rw [ex, ey, ex, ey, pcsAdd_left_comm tx ty accu hx hy ha]
  | trans _ _ ih1 ih2 =>
    intro accu ha
    rw [ih1 accu ha, ih2 accu ha]

/-! ## Claims on the accumulator primitives -/

/-- Claim C2. For all accumulators `A`, `B` (any five 64-bit limbs, held in objects
`a`, `b` of a store) and every output reference `o`, which may name the same
object as an input, the output of `pcsAdd(A, B, out)` read as a 320-bit integer is
the sign extension from bit 283 of `(A + B) mod 2^284`; hence it is canonical, and
when `A` and `B` are canonical and their signed sum lies in `[-2^283, 2^283)` it is
the exact signed sum. -/
theorem pcsAdd_signExt (st : AccuStore) (a b o : Nat) (ha : (st a).wf) (hb : (st b).wf) :
    (pcsAddRef st a b o o).toNat = signExt284 (((st a).toNat + (st b).toNat) % 2 ^ 284) ∧
    (pcsAddRef st a b o o).canonical ∧
    ((st a).canonical → (st b).canonical →
      -2 ^ 283 ≤ (st a).toInt + (st b).toInt → (st a).toInt + (st b).toInt < 2 ^ 283 →
      (pcsAddRef st a b o o).toInt = (st a).toInt + (st b).toInt) := by
  rw [pcsAddRef_out]
  have hv := pcsAdd_toNat (st a) (st b) ha hb
  have hw := pcsAdd_wf (st a) (st b)
  have la := (st a).toNat_lt ha
  have lb := (st b).toNat_lt hb
  refine ⟨hv, ?_, ?_⟩
  · rw [fp32_accuType.canonical_iff _ hw, hv]
    unfold signExt284
    split_ifs <;> omega
  · intro ca cb h1 h2
    rw [fp32_accuType.canonical_iff _ ha] at ca
    rw [fp32_accuType.canonical_iff _ hb] at cb
    unfold fp32_accuType.toInt at *
    rw [hv]
    unfold signExt284
    split_ifs at * <;> omega

theorem pcsAdd_signExt_witness :
    (exampleStore 1).wf ∧
      (pcsAddRef exampleStore 1 1 1 1).toInt
        = (exampleStore 1).toInt + (exampleStore 1).toInt :=
  ⟨by decide,
   (pcsAdd_signExt exampleStore 1 1 1 (by decide) (by decide)).2.2
     (by decide) (by decide) (by decide) (by decide)⟩

/-- Claim C6. For every accumulator `A` (held in object `i` of a store) and every
output reference `o`, which may name the same object as the input, the output of
`pcsInv(A, out)` read as an unsigned 320-bit integer is `(2^320 - A) mod 2^320`:
the limbwise invert-and-increment carries correctly through all five limbs. -/
theorem pcsInv_twosComplement (st : AccuStore) (i o : Nat) (h : (st i).wf) :
    (pcsInvRef st i o o).toNat = (2 ^ 320 - (st i).toNat) % 2 ^ 320 := by
  rw [pcsInvRef_out]
  exact pcsInv_toNat _ h

theorem pcsInv_twosComplement_witness :
    (exampleStore 0).wf ∧
      (pcsInvRef exampleStore 0 0 0).toNat = (2 ^ 320 - (exampleStore 0).toNat) % 2 ^ 320 :=
  ⟨by decide, pcsInv_twosComplement exampleStore 0 0 (by decide)⟩

/-- Claim C5. `pcsInv` is an involution: for every accumulator `A` (any five
64-bit limbs), `pcsInv(pcsInv(A)) = A` limb for limb. -/
theorem pcsInv_involution (A : fp32_accuType) (h : A.wf) : pcsInv (pcsInv A) = A :=
  pcsInv_pcsInv A h

theorem pcsInv_involution_witness :
    (exampleStore 0).wf ∧ pcsInv (pcsInv (exampleStore 0)) = exampleStore 0 :=
  ⟨by decide, pcsInv_involution (exampleStore 0) (by decide)⟩

/-- Claim C4. For every word `x` (in particular every 32-bit word) and every
accumulator `A`, with `X = fp32ToPcs(x)` and `Z` the all-zero accumulator,
`pcsAdd(pcsAdd(A, pcsInv(X)), pcsAdd(X, Z))` agrees with `A` on the low 284 bits,
and equals `A` when `A` is canonical. -/
theorem pcsAdd_inv_cancel (x : Nat) (A : fp32_accuType) (hA : A.wf) :
    (pcsAdd (pcsAdd A (pcsInv (fp32ToPcs x))) (pcsAdd (fp32ToPcs x) fp32_accuType.zero)).toNat
        % 2 ^ 284 = A.toNat % 2 ^ 284 ∧
    (A.canonical →
      pcsAdd (pcsAdd A (pcsInv (fp32ToPcs x))) (pcsAdd (fp32ToPcs x) fp32_accuType.zero) = A) := by
  have hX := fp32ToPcs_wf x
  have hI := pcsInv_wf (fp32ToPcs x)
  have hz := fp32_accuType.zero_wf
  have e : (pcsAdd (pcsAdd A (pcsInv (fp32ToPcs x)))
      (pcsAdd (fp32ToPcs x) fp32_accuType.zero)).toNat
      = signExt284 (A.toNat % 2 ^ 284) := by
    rw [pcsAdd_toNat _ _ (pcsAdd_wf _ _) (pcsAdd_wf _ _), pcsAdd_toNat _ _ hA hI,
      pcsAdd_toNat _ _ hX hz, pcsInv_toNat _ hX]
    have z0 : fp32_accuType.zero.toNat = 0 := by decide
    rw [z0]
    have b1 := A.toNat_lt hA
    have b2 := (fp32ToPcs x).toNat_lt hX
    generalize (fp32ToPcs x).toNat = X at *
    generalize A.toNat = N at *
    unfold signExt284
    split_ifs <;> omega
  constructor
  · rw [e]
    unfold signExt284
    split_ifs <;> omega
  · intro hc
    apply fp32_accuType.toNat_inj _ _ (pcsAdd_wf _ _) hA
    rw [e]
    rw [fp32_accuType.canonical_iff _ hA] at hc
    have b1 := A.toNat_lt hA
    unfold signExt284
    split_ifs <;> omega

theorem pcsAdd_inv_cancel_witness :
    (exampleStore 0).wf ∧
      pcsAdd (pcsAdd (exampleStore 0) (pcsInv (fp32ToPcs 0xC2F6E979)))
        (pcsAdd (fp32ToPcs 0xC2F6E979) fp32_accuType.zero) = exampleStore 0 :=
  ⟨by decide, (pcsAdd_inv_cancel 0xC2F6E979 (exampleStore 0) (by decide)).2 (by decide)⟩

/-- Claim C3. MAC reduction is order independent: for every starting accumulator,
every polarity `p` and every list of operand pairs (empty or not), folding
`pcsMac(a, b, accuSel = 0, subEn = p, normEn = 0)` over the list and over any
permutation of it leaves the same accumulator, so the word produced by the final
`pcsMac(0, 0, 0, 0, normEn = 1)` is the same. -/
theorem mac_order_independent (accu : fp32_accuType) (p : Nat) (l1 l2 : List (Nat × Nat))
    (res : Nat) (ha : accu.wf) (hp : l1.Perm l2) :
    macReduce p accu l1 = macReduce p accu l2 ∧
      (pcsMac 0 0 0 0 1 (macReduce p accu l1) res).2
        = (pcsMac 0 0 0 0 1 (macReduce p accu l2) res).2 := by
  have h := macReduce_perm p l1 l2 hp accu ha
  exact ⟨h, by rw [h]⟩

theorem mac_order_independent_witness :
    (pcsMac 0 0 0 0 1
        (macReduce 1 (fp32ToPcs 0x3F800000)
          [(0x40490FDB, 0xC2F6E979), (0x3DCCCCCD, 0x7F000000), (0x00800000, 0x00800001)]) 0).2
      = (pcsMac 0 0 0 0 1
        (macReduce 1 (fp32ToPcs 0x3F800000)
          [(0x00800000, 0x00800001), (0x40490FDB, 0xC2F6E979), (0x3DCCCCCD, 0x7F000000)]) 0).2 :=
  (mac_order_independent (fp32ToPcs 0x3F800000) 1
    [(0x40490FDB, 0xC2F6E979), (0x3DCCCCCD, 0x7F000000), (0x00800000, 0x00800001)]
    [(0x00800000, 0x00800001), (0x40490FDB, 0xC2F6E979), (0x3DCCCCCD, 0x7F000000)]
    0 (by decide) (by decide)).2

/-! ## Bit operations as arithmetic -/

theorem or_eq_add (a b : Nat) (i : Nat) (hb : b < 2 ^ i) : a * 2 ^ i ||| b = a * 2 ^ i + b := by
  rw [Nat.mul_comm a, ← Nat.mul_add_lt_is_or hb]

theorem and_mask23 (x : Nat) : x &&& C_FP32_MANT_MASK = x % 2 ^ 23 :=
  Nat.and_pow_two_sub_one_eq_mod x 23

theorem and_bit31 (x : Nat) : x &&& C_FP32_SIGN_MASK = x / 2 ^ 31 % 2 * 2 ^ 31 := by
  have h := Nat.and_two_pow x 31
  have e : C_FP32_SIGN_MASK = 2 ^ 31 := by decide
  rw [e, h, Nat.testBit_to_div_mod]
  cases h2 : decide (x / 2 ^ 31 % 2 = 1) <;> simp at h2 <;> simp [Bool.toNat] <;> omega

theorem fp32_getMant_eq (x : Nat) : fp32_getMant x = x % 2 ^ 23 := by
  unfold fp32_getMant
  rw [Nat.and_comm]
  exact and_mask23 x

theorem fp32_getMantFull_eq (x : Nat) : fp32_getMantFull x = x % 2 ^ 23 + 2 ^ 23 := by
  unfold fp32_getMantFull
  rw [fp32_getMant_eq, Nat.or_comm, Nat.shiftLeft_eq]
  have h := or_eq_add 1 (x % 2 ^ 23) 23 (Nat.mod_lt _ (by norm_num))
  simp only [C_FP32_MANT_WIDTH]
  rw [h]
  omega

theorem fp32_getExp_eq (x : Nat) : fp32_getExp x = ((x / 2 ^ 23 % 2 ^ 8 : Nat) : Int) := by
  unfold fp32_getExp
  rw [Nat.and_comm, Nat.shiftRight_eq_div_pow]
  have h := Nat.and_pow_two_sub_one_eq_mod (x / 2 ^ 23) 8
  have e : C_FP32_EXP_MASK_ALIGNED = 2 ^ 8 - 1 := by decide
  rw [e, h]

theorem fp32_getSign_eq (x : Nat) : fp32_getSign x = decide (x / 2 ^ 31 % 2 = 1) := by
  unfold fp32_getSign
  rw [and_bit31]
  have : x / 2 ^ 31 % 2 = 0 ∨ x / 2 ^ 31 % 2 = 1 := by omega
  rcases this with h | h <;> rw [h] <;> decide

theorem fp32_isZero_eq (x : Nat) : fp32_isZero x = decide (x % 2 ^ 31 = 0) := by
  unfold fp32_isZero
  have e : not32 C_FP32_SIGN_MASK = 2 ^ 31 - 1 := by decide
  rw [e, Nat.and_comm, Nat.and_pow_two_sub_one_eq_mod]
  rw [Bool.eq_iff_iff]; simp

/-! ## Leading zeros -/

theorem bitLen_spec (fuel : Nat) : ∀ x, x ≠ 0 → x < 2 ^ fuel →
    1 ≤ bitLen fuel x ∧ bitLen fuel x ≤ fuel ∧
      2 ^ (bitLen fuel x - 1) ≤ x ∧ x < 2 ^ bitLen fuel x := by
  induction fuel with
  | zero => intro x h0 h; simp at h; omega
  | succ f ih =>
    intro x h0 h
    unfold bitLen
    rw [if_neg h0]
    by_cases h1 : x / 2 = 0
    · have hx : x = 1 := by omega
      subst hx
      cases f <;> simp [bitLen]
    · have hlt : x / 2 < 2 ^ f := by
        rw [pow_succ] at h; omega
      obtain ⟨a, b, c, d⟩ := ih (x / 2) h1 hlt
      refine ⟨by omega, by omega, ?_, ?_⟩
      · have e : bitLen f (x / 2) + 1 - 1 = (bitLen f (x / 2) - 1) + 1 := by omega
        rw [e, pow_succ]
        omega
      · rw [pow_succ]
        omega

theorem clzll_spec (w : Nat) (h0 : w ≠ 0) (h : w < 2 ^ 64) :
    ∃ L, L ≤ 63 ∧ clzll w = 63 - L ∧ 2 ^ L ≤ w ∧ w < 2 ^ (L + 1) := by
  obtain ⟨a, b, c, d⟩ := bitLen_spec 64 w h0 h
  refine ⟨bitLen 64 w - 1, by omega, by unfold clzll; omega, c, ?_⟩
  have e : bitLen 64 w - 1 + 1 = bitLen 64 w := by omega
  rw [e]
  exact d

theorem pow_bracket_unique (v p q : Nat) (h1 : 2 ^ p ≤ v) (h2 : v < 2 ^ (p + 1))
    (h3 : 2 ^ q ≤ v) (h4 : v < 2 ^ (q + 1)) : p = q := by
  have a : p < q + 1 := (Nat.pow_lt_pow_iff_right (by norm_num : 1 < 2)).1 (lt_of_le_of_lt h1 h4)
  have b : q < p + 1 := (Nat.pow_lt_pow_iff_right (by norm_num : 1 < 2)).1 (lt_of_le_of_lt h3 h2)
  omega

/-! ## Placement of a mantissa in the accumulator -/

theorem shiftRight_sub_eq (M s : Nat) (hs : s ≤ 64) : M >>> (64 - s) = M * 2 ^ s / 2 ^ 64 := by
  rw [Nat.shiftRight_eq_div_pow]
  have e : 2 ^ 64 = 2 ^ (64 - s) * 2 ^ s := by
    rw [← pow_add]; congr 1; omega
  rw [e, Nat.mul_div_mul_right _ _ (Nat.pos_pow_of_pos _ (by norm_num))]

theorem toNat_set_zero (off v : Nat) (h : off ≤ 4) :
    (fp32_accuType.zero.set off v).toNat = v * 2 ^ (64 * off) := by
  interval_cases off <;> simp [fp32_accuType.set, fp32_accuType.zero, fp32_accuType.toNat]

theorem toNat_set_zero2 (off v v2 : Nat) (h : off ≤ 3) :
    ((fp32_accuType.zero.set off v).set (off + 1) v2).toNat
      = (v + v2 * 2 ^ 64) * 2 ^ (64 * off) := by
  interval_cases off <;> simp [fp32_accuType.set, fp32_accuType.zero, fp32_accuType.toNat] <;> ring

theorem extPlace_toNat (n M : Nat) (hn : n ≤ 255) (hM : M < 2 ^ 48) :
    (extPlace (n : Int) M).toNat = M * 2 ^ n / 2 ^ 23 := by
  unfold extPlace
  simp only [C_FP32_MANT_WIDTH]
  by_cases h : n < 23
  · have h1 : ((n : Int) - ((23 : Nat) : Int) < 0) := by omega
    rw [if_pos h1]
    have h2 : (-((n : Int) - ((23 : Nat) : Int))).toNat = 23 - n := by omega
    rw [h2, toNat_set_zero _ _ (by omega), Nat.shiftRight_eq_div_pow]
    have e : 2 ^ 23 = 2 ^ (23 - n) * 2 ^ n := by
      rw [← pow_add]; congr 1; omega
    rw [e, Nat.mul_div_mul_right _ _ (Nat.pos_pow_of_pos _ (by norm_num))]
    simp
  · have h1 : ¬ ((n : Int) - ((23 : Nat) : Int) < 0) := by omega
    rw [if_neg h1]
    have h2 : ((n : Int) - ((23 : Nat) : Int)).toNat = n - 23 := by omega
    rw [h2]
    have hmask : (n - 23) &&& 0x3F = (n - 23) % 64 :=
      Nat.and_pow_two_sub_one_eq_mod (n - 23) 6
    have hoff : (n - 23) >>> 6 = (n - 23) / 64 := by
      rw [Nat.shiftRight_eq_div_pow]
    rw [hmask, hoff]
    have hs : (n - 23) % 64 < 64 := Nat.mod_lt _ (by norm_num)
    have ho : (n - 23) / 64 ≤ 3 := by omega
    have hsplit : n - 23 = 64 * ((n - 23) / 64) + (n - 23) % 64 := (Nat.div_add_mod _ _).symm
    generalize (n - 23) % 64 = s at *
    generalize (n - 23) / 64 = off at *
    have hval : M * 2 ^ n / 2 ^ 23 = M * 2 ^ s * 2 ^ (64 * off) := by
      have e : n = (64 * off + s) + 23 := by omega
      rw [e, pow_add, ← Nat.mul_assoc, Nat.mul_div_cancel _ (Nat.pos_pow_of_pos _ (by norm_num)),
        pow_add]
      ring
    rw [hval]
    have hdm := Nat.mod_add_div (M * 2 ^ s) (2 ^ 64)
    split
    · rw [toNat_set_zero2 _ _ _ ho, shiftRight_sub_eq _ _ (by omega), Nat.shiftLeft_eq]
      unfold u64
      congr 1
      omega
    · rw [toNat_set_zero _ _ (by omega), Nat.shiftLeft_eq]
      unfold u64
      have hs16 : s ≤ 16 := by omega
      have : M * 2 ^ s < 2 ^ 64 := by
        calc M * 2 ^ s < 2 ^ 48 * 2 ^ s :=
              Nat.mul_lt_mul_of_pos_right hM (Nat.pos_pow_of_pos _ (by norm_num))
          _ ≤ 2 ^ 48 * 2 ^ 16 :=
              Nat.mul_le_mul_left _ (Nat.pow_le_pow_right (by norm_num) hs16)
          _ = 2 ^ 64 := by norm_num
      rw [Nat.mod_eq_of_lt this]

/-! ## Normalisation back to fp32 -/

theorem pcsToFp32_eq (input : fp32_accuType) :
    pcsToFp32 input =
      pcsToFp32Mag
        (if decide (input.get (C_FP32_N_ACCU_WORDS - 1) >>> 63 ≠ 0) then C_FP32_SIGN_MASK else 0)
        (if decide (input.get (C_FP32_N_ACCU_WORDS - 1) >>> 63 ≠ 0) then pcsInv input else input) :=
  rfl

theorem top_limb (T : fp32_accuType) (hwf : T.wf) (hne : T.toNat ≠ 0) :
    ∃ off W low, off ≤ 4 ∧ W = T.get off ∧ W ≠ 0 ∧ W < 2 ^ 64 ∧ low < 2 ^ (64 * off) ∧
      T.toNat = W * 2 ^ (64 * off) + low ∧
      (∀ e0 : Int, pcsToFp32Scan T 5 e0
        = (off, clzll W, e0 - 64 * ((4 - off : Nat) : Int) - clzll W)) ∧
      (1 ≤ off → ∃ low2, low2 < 2 ^ (64 * (off - 1)) ∧ T.get (off - 1) < 2 ^ 64 ∧
        low = T.get (off - 1) * 2 ^ (64 * (off - 1)) + low2) := by
  obtain ⟨h0, h1, h2, h3, h4⟩ := hwf
  obtain ⟨w0, w1, w2, w3, w4⟩ := T
  simp only [fp32_accuType.toNat] at hne ⊢
  simp only at h0 h1 h2 h3 h4
  by_cases z4 : w4 = 0
  · by_cases z3 : w3 = 0
    · by_cases z2 : w2 = 0
      · by_cases z1 : w1 = 0
        · have z0 : w0 ≠ 0 := by
            intro z0; apply hne; simp [z0, z1, z2, z3, z4]
          refine ⟨0, w0, 0, by omega, rfl, z0, h0, by norm_num, by simp [z1, z2, z3, z4], ?_, ?_⟩
          · intro e0
            simp [pcsToFp32Scan, fp32_accuType.get, z0, z1, z2, z3, z4]
            omega
          · intro h; omega
        · refine ⟨1, w1, w0, by omega, rfl, z1, h1, by omega, by simp [z2, z3, z4]; omega, ?_, ?_⟩
          · intro e0
            simp [pcsToFp32Scan, fp32_accuType.get, z1, z2, z3, z4]
            omega
          · intro _
            exact ⟨0, by norm_num, h0, by simp [fp32_accuType.get]⟩
      · refine ⟨2, w2, w0 + w1 * 2 ^ 64, by omega, rfl, z2, h2, by omega,
          by simp [z3, z4]; omega, ?_, ?_⟩
        · intro e0
          simp [pcsToFp32Scan, fp32_accuType.get, z2, z3, z4]
          omega
        · intro _
          exact ⟨w0, by omega, h1, by simp [fp32_accuType.get]; omega⟩
    · refine ⟨3, w3, w0 + w1 * 2 ^ 64 + w2 * 2 ^ 128, by omega, rfl, z3, h3, by omega,
        by simp [z4]; omega, ?_, ?_⟩
      · intro e0
        simp [pcsToFp32Scan, fp32_accuType.get, z3, z4]
      · intro _
        exact ⟨w0 + w1 * 2 ^ 64, by omega, h2, by simp [fp32_accuType.get]; omega⟩
  · refine ⟨4, w4, w0 + w1 * 2 ^ 64 + w2 * 2 ^ 128 + w3 * 2 ^ 192, by omega, rfl, z4, h4,
      by omega, by omega, ?_, ?_⟩
    · intro e0
      simp [pcsToFp32Scan, fp32_accuType.get, z4]
    · intro _
      exact ⟨w0 + w1 * 2 ^ 64 + w2 * 2 ^ 128, by omega, h3, by simp [fp32_accuType.get]; omega⟩

theorem pcsToFp32Mag_of_scan (s0 : Nat) (T : fp32_accuType) (off lz : Nat) (te : Int)
    (h : pcsToFp32Scan T 5 296 = (off, lz, te)) :
    pcsToFp32Mag s0 T =
      if te < 0 then s0 ||| 0
      else if te ≥ 255 then s0 ||| C_FP32_INF_VAL
      else if (40 - (lz : Int)) ≥ 0 then
        u32 ((s0 ||| (te.toNat <<< 23)) |||
          ((T.get off >>> (40 - (lz : Int)).toNat) &&& C_FP32_MANT_MASK))
      else
        u32 (u32 ((s0 ||| (te.toNat <<< 23)) |||
            (u64 (T.get off <<< (-(40 - (lz : Int))).toNat) &&& C_FP32_MANT_MASK)) |||
          (T.get (off - 1) >>> (64 + (40 - (lz : Int))).toNat)) := by
  unfold pcsToFp32Mag
  have e0 : ((C_FP32_N_ACCU_WORDS : Nat) : Int) * 64 - ((C_FP32_MANT_WIDTH : Nat) : Int) - 1
      = 296 := by norm_num
  have e1 : (64 : Int) - 1 - ((C_FP32_MANT_WIDTH : Nat) : Int) - (lz : Int) = 40 - (lz : Int) := by
    simp only [C_FP32_MANT_WIDTH]; omega
  simp only [e0, h, e1]
  rfl

theorem window_hi (W low n L : Nat) (hlow : low < 2 ^ n) (hL : 23 ≤ L) :
    (W * 2 ^ n + low) / 2 ^ (n + L - 23) = W / 2 ^ (L - 23) := by
  have e : n + L - 23 = n + (L - 23) := by omega
  have hpos : 0 < 2 ^ n := Nat.pos_pow_of_pos _ (by norm_num)
  rw [e, pow_add, ← Nat.div_div_eq_div_mul, Nat.add_comm, Nat.add_mul_div_right _ _ hpos,
    Nat.div_eq_of_lt hlow, Nat.zero_add]

theorem window_lo (W W2 low n L : Nat) (hlow : low < 2 ^ n) (hL : L < 23) :
    (W * 2 ^ (n + 64) + (W2 * 2 ^ n + low)) / 2 ^ (n + 41 + L)
      = W * 2 ^ (23 - L) + W2 / 2 ^ (41 + L) := by
  have hpos : 0 < 2 ^ n := Nat.pos_pow_of_pos _ (by norm_num)
  have hpos2 : 0 < 2 ^ (41 + L) := Nat.pos_pow_of_pos _ (by norm_num)
  have e : n + 41 + L = n + (41 + L) := by omega
  have e1 : W * 2 ^ (n + 64) + (W2 * 2 ^ n + low) = low + (W * 2 ^ 64 + W2) * 2 ^ n := by
    rw [pow_add]; ring
  have e2 : W * 2 ^ 64 + W2 = W2 + W * 2 ^ (23 - L) * 2 ^ (41 + L) := by
    have : (2 : Nat) ^ 64 = 2 ^ (23 - L) * 2 ^ (41 + L) := by
      rw [← pow_add]; congr 1; omega
    rw [this]; ring
  rw [e1, e, pow_add, ← Nat.div_div_eq_div_mul, Nat.add_mul_div_right _ _ hpos,
    Nat.div_eq_of_lt hlow, Nat.zero_add, e2, Nat.add_mul_div_right _ _ hpos2, Nat.add_comm]

theorem or_eq_add_of_mod (a b i : Nat) (ha : a % 2 ^ i = 0) (hb : b < 2 ^ i) :
    a ||| b = a + b := by
  have e : a = a / 2 ^ i * 2 ^ i := by
    have := Nat.div_add_mod a (2 ^ i)
    rw [ha, Nat.add_zero, Nat.mul_comm] at this
    exact this.symm
  rw [e]
  exact or_eq_add _ _ _ hb

theorem sign_or (s0 y : Nat) (hs0 : s0 = 0 ∨ s0 = 2 ^ 31) (hy : y < 2 ^ 31) :
    s0 ||| y = s0 + y := by
  rcases hs0 with h | h
  · rw [h, Nat.zero_or, Nat.zero_add]
  · rw [h]
    exact or_eq_add_of_mod _ _ 31 (by norm_num) hy

theorem assemble_lo (X W W2 L : Nat) (hX : X % 2 ^ 23 = 0) (hXlt : X + 2 ^ 23 ≤ 2 ^ 32)
    (hL : L < 23) (hL1 : 2 ^ L ≤ W) (hL2 : W < 2 ^ (L + 1)) (hW2 : W2 < 2 ^ 64) :
    u32 (u32 (X ||| (u64 (W * 2 ^ (23 - L)) % 2 ^ 23)) ||| (W2 / 2 ^ (41 + L)))
      = X + (W * 2 ^ (23 - L) + W2 / 2 ^ (41 + L)) % 2 ^ 23 := by
  have hab : 2 ^ L * 2 ^ (23 - L) = 2 ^ 23 := by
    rw [← pow_add]; congr 1; omega
  have hY1 : 2 ^ 23 ≤ W * 2 ^ (23 - L) := by
    calc 2 ^ 23 = 2 ^ L * 2 ^ (23 - L) := hab.symm
      _ ≤ W * 2 ^ (23 - L) := Nat.mul_le_mul_right _ hL1
  have hY2 : W * 2 ^ (23 - L) + 2 ^ (23 - L) ≤ 2 ^ 24 := by
    have h2 : W + 1 ≤ 2 * 2 ^ L := by rw [pow_succ] at hL2; omega
    calc W * 2 ^ (23 - L) + 2 ^ (23 - L) = (W + 1) * 2 ^ (23 - L) := by ring
      _ ≤ (2 * 2 ^ L) * 2 ^ (23 - L) := Nat.mul_le_mul_right _ h2
      _ = 2 * (2 ^ L * 2 ^ (23 - L)) := by ring
      _ = 2 ^ 24 := by rw [hab]; norm_num
  have hB : W2 / 2 ^ (41 + L) < 2 ^ (23 - L) := by
    rw [Nat.div_lt_iff_lt_mul (Nat.pos_pow_of_pos _ (by norm_num))]
    calc W2 < 2 ^ 64 := hW2
      _ = 2 ^ (23 - L) * 2 ^ (41 + L) := by rw [← pow_add]; congr 1; omega
  have hK : X + (W * 2 ^ (23 - L) - 2 ^ 23)
      = (X / 2 ^ 23 * 2 ^ L + (W - 2 ^ L)) * 2 ^ (23 - L) := by
    have hXd : X = X / 2 ^ 23 * 2 ^ 23 := by
      have := Nat.div_add_mod X (2 ^ 23)
      rw [hX, Nat.add_zero, Nat.mul_comm] at this
      exact this.symm
    rw [Nat.add_mul, Nat.sub_mul, hab, Nat.mul_assoc, hab]
    exact congrArg (· + (W * 2 ^ (23 - L) - 2 ^ 23)) hXd
  have hbpos : 0 < 2 ^ (23 - L) := Nat.pos_pow_of_pos _ (by norm_num)
  have hYA : u64 (W * 2 ^ (23 - L)) % 2 ^ 23 = W * 2 ^ (23 - L) - 2 ^ 23 := by
    unfold u64; omega
  rw [hYA, or_eq_add_of_mod X _ 23 hX (by omega)]
  have hu : u32 (X + (W * 2 ^ (23 - L) - 2 ^ 23)) = X + (W * 2 ^ (23 - L) - 2 ^ 23) := by
    unfold u32; exact Nat.mod_eq_of_lt (by omega)
  rw [hu, hK, or_eq_add _ _ _ hB, ← hK]
  unfold u32
  generalize W * 2 ^ (23 - L) = Y at *
  generalize W2 / 2 ^ (41 + L) = B at *
  generalize 2 ^ (23 - L) = b at *
  omega

/-- The word `pcsToFp32` builds from a magnitude whose most significant set bit
has index `p`, `23 ≤ p ≤ 277`: exponent field `p - 23` and the 23 bits below
the leading one, the lower bits being dropped. -/
theorem pcsToFp32Mag_eq (T : fp32_accuType) (hwf : T.wf) (s0 : Nat)
    (hs0 : s0 = 0 ∨ s0 = 2 ^ 31) (p : Nat) (hp1 : 2 ^ p ≤ T.toNat) (hp2 : T.toNat < 2 ^ (p + 1))
    (h23 : 23 ≤ p) (h277 : p ≤ 277) :
    pcsToFp32Mag s0 T = s0 + (p - 23) * 2 ^ 23 + T.toNat / 2 ^ (p - 23) % 2 ^ 23 := by
  have hne : T.toNat ≠ 0 := by
    have : 0 < 2 ^ p := Nat.pos_pow_of_pos _ (by norm_num)
    omega
  obtain ⟨off, W, low, hoff, hW, hW0, hWlt, hlow, hval, hscan, hsplit⟩ := top_limb T hwf hne
  obtain ⟨L, hL63, hclz, hL1, hL2⟩ := clzll_spec W hW0 hWlt
  -- the leading bit of the image is bit `64 * off + L`
  have hpos : 0 < 2 ^ (64 * off) := Nat.pos_pow_of_pos _ (by norm_num)
  have hb1 : 2 ^ (64 * off + L) ≤ T.toNat := by
    rw [hval, pow_add, Nat.mul_comm (2 ^ (64 * off))]
    exact le_trans (Nat.mul_le_mul_right _ hL1) (Nat.le_add_right _ _)
  have hb2 : T.toNat < 2 ^ (64 * off + L + 1) := by
    have e : 64 * off + L + 1 = (L + 1) + 64 * off := by omega
    rw [hval, e, pow_add]
    calc W * 2 ^ (64 * off) + low < W * 2 ^ (64 * off) + 2 ^ (64 * off) := by omega
      _ = (W + 1) * 2 ^ (64 * off) := by ring
      _ ≤ 2 ^ (L + 1) * 2 ^ (64 * off) := Nat.mul_le_mul_right _ hL2
  have hp : p = 64 * off + L := pow_bracket_unique _ _ _ hp1 hp2 hb1 hb2
  have hte : (296 : Int) - 64 * ((4 - off : Nat) : Int) - ((clzll W : Nat) : Int)
      = ((p - 23 : Nat) : Int) := by
    rw [hclz]; omega
  have hsc := hscan 296
  rw [hte] at hsc
  rw [pcsToFp32Mag_of_scan s0 T off (clzll W) _ hsc]
  have c1 : ¬ (((p - 23 : Nat) : Int) < 0) := by omega
  have c2 : ¬ (((p - 23 : Nat) : Int) ≥ 255) := by omega
  rw [if_neg c1, if_neg c2, Int.toNat_ofNat, Nat.shiftLeft_eq, ← hW]
  have hE : (p - 23) * 2 ^ 23 < 2 ^ 31 := by omega
  rw [sign_or s0 _ hs0 hE]
  have hX : (s0 + (p - 23) * 2 ^ 23) % 2 ^ 23 = 0 := by
    rcases hs0 with h | h <;> rw [h] <;> omega
  have hXlt : s0 + (p - 23) * 2 ^ 23 + 2 ^ 23 ≤ 2 ^ 32 := by
    rcases hs0 with h | h <;> rw [h] <;> omega
  by_cases hc : 23 ≤ L
  · have c3 : (40 - ((clzll W : Nat) : Int)) ≥ 0 := by rw [hclz]; omega
    have c4 : (40 - ((clzll W : Nat) : Int)).toNat = L - 23 := by rw [hclz]; omega
    rw [if_pos c3, c4, and_mask23, Nat.shiftRight_eq_div_pow]
    have hw : T.toNat / 2 ^ (p - 23) = W / 2 ^ (L - 23) := by
      have e : p - 23 = 64 * off + L - 23 := by omega
      rw [e, hval, window_hi _ _ _ _ hlow hc]
    rw [hw]
    have hm : W / 2 ^ (L - 23) % 2 ^ 23 < 2 ^ 23 := Nat.mod_lt _ (by norm_num)
    rw [or_eq_add_of_mod _ _ 23 hX hm]
    unfold u32
    exact Nat.mod_eq_of_lt (by omega)
  · have hoff1 : 1 ≤ off := by omega
    obtain ⟨low2, hlow2, hW2lt, hlow_eq⟩ := hsplit hoff1
    have c3 : ¬ ((40 - ((clzll W : Nat) : Int)) ≥ 0) := by rw [hclz]; omega
    have c4 : (-(40 - ((clzll W : Nat) : Int))).toNat = 23 - L := by rw [hclz]; omega
    have c5 : (64 + (40 - ((clzll W : Nat) : Int))).toNat = 41 + L := by rw [hclz]; omega
    rw [if_neg c3, c4, c5, and_mask23, Nat.shiftRight_eq_div_pow, Nat.shiftLeft_eq]
    have hw : T.toNat / 2 ^ (p - 23) = W * 2 ^ (23 - L) + T.get (off - 1) / 2 ^ (41 + L) := by
      have e : p - 23 = 64 * (off - 1) + 41 + L := by omega
      have e2 : 64 * off = 64 * (off - 1) + 64 := by omega
      rw [e, hval, hlow_eq, e2, window_lo _ _ _ _ _ hlow2 (by omega)]
    rw [hw]
    generalize T.get (off - 1) = W2 at *
    have hr := assemble_lo (s0 + (p - 23) * 2 ^ 23) W W2 L hX (by omega) (by omega) hL1 hL2 hW2lt
    exact hr

/-! ## Round trip through the accumulator -/

theorem get4_shift_zero (T : fp32_accuType) (h : T.toNat < 2 ^ 319) :
    T.get (C_FP32_N_ACCU_WORDS - 1) >>> 63 = 0 := by
  have e : T.get (C_FP32_N_ACCU_WORDS - 1) = T.w4 := rfl
  rw [e, Nat.shiftRight_eq_div_pow]
  unfold fp32_accuType.toNat at h
  omega

theorem get4_shift_ne_zero (T : fp32_accuType) (hwf : T.wf) (h : 2 ^ 319 ≤ T.toNat) :
    T.get (C_FP32_N_ACCU_WORDS - 1) >>> 63 ≠ 0 := by
  have e : T.get (C_FP32_N_ACCU_WORDS - 1) = T.w4 := rfl
  obtain ⟨h0, h1, h2, h3, h4⟩ := hwf
  rw [e, Nat.shiftRight_eq_div_pow]
  unfold fp32_accuType.toNat at h
  omega

/-- The accumulator image of a word with exponent field in `1..254`. -/
theorem fp32ToPcs_normal (x : Nat) (he1 : 1 ≤ x / 2 ^ 23 % 2 ^ 8) (he2 : x / 2 ^ 23 % 2 ^ 8 ≤ 254) :
    fp32ToPcs x =
      if x / 2 ^ 31 % 2 = 1 then
        pcsInv (extPlace ((x / 2 ^ 23 % 2 ^ 8 : Nat) : Int) ((x % 2 ^ 23 + 2 ^ 23) * 2 ^ 23))
      else extPlace ((x / 2 ^ 23 % 2 ^ 8 : Nat) : Int) ((x % 2 ^ 23 + 2 ^ 23) * 2 ^ 23) := by
  unfold fp32ToPcs
  rw [extFp32ToPcs_eq, fp32_getSign_eq, fp32_getExp_eq, fp32_isZero_eq, fp32_getMantFull_eq]
  have hz : ¬ (x % 2 ^ 31 = 0) := by omega
  have c1 : ¬ (((x / 2 ^ 23 % 2 ^ 8 : Nat) : Int) < 0) := by omega
  have c2 : ¬ (((x / 2 ^ 23 % 2 ^ 8 : Nat) : Int) ≥ ((C_FP32_EXP_MASK_ALIGNED : Nat) : Int)) := by
    simp only [C_FP32_EXP_MASK_ALIGNED]; omega
  have hu : u64 ((x % 2 ^ 23 + 2 ^ 23) <<< C_FP32_MANT_WIDTH)
      = (x % 2 ^ 23 + 2 ^ 23) * 2 ^ 23 := by
    rw [Nat.shiftLeft_eq]
    unfold u64
    simp only [C_FP32_MANT_WIDTH]
    omega
  simp only [hz, decide_False, Bool.false_eq_true, if_false, c1, c2, hu, decide_eq_true_eq]

theorem normal_value (m e : Nat) (hm : m < 2 ^ 23) (he : e ≤ 254) :
    (m + 2 ^ 23) * 2 ^ 23 * 2 ^ e / 2 ^ 23 = (m + 2 ^ 23) * 2 ^ e ∧
    2 ^ (e + 23) ≤ (m + 2 ^ 23) * 2 ^ e ∧ (m + 2 ^ 23) * 2 ^ e < 2 ^ (e + 23 + 1) ∧
    (m + 2 ^ 23) * 2 ^ e < 2 ^ 278 ∧ 0 < (m + 2 ^ 23) * 2 ^ e ∧
    (m + 2 ^ 23) * 2 ^ e / 2 ^ e % 2 ^ 23 = m := by
  have hpos : 0 < 2 ^ e := Nat.pos_pow_of_pos _ (by norm_num)
  have h1 : 2 ^ (e + 23) ≤ (m + 2 ^ 23) * 2 ^ e := by
    rw [pow_add, Nat.mul_comm (2 ^ e)]
    exact Nat.mul_le_mul_right _ (by omega)
  have h2 : (m + 2 ^ 23) * 2 ^ e < 2 ^ (e + 23 + 1) := by
    have e1 : e + 23 + 1 = 24 + e := by omega
    rw [e1, pow_add]
    exact Nat.mul_lt_mul_of_pos_right (by omega) hpos
  have h3 : (2 : Nat) ^ (e + 23 + 1) ≤ 2 ^ 278 := Nat.pow_le_pow_right (by norm_num) (by omega)
  refine ⟨?_, h1, h2, lt_of_lt_of_le h2 h3, ?_, ?_⟩
  · have e1 : (m + 2 ^ 23) * 2 ^ 23 * 2 ^ e = (m + 2 ^ 23) * 2 ^ e * 2 ^ 23 := by ring
    rw [e1, Nat.mul_div_cancel _ (by norm_num)]
  · exact Nat.mul_pos (by omega) hpos
  · rw [Nat.mul_div_cancel _ hpos]
    omega

/-- Claim C1. For every 32-bit word `x` whose exponent field (bits 30..23, read by
`fp32_getExp`) is in `1..254`, with either sign bit and any fraction,
`pcsToFp32(fp32ToPcs(x))` returns exactly `x`. -/
theorem fp32_roundtrip (x : Nat) (hx : x < 2 ^ 32)
    (he1 : 1 ≤ fp32_getExp x) (he2 : fp32_getExp x ≤ 254) :
    pcsToFp32 (fp32ToPcs x) = x := by
  rw [fp32_getExp_eq] at he1 he2
  have he1n : 1 ≤ x / 2 ^ 23 % 2 ^ 8 := by omega
  have he2n : x / 2 ^ 23 % 2 ^ 8 ≤ 254 := by omega
  rw [fp32ToPcs_normal x he1n he2n]
  have hm : x % 2 ^ 23 < 2 ^ 23 := Nat.mod_lt _ (by norm_num)
  have hx_eq : x = x / 2 ^ 31 % 2 * 2 ^ 31 + x / 2 ^ 23 % 2 ^ 8 * 2 ^ 23 + x % 2 ^ 23 := by omega
  obtain ⟨v1, v2, v3, v4, v5, v6⟩ := normal_value (x % 2 ^ 23) (x / 2 ^ 23 % 2 ^ 8) hm he2n
  have hPwf := extPlace_wf ((x / 2 ^ 23 % 2 ^ 8 : Nat) : Int) ((x % 2 ^ 23 + 2 ^ 23) * 2 ^ 23)
    (by omega)
  have hPv := extPlace_toNat (x / 2 ^ 23 % 2 ^ 8) ((x % 2 ^ 23 + 2 ^ 23) * 2 ^ 23)
    (by omega) (by omega)
  rw [v1] at hPv
  generalize extPlace ((x / 2 ^ 23 % 2 ^ 8 : Nat) : Int) ((x % 2 ^ 23 + 2 ^ 23) * 2 ^ 23) = P at *
  have hmag : ∀ s0, s0 = 0 ∨ s0 = 2 ^ 31 →
      pcsToFp32Mag s0 P = s0 + x / 2 ^ 23 % 2 ^ 8 * 2 ^ 23 + x % 2 ^ 23 := by
    intro s0 hs0
    have h := pcsToFp32Mag_eq P hPwf s0 hs0 (x / 2 ^ 23 % 2 ^ 8 + 23)
      (by rw [hPv]; exact v2) (by rw [hPv]; exact v3) (by omega) (by omega)
    rw [Nat.add_sub_cancel, hPv, v6] at h
    exact h
  rw [pcsToFp32_eq]
  by_cases hs : x / 2 ^ 31 % 2 = 1
  · rw [if_pos hs]
    have hneg : (pcsInv P).get (C_FP32_N_ACCU_WORDS - 1) >>> 63 ≠ 0 := by
      apply get4_shift_ne_zero _ (pcsInv_wf _)
      rw [pcsInv_toNat _ hPwf, hPv]
      omega
    simp only [hneg, ne_eq, not_false_eq_true, decide_True, if_true]
    have e31 : C_FP32_SIGN_MASK = 2 ^ 31 := by decide
    rw [pcsInv_pcsInv P hPwf, hmag _ (Or.inr e31), e31]
    omega
  · rw [if_neg hs]
    have hpos : P.get (C_FP32_N_ACCU_WORDS - 1) >>> 63 = 0 := by
      apply get4_shift_zero
      rw [hPv]; omega
    simp only [hpos, ne_eq, not_true_eq_false, decide_False, Bool.false_eq_true, if_false]
    rw [hmag _ (Or.inl rfl)]
    omega

theorem fp32_roundtrip_witness :
    (0xC2F6E979 : Nat) < 2 ^ 32 ∧ pcsToFp32 (fp32ToPcs 0xC2F6E979) = 0xC2F6E979 :=
  ⟨by decide, fp32_roundtrip 0xC2F6E979 (by decide) (by decide) (by decide)⟩

/-! ## Staging -/

theorem wrapS32_congr (z z2 : Int) (h : (z - z2) % 2 ^ 32 = 0) : wrapS32 z = wrapS32 z2 := by
  unfold wrapS32 toS32 toU32
  split_ifs <;> omega

theorem wrapS32_sub (z : Int) : (wrapS32 z - z) % 2 ^ 32 = 0 := by
  unfold wrapS32 toS32 toU32
  split_ifs <;> omega

theorem wrapS32_of_fits (z : Int) (h1 : -2 ^ 31 ≤ z) (h2 : z < 2 ^ 31) : wrapS32 z = z := by
  unfold wrapS32 toS32 toU32
  split_ifs <;> omega

theorem toS32_u32 (x : Nat) : toS32 (u32 x) = wrapS32 (x : Int) := by
  unfold wrapS32 toS32 toU32 u32
  split_ifs <;> omega

theorem toU32_sub (z : Int) : ((toU32 z : Nat) : Int) - z ≡ 0 [ZMOD 2 ^ 32] := by
  unfold toU32 Int.ModEq
  omega

/-- The running offset after one iteration of a stride loop. -/
theorem stage_tmp2 (tmp2 R S : Int) (n : Nat) (hn1 : 0 < n) (hn2 : n < 2 ^ 16)
    (h : (tmp2 - R) % 2 ^ 32 = 0) :
    (toS32 (u32 (toU32 tmp2 + u32 (u32 (n + (2 ^ 32 - 1)) * toU32 S)))
      - (R + ((n - 1 : Nat) : Int) * S)) % 2 ^ 32 = 0 := by
  have e1 : u32 (n + (2 ^ 32 - 1)) = n - 1 := by unfold u32; omega
  rw [e1, toS32_u32]
  have h1 : (wrapS32 ((toU32 tmp2 + u32 ((n - 1) * toU32 S) : Nat) : Int)
      - ((toU32 tmp2 + u32 ((n - 1) * toU32 S) : Nat) : Int)) % 2 ^ 32 = 0 := wrapS32_sub _
  have h2 : (((u32 ((n - 1) * toU32 S) : Nat) : Int) - ((n - 1 : Nat) : Int) * S) % 2 ^ 32 = 0 := by
    have a1 : (((u32 ((n - 1) * toU32 S) : Nat) : Int) - (((n - 1) * toU32 S : Nat) : Int))
        % 2 ^ 32 = 0 := by
      unfold u32; omega
    have a2 : ((((n - 1) * toU32 S : Nat) : Int) - ((n - 1 : Nat) : Int) * S) % 2 ^ 32 = 0 := by
      have := toU32_sub S
      rw [Nat.cast_mul, ← mul_sub]
      exact Int.emod_eq_zero_of_dvd (Dvd.dvd.mul_left (Int.dvd_of_emod_eq_zero this) _)
    omega
  have h3 : (((toU32 tmp2 : Nat) : Int) - tmp2) % 2 ^ 32 = 0 := toU32_sub tmp2
  push_cast at h1 ⊢
  omega

theorem stageStrideLoop_spec (n : Nat → Nat) (S : Nat → Nat → Int) (a : Nat) (c : Nat) :
    ∀ (s : Nat) (tmp2 : Int) (ntx : ntx_api),
      (tmp2 - lowerOffset n S a s) % 2 ^ 32 = 0 →
      (∀ j, s ≤ j → j < s + c → 0 < n j ∧ n j < 2 ^ 16) →
      (∀ j, s ≤ j → j < s + c →
        (stageStrideLoop n S a c s tmp2 ntx).aguStride a j
          = wrapS32 (4 * (S a j - lowerOffset n S a j))) ∧
      (∀ a2 j, (a2 ≠ a ∨ j < s ∨ s + c ≤ j) →
        (stageStrideLoop n S a c s tmp2 ntx).aguStride a2 j = ntx.aguStride a2 j) ∧
      stageStrideLoop n S a c s tmp2 ntx
        = { ntx with aguStride := (stageStrideLoop n S a c s tmp2 ntx).aguStride } := by
  induction c with
  | zero =>
    intro s tmp2 ntx _ _
    exact ⟨fun j h1 h2 => absurd h2 (by omega), fun _ _ _ => rfl, rfl⟩
  | succ c ih =>
    intro s tmp2 ntx ht hn
    obtain ⟨hn1, hn2⟩ := hn s (le_refl s) (by omega)
    have ht2 := stage_tmp2 tmp2 (lowerOffset n S a s) (S a s) (n s) hn1 hn2 ht
    have hstep : stageStrideLoop n S a (c + 1) s tmp2 ntx
        = stageStrideLoop n S a c (s + 1)
            (toS32 (u32 (toU32 tmp2 + u32 (u32 (n s + (2 ^ 32 - 1)) * toU32 (S a s)))))
            { ntx with aguStride :=
                (Function.update ntx.aguStride a
                  (Function.update (ntx.aguStride a) s (wrapS32 ((S a s - tmp2) * 4)))) } := rfl
    rw [hstep]
    obtain ⟨i1, i2, i3⟩ := ih (s + 1) _ _ ht2 (fun j h1 h2 => hn j (by omega) (by omega))
    refine ⟨?_, ?_, ?_⟩
    · intro j h1 h2
      by_cases hj : j = s
      · subst hj
        rw [i2 a j (Or.inr (Or.inl (by omega)))]
        simp only [Function.update_same]
        apply wrapS32_congr
        omega
      · exact i1 j (by omega) (by omega)
    · intro a2 j h
      have hcond : a2 ≠ a ∨ j < s + 1 ∨ s + 1 + c ≤ j := by omega
      rw [i2 a2 j hcond]
      by_cases ha : a2 = a
      · subst ha
        have hj : j ≠ s := by omega
        simp [Function.update_same, Function.update_noteq hj]
      · simp [Function.update_noteq ha]
    · rw [i3]

theorem stageBoundLoop_spec (n : Nat → Nat) (c : Nat) :
    ∀ (k : Nat) (ntx : ntx_api),
      ((∀ j, k ≤ j → j < k + c → 0 < n j ∧ n j < 2 ^ 16) →
        ∃ r, stageBoundLoop n c k ntx = Outcome.done r) ∧
      (∀ r, stageBoundLoop n c k ntx = Outcome.done r →
        (∀ j, k ≤ j → j < k + c → 0 < n j ∧ n j < 2 ^ 16) ∧
        (∀ j, k ≤ j → j < k + c → r.loopBound j = n j - 1) ∧
        (∀ j, (j < k ∨ k + c ≤ j) → r.loopBound j = ntx.loopBound j) ∧
        r = { ntx with loopBound := r.loopBound }) := by
  induction c with
  | zero =>
    intro k ntx
    refine ⟨fun _ => ⟨ntx, rfl⟩, ?_⟩
    intro r h
    have e : r = ntx := by
      have h2 : Outcome.done ntx = Outcome.done r := h
      injection h2 with h3
      exact h3.symm
    subst e
    exact ⟨fun j h1 h2 => absurd h2 (by omega), fun j h1 h2 => absurd h2 (by omega),
      fun _ _ => rfl, rfl⟩
  | succ c ih =>
    intro k ntx
    obtain ⟨ih1, ih2⟩ := ih (k + 1)
      { ntx with loopBound := Function.update ntx.loopBound k (n k - 1) }
    have hstep : ∀ (h1 : n k < 2 ^ 16) (h2 : 0 < n k), stageBoundLoop n (c + 1) k ntx
        = stageBoundLoop n c (k + 1)
            { ntx with loopBound := Function.update ntx.loopBound k (n k - 1) } := by
      intro h1 h2
      show (if ¬ (n k < 2 ^ C_HW_LOOP_WIDTH) then Outcome.trap ntx
        else if ¬ (n k > 0) then Outcome.trap ntx else _) = _
      simp only [C_HW_LOOP_WIDTH]
      rw [if_neg (not_not.mpr h1), if_neg (not_not.mpr h2)]
    constructor
    · intro hn
      obtain ⟨hn1, hn2⟩ := hn k (le_refl k) (by omega)
      rw [hstep hn2 hn1]
      exact ih1 (fun j h1 h2 => hn j (by omega) (by omega))
    · intro r h
      have hk : n k < 2 ^ 16 ∧ 0 < n k := by
        by_contra hc
        have hc2 : ¬ (n k < 2 ^ C_HW_LOOP_WIDTH) ∨ ¬ (n k > 0) := by
          simp only [C_HW_LOOP_WIDTH]; omega
        have : stageBoundLoop n (c + 1) k ntx = Outcome.trap ntx := by
          show (if ¬ (n k < 2 ^ C_HW_LOOP_WIDTH) then Outcome.trap ntx
            else if ¬ (n k > 0) then Outcome.trap ntx else _) = _
          rcases hc2 with h1 | h1
          · rw [if_pos h1]
          · by_cases h0 : ¬ (n k < 2 ^ C_HW_LOOP_WIDTH)
            · rw [if_pos h0]
            · rw [if_neg h0, if_pos h1]
        rw [this] at h
        cases h
      rw [hstep hk.1 hk.2] at h
      obtain ⟨j1, j2, j3, j4⟩ := ih2 r h
      refine ⟨?_, ?_, ?_, ?_⟩
      · intro j h1 h2
        by_cases hj : j = k
        · subst hj; exact ⟨hk.2, hk.1⟩
        · exact j1 j (by omega) (by omega)
      · intro j h1 h2
        by_cases hj : j = k
        · subst hj
          rw [j3 j (Or.inl (by omega))]
          simp
        · exact j2 j (by omega) (by omega)
      · intro j hj
        rw [j3 j (by omega)]
        have hne : j ≠ k := by omega
        simp [Function.update_noteq hne]
      · rw [j4]

/-- What a completed call of `stageLoopNest` has checked and written. -/
theorem stageLoopNest_done (ntx : ntx_api) (initL innerL outerL : Nat) (n : Nat → Nat)
    (S : Nat → Nat → Int) (r : ntx_api)
    (h : stageLoopNest ntx initL innerL outerL n S = Outcome.done r) :
    (innerL ≤ initL ∧ initL ≤ outerL ∧ outerL ≤ 5) ∧
    (∀ k, k < outerL → 0 < n k ∧ n k < 2 ^ 16) ∧
    (r.initLevel = initL ∧ r.innerLevel = innerL ∧ r.outerLevel = outerL) ∧
    (∀ a s, a < 3 → s < outerL →
      r.aguStride a s = wrapS32 (4 * (S a s - lowerOffset n S a s))) ∧
    (∀ s, s < outerL → r.loopBound s = n s - 1) ∧
    (∀ s, outerL ≤ s → r.loopBound s = ntx.loopBound s ∧ ∀ a, r.aguStride a s = ntx.aguStride a s) ∧
    (r.checkTcdmAddrs = ntx.checkTcdmAddrs ∧ r.tcdmLow = ntx.tcdmLow ∧ r.tcdmHigh = ntx.tcdmHigh ∧
      r.opCode = ntx.opCode ∧ r.aguOff = ntx.aguOff) := by
  unfold stageLoopNest at h
  simp only [C_N_HW_LOOPS] at h
  split at h
  · cases h
  · split at h
    · cases h
    · split at h
      · cases h
      · split at h
        · cases h
        · next c1 c2 c3 c4 =>
          simp only [not_not] at c1 c2 c3 c4
          generalize hb : stageBoundLoop n outerL 0 _ = ob at h
          cases ob with
          | trap t => cases h
          | done t =>
            obtain ⟨b1, b2, b3, b4⟩ := (stageBoundLoop_spec n outerL 0 _).2 t hb
            have hn : ∀ j, j < outerL → 0 < n j ∧ n j < 2 ^ 16 :=
              fun j hj => b1 j (by omega) (by omega)
            have hn0 : ∀ s, 0 ≤ s → s < 0 + outerL → 0 < n s ∧ n s < 2 ^ 16 :=
              fun j _ hj => hn j (by omega)
            have hr : r = stageStrideLoop n S 2 outerL 0 0
                (stageStrideLoop n S 1 outerL 0 0 (stageStrideLoop n S 0 outerL 0 0 t)) := by
              have h2 : Outcome.done (stageStrideLoop n S 2 outerL 0 0
                (stageStrideLoop n S 1 outerL 0 0 (stageStrideLoop n S 0 outerL 0 0 t)))
                  = Outcome.done r := h
              injection h2 with h3
              exact h3.symm
            have z : ∀ a, ((0 : Int) - lowerOffset n S a 0) % 2 ^ 32 = 0 := by
              intro a; simp [lowerOffset]
            obtain ⟨p0, q0, e0⟩ := stageStrideLoop_spec n S 0 outerL 0 0 t (z 0) hn0
            generalize stageStrideLoop n S 0 outerL 0 0 t = t0 at *
            obtain ⟨p1, q1, e1⟩ := stageStrideLoop_spec n S 1 outerL 0 0 t0 (z 1) hn0
            generalize stageStrideLoop n S 1 outerL 0 0 t0 = t1 at *
            obtain ⟨p2, q2, e2⟩ := stageStrideLoop_spec n S 2 outerL 0 0 t1 (z 2) hn0
            generalize stageStrideLoop n S 2 outerL 0 0 t1 = t2 at *
            subst hr
            refine ⟨⟨c1, c3, c4⟩, hn, ?_, ?_, ?_, ?_, ?_⟩
            · rw [e2, e1, e0, b4]; exact ⟨rfl, rfl, rfl⟩
            · intro a s ha hs
              have ha3 : a = 0 ∨ a = 1 ∨ a = 2 := by omega
              rcases ha3 with ha | ha | ha <;> subst ha
              · rw [q2 0 s (Or.inl (by decide)), q1 0 s (Or.inl (by decide))]
                exact p0 s (by omega) (by omega)
              · rw [q2 1 s (Or.inl (by decide))]
                exact p1 s (by omega) (by omega)
              · exact p2 s (by omega) (by omega)
            · intro s hs
              rw [e2, e1, e0]
              exact b2 s (by omega) (by omega)
            · intro s hs
              constructor
              · rw [e2, e1, e0]
                rw [b3 s (Or.inr (by omega))]
              · intro a
                rw [q2 a s (Or.inr (Or.inr (by omega))), q1 a s (Or.inr (Or.inr (by omega))),
                  q0 a s (Or.inr (Or.inr (by omega))), b4]
            · rw [e2, e1, e0, b4]; exact ⟨rfl, rfl, rfl, rfl, rfl⟩

/-- A call of `stageLoopNest` completes when its assertions hold. -/
theorem stageLoopNest_completes (ntx : ntx_api) (initL innerL outerL : Nat) (n : Nat → Nat)
    (S : Nat → Nat → Int) (h1 : innerL ≤ initL) (h2 : initL ≤ outerL) (h3 : outerL ≤ 5)
    (hn : ∀ k, k < outerL → 0 < n k ∧ n k < 2 ^ 16) :
    ∃ r, stageLoopNest ntx initL innerL outerL n S = Outcome.done r := by
  unfold stageLoopNest
  simp only [C_N_HW_LOOPS]
  rw [if_neg (by omega), if_neg (by omega), if_neg (by omega), if_neg (by omega)]
  obtain ⟨t, ht⟩ := (stageBoundLoop_spec n outerL 0 _).1 (fun j _ hj => hn j (by omega))
  rw [ht]
  exact ⟨_, rfl⟩

/-- Claim C10. `stageLoopNest` returns exactly when its assertions hold, and every
call that returns has computed, for every AGU `a` in `{0,1,2}` and every level
`s < outerLevel`, `aguStride[a][s] = 4 * (S[a][s] - sum_{j<s} (n_j - 1) * S[a][j])`
in 32-bit arithmetic (`n_j` the caller-supplied counts), has stored
`loopBound[s] = n_s - 1`, and has left the `loopBound` and `aguStride` entries at
levels `>= outerLevel` unchanged. -/
theorem stageLoopNest_strides (ntx : ntx_api) (initL innerL outerL : Nat) (n : Nat → Nat)
    (S : Nat → Nat → Int) :
    (innerL ≤ initL → initL ≤ outerL → outerL ≤ 5 →
      (∀ k, k < outerL → 0 < n k ∧ n k < 2 ^ 16) →
      ∃ r, stageLoopNest ntx initL innerL outerL n S = Outcome.done r) ∧
    (∀ r, stageLoopNest ntx initL innerL outerL n S = Outcome.done r →
      (∀ a s, a < 3 → s < outerL →
        r.aguStride a s = wrapS32 (4 * (S a s - lowerOffset n S a s))) ∧
      (∀ s, s < outerL → r.loopBound s = n s - 1) ∧
      (∀ s, outerL ≤ s →
        r.loopBound s = ntx.loopBound s ∧ ∀ a, r.aguStride a s = ntx.aguStride a s)) := by
  refine ⟨stageLoopNest_completes ntx initL innerL outerL n S, ?_⟩
  intro r h
  obtain ⟨_, _, _, h4, h5, h6, _⟩ := stageLoopNest_done ntx initL innerL outerL n S r h
  exact ⟨h4, h5, h6⟩

theorem stageLoopNest_strides_witness :
    (stageLoopNest ntx_api.fresh 3 3 5 test3dBounds test3dStrides).isDone = true ∧
      (stageLoopNest ntx_api.fresh 3 3 5 test3dBounds test3dStrides).state.aguStride 0 2
        = wrapS32 (4 * (test3dStrides 0 2 - lowerOffset test3dBounds test3dStrides 0 2)) ∧
      (stageLoopNest ntx_api.fresh 3 3 5 test3dBounds test3dStrides).state.loopBound 4 = 9 := by
  obtain ⟨r, hr⟩ := (stageLoopNest_strides ntx_api.fresh 3 3 5 test3dBounds test3dStrides).1
    (by decide) (by decide) (by decide) (by decide)
  have h := (stageLoopNest_strides ntx_api.fresh 3 3 5 test3dBounds test3dStrides).2 r hr
  rw [hr]
  exact ⟨rfl, h.1 0 2 (by decide) (by decide), h.2.1 4 (by decide)⟩

/-! ## The loop driver -/

theorem Outcome.bind_done {α : Type} (a : α) (f : α → Outcome α) :
    (Outcome.done a).bind f = f a := rfl

theorem Outcome.bind_trap {α : Type} (a : α) (f : α → Outcome α) :
    (Outcome.trap a).bind f = Outcome.trap a := rfl

theorem Outcome.bind_eq_done {α : Type} (x : Outcome α) (f : α → Outcome α) (b : α)
    (h : x.bind f = Outcome.done b) : ∃ a, x = Outcome.done a ∧ f a = Outcome.done b := by
  cases x with
  | done a => exact ⟨a, rfl, h⟩
  | trap a => cases h

theorem Outcome.map_bind {α β : Type} (g : α → β) (x : Outcome α) (f : α → Outcome α)
    (f2 : β → Outcome β) (h : ∀ a, (f a).map g = f2 (g a)) :
    (x.bind f).map g = (x.map g).bind f2 := by
  cases x with
  | done a => exact h a
  | trap a => rfl

theorem nstLoop_erase {α β : Type} (g : α → β) (bodyL : Nat → α → Outcome α)
    (body : Nat → β → Outcome β) (h : ∀ k t, (bodyL k t).map g = body k (g t)) (n : Nat) :
    ∀ k t, (nstLoop bodyL n k t).map g = nstLoop body n k (g t) := by
  induction n with
  | zero => intro k t; rfl
  | succ n ih =>
    intro k t
    show ((bodyL k t).bind (nstLoop bodyL n (k + 1))).map g
      = (body k (g t)).bind (nstLoop body n (k + 1))
    rw [Outcome.map_bind g _ _ (nstLoop body n (k + 1)) (ih (k + 1)), h]

theorem nstFrameLog_erase {σ : Type} (ntx : ntx_api) (op : nstInternalOp σ) (level : Nat)
    (isLast : Bool) (path : List Nat) (innerL : NstLogged σ → Outcome (NstLogged σ))
    (inner : NstRun σ → Outcome (NstRun σ))
    (h : ∀ t, (innerL t).map NstLogged.run = inner t.run) (t : NstLogged σ) :
    (nstFrameLog ntx op level isLast path innerL t).map NstLogged.run
      = nstFrame ntx op level isLast inner t.run := by
  unfold nstFrameLog nstFrame
  simp only []
  split
  · rfl
  · rw [Outcome.map_bind NstLogged.run _ _
      (fun r =>
        let r := if ntx.innerLevel = level then { r with st := op.store r.agu r.st } else r
        let r := if level < C_N_HW_LOOPS ∧ isLast = false
          then { r with agu := aguUpdate ntx level r.agu } else r
        Outcome.done r)]
    · rw [h]
      split <;> rfl
    · intro a
      simp only []
      split <;> split <;> rfl

/-- Dropping the log of the logged loop driver gives the loop driver. -/
theorem nstLooperLog_erase {σ : Type} (ntx : ntx_api) (op : nstInternalOp σ) (level : Nat) :
    ∀ (isLast : Bool) (path : List Nat) (t : NstLogged σ),
      (nstLooperLog ntx op level isLast path t).map NstLogged.run
        = nstLooper ntx op level isLast t.run := by
  induction level with
  | zero =>
    intro isLast path t
    exact nstFrameLog_erase ntx op 0 isLast path _ _ (fun _ => rfl) t
  | succ level ih =>
    intro isLast path t
    refine nstFrameLog_erase ntx op (level + 1) isLast path _ _ ?_ t
    intro u
    exact nstLoop_erase NstLogged.run
      (fun k => nstLooperLog ntx op level (decide (k = ntx.loopBound level)) (k :: path))
      (fun k => nstLooper ntx op level (decide (k = ntx.loopBound level)))
      (fun k v => ih (decide (k = ntx.loopBound level)) (k :: path) v) _ 0 u

/-- Dropping the log of the logged `nstFuncModel` gives `nstFuncModel`. -/
theorem nstFuncModelLog_erase {σ : Type} (ntx : ntx_api) (ops : Nat → nstInternalOp σ)
    (r : NstRun σ) :
    (nstFuncModelLog ntx ops r).map NstLogged.run = nstFuncModel ntx ops r := by
  unfold nstFuncModelLog nstFuncModel
  split
  · rfl
  · split
    · rfl
    · split
      · rfl
      · split
        · rfl
        · split
          · rfl
          · split
            · rfl
            · exact nstLooperLog_erase ntx _ _ true [] _

theorem Outcome.done_inj {α : Type} {a b : α} (h : Outcome.done a = Outcome.done b) : a = b := by
  injection h

theorem phaseCalls_append (l1 l2 : List Event) :
    phaseCalls (l1 ++ l2) = phaseCalls l1 ++ phaseCalls l2 := by
  unfold phaseCalls
  exact List.filterMap_append _ _ _

theorem nstFrameLog_phases {σ : Type} (ntx : ntx_api) (op : nstInternalOp σ) (level : Nat)
    (isLast : Bool) (path : List Nat) (inner : NstLogged σ → Outcome (NstLogged σ))
    (B : List Phase)
    (hin : ∀ u u2, inner u = Outcome.done u2 → phaseCalls u2.log = phaseCalls u.log ++ B)
    (t t2 : NstLogged σ) (h : nstFrameLog ntx op level isLast path inner t = Outcome.done t2) :
    phaseCalls t2.log = phaseCalls t.log ++
      ((if ntx.initLevel = level then [Phase.init] else []) ++ B ++
        (if ntx.innerLevel = level then [Phase.store] else [])) := by
  unfold nstFrameLog at h
  simp only [] at h
  split at h
  · cases h
  · obtain ⟨u, hu, hfin⟩ := Outcome.bind_eq_done _ _ _ h
    have h1 := hin _ _ hu
    have h2 := Outcome.done_inj hfin
    rw [← h2]
    have e3 : ∀ (v : NstLogged σ),
        phaseCalls (if level < C_N_HW_LOOPS ∧ isLast = false
          then ({ v with run := { v.run with agu := aguUpdate ntx level v.run.agu } } : NstLogged σ)
          else v).log = phaseCalls v.log := by
      intro v; split <;> rfl
    rw [e3]
    by_cases c1 : ntx.initLevel = level <;> by_cases c2 : ntx.innerLevel = level <;>
      simp only [c1, c2, if_true, if_false] at h1 ⊢ <;>
      simp only [phaseCalls_append, h1] <;>
      simp [phaseCalls, Event.phase]

theorem nstLoop_phases {σ : Type} (body : Nat → NstLogged σ → Outcome (NstLogged σ))
    (X : List Phase)
    (hb : ∀ k u u2, body k u = Outcome.done u2 → phaseCalls u2.log = phaseCalls u.log ++ X)
    (n : Nat) :
    ∀ k t t2, nstLoop body n k t = Outcome.done t2 →
      phaseCalls t2.log = phaseCalls t.log ++ rep n X := by
  induction n with
  | zero =>
    intro k t t2 h
    have := Outcome.done_inj h
    subst this
    simp [rep]
  | succ n ih =>
    intro k t t2 h
    obtain ⟨u, hu, hrest⟩ := Outcome.bind_eq_done _ _ _ h
    rw [ih _ _ _ hrest, hb _ _ _ hu]
    simp [rep, List.replicate_succ]

/-- The phase calls a completed frame adds to the log. -/
theorem nstLooperLog_phases {σ : Type} (ntx : ntx_api) (op : nstInternalOp σ) (level : Nat) :
    ∀ (isLast : Bool) (path : List Nat) (t t2 : NstLogged σ),
      nstLooperLog ntx op level isLast path t = Outcome.done t2 →
      phaseCalls t2.log = phaseCalls t.log ++ frameTrace ntx level := by
  induction level with
  | zero =>
    intro isLast path t t2 h
    refine nstFrameLog_phases ntx op 0 isLast path _ [Phase.execute] ?_ t t2 h
    intro u u2 hu
    have := Outcome.done_inj hu
    subst this
    simp [phaseCalls, Event.phase]
  | succ level ih =>
    intro isLast path t t2 h
    refine nstFrameLog_phases ntx op (level + 1) isLast path _
      (rep (ntx.loopBound level + 1) (frameTrace ntx level)) ?_ t t2 h
    intro u u2 hu
    exact nstLoop_phases _ _ (fun k v v2 hv => ih _ _ v v2 hv) _ 0 u u2 hu

theorem nstLoop_completes {α : Type} (body : Nat → α → Outcome α)
    (hb : ∀ k u, ∃ u2, body k u = Outcome.done u2) (n : Nat) :
    ∀ k t, ∃ t2, nstLoop body n k t = Outcome.done t2 := by
  induction n with
  | zero => intro k t; exact ⟨t, rfl⟩
  | succ n ih =>
    intro k t
    obtain ⟨u, hu⟩ := hb k t
    obtain ⟨v, hv⟩ := ih (k + 1) u
    refine ⟨v, ?_⟩
    show (body k t).bind (nstLoop body n (k + 1)) = _
    rw [hu]
    exact hv

theorem nstFrameLog_completes {σ : Type} (ntx : ntx_api) (op : nstInternalOp σ) (level : Nat)
    (isLast : Bool) (path : List Nat) (inner : NstLogged σ → Outcome (NstLogged σ))
    (hc : ntx.checkTcdmAddrs = false) (hin : ∀ u, ∃ u2, inner u = Outcome.done u2)
    (t : NstLogged σ) : ∃ t2, nstFrameLog ntx op level isLast path inner t = Outcome.done t2 := by
  unfold nstFrameLog
  simp only [hc, Bool.false_eq_true, false_and, if_false]
  obtain ⟨u, hu⟩ := hin (if ntx.initLevel = level then
        { run := { t.run with st := op.init t.run.agu t.run.st },
          log := (t.log ++ [⟨EventKind.frame, level, path, t.run.agu⟩]) ++
            [⟨EventKind.init, level, path, t.run.agu⟩] }
      else { t with log := t.log ++ [⟨EventKind.frame, level, path, t.run.agu⟩] })
  rw [hu]
  exact ⟨_, rfl⟩

/-- Without address checking the loop driver runs to completion. -/
theorem nstLooperLog_completes {σ : Type} (ntx : ntx_api) (op : nstInternalOp σ)
    (hc : ntx.checkTcdmAddrs = false) (level : Nat) :
    ∀ (isLast : Bool) (path : List Nat) (t : NstLogged σ),
      ∃ t2, nstLooperLog ntx op level isLast path t = Outcome.done t2 := by
  induction level with
  | zero =>
    intro isLast path t
    exact nstFrameLog_completes ntx op 0 isLast path _ hc (fun u => ⟨_, rfl⟩) t
  | succ level ih =>
    intro isLast path t
    exact nstFrameLog_completes ntx op (level + 1) isLast path _ hc
      (fun u => nstLoop_completes _ (fun k v => ih _ _ v) _ 0 u) t

/-! ## Phase sequences -/

theorem rep_zero {α : Type} (l : List α) : rep 0 l = [] := rfl

theorem rep_succ {α : Type} (n : Nat) (l : List α) : rep (n + 1) l = l ++ rep n l := by
  simp [rep, List.replicate_succ]

theorem rep_one {α : Type} (l : List α) : rep 1 l = l := by
  simp [rep]

theorem rep_add {α : Type} (m n : Nat) (l : List α) : rep (m + n) l = rep m l ++ rep n l := by
  induction m with
  | zero => simp [rep_zero]
  | succ m ih =>
    have e : m + 1 + n = (m + n) + 1 := by omega
    rw [e, rep_succ, rep_succ, ih, List.append_assoc]

theorem rep_mul {α : Type} (a b : Nat) (l : List α) : rep (a * b) l = rep b (rep a l) := by
  induction b with
  | zero => simp [rep_zero]
  | succ b ih =>
    rw [Nat.mul_succ, Nat.add_comm, rep_add, rep_succ, ih]

theorem count_rep (x : Phase) (n : Nat) (l : List Phase) :
    (rep n l).count x = n * l.count x := by
  induction n with
  | zero => simp [rep_zero]
  | succ n ih => rw [rep_succ, List.count_append, ih]; ring

theorem loopCount_self (ntx : ntx_api) (lo : Nat) : loopCount ntx lo lo = 1 := by
  simp [loopCount]

theorem loopCount_succ (ntx : ntx_api) (lo hi : Nat) (h : lo ≤ hi) :
    loopCount ntx lo (hi + 1) = loopCount ntx lo hi * (ntx.loopBound hi + 1) := by
  unfold loopCount
  exact Finset.prod_Ico_succ_top h _

theorem frameTrace_zero (ntx : ntx_api) :
    frameTrace ntx 0 =
      (if ntx.initLevel = 0 then [Phase.init] else []) ++ [Phase.execute] ++
        (if ntx.innerLevel = 0 then [Phase.store] else []) := rfl

theorem frameTrace_succ (ntx : ntx_api) (level : Nat) :
    frameTrace ntx (level + 1) =
      (if ntx.initLevel = level + 1 then [Phase.init] else []) ++
        rep (ntx.loopBound level + 1) (frameTrace ntx level) ++
        (if ntx.innerLevel = level + 1 then [Phase.store] else []) := rfl

/-- The number of `execute` calls of one frame. -/
theorem frameTrace_count_execute (ntx : ntx_api) (level : Nat) :
    (frameTrace ntx level).count Phase.execute = loopCount ntx 0 level := by
  induction level with
  | zero =>
    rw [loopCount_self, frameTrace_zero]
    by_cases c1 : ntx.initLevel = 0 <;> by_cases c2 : ntx.innerLevel = 0 <;> simp [c1, c2]
  | succ level ih =>
    rw [loopCount_succ ntx 0 level (Nat.zero_le _), frameTrace_succ]
    by_cases c1 : ntx.initLevel = level + 1 <;> by_cases c2 : ntx.innerLevel = level + 1 <;>
      simp [c1, c2, count_rep, ih] <;> ring

theorem frameTrace_below (ntx : ntx_api) (level : Nat) (h1 : level < ntx.innerLevel)
    (h2 : ntx.innerLevel ≤ ntx.initLevel) :
    frameTrace ntx level = rep (loopCount ntx 0 level) [Phase.execute] := by
  induction level with
  | zero =>
    rw [loopCount_self, rep_one, frameTrace_zero, if_neg (by omega), if_neg (by omega)]
    rfl
  | succ level ih =>
    rw [loopCount_succ ntx 0 level (Nat.zero_le _), rep_mul, ← ih (by omega), frameTrace_succ,
      if_neg (by omega), if_neg (by omega)]
    simp

/-- The calls of the body of a frame at or below `innerLevel`. -/
theorem frameTrace_at_inner (ntx : ntx_api) (h2 : ntx.innerLevel ≤ ntx.initLevel) :
    frameTrace ntx ntx.innerLevel =
      (if ntx.initLevel = ntx.innerLevel then [Phase.init] else []) ++
        rep (loopCount ntx 0 ntx.innerLevel) [Phase.execute] ++ [Phase.store] := by
  cases hL : ntx.innerLevel with
  | zero =>
    rw [loopCount_self, rep_one, frameTrace_zero]
    simp [hL]
  | succ level =>
    rw [loopCount_succ ntx 0 level (Nat.zero_le _), rep_mul,
      ← frameTrace_below ntx level (by omega) h2, frameTrace_succ]
    simp [hL]

theorem frameTrace_between (ntx : ntx_api) (h2 : ntx.innerLevel ≤ ntx.initLevel) (d : Nat)
    (h : ntx.innerLevel + d < ntx.initLevel) :
    frameTrace ntx (ntx.innerLevel + d) =
      rep (loopCount ntx ntx.innerLevel (ntx.innerLevel + d))
        (rep (loopCount ntx 0 ntx.innerLevel) [Phase.execute] ++ [Phase.store]) := by
  induction d with
  | zero =>
    rw [Nat.add_zero, loopCount_self, rep_one, frameTrace_at_inner ntx h2, if_neg (by omega)]
    rfl
  | succ d ih =>
    have e : ntx.innerLevel + (d + 1) = (ntx.innerLevel + d) + 1 := by omega
    rw [e, loopCount_succ ntx _ _ (by omega), rep_mul, ← ih (by omega)]
    show (if ntx.initLevel = ntx.innerLevel + d + 1 then [Phase.init] else []) ++
      rep (ntx.loopBound (ntx.innerLevel + d) + 1) (frameTrace ntx (ntx.innerLevel + d)) ++
      (if ntx.innerLevel = ntx.innerLevel + d + 1 then [Phase.store] else []) = _
    rw [if_neg (by omega), if_neg (by omega)]
    simp

theorem frameTrace_at_init (ntx : ntx_api) (h2 : ntx.innerLevel ≤ ntx.initLevel) :
    frameTrace ntx ntx.initLevel =
      [Phase.init] ++ rep (loopCount ntx ntx.innerLevel ntx.initLevel)
        (rep (loopCount ntx 0 ntx.innerLevel) [Phase.execute] ++ [Phase.store]) := by
  by_cases hc : ntx.initLevel = ntx.innerLevel
  · rw [hc, loopCount_self, rep_one, frameTrace_at_inner ntx h2, if_pos hc]
    simp
  · obtain ⟨d, hd⟩ : ∃ d, ntx.initLevel = (ntx.innerLevel + d) + 1 :=
      ⟨ntx.initLevel - ntx.innerLevel - 1, by omega⟩
    have hb := frameTrace_between ntx h2 d (by omega)
    rw [hd, loopCount_succ ntx _ _ (by omega), rep_mul, ← hb]
    show (if ntx.initLevel = ntx.innerLevel + d + 1 then [Phase.init] else []) ++
      rep (ntx.loopBound (ntx.innerLevel + d) + 1) (frameTrace ntx (ntx.innerLevel + d)) ++
      (if ntx.innerLevel = ntx.innerLevel + d + 1 then [Phase.store] else []) = _
    rw [if_pos hd, if_neg (by omega)]
    simp

theorem frameTrace_above (ntx : ntx_api) (h2 : ntx.innerLevel ≤ ntx.initLevel) (d : Nat) :
    frameTrace ntx (ntx.initLevel + d) =
      phaseSeq (loopCount ntx 0 ntx.innerLevel) (loopCount ntx ntx.innerLevel ntx.initLevel)
        (loopCount ntx ntx.initLevel (ntx.initLevel + d)) := by
  unfold phaseSeq
  induction d with
  | zero =>
    rw [Nat.add_zero, loopCount_self, rep_one, frameTrace_at_init ntx h2]
  | succ d ih =>
    have e : ntx.initLevel + (d + 1) = (ntx.initLevel + d) + 1 := by omega
    rw [e, loopCount_succ ntx _ _ (by omega), rep_mul, ← ih]
    show (if ntx.initLevel = ntx.initLevel + d + 1 then [Phase.init] else []) ++
      rep (ntx.loopBound (ntx.initLevel + d) + 1) (frameTrace ntx (ntx.initLevel + d)) ++
      (if ntx.innerLevel = ntx.initLevel + d + 1 then [Phase.store] else []) = _
    rw [if_neg (by omega), if_neg (by omega)]
    simp

/-- The phase calls of the outermost frame. -/
theorem frameTrace_outer (ntx : ntx_api) (h1 : ntx.innerLevel ≤ ntx.initLevel)
    (h2 : ntx.initLevel ≤ ntx.outerLevel) :
    frameTrace ntx ntx.outerLevel =
      phaseSeq (loopCount ntx 0 ntx.innerLevel) (loopCount ntx ntx.innerLevel ntx.initLevel)
        (loopCount ntx ntx.initLevel ntx.outerLevel) := by
  have e : ntx.outerLevel = ntx.initLevel + (ntx.outerLevel - ntx.initLevel) := by omega
  have h := frameTrace_above ntx h1 (ntx.outerLevel - ntx.initLevel)
  rw [← e] at h
  exact h

/-! ## Claims on the loop driver -/

/-- A completed run of the logged `nstFuncModel` has passed the assertions and
its phase calls are those of the outermost frame. -/
theorem nstFuncModelLog_done {σ : Type} (ntx : ntx_api) (ops : Nat → nstInternalOp σ)
    (r : NstRun σ) (t : NstLogged σ) (h : nstFuncModelLog ntx ops r = Outcome.done t) :
    (ntx.innerLevel ≤ ntx.initLevel ∧ ntx.initLevel ≤ ntx.outerLevel ∧ ntx.outerLevel ≤ 5) ∧
    ntx.opCode < 9 ∧ (∀ k, k < 5 → ntx.loopBound k < 2 ^ 16) ∧
    phaseCalls t.log = frameTrace ntx ntx.outerLevel := by
  unfold nstFuncModelLog at h
  simp only [C_N_HW_LOOPS, C_N_NTX_OPCODES, C_HW_LOOP_WIDTH] at h
  split at h
  · cases h
  · split at h
    · cases h
    · split at h
      · cases h
      · split at h
        · cases h
        · split at h
          · cases h
          · split at h
            · cases h
            · next c1 c2 c3 c4 c5 c6 =>
              simp only [not_not] at c1 c2 c3 c4 c5 c6
              refine ⟨⟨c1, c3, c4⟩, c5, c6, ?_⟩
              have := nstLooperLog_phases ntx _ _ _ _ _ _ h
              simpa [phaseCalls] using this

theorem nstFuncModelLog_completes {σ : Type} (ntx : ntx_api) (ops : Nat → nstInternalOp σ)
    (r : NstRun σ)
    (hlev : ntx.innerLevel ≤ ntx.initLevel ∧ ntx.initLevel ≤ ntx.outerLevel ∧ ntx.outerLevel ≤ 5)
    (hb : ∀ l, l < 5 → ntx.loopBound l < 2 ^ 16) (hop : ntx.opCode < 9)
    (hc : ntx.checkTcdmAddrs = false) :
    ∃ t, nstFuncModelLog ntx ops r = Outcome.done t := by
  unfold nstFuncModelLog
  simp only [C_N_HW_LOOPS, C_N_NTX_OPCODES, C_HW_LOOP_WIDTH]
  rw [if_neg (by omega), if_neg (by omega), if_neg (by omega), if_neg (by omega),
    if_neg (by omega), if_neg (not_not.mpr hb)]
  exact nstLooperLog_completes ntx _ hc _ _ _ _

/-! ## Runs that an address assertion stops -/

theorem nstLoop_trap_inv {α : Type} (body : Nat → α → Outcome α) (W : α → Prop)
    (hbody : ∀ k u, (body k u).isDone = false → W (body k u).state) (n : Nat) :
    ∀ k t, (nstLoop body n k t).isDone = false → W (nstLoop body n k t).state := by
  induction n with
  | zero => intro k t h; cases h
  | succ n ih =>
    intro k t h
    have hb := hbody k t
    change ((body k t).bind (nstLoop body n (k + 1))).isDone = false at h
    show W ((body k t).bind (nstLoop body n (k + 1))).state
    cases hres : body k t with
    | trap v =>
      rw [hres] at hb
      exact hb rfl
    | done v =>
      rw [hres] at h
      exact ih (k + 1) v h

/-- A frame that does not complete has logged a frame entry whose pointers
fail the address check. -/
theorem nstFrameLog_trap {σ : Type} (ntx : ntx_api) (op : nstInternalOp σ) (level : Nat)
    (isLast : Bool) (path : List Nat) (inner : NstLogged σ → Outcome (NstLogged σ))
    (hin : ∀ u, (inner u).isDone = false →
      ∃ e ∈ (inner u).state.log, e.kind = EventKind.frame ∧ ¬ tcdmOk ntx e.agu)
    (t : NstLogged σ)
    (h : (nstFrameLog ntx op level isLast path inner t).isDone = false) :
    ∃ e ∈ (nstFrameLog ntx op level isLast path inner t).state.log,
      e.kind = EventKind.frame ∧ ¬ tcdmOk ntx e.agu := by
  unfold nstFrameLog at h ⊢
  simp only [] at h ⊢
  split
  · rename_i hc
    exact ⟨⟨EventKind.frame, level, path, t.run.agu⟩,
      List.mem_append_right _ (List.mem_singleton.2 rfl), rfl, hc.2⟩
  · rename_i hc
    rw [if_neg hc] at h
    generalize (if ntx.initLevel = level then
        ({ run := { t.run with st := op.init t.run.agu t.run.st },
           log := (t.log ++ [⟨EventKind.frame, level, path, t.run.agu⟩]) ++
             [⟨EventKind.init, level, path, t.run.agu⟩] } : NstLogged σ)
      else { t with log := t.log ++ [⟨EventKind.frame, level, path, t.run.agu⟩] }) = u0 at h ⊢
    have hin1 := hin u0
    cases hres : inner u0 with
    | trap v =>
      rw [hres] at hin1
      exact hin1 rfl
    | done v =>
      rw [hres] at h
      cases h

theorem nstLooperLog_trap {σ : Type} (ntx : ntx_api) (op : nstInternalOp σ) (level : Nat) :
    ∀ (isLast : Bool) (path : List Nat) (t : NstLogged σ),
      (nstLooperLog ntx op level isLast path t).isDone = false →
      ∃ e ∈ (nstLooperLog ntx op level isLast path t).state.log,
        e.kind = EventKind.frame ∧ ¬ tcdmOk ntx e.agu := by
  induction level with
  | zero =>
    intro isLast path t h
    exact nstFrameLog_trap ntx op 0 isLast path _ (fun u hu => by cases hu) t h
  | succ level ih =>
    intro isLast path t h
    exact nstFrameLog_trap ntx op (level + 1) isLast path _ (fun u hu =>
      nstLoop_trap_inv
        (fun k => nstLooperLog ntx op level (decide (k = ntx.loopBound level)) (k :: path))
        (fun v : NstLogged σ => ∃ e ∈ v.log, e.kind = EventKind.frame ∧ ¬ tcdmOk ntx e.agu)
        (fun k v hv => ih _ _ v hv) _ 0 u hu) t h

/-- With the assertions on the descriptor met, `nstFuncModel` runs to its end
when address checking is off or every frame entry of the run has its pointers
within the checked range. -/
theorem nstFuncModelLog_isDone {σ : Type} (ntx : ntx_api) (ops : Nat → nstInternalOp σ)
    (r : NstRun σ)
    (hlev : ntx.innerLevel ≤ ntx.initLevel ∧ ntx.initLevel ≤ ntx.outerLevel ∧ ntx.outerLevel ≤ 5)
    (hb : ∀ l, l < 5 → ntx.loopBound l < 2 ^ 16) (hop : ntx.opCode < 9)
    (hc : ntx.checkTcdmAddrs = false ∨
      ∀ e ∈ (nstFuncModelLog ntx ops r).state.log, e.kind = EventKind.frame → tcdmOk ntx e.agu) :
    ∃ t, nstFuncModelLog ntx ops r = Outcome.done t := by
  rcases hc with hc | hc
  · exact nstFuncModelLog_completes ntx ops r hlev hb hop hc
  · have hrun : nstFuncModelLog ntx ops r
        = nstLooperLog ntx (ops ntx.opCode) ntx.outerLevel true []
            ⟨{ r with agu := ntx.aguOff }, []⟩ := by
      unfold nstFuncModelLog
      simp only [C_N_HW_LOOPS, C_N_NTX_OPCODES, C_HW_LOOP_WIDTH]
      rw [if_neg (by omega), if_neg (by omega), if_neg (by omega), if_neg (by omega),
        if_neg (by omega), if_neg (not_not.mpr hb)]
    cases hres : nstFuncModelLog ntx ops r with
    | done t => exact ⟨t, rfl⟩
    | trap t =>
      exfalso
      have ht : (nstLooperLog ntx (ops ntx.opCode) ntx.outerLevel true []
          ⟨{ r with agu := ntx.aguOff }, []⟩).isDone = false := by
        rw [← hrun, hres]; rfl
      obtain ⟨e, he, hk, hbad⟩ := nstLooperLog_trap ntx _ _ _ _ _ ht
      rw [← hrun] at he
      exact hbad (hc e he hk)

/-- Counterexample to claim C7 as stated. The descriptor `badOpJob` has ordered
levels and loop bounds below `2^16`, and `nstFuncModel` stops at its assertion on
the opcode before any phase runs: no execute call, where the product is 1. The
descriptor `tightJob` has ordered levels and loop bounds below `2^16`, and the
address assertion at the entry of the third frame at level 0 stops the run after
two execute calls, where the product is 3. -/
theorem execute_count_counterexample :
    ((badOpJob.innerLevel ≤ badOpJob.initLevel ∧ badOpJob.initLevel ≤ badOpJob.outerLevel ∧
        badOpJob.outerLevel ≤ 5) ∧
      (∀ l, l < 5 → badOpJob.loopBound l < 2 ^ 16) ∧
      (nstFuncModel badOpJob (fun _ => nopOp) ⟨fun _ => 0, ()⟩).isDone = false ∧
      (phaseCalls (nstFuncModelLog badOpJob (fun _ => nopOp) ⟨fun _ => 0, ()⟩).state.log).count
        Phase.execute = 0 ∧
      ∏ l ∈ Finset.range badOpJob.outerLevel, (badOpJob.loopBound l + 1) = 1) ∧
    ((tightJob.innerLevel ≤ tightJob.initLevel ∧ tightJob.initLevel ≤ tightJob.outerLevel ∧
        tightJob.outerLevel ≤ 5) ∧
      (∀ l, l < 5 → tightJob.loopBound l < 2 ^ 16) ∧ tightJob.opCode ≤ 8 ∧
      (nstFuncModel tightJob (fun _ => nopOp) ⟨fun _ => 0, ()⟩).isDone = false ∧
      (phaseCalls (nstFuncModelLog tightJob (fun _ => nopOp) ⟨fun _ => 0, ()⟩).state.log).count
        Phase.execute = 2 ∧
      ∏ l ∈ Finset.range tightJob.outerLevel, (tightJob.loopBound l + 1) = 3) := by
  refine ⟨⟨by decide, by decide, by decide, by decide, by decide⟩,
    ⟨by decide, by decide, by decide, by decide, by decide, by decide⟩⟩

/-- Claim C7, amended. For every descriptor with
`innerLevel <= initLevel <= outerLevel <= 5`, stored loop bounds
`loopBound[l] < 2^16` and `opCode <= 8`, in every run with address checking off
or with the pointers at every frame entry within `[tcdmLow, tcdmHigh]`,
`nstFuncModel` (logged by `nstFuncModelLog`, whose run is that of `nstFuncModel`)
runs to its end and invokes the execute phase of the opcode exactly
`prod_{l < outerLevel} (loopBound[l] + 1)` times (once when `outerLevel = 0`),
whatever the opcode implementations and the starting state. -/
theorem nstFuncModel_execute_count (ntx : ntx_api)
    (hlev : ntx.innerLevel ≤ ntx.initLevel ∧ ntx.initLevel ≤ ntx.outerLevel ∧ ntx.outerLevel ≤ 5)
    (hb : ∀ l, l < 5 → ntx.loopBound l < 2 ^ 16) (hop : ntx.opCode ≤ 8)
    (σ : Type) (ops : Nat → nstInternalOp σ) (r : NstRun σ)
    (hc : ntx.checkTcdmAddrs = false ∨
      ∀ e ∈ (nstFuncModelLog ntx ops r).state.log, e.kind = EventKind.frame → tcdmOk ntx e.agu) :
    (nstFuncModelLog ntx ops r).isDone = true ∧
    (nstFuncModel ntx ops r).isDone = true ∧
    (phaseCalls (nstFuncModelLog ntx ops r).state.log).count Phase.execute
      = ∏ l ∈ Finset.range ntx.outerLevel, (ntx.loopBound l + 1) := by
  obtain ⟨t, ht⟩ := nstFuncModelLog_isDone ntx ops r hlev hb (by omega) hc
  obtain ⟨_, _, _, hp⟩ := nstFuncModelLog_done ntx ops r t ht
  have he := nstFuncModelLog_erase ntx ops r
  rw [ht] at he
  rw [ht, ← he]
  refine ⟨rfl, rfl, ?_⟩
  show (phaseCalls t.log).count Phase.execute = _
  rw [hp, frameTrace_count_execute, loopCount, Finset.range_eq_Ico]

theorem nstFuncModel_execute_count_witness :
    (nstFuncModelLog smallJob (fun _ => nopOp) ⟨fun _ => 0, ()⟩).isDone = true ∧
      (phaseCalls (nstFuncModelLog smallJob (fun _ => nopOp) ⟨fun _ => 0, ()⟩).state.log).count
        Phase.execute = 12 := by
  have hthm := nstFuncModel_execute_count smallJob (by decide) (by decide) (by decide)
    Unit (fun _ => nopOp) ⟨fun _ => 0, ()⟩ (Or.inl (by decide))
  refine ⟨hthm.1, ?_⟩
  rw [hthm.2.2]
  decide

/-- Counterexample to claim C8 as stated. A descriptor with ordered levels whose
stored loop bound is `2^16` (`overlongJob`) and one whose opcode is 9
(`badOpJob`): `nstFuncModel` stops at its assertions on the descriptor and calls
no phase, while the claimed sequence is not empty. A descriptor with ordered
levels whose third frame at level 0 fails the address assertion (`tightJob`):
the phase calls are `init execute store init execute store`, two of the three
rounds of the claimed sequence. -/
theorem phase_sequence_counterexample :
    ((overlongJob.innerLevel ≤ overlongJob.initLevel ∧
        overlongJob.initLevel ≤ overlongJob.outerLevel ∧ overlongJob.outerLevel ≤ 5) ∧
      (nstFuncModel overlongJob (fun _ => nopOp) ⟨fun _ => 0, ()⟩).isDone = false ∧
      phaseCalls (nstFuncModelLog overlongJob (fun _ => nopOp) ⟨fun _ => 0, ()⟩).state.log = [] ∧
      phaseSeq (loopCount overlongJob 0 overlongJob.innerLevel)
        (loopCount overlongJob overlongJob.innerLevel overlongJob.initLevel)
        (loopCount overlongJob overlongJob.initLevel overlongJob.outerLevel) ≠ []) ∧
    ((badOpJob.innerLevel ≤ badOpJob.initLevel ∧ badOpJob.initLevel ≤ badOpJob.outerLevel ∧
        badOpJob.outerLevel ≤ 5) ∧
      (∀ l, l < 5 → badOpJob.loopBound l < 2 ^ 16) ∧
      (nstFuncModel badOpJob (fun _ => nopOp) ⟨fun _ => 0, ()⟩).isDone = false ∧
      phaseCalls (nstFuncModelLog badOpJob (fun _ => nopOp) ⟨fun _ => 0, ()⟩).state.log = [] ∧
      phaseSeq (loopCount badOpJob 0 badOpJob.innerLevel)
        (loopCount badOpJob badOpJob.innerLevel badOpJob.initLevel)
        (loopCount badOpJob badOpJob.initLevel badOpJob.outerLevel) ≠ []) ∧
    ((tightJob.innerLevel ≤ tightJob.initLevel ∧ tightJob.initLevel ≤ tightJob.outerLevel ∧
        tightJob.outerLevel ≤ 5) ∧
      (∀ l, l < 5 → tightJob.loopBound l < 2 ^ 16) ∧ tightJob.opCode ≤ 8 ∧
      (nstFuncModel tightJob (fun _ => nopOp) ⟨fun _ => 0, ()⟩).isDone = false ∧
      phaseCalls (nstFuncModelLog tightJob (fun _ => nopOp) ⟨fun _ => 0, ()⟩).state.log
        = [Phase.init, Phase.execute, Phase.store, Phase.init, Phase.execute, Phase.store] ∧
      phaseSeq (loopCount tightJob 0 tightJob.innerLevel)
        (loopCount tightJob tightJob.innerLevel tightJob.initLevel)
        (loopCount tightJob tightJob.initLevel tightJob.outerLevel)
        = [Phase.init, Phase.execute, Phase.store, Phase.init, Phase.execute, Phase.store,
           Phase.init, Phase.execute, Phase.store]) := by
  refine ⟨⟨by decide, by decide, by decide, ?_⟩,
    ⟨by decide, by decide, by decide, by decide, ?_⟩,
    ⟨by decide, by decide, by decide, by decide, by decide, ?_⟩⟩
  · have e : loopCount overlongJob overlongJob.initLevel overlongJob.outerLevel = 1 := by
      simp [loopCount, overlongJob]
    rw [e]
    simp [phaseSeq, rep]
  · have e : loopCount badOpJob badOpJob.initLevel badOpJob.outerLevel = 1 := by
      simp [loopCount, badOpJob]
    rw [e]
    simp [phaseSeq, rep]
  · have e1 : loopCount tightJob 0 tightJob.innerLevel = 1 := by
      simp [loopCount, tightJob, ntx_api.fresh]
    have e2 : loopCount tightJob tightJob.innerLevel tightJob.initLevel = 1 := by
      simp [loopCount, tightJob, ntx_api.fresh]
    have e3 : loopCount tightJob tightJob.initLevel tightJob.outerLevel = 3 := by
      simp [loopCount, tightJob, ntx_api.fresh]
    rw [e1, e2, e3]
    rfl

/-- Claim C8, amended. For every descriptor with
`innerLevel <= initLevel <= outerLevel <= 5`, stored loop bounds
`loopBound[l] < 2^16` and `opCode <= 8`, in every run with address checking off
or with the pointers at every frame entry within `[tcdmLow, tcdmHigh]`,
`nstFuncModel` runs to its end and the sequence of phase calls it makes is
exactly `(init (execute^E store)^S)^I` with
`E = prod_{l < innerLevel} (loopBound[l] + 1)`,
`S = prod_{innerLevel <= l < initLevel} (loopBound[l] + 1)` and
`I = prod_{initLevel <= l < outerLevel} (loopBound[l] + 1)`; in particular init
precedes every execute of its frame and store follows all executes of its frame,
the number of stores is `S * I` and the number of inits is `I`. -/
theorem nstFuncModel_phase_sequence (ntx : ntx_api)
    (hlev : ntx.innerLevel ≤ ntx.initLevel ∧ ntx.initLevel ≤ ntx.outerLevel ∧ ntx.outerLevel ≤ 5)
    (hb : ∀ l, l < 5 → ntx.loopBound l < 2 ^ 16) (hop : ntx.opCode ≤ 8)
    (σ : Type) (ops : Nat → nstInternalOp σ) (r : NstRun σ)
    (hc : ntx.checkTcdmAddrs = false ∨
      ∀ e ∈ (nstFuncModelLog ntx ops r).state.log, e.kind = EventKind.frame → tcdmOk ntx e.agu) :
    (nstFuncModelLog ntx ops r).isDone = true ∧
    (nstFuncModel ntx ops r).isDone = true ∧
    phaseCalls (nstFuncModelLog ntx ops r).state.log =
      phaseSeq (loopCount ntx 0 ntx.innerLevel) (loopCount ntx ntx.innerLevel ntx.initLevel)
        (loopCount ntx ntx.initLevel ntx.outerLevel) ∧
    (phaseCalls (nstFuncModelLog ntx ops r).state.log).count Phase.store
      = loopCount ntx ntx.innerLevel ntx.initLevel * loopCount ntx ntx.initLevel ntx.outerLevel ∧
    (phaseCalls (nstFuncModelLog ntx ops r).state.log).count Phase.init
      = loopCount ntx ntx.initLevel ntx.outerLevel := by
  obtain ⟨t, ht⟩ := nstFuncModelLog_isDone ntx ops r hlev hb (by omega) hc
  obtain ⟨_, _, _, hp⟩ := nstFuncModelLog_done ntx ops r t ht
  have he := nstFuncModelLog_erase ntx ops r
  rw [ht] at he
  rw [ht, ← he]
  refine ⟨rfl, rfl, ?_⟩
  show phaseCalls t.log = _ ∧ (phaseCalls t.log).count Phase.store = _ ∧
    (phaseCalls t.log).count Phase.init = _
  rw [hp, frameTrace_outer ntx hlev.1 hlev.2.1]
  refine ⟨rfl, ?_, ?_⟩
  · simp [phaseSeq, count_rep, List.count_append]
    ring
  · simp [phaseSeq, count_rep, List.count_append]

theorem nstFuncModel_phase_sequence_witness :
    (nstFuncModelLog smallJob (fun _ => nopOp) ⟨fun _ => 0, ()⟩).isDone = true ∧
      phaseCalls (nstFuncModelLog smallJob (fun _ => nopOp) ⟨fun _ => 0, ()⟩).state.log
        = phaseSeq 2 3 2 := by
  have hthm := nstFuncModel_phase_sequence smallJob (by decide) (by decide) (by decide)
    Unit (fun _ => nopOp) ⟨fun _ => 0, ()⟩ (Or.inl (by decide))
  refine ⟨hthm.1, ?_⟩
  rw [hthm.2.2.1]
  decide

/-! ## Absolute addressing -/

theorem Outcome.state_done {α : Type} (a : α) : (Outcome.done a).state = a := rfl

theorem Outcome.state_trap {α : Type} (a : α) : (Outcome.trap a).state = a := rfl

theorem nstFrameLog_agu {σ : Type} (ntx : ntx_api) (op : nstInternalOp σ) (level : Nat)
    (isLast : Bool) (path : List Nat) (inner : NstLogged σ → Outcome (NstLogged σ))
    (base : Nat → Int) (n : Nat → Nat) (S : Nat → Nat → Int) (outer : Nat)
    (t : NstLogged σ)
    (hpath : level + path.length = outer)
    (hentry : ∀ a, a < 3 → t.run.agu a = base a + 4 * pathOffset S a level path)
    (hlog : ∀ e ∈ t.log, e.absolute base n S outer)
    (hin : ∀ u : NstLogged σ,
      (∀ a, a < 3 → u.run.agu a = base a + 4 * pathOffset S a level path) →
      (∀ e ∈ u.log, e.absolute base n S outer) →
      (∀ e ∈ (inner u).state.log, e.absolute base n S outer) ∧
      (∀ u2, inner u = Outcome.done u2 →
        ∀ a, a < 3 → u2.run.agu a = u.run.agu a + 4 * lowerOffset n S a level)) :
    (∀ e ∈ (nstFrameLog ntx op level isLast path inner t).state.log, e.absolute base n S outer) ∧
    (∀ t2, nstFrameLog ntx op level isLast path inner t = Outcome.done t2 →
      ∀ a, a < 3 → t2.run.agu a = t.run.agu a + 4 * lowerOffset n S a level +
        (if level < 5 ∧ isLast = false then ntx.aguStride a level else 0)) := by
  have hfe : (⟨EventKind.frame, level, path, t.run.agu⟩ : Event).absolute base n S outer := by
    refine ⟨hpath, ?_⟩
    intro a ha
    simp only [if_neg (by decide : ¬ (EventKind.frame = EventKind.store)), add_zero]
    exact hentry a ha
  have hie : (⟨EventKind.init, level, path, t.run.agu⟩ : Event).absolute base n S outer := by
    refine ⟨hpath, ?_⟩
    intro a ha
    simp only [if_neg (by decide : ¬ (EventKind.init = EventKind.store)), add_zero]
    exact hentry a ha
  have hlog1 : ∀ e ∈ t.log ++ [(⟨EventKind.frame, level, path, t.run.agu⟩ : Event)],
      e.absolute base n S outer := by
    intro e he
    rcases List.mem_append.1 he with h | h
    · exact hlog e h
    · rw [List.mem_singleton.1 h]; exact hfe
  have hlog2 : ∀ e ∈ (t.log ++ [(⟨EventKind.frame, level, path, t.run.agu⟩ : Event)]) ++
      [(⟨EventKind.init, level, path, t.run.agu⟩ : Event)], e.absolute base n S outer := by
    intro e he
    rcases List.mem_append.1 he with h | h
    · exact hlog1 e h
    · rw [List.mem_singleton.1 h]; exact hie
  unfold nstFrameLog
  simp only []
  split
  · exact ⟨hlog1, fun t2 h => by cases h⟩
  · -- the state handed to the body
    generalize hu0 : (if ntx.initLevel = level then
        ({ run := { t.run with st := op.init t.run.agu t.run.st },
           log := (t.log ++ [⟨EventKind.frame, level, path, t.run.agu⟩]) ++
             [⟨EventKind.init, level, path, t.run.agu⟩] } : NstLogged σ)
      else { t with log := t.log ++ [⟨EventKind.frame, level, path, t.run.agu⟩] }) = u0
    have hu0agu : u0.run.agu = t.run.agu := by
      rw [← hu0]; split <;> rfl
    have hu0log : ∀ e ∈ u0.log, e.absolute base n S outer := by
      rw [← hu0]; split
      · exact hlog2
      · exact hlog1
    obtain ⟨hin1, hin2⟩ := hin u0 (by rw [hu0agu]; exact hentry) hu0log
    cases hres : inner u0 with
    | trap v =>
      rw [hres] at hin1
      exact ⟨hin1, fun t2 h => by cases h⟩
    | done v =>
      rw [hres] at hin1
      have hv := hin2 v hres
      have hvlog : ∀ e ∈ v.log, e.absolute base n S outer := hin1
      have hse : (⟨EventKind.store, level, path, v.run.agu⟩ : Event).absolute base n S outer := by
        refine ⟨hpath, ?_⟩
        intro a ha
        simp only [if_true]
        show v.run.agu a = _
        rw [hv a ha, hu0agu, hentry a ha]
        ring
      simp only [Outcome.bind_done]
      constructor
      · intro e he
        rw [Outcome.state_done] at he
        by_cases c2 : ntx.innerLevel = level <;> by_cases c3 : level < C_N_HW_LOOPS ∧ isLast = false <;>
          simp only [c2, c3, if_true, if_false] at he
        · rcases List.mem_append.1 he with h | h
          · exact hvlog e h
          · rw [List.mem_singleton.1 h]; exact hse
        · rcases List.mem_append.1 he with h | h
          · exact hvlog e h
          · rw [List.mem_singleton.1 h]; exact hse
        · exact hvlog e he
        · exact hvlog e he
      · intro t2 ht2 a ha
        have e2 := Outcome.done_inj ht2
        have hfin : t2.run.agu = if level < 5 ∧ isLast = false
            then aguUpdate ntx level v.run.agu else v.run.agu := by
          rw [← e2]
          by_cases c2 : ntx.innerLevel = level <;>
            by_cases c3 : level < 5 ∧ isLast = false <;> simp [c2, c3]
        have ha3 : a < C_N_AGUS := ha
        rw [hfin]
        by_cases c3 : level < 5 ∧ isLast = false
        · rw [if_pos c3, if_pos c3]
          unfold aguUpdate
          rw [if_pos ha3, hv a ha, hu0agu]
        · rw [if_neg c3, if_neg c3, hv a ha, hu0agu, add_zero]

theorem nstLoop_agu {σ : Type} (body : Nat → NstLogged σ → Outcome (NstLogged σ))
    (P : Event → Prop) (lb : Nat) (entry step last : Nat → Int)
    (hbody : ∀ k, k ≤ lb → ∀ u : NstLogged σ,
      (∀ a, a < 3 → u.run.agu a = entry a + 4 * ((k : Int) * step a)) →
      (∀ e ∈ u.log, P e) →
      (∀ e ∈ (body k u).state.log, P e) ∧
      (∀ u2, body k u = Outcome.done u2 → ∀ a, a < 3 →
        u2.run.agu a = u.run.agu a + 4 * last a +
          (if k = lb then 0 else 4 * (step a - last a)))) (c : Nat) :
    ∀ (k : Nat) (t : NstLogged σ), k + c = lb + 1 →
      (k ≤ lb → ∀ a, a < 3 → t.run.agu a = entry a + 4 * ((k : Int) * step a)) →
      (k = lb + 1 → ∀ a, a < 3 → t.run.agu a = entry a + 4 * ((lb : Int) * step a) + 4 * last a) →
      (∀ e ∈ t.log, P e) →
      (∀ e ∈ (nstLoop body c k t).state.log, P e) ∧
      (∀ t2, nstLoop body c k t = Outcome.done t2 → ∀ a, a < 3 →
        t2.run.agu a = entry a + 4 * ((lb : Int) * step a) + 4 * last a) := by
  induction c with
  | zero =>
    intro k t hk _ h2 hlog
    refine ⟨hlog, ?_⟩
    intro t2 ht2 a ha
    have e := Outcome.done_inj ht2
    rw [← e]
    exact h2 (by omega) a ha
  | succ c ih =>
    intro k t hk h1 _ hlog
    have hkl : k ≤ lb := by omega
    obtain ⟨b1, b2⟩ := hbody k hkl t (h1 hkl) hlog
    show (∀ e ∈ ((body k t).bind (nstLoop body c (k + 1))).state.log, P e) ∧
      (∀ t2, (body k t).bind (nstLoop body c (k + 1)) = Outcome.done t2 → _)
    cases hres : body k t with
    | trap v =>
      rw [hres] at b1
      exact ⟨b1, fun t2 h => by cases h⟩
    | done v =>
      rw [hres] at b1
      have hv := b2 v hres
      simp only [Outcome.bind_done]
      apply ih (k + 1) v (by omega)
      · intro hk1 a ha
        rw [hv a ha, h1 hkl a ha, if_neg (by omega)]
        push_cast
        ring
      · intro hk1 a ha
        have hkeq : k = lb := by omega
        rw [hv a ha, h1 hkl a ha, if_pos hkeq, hkeq]
        ring
      · exact b1

/-- The AGU pointers in and after a frame of the loop driver, for staged
strides that are exact. -/
theorem nstLooperLog_agu {σ : Type} (ntx : ntx_api) (op : nstInternalOp σ)
    (base : Nat → Int) (n : Nat → Nat) (S : Nat → Nat → Int) (outer : Nat) (ho : outer ≤ 5)
    (hS : ∀ a l, a < 3 → l < outer → ntx.aguStride a l = 4 * (S a l - lowerOffset n S a l))
    (hlb : ∀ l, l < outer → ntx.loopBound l = n l - 1) (level : Nat) :
    level ≤ outer → ∀ (isLast : Bool) (path : List Nat) (t : NstLogged σ),
      (isLast = false → level < outer) →
      level + path.length = outer →
      (∀ a, a < 3 → t.run.agu a = base a + 4 * pathOffset S a level path) →
      (∀ e ∈ t.log, e.absolute base n S outer) →
      (∀ e ∈ (nstLooperLog ntx op level isLast path t).state.log, e.absolute base n S outer) ∧
      (∀ t2, nstLooperLog ntx op level isLast path t = Outcome.done t2 → ∀ a, a < 3 →
        t2.run.agu a = t.run.agu a + 4 * lowerOffset n S a level +
          (if isLast = false then 4 * (S a level - lowerOffset n S a level) else 0)) := by
  have hpost : ∀ (lv : Nat) (isLast : Bool) (a : Nat), a < 3 → (isLast = false → lv < outer) →
      (if lv < 5 ∧ isLast = false then ntx.aguStride a lv else 0)
        = (if isLast = false then 4 * (S a lv - lowerOffset n S a lv) else 0) := by
    intro lv isLast a ha hl
    by_cases c : isLast = false
    · have hlt := hl c
      rw [if_pos ⟨by omega, c⟩, if_pos c, hS a lv ha hlt]
    · rw [if_neg (fun h => c h.2), if_neg c]
  induction level with
  | zero =>
    intro _ isLast path t hl hpath hentry hlog
    have hf := nstFrameLog_agu ntx op 0 isLast path
      (fun t => Outcome.done
        { run := { t.run with st := op.execute t.run.agu t.run.st },
          log := t.log ++ [⟨EventKind.execute, 0, path, t.run.agu⟩] })
      base n S outer t hpath hentry hlog (by
        intro u hu hulog
        constructor
        · intro e he
          rcases List.mem_append.1 he with h | h
          · exact hulog e h
          · rw [List.mem_singleton.1 h]
            refine ⟨hpath, ?_⟩
            intro a ha
            simp only [if_neg (by decide : ¬ (EventKind.execute = EventKind.store)), add_zero]
            exact hu a ha
        · intro u2 hu2 a _
          have e := Outcome.done_inj hu2
          rw [← e]
          simp [lowerOffset])
    refine ⟨hf.1, ?_⟩
    intro t2 ht2 a ha
    rw [← hpost 0 isLast a ha hl]
    exact hf.2 t2 ht2 a ha
  | succ level ih =>
    intro hle isLast path t hl hpath hentry hlog
    have hlev : level < outer := by omega
    have hf := nstFrameLog_agu ntx op (level + 1) isLast path
      (nstLoop (fun k => nstLooperLog ntx op level (decide (k = ntx.loopBound level)) (k :: path))
        (ntx.loopBound level + 1) 0)
      base n S outer t hpath hentry hlog (by
        intro u hu hulog
        have hl2 := nstLoop_agu
          (fun k => nstLooperLog ntx op level (decide (k = ntx.loopBound level)) (k :: path))
          (fun e => e.absolute base n S outer) (ntx.loopBound level)
          (fun a => base a + 4 * pathOffset S a (level + 1) path)
          (fun a => S a level) (fun a => lowerOffset n S a level)
          (by
            intro k hk v hv hvlog
            have hi := ih (by omega) (decide (k = ntx.loopBound level)) (k :: path) v
              (fun _ => hlev) (by simp only [List.length_cons]; omega)
              (by
                intro a ha
                rw [hv a ha]
                simp only [pathOffset]
                ring)
              hvlog
            refine ⟨hi.1, ?_⟩
            intro u2 hu2 a ha
            rw [hi.2 u2 hu2 a ha]
            by_cases hk2 : k = ntx.loopBound level <;> simp [hk2])
          (ntx.loopBound level + 1) 0 u (by omega)
          (by intro _ a ha; rw [hu a ha]; simp)
          (by intro h; omega)
          hulog
        refine ⟨hl2.1, ?_⟩
        intro u2 hu2 a ha
        rw [hl2.2 u2 hu2 a ha, hu a ha, hlb level hlev]
        simp only [lowerOffset]
        ring)
    refine ⟨hf.1, ?_⟩
    intro t2 ht2 a ha
    rw [← hpost (level + 1) isLast a ha hl]
    exact hf.2 t2 ht2 a ha

/-- Claim C9. Staging followed by the loop driver yields absolute addressing: after
a call of `stageLoopNest` that returned (so the counts are `n_l >= 1`), with
element strides `S[a][l]` whose staged byte strides do not overflow 32 bits, and
`stageAguOffs` with bases `base_a`, every event of the run of `nstFuncModel`
other than a store - the entry of every loop frame at level `L` with enclosing
loop indices `path = (i_L, ..., i_(outerLevel-1))`, every execute call (`L = 0`)
and every init call (`L = initLevel`) - has
`agu[a] = base_a + 4 * sum_{l >= L} i_l * S[a][l]` for each AGU `a`. -/
theorem staged_absolute_addressing (ntx0 : ntx_api) (initL innerL outerL : Nat)
    (n : Nat → Nat) (S : Nat → Nat → Int) (base0 base1 base2 : Int) (d : ntx_api)
    (hstage : stageLoopNest ntx0 initL innerL outerL n S = Outcome.done d)
    (hfit : strideFits outerL n S)
    (σ : Type) (ops : Nat → nstInternalOp σ) (r : NstRun σ) :
    ∀ e ∈ (nstFuncModelLog (stageAguOffs d base0 base1 base2) ops r).state.log,
      e.kind ≠ EventKind.store →
      e.level + e.path.length = outerL ∧
      e.agu 0 = base0 + 4 * pathOffset S 0 e.level e.path ∧
      e.agu 1 = base1 + 4 * pathOffset S 1 e.level e.path ∧
      e.agu 2 = base2 + 4 * pathOffset S 2 e.level e.path := by
  obtain ⟨⟨_, _, ho⟩, _, ⟨_, _, hout⟩, hstr, hlb, _, _⟩ :=
    stageLoopNest_done ntx0 initL innerL outerL n S d hstage
  have hS : ∀ a l, a < 3 → l < outerL →
      (stageAguOffs d base0 base1 base2).aguStride a l = 4 * (S a l - lowerOffset n S a l) := by
    intro a l ha hl
    show d.aguStride a l = _
    rw [hstr a l ha hl]
    exact wrapS32_of_fits _ (hfit a ha l hl).1 (hfit a ha l hl).2
  have hkey : ∀ e ∈ (nstFuncModelLog (stageAguOffs d base0 base1 base2) ops r).state.log,
      e.absolute (stageAguOffs d base0 base1 base2).aguOff n S outerL := by
    unfold nstFuncModelLog
    split
    · intro e he; cases he
    · split
      · intro e he; cases he
      · split
        · intro e he; cases he
        · split
          · intro e he; cases he
          · split
            · intro e he; cases he
            · split
              · intro e he; cases he
              · have houter : (stageAguOffs d base0 base1 base2).outerLevel = outerL := hout
                rw [houter]
                exact (nstLooperLog_agu (stageAguOffs d base0 base1 base2) _
                  (stageAguOffs d base0 base1 base2).aguOff n S outerL ho hS hlb outerL
                  (le_refl _) true [] _ (fun h => by cases h) (by simp)
                  (by intro a _; simp [pathOffset])
                  (by intro e he; cases he)).1
  intro e he hk
  obtain ⟨h1, h2⟩ := hkey e he
  have b0 : (stageAguOffs d base0 base1 base2).aguOff 0 = base0 := by
    simp [stageAguOffs, Function.update]
  have b1 : (stageAguOffs d base0 base1 base2).aguOff 1 = base1 := by
    simp [stageAguOffs, Function.update]
  have b2 : (stageAguOffs d base0 base1 base2).aguOff 2 = base2 := by
    simp [stageAguOffs, Function.update]
  have g0 := h2 0 (by decide)
  have g1 := h2 1 (by decide)
  have g2 := h2 2 (by decide)
  rw [if_neg hk, add_zero] at g0 g1 g2
  rw [b0] at g0
  rw [b1] at g1
  rw [b2] at g2
  exact ⟨h1, g0, g1, g2⟩

theorem staged_absolute_addressing_witness :
    (nstFuncModelLog smallJob (fun _ => nopOp) ⟨fun _ => 0, ()⟩).state.log.all
      (fun e => decide (e.kind = EventKind.store) ||
        decide (e.agu 0 = 1000 + 4 * pathOffset test3dStrides 0 e.level e.path ∧
          e.agu 1 = 2000 + 4 * pathOffset test3dStrides 1 e.level e.path ∧
          e.agu 2 = 3000 + 4 * pathOffset test3dStrides 2 e.level e.path)) = true := by
  rw [List.all_eq_true]
  intro e he
  by_cases hk : e.kind = EventKind.store
  · simp [hk]
  · have h := staged_absolute_addressing ntx_api.fresh 2 1 3 (fun k => [2, 3, 2].getD k 0)
      test3dStrides 1000 2000 3000
      (stageLoopNest ntx_api.fresh 2 1 3 (fun k => [2, 3, 2].getD k 0) test3dStrides).state
      rfl (by decide) Unit (fun _ => nopOp) ⟨fun _ => 0, ()⟩ e he hk
    simp [hk, h.2.1, h.2.2.1, h.2.2.2]
/-! ## The command word -/

theorem lor_shift (b f k : Nat) (hb : b < 2 ^ k) : b ||| f <<< k = b + f * 2 ^ k := by
  rw [Nat.shiftLeft_eq, Nat.lor_comm, or_eq_add f b k hb, Nat.add_comm]

theorem shift_lor (b f k : Nat) (hb : b < 2 ^ k) : f <<< k ||| b = f * 2 ^ k + b := by
  rw [Nat.shiftLeft_eq, or_eq_add f b k hb]

theorem and_low (x k : Nat) : x &&& (2 ^ k - 1) = x % 2 ^ k := Nat.and_pow_two_sub_one_eq_mod x k

/-- The fields a completed `stageLoopNest` leaves: only the levels, `loopLevels`,
`loopBound` and `aguStride` differ from the descriptor it was called on. -/
theorem stageLoopNest_shape (ntx : ntx_api) (initL innerL outerL : Nat) (n : Nat → Nat)
    (S : Nat → Nat → Int) (r : ntx_api)
    (h : stageLoopNest ntx initL innerL outerL n S = Outcome.done r) :
    r = { ntx with initLevel := initL, innerLevel := innerL, outerLevel := outerL,
                   loopLevels := outerL * 2 ^ 10 + innerL * 2 ^ 7 + initL * 2 ^ 4,
                   loopBound := r.loopBound, aguStride := r.aguStride } := by
  obtain ⟨⟨l1, l2, l3⟩, _⟩ := stageLoopNest_done ntx initL innerL outerL n S r h
  unfold stageLoopNest at h
  simp only [C_N_HW_LOOPS] at h
  rw [if_neg (by omega), if_neg (by omega), if_neg (by omega), if_neg (by omega)] at h
  have hL : u32 ((outerL &&& 0x7) <<< (2 * C_NTX_LOOP_LEVEL_WIDTH + C_NTX_OPCODE_WIDTH))
      ||| u32 ((innerL &&& 0x7) <<< (C_NTX_LOOP_LEVEL_WIDTH + C_NTX_OPCODE_WIDTH))
      ||| u32 ((initL &&& 0x7) <<< C_NTX_OPCODE_WIDTH)
      = outerL * 2 ^ 10 + innerL * 2 ^ 7 + initL * 2 ^ 4 := by
    have e1 : outerL &&& 0x7 = outerL := by
      rw [show (0x7 : Nat) = 2 ^ 3 - 1 by norm_num, and_low]; omega
    have e2 : innerL &&& 0x7 = innerL := by
      rw [show (0x7 : Nat) = 2 ^ 3 - 1 by norm_num, and_low]; omega
    have e3 : initL &&& 0x7 = initL := by
      rw [show (0x7 : Nat) = 2 ^ 3 - 1 by norm_num, and_low]; omega
    rw [e1, e2, e3]
    simp only [C_NTX_LOOP_LEVEL_WIDTH, C_NTX_OPCODE_WIDTH, Nat.shiftLeft_eq, u32]
    norm_num
    have a1 : outerL * 1024 % 4294967296 = outerL * 2 ^ 10 := by omega
    have a2 : innerL * 128 % 4294967296 = innerL * 2 ^ 7 := by omega
    have a3 : initL * 16 % 4294967296 = initL * 2 ^ 4 := by omega
    rw [a1, a2, a3]
    rw [or_eq_add outerL (innerL * 2 ^ 7) 10 (by omega)]
    have a4 : outerL * 2 ^ 10 + innerL * 2 ^ 7 = (outerL * 8 + innerL) * 2 ^ 7 := by ring
    rw [a4, or_eq_add (outerL * 8 + innerL) (initL * 2 ^ 4) 7 (by omega)]
    ring
  rw [hL] at h
  generalize hb : stageBoundLoop n outerL 0 _ = ob at h
  cases ob with
  | trap t => cases h
  | done t =>
    obtain ⟨_, _, _, b4⟩ := (stageBoundLoop_spec n outerL 0 _).2 t hb
    have hn0 : ∀ s, 0 ≤ s → s < 0 + outerL → 0 < n s ∧ n s < 2 ^ 16 := by
      obtain ⟨_, hn, _⟩ := stageLoopNest_done ntx initL innerL outerL n S r
        (by unfold stageLoopNest; simp only [C_N_HW_LOOPS]
            rw [if_neg (by omega), if_neg (by omega), if_neg (by omega), if_neg (by omega), hL, hb]
            exact h)
      intro s _ hs
      exact hn s (by omega)
    have z : ∀ a, ((0 : Int) - lowerOffset n S a 0) % 2 ^ 32 = 0 := by
      intro a; simp [lowerOffset]
    have hr : r = stageStrideLoop n S 2 outerL 0 0
        (stageStrideLoop n S 1 outerL 0 0 (stageStrideLoop n S 0 outerL 0 0 t)) := by
      have h2 : Outcome.done (stageStrideLoop n S 2 outerL 0 0
        (stageStrideLoop n S 1 outerL 0 0 (stageStrideLoop n S 0 outerL 0 0 t)))
          = Outcome.done r := h
      injection h2 with h3
      exact h3.symm
    obtain ⟨_, _, e0⟩ := stageStrideLoop_spec n S 0 outerL 0 0 t (z 0) hn0
    generalize stageStrideLoop n S 0 outerL 0 0 t = t0 at *
    obtain ⟨_, _, e1⟩ := stageStrideLoop_spec n S 1 outerL 0 0 t0 (z 1) hn0
    generalize stageStrideLoop n S 1 outerL 0 0 t0 = t1 at *
    obtain ⟨_, _, e2⟩ := stageStrideLoop_spec n S 2 outerL 0 0 t1 (z 2) hn0
    generalize stageStrideLoop n S 2 outerL 0 0 t1 = t2 at *
    subst hr
    rw [e2, e1, e0, b4]
/-- The command word that `stageCmd` composes, as a sum of its fields. -/
theorem stageCmd_prepNstCmd (d : ntx_api) (i j o : Nat) (opcode initSel auxFunc irqCfg : Nat)
    (polarity : Bool) (hL : d.loopLevels = o * 2 ^ 10 + j * 2 ^ 7 + i * 2 ^ 4)
    (hi : i ≤ 5) (hj : j ≤ 5) (ho : o ≤ 5) (hop : opcode < 16) :
    (stageCmd d opcode initSel auxFunc irqCfg polarity).prepNstCmd
      = opcode + i * 2 ^ 4 + j * 2 ^ 7 + o * 2 ^ 10 + initSel % 4 * 2 ^ 13
        + auxFunc % 8 * 2 ^ 15 + irqCfg % 4 * 2 ^ 18 + polarityBit polarity * 2 ^ 20 := by
  have hp : polarityBit polarity ≤ 1 := by unfold polarityBit; split <;> omega
  have e3 : initSel &&& 0x3 = initSel % 4 := by
    rw [show (0x3 : Nat) = 2 ^ 2 - 1 by norm_num, and_low]; norm_num
  have e7 : auxFunc &&& 0x7 = auxFunc % 8 := by
    rw [show (0x7 : Nat) = 2 ^ 3 - 1 by norm_num, and_low]; norm_num
  have e4 : irqCfg &&& 0x3 = irqCfg % 4 := by
    rw [show (0x3 : Nat) = 2 ^ 2 - 1 by norm_num, and_low]; norm_num
  have hs := Nat.mod_lt initSel (show 0 < 4 by norm_num)
  have hx := Nat.mod_lt auxFunc (show 0 < 8 by norm_num)
  have hq := Nat.mod_lt irqCfg (show 0 < 4 by norm_num)
  show u32 ((u32 ((u32 ((u32 ((if polarity = true then 1 else 0) <<< 2) ||| (irqCfg &&& 0x3)) <<< 3)
      ||| (auxFunc &&& 0x7)) <<< 2) ||| (initSel &&& 0x3))
        <<< (3 * C_NTX_LOOP_LEVEL_WIDTH + C_NTX_OPCODE_WIDTH)) ||| (opcode ||| d.loopLevels) = _
  rw [e3, e7, e4, hL]
  have hpb : (if polarity = true then 1 else 0) = polarityBit polarity := rfl
  rw [hpb]
  generalize polarityBit polarity = p at *
  generalize initSel % 4 = s at *
  generalize auxFunc % 8 = x at *
  generalize irqCfg % 4 = q at *
  have s1 : u32 (p <<< 2) = p * 2 ^ 2 := by rw [Nat.shiftLeft_eq]; unfold u32; omega
  rw [s1, or_eq_add p q 2 (by omega)]
  have s2 : u32 ((p * 2 ^ 2 + q) <<< 3) = (p * 2 ^ 2 + q) * 2 ^ 3 := by
    rw [Nat.shiftLeft_eq]; unfold u32; omega
  rw [s2, or_eq_add _ x 3 (by omega)]
  have s3 : u32 (((p * 2 ^ 2 + q) * 2 ^ 3 + x) <<< 2) = ((p * 2 ^ 2 + q) * 2 ^ 3 + x) * 2 ^ 2 := by
    rw [Nat.shiftLeft_eq]; unfold u32; omega
  rw [s3, or_eq_add _ s 2 (by omega)]
  have s4 : u32 ((((p * 2 ^ 2 + q) * 2 ^ 3 + x) * 2 ^ 2 + s)
      <<< (3 * C_NTX_LOOP_LEVEL_WIDTH + C_NTX_OPCODE_WIDTH))
      = (((p * 2 ^ 2 + q) * 2 ^ 3 + x) * 2 ^ 2 + s) * 2 ^ 13 := by
    rw [Nat.shiftLeft_eq]; unfold u32; simp only [C_NTX_LOOP_LEVEL_WIDTH, C_NTX_OPCODE_WIDTH]; omega
  rw [s4]
  have s5 : opcode ||| (o * 2 ^ 10 + j * 2 ^ 7 + i * 2 ^ 4)
      = (o * 2 ^ 6 + j * 2 ^ 3 + i) * 2 ^ 4 + opcode := by
    rw [Nat.lor_comm, show o * 2 ^ 10 + j * 2 ^ 7 + i * 2 ^ 4 = (o * 2 ^ 6 + j * 2 ^ 3 + i) * 2 ^ 4 by ring]
    exact or_eq_add _ opcode 4 (by omega)
  rw [s5, or_eq_add _ _ 13 (by omega)]
  ring

/-- Claim C11. After a call of `stageLoopNest(initLevel, innerLevel, outerLevel, ..)`
that returned (so the levels are ordered and at most 5), `stageCmd(opcode,
initSel, auxFunc, irqCfg, polarity)` with `opcode < 16` leaves the command word
`prepNstCmd = opcode | initLevel<<4 | innerLevel<<7 | outerLevel<<10 |
(initSel&3)<<13 | (auxFunc&7)<<15 | (irqCfg&3)<<18 | polarity<<20`; each field is
recovered by shifting and masking, and bits 21..31 are zero. -/
theorem stageCmd_command_word (ntx0 : ntx_api) (initL innerL outerL : Nat) (n : Nat → Nat)
    (S : Nat → Nat → Int) (d : ntx_api) (opcode initSel auxFunc irqCfg : Nat) (polarity : Bool)
    (hstage : stageLoopNest ntx0 initL innerL outerL n S = Outcome.done d)
    (hop : opcode < 16) :
    (stageCmd d opcode initSel auxFunc irqCfg polarity).prepNstCmd
      = (opcode ||| (initL <<< 4) ||| (innerL <<< 7) ||| (outerL <<< 10)
          ||| ((initSel &&& 3) <<< 13) ||| ((auxFunc &&& 7) <<< 15) ||| ((irqCfg &&& 3) <<< 18)
          ||| (polarityBit polarity <<< 20)) ∧
    (stageCmd d opcode initSel auxFunc irqCfg polarity).prepNstCmd &&& 0xF = opcode ∧
    ((stageCmd d opcode initSel auxFunc irqCfg polarity).prepNstCmd >>> 4) &&& 0x7 = initL ∧
    ((stageCmd d opcode initSel auxFunc irqCfg polarity).prepNstCmd >>> 7) &&& 0x7 = innerL ∧
    ((stageCmd d opcode initSel auxFunc irqCfg polarity).prepNstCmd >>> 10) &&& 0x7 = outerL ∧
    ((stageCmd d opcode initSel auxFunc irqCfg polarity).prepNstCmd >>> 13) &&& 0x3
      = initSel &&& 3 ∧
    ((stageCmd d opcode initSel auxFunc irqCfg polarity).prepNstCmd >>> 15) &&& 0x7
      = auxFunc &&& 7 ∧
    ((stageCmd d opcode initSel auxFunc irqCfg polarity).prepNstCmd >>> 18) &&& 0x3
      = irqCfg &&& 3 ∧
    ((stageCmd d opcode initSel auxFunc irqCfg polarity).prepNstCmd >>> 20) &&& 0x1
      = polarityBit polarity ∧
    (stageCmd d opcode initSel auxFunc irqCfg polarity).prepNstCmd >>> 21 = 0 := by
  obtain ⟨⟨l1, l2, l3⟩, _⟩ := stageLoopNest_done ntx0 initL innerL outerL n S d hstage
  have hL : d.loopLevels = outerL * 2 ^ 10 + innerL * 2 ^ 7 + initL * 2 ^ 4 := by
    rw [stageLoopNest_shape ntx0 initL innerL outerL n S d hstage]
  rw [stageCmd_prepNstCmd d initL innerL outerL opcode initSel auxFunc irqCfg polarity hL
    (by omega) (by omega) l3 hop]
  have hp : polarityBit polarity ≤ 1 := by unfold polarityBit; split <;> omega
  have e3 : initSel &&& 3 = initSel % 4 := by
    rw [show (3 : Nat) = 2 ^ 2 - 1 by norm_num, and_low]; norm_num
  have e7 : auxFunc &&& 7 = auxFunc % 8 := by
    rw [show (7 : Nat) = 2 ^ 3 - 1 by norm_num, and_low]; norm_num
  have e4 : irqCfg &&& 3 = irqCfg % 4 := by
    rw [show (3 : Nat) = 2 ^ 2 - 1 by norm_num, and_low]; norm_num
  have hs := Nat.mod_lt initSel (show 0 < 4 by norm_num)
  have hx := Nat.mod_lt auxFunc (show 0 < 8 by norm_num)
  have hq := Nat.mod_lt irqCfg (show 0 < 4 by norm_num)
  rw [e3, e7, e4]
  generalize polarityBit polarity = p at *
  generalize initSel % 4 = s at *
  generalize auxFunc % 8 = x at *
  generalize irqCfg % 4 = q at *
  have m15 : ∀ v : Nat, v &&& 0xF = v % 16 := fun v => by
    rw [show (0xF : Nat) = 2 ^ 4 - 1 by norm_num, and_low]; norm_num
  have m7 : ∀ v : Nat, v &&& 0x7 = v % 8 := fun v => by
    rw [show (0x7 : Nat) = 2 ^ 3 - 1 by norm_num, and_low]; norm_num
  have m3 : ∀ v : Nat, v &&& 0x3 = v % 4 := fun v => by
    rw [show (0x3 : Nat) = 2 ^ 2 - 1 by norm_num, and_low]; norm_num
  have m1 : ∀ v : Nat, v &&& 0x1 = v % 2 := fun v => by
    rw [show (0x1 : Nat) = 2 ^ 1 - 1 by norm_num, and_low]; norm_num
  simp only [m15, m7, m3, m1, Nat.shiftRight_eq_div_pow]
  generalize hW : opcode + initL * 2 ^ 4 + innerL * 2 ^ 7 + outerL * 2 ^ 10 + s * 2 ^ 13
    + x * 2 ^ 15 + q * 2 ^ 18 + p * 2 ^ 20 = W
  have d4 : W / 2 ^ 4 = initL + innerL * 8 + outerL * 64 + s * 512 + x * 2048 + q * 16384
      + p * 65536 := by omega
  have d7 : W / 2 ^ 7 = innerL + outerL * 8 + s * 64 + x * 256 + q * 2048 + p * 8192 := by omega
  have d10 : W / 2 ^ 10 = outerL + s * 8 + x * 32 + q * 256 + p * 1024 := by omega
  have d13 : W / 2 ^ 13 = s + x * 4 + q * 32 + p * 128 := by omega
  have d15 : W / 2 ^ 15 = x + q * 8 + p * 32 := by omega
  have d18 : W / 2 ^ 18 = q + p * 4 := by omega
  have d20 : W / 2 ^ 20 = p := by omega
  have d21 : W / 2 ^ 21 = 0 := by omega
  refine ⟨?_, by omega, by omega, by omega, by omega, by omega, by omega, by omega, by omega,
    by omega⟩
  rw [← hW]
  rw [lor_shift opcode initL 4 (by omega), lor_shift _ innerL 7 (by omega),
    lor_shift _ outerL 10 (by omega), lor_shift _ s 13 (by omega),
    lor_shift _ x 15 (by omega), lor_shift _ q 18 (by omega), lor_shift _ p 20 (by omega)]

theorem stageCmd_command_word_witness :
    (stageLoopNest ntx_api.fresh 1 1 1 (fun _ => 100) test3dStrides).isDone = true ∧
      (stageCmd (stageLoopNest ntx_api.fresh 1 1 1 (fun _ => 100) test3dStrides).state
        0 2 0 1 false).prepNstCmd = 0x00044490 := by
  obtain ⟨d, hd⟩ := stageLoopNest_completes ntx_api.fresh 1 1 1 (fun _ => 100) test3dStrides
    (by decide) (by decide) (by decide) (by decide)
  have h := (stageCmd_command_word ntx_api.fresh 1 1 1 (fun _ => 100) test3dStrides d 0 2 0 1 false
    hd (by decide)).1
  rw [hd]
  refine ⟨rfl, ?_⟩
  show (stageCmd d 0 2 0 1 false).prepNstCmd = 0x00044490
  rw [h]
  decide
/-! ## The events and the state of a completed run -/

theorem replay_append {σ : Type} (op : nstInternalOp σ) (l1 l2 : List Event) (s : σ) :
    replay op (l1 ++ l2) s = replay op l2 (replay op l1 s) := by
  unfold replay
  exact List.foldl_append _ _ _ _

theorem replay_nil {σ : Type} (op : nstInternalOp σ) (s : σ) : replay op [] s = s := rfl

theorem replay_cons {σ : Type} (op : nstInternalOp σ) (e : Event) (l : List Event) (s : σ) :
    replay op (e :: l) s = replay op l (e.apply op s) := rfl

theorem nstFrameLog_events {σ : Type} (ntx : ntx_api) (op : nstInternalOp σ) (level : Nat)
    (isLast : Bool) (path : List Nat) (inner : NstLogged σ → Outcome (NstLogged σ))
    (Ein : (Nat → Int) → List Event × (Nat → Int))
    (hin : ∀ u u2, inner u = Outcome.done u2 →
      u2.log = u.log ++ (Ein u.run.agu).1 ∧ u2.run.agu = (Ein u.run.agu).2 ∧
        u2.run.st = replay op (Ein u.run.agu).1 u.run.st)
    (t t2 : NstLogged σ) (h : nstFrameLog ntx op level isLast path inner t = Outcome.done t2) :
    t2.log = t.log ++ ([⟨EventKind.frame, level, path, t.run.agu⟩]
        ++ (if ntx.initLevel = level then [⟨EventKind.init, level, path, t.run.agu⟩] else [])
        ++ (Ein t.run.agu).1
        ++ (if ntx.innerLevel = level then [⟨EventKind.store, level, path, (Ein t.run.agu).2⟩]
            else [])) ∧
    t2.run.agu = (if level < C_N_HW_LOOPS ∧ isLast = false
      then aguUpdate ntx level (Ein t.run.agu).2 else (Ein t.run.agu).2) ∧
    t2.run.st = replay op ([⟨EventKind.frame, level, path, t.run.agu⟩]
        ++ (if ntx.initLevel = level then [⟨EventKind.init, level, path, t.run.agu⟩] else [])
        ++ (Ein t.run.agu).1
        ++ (if ntx.innerLevel = level then [⟨EventKind.store, level, path, (Ein t.run.agu).2⟩]
            else [])) t.run.st := by
  unfold nstFrameLog at h
  simp only [] at h
  split at h
  · cases h
  · by_cases c1 : ntx.initLevel = level <;> by_cases c2 : ntx.innerLevel = level <;>
      by_cases c3 : level < C_N_HW_LOOPS ∧ isLast = false <;>
      (first
        | simp only [c1, c2, if_neg c3, if_true, if_false] at h ⊢
        | simp only [c1, c2, if_pos c3, if_true, if_false] at h ⊢) <;>
      (obtain ⟨u, hu, hfin⟩ := Outcome.bind_eq_done _ _ _ h
       obtain ⟨h1, h2, h3⟩ := hin _ _ hu
       have h4 := Outcome.done_inj hfin
       rw [← h4]
       simp only [h1, h2, h3, replay_append, replay_cons, replay_nil, Event.apply,
        List.append_assoc, List.cons_append, List.nil_append, List.append_nil, and_self])

theorem nstLoop_events {σ : Type} (op : nstInternalOp σ)
    (body : Nat → NstLogged σ → Outcome (NstLogged σ))
    (Eb : Nat → (Nat → Int) → List Event × (Nat → Int))
    (hb : ∀ k u u2, body k u = Outcome.done u2 →
      u2.log = u.log ++ (Eb k u.run.agu).1 ∧ u2.run.agu = (Eb k u.run.agu).2 ∧
        u2.run.st = replay op (Eb k u.run.agu).1 u.run.st)
    (n : Nat) :
    ∀ k t t2, nstLoop body n k t = Outcome.done t2 →
      t2.log = t.log ++ (loopEvents Eb n k t.run.agu).1 ∧
      t2.run.agu = (loopEvents Eb n k t.run.agu).2 ∧
      t2.run.st = replay op (loopEvents Eb n k t.run.agu).1 t.run.st := by
  induction n with
  | zero =>
    intro k t t2 h
    have := Outcome.done_inj h
    subst this
    simp [loopEvents, replay_nil]
  | succ n ih =>
    intro k t t2 h
    obtain ⟨u, hu, hrest⟩ := Outcome.bind_eq_done _ _ _ h
    obtain ⟨a1, a2, a3⟩ := hb _ _ _ hu
    obtain ⟨b1, b2, b3⟩ := ih _ _ _ hrest
    simp only [loopEvents]
    rw [b1, b2, b3, a1, a2, a3, replay_append, List.append_assoc]
    exact ⟨rfl, rfl, rfl⟩

/-- The events, the pointers and the state that a completed call of the loop
driver leaves. -/
theorem nstLooperLog_events {σ : Type} (ntx : ntx_api) (op : nstInternalOp σ) (level : Nat) :
    ∀ (isLast : Bool) (path : List Nat) (t t2 : NstLogged σ),
      nstLooperLog ntx op level isLast path t = Outcome.done t2 →
      t2.log = t.log ++ (frameEvents ntx level isLast path t.run.agu).1 ∧
      t2.run.agu = (frameEvents ntx level isLast path t.run.agu).2 ∧
      t2.run.st = replay op (frameEvents ntx level isLast path t.run.agu).1 t.run.st := by
  induction level with
  | zero =>
    intro isLast path t t2 h
    have := nstFrameLog_events ntx op 0 isLast path _
      (fun agu => ([⟨EventKind.execute, 0, path, agu⟩], agu)) ?_ t t2 h
    · simpa [frameEvents, List.append_assoc] using this
    · intro u u2 hu
      have := Outcome.done_inj hu
      subst this
      exact ⟨rfl, rfl, rfl⟩
  | succ level ih =>
    intro isLast path t t2 h
    have := nstFrameLog_events ntx op (level + 1) isLast path _
      (loopEvents (fun k => frameEvents ntx level (decide (k = ntx.loopBound level)) (k :: path))
        (ntx.loopBound level + 1) 0) ?_ t t2 h
    · simpa [frameEvents, List.append_assoc] using this
    · intro u u2 hu
      exact nstLoop_events op _ _ (fun k v v2 hv => ih _ _ v v2 hv) _ 0 u u2 hu

/-- A completed `nstFuncModel` is a completed logged run with the events of
`frameEvents`, and its state is the replay of these events. -/
theorem nstFuncModel_events {σ : Type} (ntx : ntx_api) (ops : Nat → nstInternalOp σ)
    (r r2 : NstRun σ) (h : nstFuncModel ntx ops r = Outcome.done r2) :
    nstFuncModelLog ntx ops r
      = Outcome.done ⟨r2, (frameEvents ntx ntx.outerLevel true [] ntx.aguOff).1⟩ ∧
    r2.st = replay (ops ntx.opCode) (frameEvents ntx ntx.outerLevel true [] ntx.aguOff).1 r.st ∧
    r2.agu = (frameEvents ntx ntx.outerLevel true [] ntx.aguOff).2 := by
  have he := nstFuncModelLog_erase ntx ops r
  rw [h] at he
  generalize hx : nstFuncModelLog ntx ops r = x at he
  cases x with
  | trap t => cases he
  | done t =>
    have hrun : t.run = r2 := Outcome.done_inj he
    unfold nstFuncModelLog at hx
    split at hx
    · cases hx
    · split at hx
      · cases hx
      · split at hx
        · cases hx
        · split at hx
          · cases hx
          · split at hx
            · cases hx
            · split at hx
              · cases hx
              · obtain ⟨e1, e2, e3⟩ := nstLooperLog_events ntx _ _ _ _ _ _ hx
                simp only [List.nil_append] at e1
                rw [← hrun]
                refine ⟨?_, e3, e2⟩
                rw [← e1]
/-! ## Jobs with one loop level -/

theorem aguAt_zero (ntx : ntx_api) (agu : Nat → Int) : aguAt ntx agu 0 = agu := by
  funext o
  simp [aguAt]

theorem aguUpdate_aguAt (ntx : ntx_api) (agu : Nat → Int) (j : Nat) :
    aguUpdate ntx 0 (aguAt ntx agu j) = aguAt ntx agu (j + 1) := by
  funext o
  unfold aguUpdate aguAt
  split
  · push_cast; ring
  · rfl

theorem frameEvents_zero_replay {σ : Type} (ntx : ntx_api) (op : nstInternalOp σ)
    (isLast : Bool) (path : List Nat) (agu : Nat → Int) (j : Nat) (s : σ) :
    replay op (frameEvents ntx 0 isLast path (aguAt ntx agu j)).1 s
      = oneLevelStep ntx op agu s j := by
  unfold oneLevelStep
  by_cases c1 : ntx.initLevel = 0 <;> by_cases c2 : ntx.innerLevel = 0 <;>
    simp [frameEvents, c1, c2, replay_cons, replay_nil, Event.apply]

theorem loopEvents_zero_replay {σ : Type} (ntx : ntx_api) (op : nstInternalOp σ)
    (agu : Nat → Int) (n : Nat) :
    ∀ (k : Nat) (s : σ), k + n = ntx.loopBound 0 + 1 →
      replay op (loopEvents
          (fun j => frameEvents ntx 0 (decide (j = ntx.loopBound 0)) [j]) n k
          (aguAt ntx agu k)).1 s
        = (List.range' k n).foldl (oneLevelStep ntx op agu) s ∧
      (1 ≤ n → (loopEvents
          (fun j => frameEvents ntx 0 (decide (j = ntx.loopBound 0)) [j]) n k
          (aguAt ntx agu k)).2 = aguAt ntx agu (ntx.loopBound 0)) := by
  induction n with
  | zero =>
    intro k s _
    exact ⟨rfl, fun h => absurd h (by omega)⟩
  | succ n ih =>
    intro k s hk
    simp only [loopEvents, List.range'_succ, List.foldl_cons, replay_append]
    rw [frameEvents_zero_replay]
    by_cases hn : n = 0
    · subst hn
      have hkl : k = ntx.loopBound 0 := by omega
      refine ⟨rfl, fun _ => ?_⟩
      simp [loopEvents, frameEvents, hkl]
    · have hkl : k ≠ ntx.loopBound 0 := by omega
      have e : (frameEvents ntx 0 (decide (k = ntx.loopBound 0)) [k] (aguAt ntx agu k)).2
          = aguAt ntx agu (k + 1) := by
        simp [frameEvents, hkl, C_N_HW_LOOPS, aguUpdate_aguAt]
      rw [e]
      obtain ⟨i1, i2⟩ := ih (k + 1) (oneLevelStep ntx op agu s k) (by omega)
      exact ⟨i1, fun _ => i2 (by omega)⟩

/-- The state after the events of a job with one loop level. -/
theorem oneLevel_replay {σ : Type} (ntx : ntx_api) (op : nstInternalOp σ) (agu : Nat → Int)
    (s : σ) :
    replay op (frameEvents ntx 1 true [] agu).1 s = oneLevelRun ntx op agu s := by
  have h := fun s => loopEvents_zero_replay ntx op agu (ntx.loopBound 0 + 1) 0 s (by omega)
  rw [aguAt_zero] at h
  have e : frameEvents ntx 1 true [] agu
      = ([⟨EventKind.frame, 1, [], agu⟩]
          ++ (if ntx.initLevel = 1 then [⟨EventKind.init, 1, [], agu⟩] else [])
          ++ (loopEvents (fun j => frameEvents ntx 0 (decide (j = ntx.loopBound 0)) [j])
              (ntx.loopBound 0 + 1) 0 agu).1
          ++ (if ntx.innerLevel = 1 then [⟨EventKind.store, 1, [],
              (loopEvents (fun j => frameEvents ntx 0 (decide (j = ntx.loopBound 0)) [j])
                (ntx.loopBound 0 + 1) 0 agu).2⟩] else []),
         if 1 < C_N_HW_LOOPS ∧ true = false then aguUpdate ntx 1
            (loopEvents (fun j => frameEvents ntx 0 (decide (j = ntx.loopBound 0)) [j])
              (ntx.loopBound 0 + 1) 0 agu).2
          else (loopEvents (fun j => frameEvents ntx 0 (decide (j = ntx.loopBound 0)) [j])
              (ntx.loopBound 0 + 1) 0 agu).2) := rfl
  rw [e]
  generalize loopEvents (fun j => frameEvents ntx 0 (decide (j = ntx.loopBound 0)) [j])
    (ntx.loopBound 0 + 1) 0 agu = L at h
  have h2 := (h s).2 (by omega)
  unfold oneLevelRun
  by_cases c1 : ntx.initLevel = 1 <;> by_cases c2 : ntx.innerLevel = 1 <;>
    simp only [c1, c2, if_true, if_false, List.append_nil,
      replay_append, replay_cons, replay_nil, Event.apply, (h _).1, h2,
      List.range_eq_range']

/-- A completed run of a job with one loop level leaves the state `oneLevelRun`. -/
theorem nstFuncModel_oneLevel {σ : Type} (ntx : ntx_api) (ops : Nat → nstInternalOp σ)
    (r r2 : NstRun σ) (h : nstFuncModel ntx ops r = Outcome.done r2) (h1 : ntx.outerLevel = 1) :
    r2.st = oneLevelRun ntx (ops ntx.opCode) ntx.aguOff r.st := by
  obtain ⟨_, e, _⟩ := nstFuncModel_events ntx ops r r2 h
  rw [e, h1, oneLevel_replay]
/-! ## Memory -/

theorem load32_lt (mem : Mem) (a : Int) : load32 mem a < 2 ^ 32 := by
  unfold load32
  have h0 := Nat.mod_lt (mem a) (show 0 < 256 by norm_num)
  have h1 := Nat.mod_lt (mem (a + 1)) (show 0 < 256 by norm_num)
  have h2 := Nat.mod_lt (mem (a + 2)) (show 0 < 256 by norm_num)
  have h3 := Nat.mod_lt (mem (a + 3)) (show 0 < 256 by norm_num)
  omega

/-- A word store followed by a load at the same address gives the word back. -/
theorem load32_store32_same (mem : Mem) (a : Int) (v : Nat) (hv : v < 2 ^ 32) :
    load32 (store32 mem a v) a = v := by
  unfold load32 store32
  have e1 : ¬ (a + 1 = a) := by omega
  have e2 : ¬ (a + 2 = a) := by omega
  have e3 : ¬ (a + 3 = a) := by omega
  have e4 : ¬ (a + 2 = a + 1) := by omega
  have e5 : ¬ (a + 3 = a + 1) := by omega
  have e6 : ¬ (a + 3 = a + 2) := by omega
  simp only [if_true, e1, e2, e3, e4, e5, e6, if_false]
  omega

/-- A word store leaves the words that do not overlap it. -/
theorem load32_store32_disj (mem : Mem) (a b : Int) (v : Nat) (h : a + 4 ≤ b ∨ b + 4 ≤ a) :
    load32 (store32 mem a v) b = load32 mem b := by
  unfold load32 store32
  have e : ∀ k : Int, 0 ≤ k → k < 4 →
      (if b + k = a then v % 256 else if b + k = a + 1 then v / 2 ^ 8 % 256
        else if b + k = a + 2 then v / 2 ^ 16 % 256
        else if b + k = a + 3 then v / 2 ^ 24 % 256 else mem (b + k)) = mem (b + k) := by
    intro k h0 h4
    rw [if_neg (by omega), if_neg (by omega), if_neg (by omega), if_neg (by omega)]
  have e0 := e 0 (by omega) (by omega)
  rw [add_zero] at e0
  rw [e0, e 1 (by omega) (by omega), e 2 (by omega) (by omega), e 3 (by omega) (by omega)]

/-! ## Issuing a command -/

theorem issueCmd_done (ntx : ntx_api) (r : NstRun NtxState) (x : ntx_api × NstRun NtxState)
    (h : issueCmd ntx r = Outcome.done x) :
    nstFuncModel ntx (nstOps ntx) r = Outcome.done x.2 ∧
      x.1 = { ntx with irqReg := decide (ntx.irqCfg > 0) } := by
  unfold issueCmd at h
  generalize hx : nstFuncModel ntx (nstOps ntx) r = y at h
  cases y with
  | trap t => cases h
  | done t =>
    have := Outcome.done_inj h
    subst this
    exact ⟨rfl, rfl⟩

/-- A command completes when the levels are ordered, the opcode is valid, the
stored loop bounds are below `2^16` and address checking is off. -/
theorem issueCmd_completes (ntx : ntx_api) (r : NstRun NtxState)
    (hlev : ntx.innerLevel ≤ ntx.initLevel ∧ ntx.initLevel ≤ ntx.outerLevel ∧ ntx.outerLevel ≤ 5)
    (hb : ∀ l, l < 5 → ntx.loopBound l < 2 ^ 16) (hop : ntx.opCode < 9)
    (hc : ntx.checkTcdmAddrs = false) :
    ∃ x, issueCmd ntx r = Outcome.done x := by
  obtain ⟨t, ht⟩ := nstFuncModelLog_completes ntx (nstOps ntx) r hlev hb hop hc
  have he := nstFuncModelLog_erase ntx (nstOps ntx) r
  rw [ht] at he
  unfold issueCmd
  rw [← he]
  exact ⟨_, rfl⟩

/-! ## Accumulator images -/

theorem accuOfNat_wf (v : Nat) : (accuOfNat v).wf := by
  unfold accuOfNat fp32_accuType.wf
  refine ⟨?_, ?_, ?_, ?_, ?_⟩ <;> exact Nat.mod_lt _ (by norm_num)

theorem accuOfNat_toNat (v : Nat) (h : v < 2 ^ 320) : (accuOfNat v).toNat = v := by
  show v % 2 ^ 64 + v / 2 ^ 64 % 2 ^ 64 * 2 ^ 64 + v / 2 ^ 128 % 2 ^ 64 * 2 ^ 128
    + v / 2 ^ 192 % 2 ^ 64 * 2 ^ 192 + v / 2 ^ 256 % 2 ^ 64 * 2 ^ 256 = v
  omega

theorem accuOfNat_of_toNat (a : fp32_accuType) (h : a.wf) : accuOfNat a.toNat = a := by
  apply fp32_accuType.toNat_inj _ _ (accuOfNat_wf _) h
  exact accuOfNat_toNat _ (a.toNat_lt h)

theorem signExt284_mod (v : Nat) (h : v < 2 ^ 284) : signExt284 v % 2 ^ 284 = v := by
  unfold signExt284
  split <;> omega

theorem toInt_modEq (a : fp32_accuType) : a.toInt ≡ (a.toNat : Int) [ZMOD 2 ^ 284] := by
  unfold fp32_accuType.toInt Int.ModEq
  split
  · rfl
  · omega

theorem pcsToFp32_lt (a : fp32_accuType) : pcsToFp32 a < 2 ^ 32 := by
  unfold pcsToFp32
  simp only []
  have hu : ∀ x, u32 x < 2 ^ 32 := fun x => Nat.mod_lt _ (by norm_num)
  split_ifs <;> first | exact hu _ | decide

/-- The accumulator that `pcsMac` leaves in accumulation mode: the image of
the product added to the accumulator. -/
theorem pcsMac_image (p : Bool) (a b : Nat) (accu : fp32_accuType) (res : Nat) :
    (pcsMac a b 0 (polarityBit p) 0 accu res).1 = pcsAdd (productImage p a b) accu := by
  have hm : u64 (fp32_getMantFull a * fp32_getMantFull b)
      = fp32_getMantFull a * fp32_getMantFull b := by
    rw [fp32_getMantFull_eq, fp32_getMantFull_eq]
    unfold u64
    have h1 := Nat.mod_lt a (show 0 < 2 ^ 23 by norm_num)
    have h2 := Nat.mod_lt b (show 0 < 2 ^ 23 by norm_num)
    apply Nat.mod_eq_of_lt
    calc (a % 2 ^ 23 + 2 ^ 23) * (b % 2 ^ 23 + 2 ^ 23) ≤ 2 ^ 24 * 2 ^ 24 :=
          Nat.mul_le_mul (by omega) (by omega)
      _ < 2 ^ 64 := by norm_num
  have hp : decide (polarityBit p ≠ 0) = p := by cases p <;> rfl
  unfold pcsMac productImage
  simp only [hm, hp]
  by_cases hz : fp32_isZero a = true ∨ fp32_isZero b = true
  · have hz2 : (fp32_isZero a || fp32_isZero b) = true := by simpa using hz
    simp only [hz, hz2, if_true]
    have e : ∀ s : Bool, extFp32ToPcs s 0 0 = fp32_accuType.zero := by
      intro s; cases s <;> decide
    rw [e]
    simp
  · have hz2 : (fp32_isZero a || fp32_isZero b) = false := by simpa using hz
    simp only [hz, hz2, if_false]
    simp [C_FP32_BIAS]
/-! ## The 1-D MAC job -/

theorem productImage_wf (p : Bool) (a b : Nat) : (productImage p a b).wf := by
  unfold productImage
  split
  · exact fp32_accuType.zero_wf
  · apply extFp32ToPcs_wf
    rw [fp32_getMantFull_eq, fp32_getMantFull_eq]
    have h1 := Nat.mod_lt a (show 0 < 2 ^ 23 by norm_num)
    have h2 := Nat.mod_lt b (show 0 < 2 ^ 23 by norm_num)
    calc (a % 2 ^ 23 + 2 ^ 23) * (b % 2 ^ 23 + 2 ^ 23) ≤ 2 ^ 24 * 2 ^ 24 :=
          Nat.mul_le_mul (by omega) (by omega)
      _ < 2 ^ 64 := by norm_num

theorem pcsAdd_modEq (t a : fp32_accuType) (ht : t.wf) (ha : a.wf) :
    ((pcsAdd t a).toNat : Int) ≡ t.toInt + (a.toNat : Int) [ZMOD 2 ^ 284] := by
  rw [pcsAdd_toNat t a ht ha]
  have h1 : signExt284 ((t.toNat + a.toNat) % 2 ^ 284) % 2 ^ 284 = (t.toNat + a.toNat) % 2 ^ 284 :=
    signExt284_mod _ (Nat.mod_lt _ (by norm_num))
  have h2 := toInt_modEq t
  unfold Int.ModEq at h2 ⊢
  omega

/-- The value of the accumulator after a MAC reduction, modulo `2^284`. -/
theorem macReduce_modEq (p : Bool) (l : List (Nat × Nat)) :
    ∀ accu : fp32_accuType, accu.wf →
      ((macReduce (polarityBit p) accu l).toNat : Int)
        ≡ (accu.toNat : Int) + (l.map (fun ab => (productImage p ab.1 ab.2).toInt)).sum
          [ZMOD 2 ^ 284] := by
  induction l with
  | nil => intro accu _; simp [macReduce]
  | cons x l ih =>
    intro accu h
    rw [macReduce_cons, pcsMac_image]
    have h1 := ih (pcsAdd (productImage p x.1 x.2) accu) (pcsAdd_wf _ _)
    have h2 := pcsAdd_modEq (productImage p x.1 x.2) accu (productImage_wf _ _ _) h
    simp only [List.map_cons, List.sum_cons]
    unfold Int.ModEq at h1 h2 ⊢
    omega

theorem macReduce_append (p : Nat) (accu : fp32_accuType) (l1 l2 : List (Nat × Nat)) :
    macReduce p accu (l1 ++ l2) = macReduce p (macReduce p accu l1) l2 := by
  unfold macReduce
  exact List.foldl_append _ _ _ _

/-- The execute phases of a MAC job with one loop level whose init and store
run at level 1: memory is untouched and the accumulator is the MAC reduction
over the operand pairs. -/
theorem mac_fold (ntx : ntx_api) (hI : ntx.initLevel = 1) (hJ : ntx.innerLevel = 1)
    (agu : Nat → Int) (N : Nat) (s : NtxState) :
    (List.range N).foldl (oneLevelStep ntx (nstMacOp ntx) agu) s
      = { s with accuState := (macReduce (polarityBit ntx.polarity) s.accuState
            ((List.range N).map (fun j =>
              (load32 s.mem (aguAt ntx agu j 0), load32 s.mem (aguAt ntx agu j 1))))) } := by
  induction N with
  | zero => rfl
  | succ N ih =>
    rw [List.range_succ, List.foldl_append, ih, List.map_append, macReduce_append]
    simp [oneLevelStep, hI, hJ, nstMacOp, macReduce]

/-- The store phase of the MAC family without ReLU writes the normalised
accumulator, which it has first reduced to canonical form. -/
theorem macStore_mem (ntx : ntx_api) (h0 : ntx.auxFunc = 0) (agu : Nat → Int) (s : NtxState)
    (hwf : s.accuState.wf) :
    (macStore ntx agu s).mem = store32 s.mem (agu 2)
      (pcsToFp32 (accuOfNat (signExt284 (s.accuState.toNat % 2 ^ 284)))) := by
  have e : (pcsMac C_FP32_ZERO_VAL C_FP32_ZERO_VAL 0 0 1 s.accuState (load32 s.mem (agu 2)))
      = (pcsAdd fp32_accuType.zero s.accuState,
          pcsToFp32 (pcsAdd fp32_accuType.zero s.accuState)) := by
    have e1 : extFp32ToPcs false 0 0 = fp32_accuType.zero := by decide
    simp [pcsMac, fp32_isZero, C_FP32_ZERO_VAL, e1]
  have e2 : pcsAdd fp32_accuType.zero s.accuState
      = accuOfNat (signExt284 (s.accuState.toNat % 2 ^ 284)) := by
    rw [← accuOfNat_of_toNat _ (pcsAdd_wf _ _), pcsAdd_toNat _ _ fp32_accuType.zero_wf hwf]
    simp [fp32_accuType.toNat, fp32_accuType.zero]
  unfold macStore
  simp only [e, h0, ne_eq, not_true_eq_false, false_and, if_false, e2]
theorem pcsMac_one_image (x : Nat) (accu : fp32_accuType) (res : Nat) :
    (pcsMac x C_FP32_ONE_VAL 1 0 0 accu res).1 = fp32ToPcs x := by
  have hm : u64 (fp32_getMantFull x * fp32_getMantFull C_FP32_ONE_VAL)
      = u64 (fp32_getMantFull x <<< C_FP32_MANT_WIDTH) := by
    have : fp32_getMantFull C_FP32_ONE_VAL = 2 ^ 23 := by decide
    rw [this, Nat.shiftLeft_eq]
  have he : fp32_getExp x + fp32_getExp C_FP32_ONE_VAL - (C_FP32_BIAS : Int) = fp32_getExp x := by
    have : fp32_getExp C_FP32_ONE_VAL = 127 := by decide
    rw [this]; simp [C_FP32_BIAS]
  have hz : fp32_isZero C_FP32_ONE_VAL = false := by decide
  have hs : fp32_getSign C_FP32_ONE_VAL = false := by decide
  unfold pcsMac fp32ToPcs
  simp only [hm, he, hz, hs, Bool.or_false, Bool.xor_false, ne_eq, not_true_eq_false,
    decide_False, one_ne_zero, not_false_eq_true, if_true]
  by_cases h0 : fp32_isZero x = true
  · have hx0 : fp32_getExp x = 0 := by
      rw [fp32_getExp_eq]
      rw [fp32_isZero_eq] at h0
      have := of_decide_eq_true h0
      have : x / 2 ^ 23 % 2 ^ 8 = 0 := by omega
      rw [this]; rfl
    simp [h0, hx0]
  · simp [h0]

/-- Claim C12. For a MAC job staged as in the 1-D test (`stageLoopNest(1, 1, 1, ..)`
with count `N = n 0`, element stride 1 on AGU0 and AGU1 and 0 on AGU2;
`stageCmd(MAC, initSel = 2, auxFunc = 0, irqCfg, p)`), the word left at the AGU2
address `base2` by a completed `issueCmd` is `pcsToFp32` of the sign extension
from bit 283 of `(fp32ToPcs(r0) + sum_{i<N} t_i) mod 2^284`, with `r0` the word
at `base2` and `t_i` the image of the product of the words at `base0 + 4i` and
`base1 + 4i` before the command (whether or not the result word overlaps the
operands); and the command completes when address checking is off. -/
theorem mac_job_result (ntx0 : ntx_api) (n : Nat → Nat) (S : Nat → Nat → Int) (d : ntx_api)
    (base0 base1 base2 : Int) (irqCfg : Nat) (p : Bool)
    (hstage : stageLoopNest ntx0 1 1 1 n S = Outcome.done d)
    (hS0 : S 0 0 = 1) (hS1 : S 1 0 = 1) (hS2 : S 2 0 = 0) :
    (∀ (r : NstRun NtxState) (x : ntx_api × NstRun NtxState),
      issueCmd (stageCmd (stageAguOffs d base0 base1 base2) 0 2 0 irqCfg p) r = Outcome.done x →
      load32 x.2.st.mem base2
        = pcsToFp32 (accuOfNat (signExt284
            (((fp32ToPcs (load32 r.st.mem base2)).toInt
              + ((List.range (n 0)).map (fun (i : Nat) =>
                  (productImage p (load32 r.st.mem (base0 + 4 * (i : Int)))
                    (load32 r.st.mem (base1 + 4 * (i : Int)))).toInt)).sum) % 2 ^ 284).toNat))) ∧
    (ntx0.checkTcdmAddrs = false → (∀ l, l < 5 → ntx0.loopBound l < 2 ^ 16) →
      ∀ r : NstRun NtxState,
        ∃ x, issueCmd (stageCmd (stageAguOffs d base0 base1 base2) 0 2 0 irqCfg p) r
          = Outcome.done x) := by
  obtain ⟨_, hn, ⟨l1, l2, l3⟩, hst, hlb, hrest, hc, _⟩ :=
    stageLoopNest_done ntx0 1 1 1 n S d hstage
  have hn0 := hn 0 (by omega)
  have hlb0 : d.loopBound 0 = n 0 - 1 := hlb 0 (by omega)
  have st0 : d.aguStride 0 0 = 4 := by
    rw [hst 0 0 (by omega) (by omega), hS0]; simp [lowerOffset]; decide
  have st1 : d.aguStride 1 0 = 4 := by
    rw [hst 1 0 (by omega) (by omega), hS1]; simp [lowerOffset]; decide
  have st2 : d.aguStride 2 0 = 0 := by
    rw [hst 2 0 (by omega) (by omega), hS2]; simp [lowerOffset]; decide
  generalize hjob : stageCmd (stageAguOffs d base0 base1 base2) 0 2 0 irqCfg p = job
  have j1 : job.initLevel = 1 := by rw [← hjob]; exact l1
  have j2 : job.innerLevel = 1 := by rw [← hjob]; exact l2
  have j3 : job.outerLevel = 1 := by rw [← hjob]; exact l3
  have j4 : job.opCode = 0 := by rw [← hjob]; rfl
  have j5 : job.initSel = 2 := by rw [← hjob]; rfl
  have j6 : job.auxFunc = 0 := by rw [← hjob]; rfl
  have j7 : job.polarity = p := by rw [← hjob]; rfl
  have j8 : job.loopBound = d.loopBound := by rw [← hjob]; rfl
  have j9 : job.aguStride = d.aguStride := by rw [← hjob]; rfl
  have j10 : job.aguOff 0 = base0 ∧ job.aguOff 1 = base1 ∧ job.aguOff 2 = base2 := by
    rw [← hjob]; exact ⟨rfl, rfl, rfl⟩
  have j11 : job.checkTcdmAddrs = d.checkTcdmAddrs := by rw [← hjob]; rfl
  constructor
  · intro r x hx
    obtain ⟨hrun, _⟩ := issueCmd_done job r x hx
    have hfin := nstFuncModel_oneLevel job (nstOps job) r x.2 hrun j3
    have hop : nstOps job job.opCode = nstMacOp job := by rw [j4]; rfl
    rw [hop] at hfin
    unfold oneLevelRun at hfin
    simp only [j1, j2, if_true] at hfin
    rw [mac_fold job j1 j2] at hfin
    have hinit : (nstMacOp job).init job.aguOff r.st
        = { r.st with accuState := fp32ToPcs (load32 r.st.mem base2) } := by
      simp [nstMacOp, j5, j10.2.2, pcsMac_one_image]
    rw [hinit] at hfin
    have hg0 : ∀ j : Nat, aguAt job job.aguOff j 0 = base0 + 4 * (j : Int) := by
      intro j; simp [aguAt, j9, st0, j10.1]; ring
    have hg1 : ∀ j : Nat, aguAt job job.aguOff j 1 = base1 + 4 * (j : Int) := by
      intro j; simp [aguAt, j9, st1, j10.2.1]; ring
    have hg2 : ∀ j : Nat, aguAt job job.aguOff j 2 = base2 := by
      intro j; simp [aguAt, j9, st2, j10.2.2]
    have hstore : (nstMacOp job).store = macStore job := rfl
    rw [hstore] at hfin
    simp only [hg0, hg1] at hfin
    have hwf : (macReduce (polarityBit job.polarity) (fp32ToPcs (load32 r.st.mem base2))
        ((List.range (job.loopBound 0 + 1)).map (fun (j : Nat) =>
          (load32 r.st.mem (base0 + 4 * (j : Int)), load32 r.st.mem (base1 + 4 * (j : Int)))))).wf :=
      macReduce_wf _ _ _ (fp32ToPcs_wf _)
    have hmem := macStore_mem job j6 (aguAt job job.aguOff (job.loopBound 0))
      { r.st with accuState := (macReduce (polarityBit job.polarity)
          (fp32ToPcs (load32 r.st.mem base2))
          ((List.range (job.loopBound 0 + 1)).map (fun (j : Nat) =>
            (load32 r.st.mem (base0 + 4 * (j : Int)), load32 r.st.mem (base1 + 4 * (j : Int)))))) }
      hwf
    rw [← hfin, hg2] at hmem
    rw [hmem, load32_store32_same _ _ _ (pcsToFp32_lt _)]
    have hN : job.loopBound 0 + 1 = n 0 := by rw [j8, hlb0]; omega
    rw [hN, j7]
    have hval := macReduce_modEq p ((List.range (n 0)).map (fun (j : Nat) =>
        (load32 r.st.mem (base0 + 4 * (j : Int)), load32 r.st.mem (base1 + 4 * (j : Int)))))
      (fp32ToPcs (load32 r.st.mem base2)) (fp32ToPcs_wf _)
    have hti := toInt_modEq (fp32ToPcs (load32 r.st.mem base2))
    rw [List.map_map] at hval
    have hcomp : ((fun ab : Nat × Nat => (productImage p ab.1 ab.2).toInt) ∘
        fun j : Nat => (load32 r.st.mem (base0 + 4 * (j : Int)),
          load32 r.st.mem (base1 + 4 * (j : Int))))
        = fun i : Nat => (productImage p (load32 r.st.mem (base0 + 4 * (i : Int)))
            (load32 r.st.mem (base1 + 4 * (i : Int)))).toInt := rfl
    rw [hcomp] at hval
    congr 3
    dsimp only
    unfold Int.ModEq at hval hti
    omega
  · intro hc0 hb0 r
    apply issueCmd_completes job r
    · rw [j1, j2, j3]; omega
    · intro l hl
      rw [j8]
      by_cases h0 : l = 0
      · subst h0; rw [hlb0]; omega
      · rw [(hrest l (by omega)).1]; exact hb0 l hl
    · rw [j4]; omega
    · rw [j11, hc, hc0]
theorem mac_job_result_witness :
    (issueCmd (exampleJob test3dStrides 1 1 0 2 0 false) (exampleRun exampleWords)).isDone = true ∧
      load32 (issueCmd (exampleJob test3dStrides 1 1 0 2 0 false) (exampleRun exampleWords)).state.2.st.mem 0
        = 0x41280000 := by
  obtain ⟨d, hd⟩ := stageLoopNest_completes ntx_api.fresh 1 1 1 (fun _ => 2) test3dStrides
    (by decide) (by decide) (by decide) (by decide)
  have h := mac_job_result ntx_api.fresh (fun _ => 2) test3dStrides d 16 32 0 1 false hd
    (by decide) (by decide) (by decide)
  have e : exampleJob test3dStrides 1 1 0 2 0 false = stageCmd (stageAguOffs d 16 32 0) 0 2 0 1 false := by
    unfold exampleJob; rw [hd]; rfl
  obtain ⟨x, hx⟩ := h.2 (by decide) (by decide) (exampleRun exampleWords)
  have hv := h.1 (exampleRun exampleWords) x hx
  rw [e, hx]
  refine ⟨rfl, ?_⟩
  show load32 x.2.st.mem 0 = 0x41280000
  rw [hv]
  decide
/-! ## The VADDSUB job -/

/-- The accumulator image that `pcsMac` forms from its operands replaces the
accumulator when `accuSel` is set. -/
theorem pcsMac_overwrite (p : Bool) (a b accuSel : Nat) (h : accuSel ≠ 0)
    (accu : fp32_accuType) (res : Nat) :
    (pcsMac a b accuSel (polarityBit p) 0 accu res).1 = productImage p a b := by
  have hm : u64 (fp32_getMantFull a * fp32_getMantFull b)
      = fp32_getMantFull a * fp32_getMantFull b := by
    rw [fp32_getMantFull_eq, fp32_getMantFull_eq]
    unfold u64
    have h1 := Nat.mod_lt a (show 0 < 2 ^ 23 by norm_num)
    have h2 := Nat.mod_lt b (show 0 < 2 ^ 23 by norm_num)
    apply Nat.mod_eq_of_lt
    calc (a % 2 ^ 23 + 2 ^ 23) * (b % 2 ^ 23 + 2 ^ 23) ≤ 2 ^ 24 * 2 ^ 24 :=
          Nat.mul_le_mul (by omega) (by omega)
      _ < 2 ^ 64 := by norm_num
  have hp : decide (polarityBit p ≠ 0) = p := by cases p <;> rfl
  unfold pcsMac productImage
  simp only [hm, hp, h, ne_eq, not_false_eq_true, if_true]
  by_cases hz : fp32_isZero a = true ∨ fp32_isZero b = true
  · have hz2 : (fp32_isZero a || fp32_isZero b) = true := by simpa using hz
    simp only [hz, hz2, if_true]
    have e : ∀ s : Bool, extFp32ToPcs s 0 0 = fp32_accuType.zero := by
      intro s; cases s <;> decide
    rw [e]
  · have hz2 : (fp32_isZero a || fp32_isZero b) = false := by simpa using hz
    simp only [hz, hz2, if_false]
    simp [C_FP32_BIAS]

theorem productImage_one (x : Nat) : productImage false x C_FP32_ONE_VAL = fp32ToPcs x := by
  rw [← pcsMac_overwrite false x C_FP32_ONE_VAL 1 (by decide) fp32_accuType.zero 0]
  exact pcsMac_one_image x _ _

theorem extFp32ToPcs_not (s : Bool) (e : Int) (m : Nat) (hm : m < 2 ^ 64) :
    extFp32ToPcs (!s) e m = pcsInv (extFp32ToPcs s e m) := by
  rw [extFp32ToPcs_eq, extFp32ToPcs_eq]
  have hM : (if e ≥ (C_FP32_EXP_MASK_ALIGNED : Int) then 1 <<< (C_FP32_MANT_WIDTH * 2)
      else m) < 2 ^ 64 := by
    split
    · decide
    · exact hm
  split
  · decide
  · cases s
    · simp
    · simp only [Bool.not_true, Bool.false_eq_true, if_false, if_true]
      exact (pcsInv_pcsInv _ (extPlace_wf _ _ hM)).symm

/-- Negative polarity negates the image of a product. -/
theorem productImage_true (a b : Nat) :
    productImage true a b = pcsInv (productImage false a b) := by
  unfold productImage
  split
  · decide
  · rw [Bool.xor_true, Bool.xor_false]
    apply extFp32ToPcs_not
    rw [fp32_getMantFull_eq, fp32_getMantFull_eq]
    have h1 := Nat.mod_lt a (show 0 < 2 ^ 23 by norm_num)
    have h2 := Nat.mod_lt b (show 0 < 2 ^ 23 by norm_num)
    calc (a % 2 ^ 23 + 2 ^ 23) * (b % 2 ^ 23 + 2 ^ 23) ≤ 2 ^ 24 * 2 ^ 24 :=
          Nat.mul_le_mul (by omega) (by omega)
      _ < 2 ^ 64 := by norm_num

theorem pcsInv_modEq (a : fp32_accuType) (h : a.wf) :
    ((pcsInv a).toNat : Int) ≡ -a.toInt [ZMOD 2 ^ 284] := by
  rw [pcsInv_toNat a h]
  have h1 := toInt_modEq a
  have h2 := a.toNat_lt h
  unfold Int.ModEq at h1 ⊢
  omega

/-- The word that one frame of the VADDSUB job writes, from the operand words
`a` (AGU0) and `b` (AGU1, the init operand). -/
theorem vaddsub_word (p : Bool) (a b : Nat) :
    signExt284 ((pcsAdd (productImage false a C_FP32_ONE_VAL)
        (productImage p b C_FP32_ONE_VAL)).toNat % 2 ^ 284)
      = signExt284 (((fp32ToPcs a).toInt
          + (if p = true then -1 else 1) * (fp32ToPcs b).toInt) % 2 ^ 284).toNat := by
  have hA := toInt_modEq (fp32ToPcs a)
  have hB := toInt_modEq (fp32ToPcs b)
  have hs := pcsAdd_modEq (productImage false a C_FP32_ONE_VAL) (productImage p b C_FP32_ONE_VAL)
    (productImage_wf _ _ _) (productImage_wf _ _ _)
  have key : (pcsAdd (productImage false a C_FP32_ONE_VAL)
        (productImage p b C_FP32_ONE_VAL)).toNat % 2 ^ 284
      = (((fp32ToPcs a).toInt
          + (if p = true then -1 else 1) * (fp32ToPcs b).toInt) % 2 ^ 284).toNat := by
    generalize (pcsAdd (productImage false a C_FP32_ONE_VAL)
        (productImage p b C_FP32_ONE_VAL)).toNat = v at hs ⊢
    rw [productImage_one] at hs
    cases p
    · rw [productImage_one] at hs
      simp only [Bool.false_eq_true, if_false, one_mul]
      unfold Int.ModEq at hA hB hs
      omega
    · rw [productImage_true, productImage_one] at hs
      have hI := pcsInv_modEq (fp32ToPcs b) (fp32ToPcs_wf b)
      simp only [if_true, neg_mul, one_mul]
      unfold Int.ModEq at hA hB hs hI
      omega
  rw [key]

theorem pcsMac_accu_zero (a : Nat) (accu : fp32_accuType) :
    (pcsMac a C_FP32_ONE_VAL 0 0 0 accu 0).1
      = pcsAdd (productImage false a C_FP32_ONE_VAL) accu :=
  pcsMac_image false a C_FP32_ONE_VAL accu 0
/-- A loop whose iteration `j` stores one word at `addr j`, computed from loads
that no store of the loop overlaps: afterwards word `i` holds the value
computed from the initial memory, and the words that no store overlaps are
unchanged. -/
theorem fold_store_words (f : NtxState → Nat → NtxState) (addr : Nat → Int)
    (W : Mem → Nat → Nat) (N : Nat)
    (hstep : ∀ s j, (f s j).mem = store32 s.mem (addr j) (W s.mem j))
    (hW : ∀ m j, W m j < 2 ^ 32)
    (hdisj : ∀ i j, i < N → j < N → i ≠ j → addr i + 4 ≤ addr j ∨ addr j + 4 ≤ addr i)
    (hloc : ∀ m m2 j, j < N →
      (∀ a, (∀ k, k < N → a + 4 ≤ addr k ∨ addr k + 4 ≤ a) → load32 m a = load32 m2 a) →
      W m j = W m2 j)
    (s : NtxState) :
    ∀ M, M ≤ N →
      (∀ i, i < M → load32 ((List.range M).foldl f s).mem (addr i) = W s.mem i) ∧
      (∀ a, (∀ k, k < M → a + 4 ≤ addr k ∨ addr k + 4 ≤ a) →
        load32 ((List.range M).foldl f s).mem a = load32 s.mem a) := by
  intro M
  induction M with
  | zero =>
    intro _
    exact ⟨fun i hi => absurd hi (by omega), fun a _ => rfl⟩
  | succ M ih =>
    intro hM
    obtain ⟨i1, i2⟩ := ih (by omega)
    rw [List.range_succ, List.foldl_append]
    simp only [List.foldl_cons, List.foldl_nil]
    rw [hstep]
    have hWeq : W ((List.range M).foldl f s).mem M = W s.mem M := by
      apply hloc _ _ M (by omega)
      intro a ha
      exact i2 a (fun k hk => ha k (by omega))
    rw [hWeq]
    constructor
    · intro i hi
      by_cases hiM : i = M
      · subst hiM
        exact load32_store32_same _ _ _ (hW _ _)
      · rw [load32_store32_disj _ _ _ _ (by
          rcases hdisj M i (by omega) (by omega) (fun h => hiM h.symm) with h | h
          · exact Or.inl h
          · exact Or.inr h)]
        exact i1 i (by omega)
    · intro a ha
      rw [load32_store32_disj _ _ _ _ (by
        rcases ha M (by omega) with h | h
        · exact Or.inr h
        · exact Or.inl h)]
      exact i2 a (fun k hk => ha k (by omega))

/-- Claim C13. For a VADDSUB job staged as in the vector test
(`stageLoopNest(0, 0, 1, ..)` with count `N = n 0` and element stride 1 on all
three AGUs; `stageCmd(VADDSUB, initSel = 1, auxFunc = 0, irqCfg, p)`) whose
result words overlap no operand word, a completed `issueCmd` leaves in every
output word `res[i]` the value `pcsToFp32` of the sign extension from bit 283 of
`(fp32ToPcs(A[i]) + s * fp32ToPcs(B[i])) mod 2^284`, `s = +1` for `p = 0` and
`s = -1` for `p = 1`, from the operand words before the command; and the command
completes when address checking is off. -/
theorem vaddsub_job_result (ntx0 : ntx_api) (n : Nat → Nat) (S : Nat → Nat → Int) (d : ntx_api)
    (base0 base1 base2 : Int) (irqCfg : Nat) (p : Bool)
    (hstage : stageLoopNest ntx0 0 0 1 n S = Outcome.done d)
    (hS0 : S 0 0 = 1) (hS1 : S 1 0 = 1) (hS2 : S 2 0 = 1)
    (hsep : ∀ i j : Nat, i < n 0 → j < n 0 →
      (base2 + 4 * (i : Int) + 4 ≤ base0 + 4 * (j : Int)
        ∨ base0 + 4 * (j : Int) + 4 ≤ base2 + 4 * (i : Int)) ∧
      (base2 + 4 * (i : Int) + 4 ≤ base1 + 4 * (j : Int)
        ∨ base1 + 4 * (j : Int) + 4 ≤ base2 + 4 * (i : Int))) :
    (∀ (r : NstRun NtxState) (x : ntx_api × NstRun NtxState),
      issueCmd (stageCmd (stageAguOffs d base0 base1 base2) 1 1 0 irqCfg p) r = Outcome.done x →
      ∀ i : Nat, i < n 0 →
        load32 x.2.st.mem (base2 + 4 * (i : Int))
          = pcsToFp32 (accuOfNat (signExt284
              (((fp32ToPcs (load32 r.st.mem (base0 + 4 * (i : Int)))).toInt
                + (if p = true then -1 else 1)
                  * (fp32ToPcs (load32 r.st.mem (base1 + 4 * (i : Int)))).toInt)
                % 2 ^ 284).toNat))) ∧
    (ntx0.checkTcdmAddrs = false → (∀ l, l < 5 → ntx0.loopBound l < 2 ^ 16) →
      ∀ r : NstRun NtxState,
        ∃ x, issueCmd (stageCmd (stageAguOffs d base0 base1 base2) 1 1 0 irqCfg p) r
          = Outcome.done x) := by
  obtain ⟨_, hn, ⟨l1, l2, l3⟩, hst, hlb, hrest, hc, _⟩ :=
    stageLoopNest_done ntx0 0 0 1 n S d hstage
  have hn0 := hn 0 (by omega)
  have hlb0 : d.loopBound 0 = n 0 - 1 := hlb 0 (by omega)
  have st0 : d.aguStride 0 0 = 4 := by
    rw [hst 0 0 (by omega) (by omega), hS0]; simp [lowerOffset]; decide
  have st1 : d.aguStride 1 0 = 4 := by
    rw [hst 1 0 (by omega) (by omega), hS1]; simp [lowerOffset]; decide
  have st2 : d.aguStride 2 0 = 4 := by
    rw [hst 2 0 (by omega) (by omega), hS2]; simp [lowerOffset]; decide
  generalize hjob : stageCmd (stageAguOffs d base0 base1 base2) 1 1 0 irqCfg p = job
  have j1 : job.initLevel = 0 := by rw [← hjob]; exact l1
  have j2 : job.innerLevel = 0 := by rw [← hjob]; exact l2
  have j3 : job.outerLevel = 1 := by rw [← hjob]; exact l3
  have j4 : job.opCode = 1 := by rw [← hjob]; rfl
  have j5 : job.initSel = 1 := by rw [← hjob]; rfl
  have j6 : job.auxFunc = 0 := by rw [← hjob]; rfl
  have j7 : job.polarity = p := by rw [← hjob]; rfl
  have j8 : job.loopBound = d.loopBound := by rw [← hjob]; rfl
  have j9 : job.aguStride = d.aguStride := by rw [← hjob]; rfl
  have j10 : job.aguOff 0 = base0 ∧ job.aguOff 1 = base1 ∧ job.aguOff 2 = base2 := by
    rw [← hjob]; exact ⟨rfl, rfl, rfl⟩
  have j11 : job.checkTcdmAddrs = d.checkTcdmAddrs := by rw [← hjob]; rfl
  constructor
  · intro r x hx i hi
    obtain ⟨hrun, _⟩ := issueCmd_done job r x hx
    have hfin := nstFuncModel_oneLevel job (nstOps job) r x.2 hrun j3
    have hop : nstOps job job.opCode = nstVAddSubOp job := by rw [j4]; rfl
    rw [hop] at hfin
    unfold oneLevelRun at hfin
    simp only [j1, j2, zero_ne_one, if_false] at hfin
    have hN : job.loopBound 0 + 1 = n 0 := by rw [j8, hlb0]; omega
    rw [hN] at hfin
    have hg0 : ∀ j : Nat, aguAt job job.aguOff j 0 = base0 + 4 * (j : Int) := by
      intro j; simp [aguAt, j9, st0, j10.1]; ring
    have hg1 : ∀ j : Nat, aguAt job job.aguOff j 1 = base1 + 4 * (j : Int) := by
      intro j; simp [aguAt, j9, st1, j10.2.1]; ring
    have hg2 : ∀ j : Nat, aguAt job job.aguOff j 2 = base2 + 4 * (j : Int) := by
      intro j; simp [aguAt, j9, st2, j10.2.2]; ring
    obtain ⟨W, hW⟩ : ∃ W : Nat → Nat → Nat, ∀ a b,
        pcsToFp32 (accuOfNat (signExt284 (((fp32ToPcs a).toInt
          + (if p = true then -1 else 1) * (fp32ToPcs b).toInt) % 2 ^ 284).toNat)) = W a b :=
      ⟨_, fun _ _ => rfl⟩
    have hWlt : ∀ a b, W a b < 2 ^ 32 := fun a b => by rw [← hW]; exact pcsToFp32_lt _
    rw [hW]
    have hstep : ∀ (s : NtxState) (j : Nat),
        (oneLevelStep job (nstVAddSubOp job) job.aguOff s j).mem
          = store32 s.mem (base2 + 4 * (j : Int))
              (W (load32 s.mem (base0 + 4 * (j : Int))) (load32 s.mem (base1 + 4 * (j : Int)))) := by
      intro s j
      have hs : (nstVAddSubOp job).store = macStore job := rfl
      unfold oneLevelStep
      simp only [j1, j2, if_true]
      rw [hs, macStore_mem job j6]
      · simp only [nstVAddSubOp, j5, j7, hg0, hg1, hg2]
        rw [if_neg (by omega)]
        simp only []
        rw [pcsMac_overwrite p _ _ 1 (by decide)]
        have e0 := pcsMac_accu_zero (load32 s.mem (base0 + 4 * (j : Int)))
          (productImage p (load32 s.mem (base1 + 4 * (j : Int))) C_FP32_ONE_VAL)
        rw [e0, vaddsub_word, hW]
      · simp only [nstVAddSubOp, j5, j7]
        rw [if_neg (by omega)]
        simp only []
        have e0 := pcsMac_image false (load32 s.mem (aguAt job job.aguOff j 0)) C_FP32_ONE_VAL
          (pcsMac (load32 s.mem (aguAt job job.aguOff j 1)) C_FP32_ONE_VAL 1 (polarityBit p) 0
            s.accuState (load32 s.mem (aguAt job job.aguOff j 1))).1 0
        have e1 : polarityBit false = 0 := rfl
        rw [e1] at e0
        rw [e0]
        exact pcsAdd_wf _ _
    have h := fold_store_words (oneLevelStep job (nstVAddSubOp job) job.aguOff)
      (fun j => base2 + 4 * (j : Int))
      (fun m j => W (load32 m (base0 + 4 * (j : Int))) (load32 m (base1 + 4 * (j : Int))))
      (n 0) hstep (fun _ _ => hWlt _ _) (fun a b _ _ hab => by dsimp only; omega)
      (fun m m2 j hj hm => by
        simp only []
        rw [hm _ (fun k hk => by
            rcases (hsep k j hk hj).1 with h | h
            · exact Or.inr h
            · exact Or.inl h),
          hm _ (fun k hk => by
            rcases (hsep k j hk hj).2 with h | h
            · exact Or.inr h
            · exact Or.inl h)])
      r.st (n 0) (le_refl _)
    rw [hfin]
    exact h.1 i hi
  · intro hc0 hb0 r
    apply issueCmd_completes job r
    · rw [j1, j2, j3]; omega
    · intro l hl
      rw [j8]
      by_cases h0 : l = 0
      · subst h0; rw [hlb0]; omega
      · rw [(hrest l (by omega)).1]; exact hb0 l hl
    · rw [j4]; omega
    · rw [j11, hc, hc0]
theorem vaddsub_job_result_witness :
    (issueCmd (exampleJob unitStrides 0 0 1 1 0 true) (exampleRun exampleWords)).isDone = true ∧
      load32 (issueCmd (exampleJob unitStrides 0 0 1 1 0 true)
        (exampleRun exampleWords)).state.2.st.mem 4 = 0x40200000 := by
  obtain ⟨d, hd⟩ := stageLoopNest_completes ntx_api.fresh 0 0 1 (fun _ => 2) unitStrides
    (by decide) (by decide) (by decide) (by decide)
  have h := vaddsub_job_result ntx_api.fresh (fun _ => 2) unitStrides d 16 32 0 1 true hd
    rfl rfl rfl (by
      intro i j hi hj
      have hi2 : i < 2 := hi
      have hj2 : j < 2 := hj
      omega)
  have e : exampleJob unitStrides 0 0 1 1 0 true
      = stageCmd (stageAguOffs d 16 32 0) 1 1 0 1 true := by
    unfold exampleJob; rw [hd]; rfl
  obtain ⟨x, hx⟩ := h.2 (by decide) (by decide) (exampleRun exampleWords)
  have hv := h.1 (exampleRun exampleWords) x hx 1 (by decide)
  rw [e, hx]
  refine ⟨rfl, ?_⟩
  show load32 x.2.st.mem 4 = 0x40200000
  have e4 : (0 : Int) + 4 * ((1 : Nat) : Int) = 4 := by decide
  rw [e4] at hv
  rw [hv]
  decide
/-! ## A single product -/

/-- The result word of `pcsMac` with `normEn` set is `pcsToFp32` of the
accumulator it leaves. -/
theorem pcsMac_norm (a b accuSel subEn : Nat) (accu : fp32_accuType) (res : Nat) :
    (pcsMac a b accuSel subEn 1 accu res).2 = pcsToFp32 (pcsMac a b accuSel subEn 0 accu res).1 := by
  simp [pcsMac]

/-- The word `pcsToFp32` returns for the magnitude `T`, negated when `sg` is
set, whose most significant set bit has index `p`, `23 ≤ p ≤ 277`. -/
theorem pcsToFp32_signed (T : fp32_accuType) (hwf : T.wf) (sg : Bool) (p : Nat)
    (hp1 : 2 ^ p ≤ T.toNat) (hp2 : T.toNat < 2 ^ (p + 1)) (h23 : 23 ≤ p) (h277 : p ≤ 277) :
    pcsToFp32 (if sg = true then pcsInv T else T)
      = (if sg = true then 2 ^ 31 else 0) + (p - 23) * 2 ^ 23 + T.toNat / 2 ^ (p - 23) % 2 ^ 23 := by
  have hlt : T.toNat < 2 ^ 278 :=
    lt_of_lt_of_le hp2 (Nat.pow_le_pow_right (by norm_num) (by omega))
  have hpos : 0 < T.toNat := lt_of_lt_of_le (Nat.pos_pow_of_pos _ (by norm_num)) hp1
  rw [pcsToFp32_eq]
  cases sg
  · simp only [Bool.false_eq_true, if_false]
    have h0 : T.get (C_FP32_N_ACCU_WORDS - 1) >>> 63 = 0 := by
      apply get4_shift_zero; omega
    simp only [h0, ne_eq, not_true_eq_false, decide_False, Bool.false_eq_true, if_false]
    exact pcsToFp32Mag_eq T hwf 0 (Or.inl rfl) p hp1 hp2 h23 h277
  · simp only [if_true]
    have hneg : (pcsInv T).get (C_FP32_N_ACCU_WORDS - 1) >>> 63 ≠ 0 := by
      apply get4_shift_ne_zero _ (pcsInv_wf _)
      rw [pcsInv_toNat _ hwf]
      omega
    simp only [hneg, ne_eq, not_false_eq_true, decide_True, if_true]
    have e31 : C_FP32_SIGN_MASK = 2 ^ 31 := by decide
    rw [pcsInv_pcsInv T hwf, e31]
    exact pcsToFp32Mag_eq T hwf (2 ^ 31) (Or.inr rfl) p hp1 hp2 h23 h277

/-- The placement of a product mantissa `P` (`2^(46+h) ≤ P < 2^(47+h)`) at
exponent `E`: its leading bit and the 23 bits below it. -/
theorem product_place (P E h : Nat) (h1 : 2 ^ (46 + h) ≤ P) (h2 : P < 2 ^ (47 + h)) :
    2 ^ (E + h + 23) ≤ P * 2 ^ E / 2 ^ 23 ∧ P * 2 ^ E / 2 ^ 23 < 2 ^ (E + h + 23 + 1) ∧
    P * 2 ^ E / 2 ^ 23 / 2 ^ (E + h) = P / 2 ^ (23 + h) := by
  have hE : 0 < 2 ^ E := Nat.pos_pow_of_pos _ (by norm_num)
  refine ⟨?_, ?_, ?_⟩
  · rw [Nat.le_div_iff_mul_le (by norm_num)]
    calc 2 ^ (E + h + 23) * 2 ^ 23 = 2 ^ (46 + h) * 2 ^ E := by
          rw [← pow_add, ← pow_add]; congr 1; omega
      _ ≤ P * 2 ^ E := Nat.mul_le_mul_right _ h1
  · rw [Nat.div_lt_iff_lt_mul (by norm_num)]
    calc P * 2 ^ E < 2 ^ (47 + h) * 2 ^ E := Nat.mul_lt_mul_of_pos_right h2 hE
      _ = 2 ^ (E + h + 23 + 1) * 2 ^ 23 := by
          rw [← pow_add, ← pow_add]; congr 1; omega
  · rw [Nat.div_div_eq_div_mul, ← pow_add]
    have e : 23 + (E + h) = (23 + h) + E := by omega
    rw [e, pow_add, Nat.mul_div_mul_right _ _ hE]
/-- Claim C14. A single product is truncated, not rounded: for nonzero words `a`,
`b` (in particular 32-bit words) with `E = bexp(a) + bexp(b) - 127`,
`P = mant_full(a) * mant_full(b)` and `h = 1` if `P >= 2^47`, else `0`, whenever
`0 <= E` and `E + h <= 254`, `pcsMac(a, b, accuSel = 1, subEn = s, normEn = 1)`
returns `res = (sign(a) xor sign(b) xor s) << 31 | (E + h) << 23 |
((P >> (23 + h)) & 0x7FFFFF)`, whatever the accumulator and `res` held before. -/
theorem pcsMac_product_truncated (a b : Nat) (s : Bool) (accu : fp32_accuType) (res : Nat)
    (hza : fp32_isZero a = false) (hzb : fp32_isZero b = false)
    (hE0 : 0 ≤ fp32_getExp a + fp32_getExp b - 127)
    (hE1 : fp32_getExp a + fp32_getExp b - 127
      + (if 2 ^ 47 ≤ fp32_getMantFull a * fp32_getMantFull b then 1 else 0) ≤ 254) :
    (pcsMac a b 1 (polarityBit s) 1 accu res).2
      = (((if xor (xor (fp32_getSign a) (fp32_getSign b)) s = true then 1 else 0) <<< 31)
        ||| ((fp32_getExp a + fp32_getExp b - 127
              + (if 2 ^ 47 ≤ fp32_getMantFull a * fp32_getMantFull b then 1 else 0)).toNat <<< 23)
        ||| (((fp32_getMantFull a * fp32_getMantFull b)
              >>> (23 + (if 2 ^ 47 ≤ fp32_getMantFull a * fp32_getMantFull b then 1 else 0)))
            &&& 0x7FFFFF)) := by
  rw [pcsMac_norm, pcsMac_overwrite s a b 1 (by decide)]
  have hma : fp32_getMantFull a = a % 2 ^ 23 + 2 ^ 23 := fp32_getMantFull_eq a
  have hmb : fp32_getMantFull b = b % 2 ^ 23 + 2 ^ 23 := fp32_getMantFull_eq b
  have ha1 := Nat.mod_lt a (show 0 < 2 ^ 23 by norm_num)
  have hb1 := Nat.mod_lt b (show 0 < 2 ^ 23 by norm_num)
  have hP1 : 2 ^ 46 ≤ fp32_getMantFull a * fp32_getMantFull b := by
    calc 2 ^ 46 = 2 ^ 23 * 2 ^ 23 := by norm_num
      _ ≤ fp32_getMantFull a * fp32_getMantFull b := Nat.mul_le_mul (by omega) (by omega)
  have hP2 : fp32_getMantFull a * fp32_getMantFull b < 2 ^ 48 := by
    calc fp32_getMantFull a * fp32_getMantFull b
        < 2 ^ 24 * 2 ^ 24 := Nat.mul_lt_mul'' (by omega) (by omega)
      _ = 2 ^ 48 := by norm_num
  unfold productImage
  rw [if_neg (by simp [hza, hzb])]
  generalize fp32_getMantFull a * fp32_getMantFull b = P at *
  generalize xor (xor (fp32_getSign a) (fp32_getSign b)) s = sg
  rw [fp32_getExp_eq, fp32_getExp_eq] at hE0 hE1 ⊢
  generalize a / 2 ^ 23 % 2 ^ 8 = ea at *
  generalize b / 2 ^ 23 % 2 ^ 8 = eb at *
  obtain ⟨h, hh⟩ : ∃ h : Nat, h = (if 2 ^ 47 ≤ P then 1 else 0) := ⟨_, rfl⟩
  have hhI : ((if 2 ^ 47 ≤ P then 1 else 0 : Int)) = (h : Int) := by
    rw [hh]; split <;> rfl
  rw [hhI] at hE1 ⊢
  rw [← hh]
  obtain ⟨E, hE⟩ : ∃ E : Nat, ((ea : Int) + (eb : Int) - 127) = (E : Int) :=
    ⟨(ea + eb - 127 : Nat), by omega⟩
  rw [hE] at hE1 ⊢
  have hEh : E + h ≤ 254 := by omega
  have hb46 : 2 ^ (46 + h) ≤ P ∧ P < 2 ^ (47 + h) := by
    rw [hh]; split <;> constructor <;> norm_num <;> omega
  obtain ⟨q1, q2, q3⟩ := product_place P E h hb46.1 hb46.2
  have hT := extPlace_toNat E P (by omega) hP2
  have hTwf := extPlace_wf (E : Int) P (by omega)
  have himg : extFp32ToPcs sg (E : Int) P
      = if sg = true then pcsInv (extPlace (E : Int) P) else extPlace (E : Int) P := by
    rw [extFp32ToPcs_eq]
    have n1 : ¬ ((E : Int) < 0) := by omega
    have n2 : ¬ ((E : Int) ≥ (C_FP32_EXP_MASK_ALIGNED : Int)) := by
      simp only [C_FP32_EXP_MASK_ALIGNED]; omega
    rw [if_neg n1]
    simp only [if_neg n2]
  rw [himg, pcsToFp32_signed (extPlace (E : Int) P) hTwf sg (E + h + 23)
    (by rw [hT]; exact q1) (by rw [hT]; exact q2) (by omega) (by omega)]
  rw [hT, Nat.add_sub_cancel, q3]
  have hm : (P >>> (23 + h)) &&& 0x7FFFFF = P / 2 ^ (23 + h) % 2 ^ 23 := by
    rw [Nat.shiftRight_eq_div_pow, show (0x7FFFFF : Nat) = 2 ^ 23 - 1 by norm_num, and_low]
  have ht : ((E : Int) + (h : Int)).toNat = E + h := by omega
  rw [hm, ht]
  have hmlt := Nat.mod_lt (P / 2 ^ (23 + h)) (show 0 < 2 ^ 23 by norm_num)
  generalize P / 2 ^ (23 + h) % 2 ^ 23 = m at *
  have hs : (if sg = true then 1 else 0) <<< 31 = (if sg = true then 2 ^ 31 else 0) := by
    cases sg <;> rfl
  rw [hs, Nat.shiftLeft_eq]
  have o1 : (if sg = true then 2 ^ 31 else 0) ||| (E + h) * 2 ^ 23
      = (if sg = true then 2 ^ 31 else 0) + (E + h) * 2 ^ 23 := by
    apply sign_or
    · cases sg
      · exact Or.inl rfl
      · exact Or.inr rfl
    · omega
  rw [o1]
  apply (or_eq_add_of_mod _ _ 23 _ hmlt).symm
  cases sg <;> simp

theorem pcsMac_product_truncated_witness :
    (pcsMac 0x40400001 0x3FC00001 1 1 1 fp32_accuType.zero 0).2 = 0xC0900001 :=
  (pcsMac_product_truncated 0x40400001 0x3FC00001 true fp32_accuType.zero 0
    (by decide) (by decide) (by decide) (by decide)).trans (by decide)
/-! ## The MAXMIN job -/

theorem floatGt_eq (x y : Nat) (hx : fp32_isNaN x = false) (hy : fp32_isNaN y = false) :
    floatGt x y = decide (fp32Key x > fp32Key y) := by
  simp [floatGt, hx, hy]

/-- One iteration of a MAXMIN job whose init and store run at level 1. -/
theorem maxmin_step (job : ntx_api) (j1 : job.initLevel = 1) (j2 : job.innerLevel = 1)
    (agu : Nat → Int) (s : NtxState) (j : Nat) :
    oneLevelStep job (nstMaxMinOp job) agu s j
      = { s with
          aluState := (if xor (floatGt s.aluState (load32 s.mem (aguAt job agu j 1)))
              (!job.polarity) = true then load32 s.mem (aguAt job agu j 1) else s.aluState),
          idxState := (if xor (floatGt s.aluState (load32 s.mem (aguAt job agu j 1)))
              (!job.polarity) = true then s.cntState else s.idxState),
          cntState := u32 (s.cntState + 1) } := by
  simp only [oneLevelStep, nstMaxMinOp, j1, j2, one_ne_zero, if_false]
  split <;> rfl

/-- The registers after `k` iterations of a MAXMIN job with polarity 0 over the
stream `B`, started with `aluState = B 0`: the last index at which the
maximum so far is attained, and the word there. -/
theorem maxmin_fold_max (job : ntx_api) (j1 : job.initLevel = 1) (j2 : job.innerLevel = 1)
    (jp : job.polarity = false) (agu : Nat → Int) (B : Nat → Nat) (N : Nat) (hN : N ≤ 2 ^ 16)
    (hnan : ∀ j, j < N → fp32_isNaN (B j) = false) (s : NtxState)
    (hB : ∀ j, load32 s.mem (aguAt job agu j 1) = B j) (ha : s.aluState = B 0)
    (hc : s.cntState = 0) :
    ∀ k, k ≤ N →
      ((List.range k).foldl (oneLevelStep job (nstMaxMinOp job) agu) s).mem = s.mem ∧
      ((List.range k).foldl (oneLevelStep job (nstMaxMinOp job) agu) s).cntState = k ∧
      (k = 0 → ((List.range k).foldl (oneLevelStep job (nstMaxMinOp job) agu) s).aluState = B 0) ∧
      (1 ≤ k →
        ((List.range k).foldl (oneLevelStep job (nstMaxMinOp job) agu) s).idxState < k ∧
        ((List.range k).foldl (oneLevelStep job (nstMaxMinOp job) agu) s).aluState
          = B ((List.range k).foldl (oneLevelStep job (nstMaxMinOp job) agu) s).idxState ∧
        (∀ j, j < k → fp32Key (B j)
          ≤ fp32Key (B ((List.range k).foldl (oneLevelStep job (nstMaxMinOp job) agu) s).idxState)) ∧
        (∀ j, ((List.range k).foldl (oneLevelStep job (nstMaxMinOp job) agu) s).idxState < j →
          j < k → fp32Key (B j)
            < fp32Key (B ((List.range k).foldl (oneLevelStep job (nstMaxMinOp job) agu) s).idxState))) := by
  intro k
  induction k with
  | zero =>
    intro _
    exact ⟨rfl, hc, fun _ => ha, fun h => absurd h (by omega)⟩
  | succ k ih =>
    intro hk
    obtain ⟨i1, i2, i3, i4⟩ := ih (by omega)
    rw [List.range_succ, List.foldl_append]
    simp only [List.foldl_cons, List.foldl_nil]
    generalize (List.range k).foldl (oneLevelStep job (nstMaxMinOp job) agu) s = t at *
    rw [maxmin_step job j1 j2]
    simp only [i1, hB, jp, Bool.not_false, Bool.xor_true, i2]
    have hu : u32 (k + 1) = k + 1 := by unfold u32; omega
    refine ⟨trivial, hu, fun h => absurd h (by omega), fun _ => ?_⟩
    by_cases hk0 : k = 0
    · subst hk0
      have e := i3 rfl
      have hg : floatGt t.aluState (B 0) = false := by
        rw [e, floatGt_eq _ _ (hnan 0 (by omega)) (hnan 0 (by omega))]
        simp
      simp only [hg, Bool.not_false, if_true]
      refine ⟨by omega, trivial, fun j hj => ?_, fun j h1 h2 => absurd h2 (by omega)⟩
      have : j = 0 := by omega
      subst this
      exact le_refl _
    · obtain ⟨a1, a2, a3, a4⟩ := i4 (by omega)
      have hni := hnan t.idxState (by omega)
      rw [a2, floatGt_eq _ _ hni (hnan k (by omega))]
      by_cases hgt : fp32Key (B t.idxState) > fp32Key (B k)
      · simp only [hgt, decide_True, Bool.not_true, Bool.false_eq_true, if_false]
        refine ⟨by omega, trivial, fun j hj => ?_, fun j h1 h2 => ?_⟩
        · by_cases hjk : j = k
          · subst hjk; omega
          · exact a3 j (by omega)
        · by_cases hjk : j = k
          · subst hjk; omega
          · exact a4 j h1 (by omega)
      · simp only [hgt, decide_False, Bool.not_false, if_true]
        refine ⟨by omega, trivial, fun j hj => ?_, fun j h1 h2 => absurd h2 (by omega)⟩
        by_cases hjk : j = k
        · subst hjk; exact le_refl _
        · have := a3 j (by omega)
          omega

/-- The registers after `k` iterations of a MAXMIN job with polarity 1 over the
stream `B`, started with `aluState = B 0`: either no word below `B 0` has been
seen and `idxState` has not been written, or `idxState` is the first index at
which the minimum so far is attained. -/
theorem maxmin_fold_min (job : ntx_api) (j1 : job.initLevel = 1) (j2 : job.innerLevel = 1)
    (jp : job.polarity = true) (agu : Nat → Int) (B : Nat → Nat) (N : Nat) (hN : N ≤ 2 ^ 16)
    (hnan : ∀ j, j < N → fp32_isNaN (B j) = false) (s : NtxState)
    (hB : ∀ j, load32 s.mem (aguAt job agu j 1) = B j) (ha : s.aluState = B 0)
    (hc : s.cntState = 0) :
    ∀ k, k ≤ N →
      ((List.range k).foldl (oneLevelStep job (nstMaxMinOp job) agu) s).mem = s.mem ∧
      ((List.range k).foldl (oneLevelStep job (nstMaxMinOp job) agu) s).cntState = k ∧
      ((((List.range k).foldl (oneLevelStep job (nstMaxMinOp job) agu) s).aluState = B 0 ∧
        ((List.range k).foldl (oneLevelStep job (nstMaxMinOp job) agu) s).idxState = s.idxState ∧
        ∀ j, j < k → fp32Key (B 0) ≤ fp32Key (B j)) ∨
       (0 < ((List.range k).foldl (oneLevelStep job (nstMaxMinOp job) agu) s).idxState ∧
        ((List.range k).foldl (oneLevelStep job (nstMaxMinOp job) agu) s).idxState < k ∧
        ((List.range k).foldl (oneLevelStep job (nstMaxMinOp job) agu) s).aluState
          = B ((List.range k).foldl (oneLevelStep job (nstMaxMinOp job) agu) s).idxState ∧
        (∀ j, j < k →
          fp32Key (B ((List.range k).foldl (oneLevelStep job (nstMaxMinOp job) agu) s).idxState)
            ≤ fp32Key (B j)) ∧
        (∀ j, j < ((List.range k).foldl (oneLevelStep job (nstMaxMinOp job) agu) s).idxState →
          fp32Key (B ((List.range k).foldl (oneLevelStep job (nstMaxMinOp job) agu) s).idxState)
            < fp32Key (B j)))) := by
  intro k
  induction k with
  | zero =>
    intro _
    exact ⟨rfl, hc, Or.inl ⟨ha, rfl, fun j hj => absurd hj (by omega)⟩⟩
  | succ k ih =>
    intro hk
    obtain ⟨i1, i2, i3⟩ := ih (by omega)
    rw [List.range_succ, List.foldl_append]
    simp only [List.foldl_cons, List.foldl_nil]
    generalize (List.range k).foldl (oneLevelStep job (nstMaxMinOp job) agu) s = t at *
    rw [maxmin_step job j1 j2]
    simp only [i1, hB, jp, Bool.not_true, Bool.xor_false, i2]
    have hu : u32 (k + 1) = k + 1 := by unfold u32; omega
    refine ⟨trivial, hu, ?_⟩
    rcases i3 with ⟨a1, a2, a3⟩ | ⟨a0, a1, a2, a3, a4⟩
    · rw [a1, floatGt_eq _ _ (hnan 0 (by omega)) (hnan k (by omega))]
      by_cases hgt : fp32Key (B 0) > fp32Key (B k)
      · simp only [hgt, decide_True, if_true]
        have hk0 : 0 < k := by
          rcases Nat.eq_zero_or_pos k with h | h
          · subst h; omega
          · exact h
        refine Or.inr ⟨hk0, by omega, trivial, fun j hj => ?_, fun j hj => ?_⟩
        · by_cases hjk : j = k
          · subst hjk; exact le_refl _
          · have := a3 j (by omega)
            omega
        · have := a3 j hj
          omega
      · simp only [hgt, decide_False, Bool.false_eq_true, if_false]
        refine Or.inl ⟨trivial, a2, fun j hj => ?_⟩
        by_cases hjk : j = k
        · subst hjk; omega
        · exact a3 j (by omega)
    · have hni := hnan t.idxState (by omega)
      rw [a2, floatGt_eq _ _ hni (hnan k (by omega))]
      by_cases hgt : fp32Key (B t.idxState) > fp32Key (B k)
      · simp only [hgt, decide_True, if_true]
        refine Or.inr ⟨by omega, by omega, trivial, fun j hj => ?_, fun j hj => ?_⟩
        · by_cases hjk : j = k
          · subst hjk; exact le_refl _
          · have := a3 j (by omega)
            omega
        · have := a3 j hj
          omega
      · simp only [hgt, decide_False, Bool.false_eq_true, if_false]
        refine Or.inr ⟨a0, by omega, trivial, fun j hj => ?_, a4⟩
        by_cases hjk : j = k
        · subst hjk; omega
        · exact a3 j (by omega)

/-- What a completed MAXMIN job staged as in the test leaves: the store at the
end of the level-1 frame writes `idxState` (`auxFunc` nonzero) or `aluState`
at the AGU2 address, and the two registers are as `maxmin_fold_max` and
`maxmin_fold_min` describe, for the stream `B[j]` at `base1 + 4 j`. -/
theorem maxmin_job_run (ntx0 : ntx_api) (n : Nat → Nat) (S : Nat → Nat → Int) (d : ntx_api)
    (base0 base1 base2 : Int) (auxFunc irqCfg : Nat) (p : Bool)
    (hstage : stageLoopNest ntx0 1 1 1 n S = Outcome.done d) (hS1 : S 1 0 = 1)
    (r : NstRun NtxState) (x : ntx_api × NstRun NtxState)
    (hx : issueCmd (stageCmd (stageAguOffs d base0 base1 base2) 4 1 auxFunc irqCfg p) r
      = Outcome.done x)
    (hnan : ∀ j : Nat, j < n 0 → fp32_isNaN (load32 r.st.mem (base1 + 4 * (j : Int))) = false) :
    ∃ alu idx : Nat,
      x.2.st.mem = store32 r.st.mem (base2 + ((n 0 - 1 : Nat) : Int) * d.aguStride 2 0)
        (if auxFunc ≠ 0 then idx else alu) ∧
      (p = false →
        idx < n 0 ∧ alu = load32 r.st.mem (base1 + 4 * (idx : Int)) ∧
        (∀ j : Nat, j < n 0 → fp32Key (load32 r.st.mem (base1 + 4 * (j : Int)))
          ≤ fp32Key (load32 r.st.mem (base1 + 4 * (idx : Int)))) ∧
        (∀ j : Nat, idx < j → j < n 0 → fp32Key (load32 r.st.mem (base1 + 4 * (j : Int)))
          < fp32Key (load32 r.st.mem (base1 + 4 * (idx : Int))))) ∧
      (p = true →
        (alu = load32 r.st.mem base1 ∧ idx = r.st.idxState ∧
          ∀ j : Nat, j < n 0 → fp32Key (load32 r.st.mem base1)
            ≤ fp32Key (load32 r.st.mem (base1 + 4 * (j : Int)))) ∨
        (0 < idx ∧ idx < n 0 ∧ alu = load32 r.st.mem (base1 + 4 * (idx : Int)) ∧
          (∀ j : Nat, j < n 0 → fp32Key (load32 r.st.mem (base1 + 4 * (idx : Int)))
            ≤ fp32Key (load32 r.st.mem (base1 + 4 * (j : Int)))) ∧
          (∀ j : Nat, j < idx → fp32Key (load32 r.st.mem (base1 + 4 * (idx : Int)))
            < fp32Key (load32 r.st.mem (base1 + 4 * (j : Int)))))) := by
  obtain ⟨_, hn, ⟨l1, l2, l3⟩, hst, hlb, hrest, hc, _⟩ :=
    stageLoopNest_done ntx0 1 1 1 n S d hstage
  have hn0 := hn 0 (by omega)
  have hlb0 : d.loopBound 0 = n 0 - 1 := hlb 0 (by omega)
  have st1 : d.aguStride 1 0 = 4 := by
    rw [hst 1 0 (by omega) (by omega), hS1]; simp [lowerOffset]; decide
  generalize hjob : stageCmd (stageAguOffs d base0 base1 base2) 4 1 auxFunc irqCfg p = job at hx
  have j1 : job.initLevel = 1 := by rw [← hjob]; exact l1
  have j2 : job.innerLevel = 1 := by rw [← hjob]; exact l2
  have j3 : job.outerLevel = 1 := by rw [← hjob]; exact l3
  have j4 : job.opCode = 4 := by rw [← hjob]; rfl
  have j5 : job.initSel = 1 := by rw [← hjob]; rfl
  have j6 : job.auxFunc = auxFunc := by rw [← hjob]; rfl
  have j7 : job.polarity = p := by rw [← hjob]; rfl
  have j8 : job.loopBound = d.loopBound := by rw [← hjob]; rfl
  have j9 : job.aguStride = d.aguStride := by rw [← hjob]; rfl
  have j10 : job.aguOff 0 = base0 ∧ job.aguOff 1 = base1 ∧ job.aguOff 2 = base2 := by
    rw [← hjob]; exact ⟨rfl, rfl, rfl⟩
  obtain ⟨hrun, _⟩ := issueCmd_done job r x hx
  have hfin := nstFuncModel_oneLevel job (nstOps job) r x.2 hrun j3
  have hop : nstOps job job.opCode = nstMaxMinOp job := by rw [j4]; rfl
  rw [hop] at hfin
  unfold oneLevelRun at hfin
  simp only [j1, j2, if_true] at hfin
  have hN : job.loopBound 0 + 1 = n 0 := by rw [j8, hlb0]; omega
  have hN1 : job.loopBound 0 = n 0 - 1 := by rw [j8, hlb0]
  rw [hN, hN1] at hfin
  have hg1 : ∀ j : Nat, aguAt job job.aguOff j 1 = base1 + 4 * (j : Int) := by
    intro j; simp [aguAt, j9, st1, j10.2.1]; ring
  have hg2 : ∀ j : Nat, aguAt job job.aguOff j 2 = base2 + (j : Int) * d.aguStride 2 0 := by
    intro j; simp [aguAt, j9, j10.2.2]
  have hinit : (nstMaxMinOp job).init job.aguOff r.st
      = { r.st with aluState := load32 r.st.mem base1, cntState := 0 } := by
    simp [nstMaxMinOp, initAlu, j5, j10.2.1]
  rw [hinit] at hfin
  have hb0 : base1 + 4 * ((0 : Nat) : Int) = base1 := by simp
  have hstore : ∀ t : NtxState,
      ((nstMaxMinOp job).store (aguAt job job.aguOff (n 0 - 1)) t).mem
        = store32 t.mem (base2 + ((n 0 - 1 : Nat) : Int) * d.aguStride 2 0)
            (if auxFunc ≠ 0 then t.idxState else t.aluState) := by
    intro t
    simp only [nstMaxMinOp, j6, hg2]
    split <;> rfl
  cases p
  · obtain ⟨f1, _, _, f4⟩ := maxmin_fold_max job j1 j2 j7 job.aguOff
      (fun j => load32 r.st.mem (base1 + 4 * (j : Int))) (n 0) (by omega) hnan
      { r.st with aluState := load32 r.st.mem base1, cntState := 0 }
      (fun j => by rw [hg1]) (by simp) rfl (n 0) (le_refl _)
    obtain ⟨g1, g2, g3, g4⟩ := f4 (by omega)
    refine ⟨_, _, ?_, fun _ => ⟨g1, g2, g3, g4⟩, fun h => absurd h (by decide)⟩
    rw [hfin, hstore, f1]
  · obtain ⟨f1, _, f3⟩ := maxmin_fold_min job j1 j2 j7 job.aguOff
      (fun j => load32 r.st.mem (base1 + 4 * (j : Int))) (n 0) (by omega) hnan
      { r.st with aluState := load32 r.st.mem base1, cntState := 0 }
      (fun j => by rw [hg1]) (by simp) rfl (n 0) (le_refl _)
    simp only [hb0] at f3
    refine ⟨_, _, ?_, fun h => absurd h (by decide), fun _ => f3⟩
    rw [hfin, hstore, f1]

theorem maxmin_job_completes (ntx0 : ntx_api) (n : Nat → Nat) (S : Nat → Nat → Int) (d : ntx_api)
    (base0 base1 base2 : Int) (auxFunc irqCfg : Nat) (p : Bool)
    (hstage : stageLoopNest ntx0 1 1 1 n S = Outcome.done d)
    (hc0 : ntx0.checkTcdmAddrs = false) (hb0 : ∀ l, l < 5 → ntx0.loopBound l < 2 ^ 16)
    (r : NstRun NtxState) :
    ∃ x, issueCmd (stageCmd (stageAguOffs d base0 base1 base2) 4 1 auxFunc irqCfg p) r
      = Outcome.done x := by
  obtain ⟨_, hn, ⟨l1, l2, l3⟩, _, hlb, hrest, hc, _⟩ :=
    stageLoopNest_done ntx0 1 1 1 n S d hstage
  have hn0 := hn 0 (by omega)
  apply issueCmd_completes
  · show d.innerLevel ≤ d.initLevel ∧ d.initLevel ≤ d.outerLevel ∧ d.outerLevel ≤ 5
    rw [l1, l2, l3]; omega
  · intro l hl
    show d.loopBound l < 2 ^ 16
    by_cases h0 : l = 0
    · subst h0; rw [hlb 0 (by omega)]; omega
    · rw [(hrest l (by omega)).1]; exact hb0 l hl
  · show (4 : Nat) < 9
    omega
  · show d.checkTcdmAddrs = false
    rw [hc, hc0]

/-- Claim C15. For a MAXMIN job staged as in the test (`stageLoopNest(1, 1, 1, ..)`
with count `N = n 0` and element stride 1 on AGU1; `stageCmd(MAXMIN, initSel = 1,
auxFunc = 0, irqCfg, p)`) over a stream `B[0..N-1]` (the words at `base1 + 4 j`)
without NaN patterns, the word that a completed `issueCmd` stores at AGU2 (at
`base2 + (N - 1) * aguStride[2][0]`, which is `base2` for the stride 0 of the
test) is one of the stream words, and in the IEEE order of the values (the order
of `fp32Key`) it is the maximum of the stream for polarity 0 and the minimum for
polarity 1; and the command completes when address checking is off. -/
theorem maxmin_job_value (ntx0 : ntx_api) (n : Nat → Nat) (S : Nat → Nat → Int) (d : ntx_api)
    (base0 base1 base2 : Int) (irqCfg : Nat) (p : Bool)
    (hstage : stageLoopNest ntx0 1 1 1 n S = Outcome.done d) (hS1 : S 1 0 = 1) :
    (∀ (r : NstRun NtxState) (x : ntx_api × NstRun NtxState),
      issueCmd (stageCmd (stageAguOffs d base0 base1 base2) 4 1 0 irqCfg p) r = Outcome.done x →
      (∀ j : Nat, j < n 0 → fp32_isNaN (load32 r.st.mem (base1 + 4 * (j : Int))) = false) →
      (∃ i : Nat, i < n 0 ∧
        load32 x.2.st.mem (base2 + ((n 0 - 1 : Nat) : Int) * d.aguStride 2 0)
          = load32 r.st.mem (base1 + 4 * (i : Int))) ∧
      (p = false → ∀ j : Nat, j < n 0 →
        fp32Key (load32 r.st.mem (base1 + 4 * (j : Int)))
          ≤ fp32Key (load32 x.2.st.mem (base2 + ((n 0 - 1 : Nat) : Int) * d.aguStride 2 0))) ∧
      (p = true → ∀ j : Nat, j < n 0 →
        fp32Key (load32 x.2.st.mem (base2 + ((n 0 - 1 : Nat) : Int) * d.aguStride 2 0))
          ≤ fp32Key (load32 r.st.mem (base1 + 4 * (j : Int))))) ∧
    (ntx0.checkTcdmAddrs = false → (∀ l, l < 5 → ntx0.loopBound l < 2 ^ 16) →
      ∀ r : NstRun NtxState,
        ∃ x, issueCmd (stageCmd (stageAguOffs d base0 base1 base2) 4 1 0 irqCfg p) r
          = Outcome.done x) := by
  refine ⟨?_, fun hc0 hb0 r =>
    maxmin_job_completes ntx0 n S d base0 base1 base2 0 irqCfg p hstage hc0 hb0 r⟩
  intro r x hx hnan
  obtain ⟨_, hn, _⟩ := stageLoopNest_done ntx0 1 1 1 n S d hstage
  have hn0 := hn 0 (by omega)
  obtain ⟨alu, idx, hmem, hmax, hmin⟩ :=
    maxmin_job_run ntx0 n S d base0 base1 base2 0 irqCfg p hstage hS1 r x hx hnan
  simp only [ne_eq, not_true_eq_false, if_false] at hmem
  have hb0 : base1 + 4 * ((0 : Nat) : Int) = base1 := by simp
  cases p
  · obtain ⟨g1, g2, g3, _⟩ := hmax rfl
    have hw : load32 x.2.st.mem (base2 + ((n 0 - 1 : Nat) : Int) * d.aguStride 2 0)
        = load32 r.st.mem (base1 + 4 * (idx : Int)) := by
      rw [hmem, load32_store32_same _ _ _ (by rw [g2]; exact load32_lt _ _), g2]
    rw [hw]
    exact ⟨⟨idx, g1, rfl⟩, fun _ => g3, fun h => absurd h (by decide)⟩
  · rcases hmin rfl with ⟨g1, _, g3⟩ | ⟨_, g1, g2, g3, _⟩
    · have hw : load32 x.2.st.mem (base2 + ((n 0 - 1 : Nat) : Int) * d.aguStride 2 0)
          = load32 r.st.mem (base1 + 4 * ((0 : Nat) : Int)) := by
        rw [hmem, load32_store32_same _ _ _ (by rw [g1]; exact load32_lt _ _), g1, hb0]
      rw [hw]
      refine ⟨⟨0, by omega, rfl⟩, fun h => absurd h (by decide), fun _ => ?_⟩
      rw [hb0]
      exact g3
    · have hw : load32 x.2.st.mem (base2 + ((n 0 - 1 : Nat) : Int) * d.aguStride 2 0)
          = load32 r.st.mem (base1 + 4 * (idx : Int)) := by
        rw [hmem, load32_store32_same _ _ _ (by rw [g2]; exact load32_lt _ _), g2]
      rw [hw]
      exact ⟨⟨idx, g1, rfl⟩, fun h => absurd h (by decide), fun _ => g3⟩

theorem maxmin_job_value_witness :
    (issueCmd (exampleJob test3dStrides 1 1 4 1 0 false) (exampleRun exampleWords)).isDone = true ∧
      fp32Key (load32 (exampleRun exampleWords).st.mem 36)
        ≤ fp32Key (load32 (issueCmd (exampleJob test3dStrides 1 1 4 1 0 false)
            (exampleRun exampleWords)).state.2.st.mem 0) := by
  obtain ⟨d, hd⟩ := stageLoopNest_completes ntx_api.fresh 1 1 1 (fun _ => 2) test3dStrides
    (by decide) (by decide) (by decide) (by decide)
  have h := maxmin_job_value ntx_api.fresh (fun _ => 2) test3dStrides d 16 32 0 1 false hd
    (by decide)
  have e : exampleJob test3dStrides 1 1 4 1 0 false
      = stageCmd (stageAguOffs d 16 32 0) 4 1 0 1 false := by
    unfold exampleJob; rw [hd]; rfl
  obtain ⟨x, hx⟩ := h.2 (by decide) (by decide) (exampleRun exampleWords)
  have hv := (h.1 (exampleRun exampleWords) x hx (by decide)).2.1 rfl 1 (by decide)
  have hst : d.aguStride 2 0 = 0 := by
    have := (stageLoopNest_done ntx_api.fresh 1 1 1 (fun _ => 2) test3dStrides d hd).2.2.2.1
      2 0 (by decide) (by decide)
    rw [this]; decide
  rw [hst] at hv
  rw [e, hx]
  refine ⟨rfl, ?_⟩
  simpa using hv

/-- Claim C16 as stated fails. With polarity 0 and the stream `4.0, 4.0` the
maximum is attained first at index 0, and the job stores index 1; with
polarity 1, the stream `0.5, 4.0` (minimum at index 0) and `idxState = 7` left
by an earlier command, the job stores 7. -/
theorem maxmin_index_counterexample :
    ((issueCmd (exampleJob test3dStrides 1 1 4 1 1 false) (exampleRun tieWords)).isDone = true ∧
      (∀ j : Nat, j < 2 → fp32_isNaN (load32 (exampleRun tieWords).st.mem (32 + 4 * (j : Int)))
        = false) ∧
      (∀ j : Nat, j < 2 → fp32Key (load32 (exampleRun tieWords).st.mem (32 + 4 * (j : Int)))
        ≤ fp32Key (load32 (exampleRun tieWords).st.mem 32)) ∧
      load32 (issueCmd (exampleJob test3dStrides 1 1 4 1 1 false)
        (exampleRun tieWords)).state.2.st.mem 0 = 1) ∧
    ((issueCmd (exampleJob test3dStrides 1 1 4 1 1 true) (staleRun firstMinWords)).isDone = true ∧
      (∀ j : Nat, j < 2 →
        fp32_isNaN (load32 (staleRun firstMinWords).st.mem (32 + 4 * (j : Int))) = false) ∧
      (∀ j : Nat, j < 2 → fp32Key (load32 (staleRun firstMinWords).st.mem 32)
        ≤ fp32Key (load32 (staleRun firstMinWords).st.mem (32 + 4 * (j : Int)))) ∧
      load32 (issueCmd (exampleJob test3dStrides 1 1 4 1 1 true)
        (staleRun firstMinWords)).state.2.st.mem 0 = 7) := by
  refine ⟨⟨by decide, by decide, by decide, by decide⟩, ⟨by decide, by decide, by decide, by decide⟩⟩

/-- Claim C16, amended. For a MAXMIN job staged as in the test
(`stageLoopNest(1, 1, 1, ..)` with count `N = n 0` and element stride 1 on AGU1;
`stageCmd(MAXMIN, initSel = 1, auxFunc = 1, irqCfg, p)`), every NaN-free stream
`B[0..N-1]` and every prior state, the word that a completed `issueCmd` stores at
AGU2 is, for polarity 0, the largest index at which the stream attains its
maximum (the index of the last occurrence) and, for polarity 1 when the minimum
is not attained at index 0, the smallest index at which the stream attains its
minimum; and the command completes when address checking is off. -/
theorem maxmin_job_index (ntx0 : ntx_api) (n : Nat → Nat) (S : Nat → Nat → Int) (d : ntx_api)
    (base0 base1 base2 : Int) (irqCfg : Nat) (p : Bool)
    (hstage : stageLoopNest ntx0 1 1 1 n S = Outcome.done d) (hS1 : S 1 0 = 1) :
    (∀ (r : NstRun NtxState) (x : ntx_api × NstRun NtxState),
      issueCmd (stageCmd (stageAguOffs d base0 base1 base2) 4 1 1 irqCfg p) r = Outcome.done x →
      (∀ j : Nat, j < n 0 → fp32_isNaN (load32 r.st.mem (base1 + 4 * (j : Int))) = false) →
      ∃ w : Nat, load32 x.2.st.mem (base2 + ((n 0 - 1 : Nat) : Int) * d.aguStride 2 0) = w ∧
        (p = false →
          w < n 0 ∧
          (∀ j : Nat, j < n 0 → fp32Key (load32 r.st.mem (base1 + 4 * (j : Int)))
            ≤ fp32Key (load32 r.st.mem (base1 + 4 * (w : Int)))) ∧
          (∀ j : Nat, w < j → j < n 0 → fp32Key (load32 r.st.mem (base1 + 4 * (j : Int)))
            < fp32Key (load32 r.st.mem (base1 + 4 * (w : Int))))) ∧
        (p = true →
          (∃ j : Nat, j < n 0 ∧ fp32Key (load32 r.st.mem (base1 + 4 * (j : Int)))
            < fp32Key (load32 r.st.mem base1)) →
          w < n 0 ∧
          (∀ j : Nat, j < n 0 → fp32Key (load32 r.st.mem (base1 + 4 * (w : Int)))
            ≤ fp32Key (load32 r.st.mem (base1 + 4 * (j : Int)))) ∧
          (∀ j : Nat, j < w → fp32Key (load32 r.st.mem (base1 + 4 * (w : Int)))
            < fp32Key (load32 r.st.mem (base1 + 4 * (j : Int)))))) ∧
    (ntx0.checkTcdmAddrs = false → (∀ l, l < 5 → ntx0.loopBound l < 2 ^ 16) →
      ∀ r : NstRun NtxState,
        ∃ x, issueCmd (stageCmd (stageAguOffs d base0 base1 base2) 4 1 1 irqCfg p) r
          = Outcome.done x) := by
  refine ⟨?_, fun hc0 hb0 r =>
    maxmin_job_completes ntx0 n S d base0 base1 base2 1 irqCfg p hstage hc0 hb0 r⟩
  intro r x hx hnan
  obtain ⟨_, hn, _⟩ := stageLoopNest_done ntx0 1 1 1 n S d hstage
  have hn0 := hn 0 (by omega)
  obtain ⟨alu, idx, hmem, hmax, hmin⟩ :=
    maxmin_job_run ntx0 n S d base0 base1 base2 1 irqCfg p hstage hS1 r x hx hnan
  simp only [ne_eq, one_ne_zero, not_false_eq_true, if_true] at hmem
  cases p
  · obtain ⟨g1, g2, g3, g4⟩ := hmax rfl
    refine ⟨idx, ?_, fun _ => ⟨g1, g3, g4⟩, fun h => absurd h (by decide)⟩
    rw [hmem, load32_store32_same _ _ _ (by omega)]
  · rcases hmin rfl with ⟨_, _, g3⟩ | ⟨_, g1, g2, g3, g4⟩
    · refine ⟨_, rfl, fun h => absurd h (by decide), fun _ hex => ?_⟩
      obtain ⟨j, hj, hlt⟩ := hex
      have := g3 j hj
      omega
    · refine ⟨idx, ?_, fun h => absurd h (by decide), fun _ _ => ⟨g1, g3, g4⟩⟩
      rw [hmem, load32_store32_same _ _ _ (by omega)]

theorem maxmin_job_index_witness :
    (issueCmd (exampleJob test3dStrides 1 1 4 1 1 true) (exampleRun exampleWords)).isDone = true ∧
      load32 (issueCmd (exampleJob test3dStrides 1 1 4 1 1 true)
        (exampleRun exampleWords)).state.2.st.mem 0 < 2 := by
  obtain ⟨d, hd⟩ := stageLoopNest_completes ntx_api.fresh 1 1 1 (fun _ => 2) test3dStrides
    (by decide) (by decide) (by decide) (by decide)
  have h := maxmin_job_index ntx_api.fresh (fun _ => 2) test3dStrides d 16 32 0 1 true hd
    (by decide)
  have e : exampleJob test3dStrides 1 1 4 1 1 true
      = stageCmd (stageAguOffs d 16 32 0) 4 1 1 1 true := by
    unfold exampleJob; rw [hd]; rfl
  obtain ⟨x, hx⟩ := h.2 (by decide) (by decide) (exampleRun exampleWords)
  obtain ⟨w, hw, _, hmin⟩ := h.1 (exampleRun exampleWords) x hx (by decide)
  have hv := (hmin rfl ⟨1, by decide, by decide⟩).1
  have hst : d.aguStride 2 0 = 0 := by
    have := (stageLoopNest_done ntx_api.fresh 1 1 1 (fun _ => 2) test3dStrides d hd).2.2.2.1
      2 0 (by decide) (by decide)
    rw [this]; decide
  rw [hst] at hw
  rw [e, hx]
  refine ⟨rfl, ?_⟩
  have hw2 : load32 x.2.st.mem 0 = w := by simpa using hw
  show load32 x.2.st.mem 0 < 2
  rw [hw2]
  exact hv
/-! ## The MASK opcode with the counter test -/

theorem execCount_cons (e : Event) (l : List Event) :
    execCount (e :: l) = execCount l + (if e.kind = EventKind.execute then 1 else 0) := by
  unfold execCount
  rw [List.countP_cons]
  simp

theorem execCount_append (l1 l2 : List Event) :
    execCount (l1 ++ l2) = execCount l1 + execCount l2 := by
  unfold execCount
  exact List.countP_append _ _ _

theorem count_range_eq (v N : Nat) :
    ((List.range N).map (fun c => decide (c = v))).count true = if v < N then 1 else 0 := by
  induction N with
  | zero => simp
  | succ N ih =>
    rw [List.range_succ, List.map_append, List.count_append, ih]
    by_cases h1 : v < N
    · have h2 : v < N + 1 := by omega
      have h3 : N ≠ v := by omega
      simp [h1, h2, h3]
    · by_cases h3 : N = v
      · have h2 : v < N + 1 := by omega
        simp [h1, h2, h3]
      · have h2 : ¬ v < N + 1 := by omega
        simp [h1, h2, h3]

/-- The MASK opcode with `auxFunc = 4` and polarity 0 over events without an
init call: the flag after each execute says whether the counter equals
`aluState`, which the events leave unchanged. -/
theorem mask_counter_trace (ntx : ntx_api) (h4 : ntx.auxFunc = 4) (hp : ntx.polarity = false) :
    ∀ (F : List Event), (∀ e ∈ F, e.kind ≠ EventKind.init) →
      ∀ (s : NtxState) (k0 : Nat), s.cntState = u32 k0 → k0 + execCount F ≤ 2 ^ 32 →
        tstTrace (nstMaskOp ntx) F s
          = (List.range' k0 (execCount F)).map (fun c => decide (c = s.aluState)) ∧
        (replay (nstMaskOp ntx) F s).aluState = s.aluState ∧
        (replay (nstMaskOp ntx) F s).cntState = u32 (k0 + execCount F) := by
  intro F
  induction F with
  | nil =>
    intro _ s k0 hc _
    simp [tstTrace, execCount, replay, hc]
  | cons e l ih =>
    intro hF s k0 hc hN
    have hl : ∀ e2 ∈ l, e2.kind ≠ EventKind.init := fun e2 h2 => hF e2 (List.mem_cons_of_mem _ h2)
    have he := hF e (List.mem_cons_self _ _)
    rw [execCount_cons] at hN ⊢
    rw [replay_cons]
    unfold tstTrace
    cases hk : e.kind with
    | init => exact absurd hk he
    | frame =>
      have ha : e.apply (nstMaskOp ntx) s = s := by simp [Event.apply, hk]
      simp only [hk, ha, if_false, List.nil_append, add_zero] at hN ⊢
      exact ih hl s k0 hc hN
    | store =>
      have ha1 : (e.apply (nstMaskOp ntx) s).aluState = s.aluState := by
        simp [Event.apply, hk, nstMaskOp]
      have ha2 : (e.apply (nstMaskOp ntx) s).cntState = u32 k0 := by
        simp [Event.apply, hk, nstMaskOp, hc]
      simp only [hk, if_false, List.nil_append, add_zero] at hN ⊢
      obtain ⟨i1, i2, i3⟩ := ih hl (e.apply (nstMaskOp ntx) s) k0 ha2 hN
      rw [ha1] at i1 i2
      exact ⟨i1, i2, i3⟩
    | execute =>
      simp only [hk, if_true] at hN ⊢
      have hk0 : u32 k0 = k0 := by unfold u32; omega
      have ha1 : (e.apply (nstMaskOp ntx) s).aluState = s.aluState := by
        simp [Event.apply, hk, nstMaskOp]
      have ha2 : (e.apply (nstMaskOp ntx) s).cntState = u32 (k0 + 1) := by
        simp [Event.apply, hk, nstMaskOp, hc, hk0]
      have ha3 : (e.apply (nstMaskOp ntx) s).tst = decide (k0 = s.aluState) := by
        simp [Event.apply, hk, nstMaskOp, maskTest, h4, hp, hc, hk0]
      obtain ⟨i1, i2, i3⟩ := ih hl (e.apply (nstMaskOp ntx) s) (k0 + 1) ha2 (by omega)
      rw [ha1] at i1 i2
      refine ⟨?_, i2, ?_⟩
      · rw [i1, ha3, List.range'_succ]
        rfl
      · rw [i3]
        congr 1
        omega

/-- Claim C17. For a MASK job with `auxFunc = 4` and polarity 0, within one init
frame - the init call (at pointers `gi`, from state `s`) followed by events `F`
without a further init, with `N = execCount F <= 2^32` executes - and with `v`
the word loaded into `aluState` by init: the execute with counter value `c`
passes the test iff `c = v`; hence exactly one execute of the frame passes when
`v < N` and none otherwise; and an execute that is followed by the store of its
frame (`innerLevel = 0`) stores `*agu[0]` when its counter value is `v` and `+0`
otherwise. -/
theorem mask_one_hot (ntx : ntx_api) (h4 : ntx.auxFunc = 4) (hp : ntx.polarity = false)
    (gi : Nat → Int) (s : NtxState) (F : List Event)
    (hF : ∀ e ∈ F, e.kind ≠ EventKind.init) (hN : execCount F ≤ 2 ^ 32) :
    ((nstMaskOp ntx).init gi s).aluState = initAlu ntx gi s ∧
    tstTrace (nstMaskOp ntx) F ((nstMaskOp ntx).init gi s)
      = (List.range (execCount F)).map (fun c => decide (c = initAlu ntx gi s)) ∧
    (tstTrace (nstMaskOp ntx) F ((nstMaskOp ntx).init gi s)).count true
      = (if initAlu ntx gi s < execCount F then 1 else 0) ∧
    (∀ (pre rest : List Event) (g : Nat → Int) (path : List Nat),
      F = pre ++ [⟨EventKind.execute, 0, path, g⟩, ⟨EventKind.store, 0, path, g⟩] ++ rest →
      (replay (nstMaskOp ntx)
          (pre ++ [⟨EventKind.execute, 0, path, g⟩, ⟨EventKind.store, 0, path, g⟩])
          ((nstMaskOp ntx).init gi s)).mem
        = store32 (replay (nstMaskOp ntx) pre ((nstMaskOp ntx).init gi s)).mem (g 2)
            (if execCount pre = initAlu ntx gi s
              then load32 (replay (nstMaskOp ntx) pre ((nstMaskOp ntx).init gi s)).mem (g 0)
              else C_FP32_ZERO_VAL)) := by
  have hv : ((nstMaskOp ntx).init gi s).aluState = initAlu ntx gi s := rfl
  have hc : ((nstMaskOp ntx).init gi s).cntState = u32 0 := rfl
  obtain ⟨t1, _, _⟩ := mask_counter_trace ntx h4 hp F hF _ 0 hc (by omega)
  rw [hv, ← List.range_eq_range'] at t1
  refine ⟨hv, t1, ?_, ?_⟩
  · rw [t1, count_range_eq]
  · intro pre rest g path hsplit
    have hpre : ∀ e ∈ pre, e.kind ≠ EventKind.init := by
      intro e he
      apply hF e
      rw [hsplit]
      simp [he]
    have hcnt : execCount pre < 2 ^ 32 := by
      rw [hsplit, execCount_append, execCount_append] at hN
      have : execCount [⟨EventKind.execute, 0, path, g⟩, ⟨EventKind.store, 0, path, g⟩] = 1 := by
        simp [execCount]
      omega
    obtain ⟨_, p2, p3⟩ := mask_counter_trace ntx h4 hp pre hpre _ 0 hc (by omega)
    rw [hv] at p2
    rw [Nat.zero_add] at p3
    have hu : u32 (execCount pre) = execCount pre := by unfold u32; omega
    rw [hu] at p3
    rw [replay_append]
    generalize replay (nstMaskOp ntx) pre ((nstMaskOp ntx).init gi s) = t at *
    simp only [replay_cons, replay_nil, Event.apply, nstMaskOp, maskTest, h4, hp, p2, p3]
    simp

theorem mask_one_hot_witness :
    (tstTrace (nstMaskOp (exampleJob unitStrides 1 0 6 3 4 false))
        [⟨EventKind.execute, 0, [0], fun _ => 0⟩, ⟨EventKind.store, 0, [0], fun _ => 0⟩,
          ⟨EventKind.execute, 0, [1], fun _ => 0⟩, ⟨EventKind.store, 0, [1], fun _ => 0⟩]
        ((nstMaskOp (exampleJob unitStrides 1 0 6 3 4 false)).init (fun _ => 0)
          (exampleRun exampleWords).st)).count true = 1 :=
  (mask_one_hot (exampleJob unitStrides 1 0 6 3 4 false) (by decide) (by decide) (fun _ => 0)
    (exampleRun exampleWords).st
    [⟨EventKind.execute, 0, [0], fun _ => 0⟩, ⟨EventKind.store, 0, [0], fun _ => 0⟩,
      ⟨EventKind.execute, 0, [1], fun _ => 0⟩, ⟨EventKind.store, 0, [1], fun _ => 0⟩]
    (by decide) (by decide)).2.2.1.trans (by decide)
/-! ## The COPY opcode in replicate mode -/

/-- In replicate mode the events after an init call leave `aluState` as init
loaded it. -/
theorem copy_repl_alu (ntx : ntx_api) (h0 : ntx.auxFunc &&& 0x1 = 0) :
    ∀ (F : List Event), (∀ e ∈ F, e.kind ≠ EventKind.init) → ∀ s : NtxState,
      (replay (nstCopyOp ntx) F s).aluState = s.aluState := by
  intro F
  induction F with
  | nil => intro _ s; rfl
  | cons e l ih =>
    intro hF s
    have hl : ∀ e2 ∈ l, e2.kind ≠ EventKind.init := fun e2 h2 => hF e2 (List.mem_cons_of_mem _ h2)
    have he := hF e (List.mem_cons_self _ _)
    rw [replay_cons, ih hl]
    cases hk : e.kind with
    | init => exact absurd hk he
    | frame => simp [Event.apply, hk]
    | store => simp [Event.apply, hk, nstCopyOp]
    | execute => simp [Event.apply, hk, nstCopyOp, h0]

theorem copy_repl_step (job : ntx_api) (h0 : job.auxFunc &&& 0x1 = 0) (j1 : job.initLevel = 1)
    (j2 : job.innerLevel = 0) (agu : Nat → Int) (s : NtxState) (j : Nat) :
    oneLevelStep job (nstCopyOp job) agu s j
      = { s with mem := store32 s.mem (aguAt job agu j 2) s.aluState } := by
  simp [oneLevelStep, nstCopyOp, j1, j2, h0]

theorem copy_repl_fold (job : ntx_api) (h0 : job.auxFunc &&& 0x1 = 0) (j1 : job.initLevel = 1)
    (j2 : job.innerLevel = 0) (agu : Nat → Int) (base2 : Int)
    (hg : ∀ j : Nat, aguAt job agu j 2 = base2 + 4 * (j : Int)) (s : NtxState)
    (hv : s.aluState < 2 ^ 32) :
    ∀ M : Nat,
      ((List.range M).foldl (oneLevelStep job (nstCopyOp job) agu) s).aluState = s.aluState ∧
      ∀ i : Nat, i < M →
        load32 ((List.range M).foldl (oneLevelStep job (nstCopyOp job) agu) s).mem
          (base2 + 4 * (i : Int)) = s.aluState := by
  intro M
  induction M with
  | zero => exact ⟨rfl, fun i hi => absurd hi (by omega)⟩
  | succ M ih =>
    obtain ⟨i1, i2⟩ := ih
    rw [List.range_succ, List.foldl_append]
    simp only [List.foldl_cons, List.foldl_nil]
    rw [copy_repl_step job h0 j1 j2, hg]
    refine ⟨i1, fun i hi => ?_⟩
    simp only [i1]
    by_cases hiM : i = M
    · subst hiM
      exact load32_store32_same _ _ _ hv
    · rw [load32_store32_disj _ _ _ _ (by omega)]
      exact i2 i (by omega)

/-- Claim C19. COPY in replicate mode (`auxFunc & 1 = 0`): every word written by a
store equals the value loaded by the enclosing init call - the word at
`agu[initSel]` at init time when `initSel < 3`, `+0` when `initSel >= 3` -
whatever events without a further init come between; so a 1-D job
(`stageLoopNest(1, 0, 1, ..)`, count `N = n 0`, destination stride 1) writes `N`
copies of the init value, whether or not the destination overlaps the init
source; and the command completes when address checking is off. -/
theorem copy_replicate (ntx : ntx_api) (h0 : ntx.auxFunc &&& 0x1 = 0) :
    (∀ (gi : Nat → Int) (s : NtxState),
      ((nstCopyOp ntx).init gi s).aluState
        = (if ntx.initSel ≥ 3 then C_FP32_ZERO_VAL else load32 s.mem (gi ntx.initSel)) ∧
      ∀ (F : List Event), (∀ e ∈ F, e.kind ≠ EventKind.init) → ∀ g : Nat → Int,
        ((nstCopyOp ntx).store g (replay (nstCopyOp ntx) F ((nstCopyOp ntx).init gi s))).mem
          = store32 (replay (nstCopyOp ntx) F ((nstCopyOp ntx).init gi s)).mem (g 2)
              (if ntx.initSel ≥ 3 then C_FP32_ZERO_VAL else load32 s.mem (gi ntx.initSel))) ∧
    (∀ (ntx0 : ntx_api) (n : Nat → Nat) (S : Nat → Nat → Int) (d : ntx_api)
      (base0 base1 base2 : Int) (irqCfg : Nat) (p : Bool),
      stageLoopNest ntx0 1 0 1 n S = Outcome.done d → S 2 0 = 1 →
      (∀ (r : NstRun NtxState) (x : ntx_api × NstRun NtxState),
        issueCmd (stageCmd (stageAguOffs d base0 base1 base2) 8 ntx.initSel ntx.auxFunc irqCfg p) r
          = Outcome.done x →
        ∀ i : Nat, i < n 0 →
          load32 x.2.st.mem (base2 + 4 * (i : Int))
            = (if ntx.initSel ≥ 3 then C_FP32_ZERO_VAL
                else load32 r.st.mem ((stageAguOffs d base0 base1 base2).aguOff ntx.initSel))) ∧
      (ntx0.checkTcdmAddrs = false → (∀ l, l < 5 → ntx0.loopBound l < 2 ^ 16) →
        ∀ r : NstRun NtxState,
          ∃ x, issueCmd
            (stageCmd (stageAguOffs d base0 base1 base2) 8 ntx.initSel ntx.auxFunc irqCfg p) r
            = Outcome.done x)) := by
  have hinit : ∀ (nt : ntx_api), nt.auxFunc &&& 0x1 = 0 → ∀ (gi : Nat → Int) (s : NtxState),
      ((nstCopyOp nt).init gi s).aluState
        = (if nt.initSel ≥ 3 then C_FP32_ZERO_VAL else load32 s.mem (gi nt.initSel)) := by
    intro nt hnt gi s
    simp [nstCopyOp, hnt, initAlu]
  constructor
  · intro gi s
    refine ⟨hinit ntx h0 gi s, fun F hF g => ?_⟩
    have ha := copy_repl_alu ntx h0 F hF ((nstCopyOp ntx).init gi s)
    rw [hinit ntx h0] at ha
    show store32 _ _ (replay (nstCopyOp ntx) F ((nstCopyOp ntx).init gi s)).aluState = _
    rw [ha]
  · intro ntx0 n S d base0 base1 base2 irqCfg p hstage hS2
    obtain ⟨_, hn, ⟨l1, l2, l3⟩, hst, hlb, hrest, hc, _⟩ :=
      stageLoopNest_done ntx0 1 0 1 n S d hstage
    have hn0 := hn 0 (by omega)
    have hlb0 : d.loopBound 0 = n 0 - 1 := hlb 0 (by omega)
    have st2 : d.aguStride 2 0 = 4 := by
      rw [hst 2 0 (by omega) (by omega), hS2]; simp [lowerOffset]; decide
    generalize hjob :
      stageCmd (stageAguOffs d base0 base1 base2) 8 ntx.initSel ntx.auxFunc irqCfg p = job
    have j1 : job.initLevel = 1 := by rw [← hjob]; exact l1
    have j2 : job.innerLevel = 0 := by rw [← hjob]; exact l2
    have j3 : job.outerLevel = 1 := by rw [← hjob]; exact l3
    have j4 : job.opCode = 8 := by rw [← hjob]; rfl
    have j5 : job.initSel = ntx.initSel := by rw [← hjob]; rfl
    have j6 : job.auxFunc = ntx.auxFunc := by rw [← hjob]; rfl
    have j8 : job.loopBound = d.loopBound := by rw [← hjob]; rfl
    have j9 : job.aguStride = d.aguStride := by rw [← hjob]; rfl
    have j10 : job.aguOff
        = Function.update (Function.update (Function.update d.aguOff 0 base0) 1 base1) 2 base2 := by
      rw [← hjob]; rfl
    have j11 : job.checkTcdmAddrs = d.checkTcdmAddrs := by rw [← hjob]; rfl
    have hj0 : job.auxFunc &&& 0x1 = 0 := by rw [j6]; exact h0
    constructor
    · intro r x hx i hi
      obtain ⟨hrun, _⟩ := issueCmd_done job r x hx
      have hfin := nstFuncModel_oneLevel job (nstOps job) r x.2 hrun j3
      have hop : nstOps job job.opCode = nstCopyOp job := by rw [j4]; rfl
      rw [hop] at hfin
      unfold oneLevelRun at hfin
      simp only [j1, j2, if_true, zero_ne_one, if_false] at hfin
      have hN : job.loopBound 0 + 1 = n 0 := by rw [j8, hlb0]; omega
      rw [hN] at hfin
      have hg2 : ∀ j : Nat, aguAt job job.aguOff j 2 = base2 + 4 * (j : Int) := by
        intro j; simp [aguAt, j9, st2, j10]; ring
      have hal := hinit job hj0 job.aguOff r.st
      have hs0 : (nstCopyOp job).init job.aguOff r.st
          = { r.st with aluState := ((nstCopyOp job).init job.aguOff r.st).aluState } := by
        simp [nstCopyOp, hj0]
      have hlt : ((nstCopyOp job).init job.aguOff r.st).aluState < 2 ^ 32 := by
        rw [hal]
        split
        · decide
        · exact load32_lt _ _
      obtain ⟨_, f2⟩ := copy_repl_fold job hj0 j1 j2 job.aguOff base2 hg2
        ((nstCopyOp job).init job.aguOff r.st) hlt (n 0)
      rw [hfin, f2 i hi, hal, j5, j10]
      rfl
    · intro hc0 hb0 r
      apply issueCmd_completes job r
      · rw [j1, j2, j3]; omega
      · intro l hl
        rw [j8]
        by_cases h0 : l = 0
        · subst h0; rw [hlb0]; omega
        · rw [(hrest l (by omega)).1]; exact hb0 l hl
      · rw [j4]; omega
      · rw [j11, hc, hc0]

theorem copy_replicate_witness :
    (issueCmd (exampleJob unitStrides 1 0 8 0 0 false) (exampleRun exampleWords)).isDone = true ∧
      load32 (issueCmd (exampleJob unitStrides 1 0 8 0 0 false)
        (exampleRun exampleWords)).state.2.st.mem 4 = 0x40000000 := by
  obtain ⟨d, hd⟩ := stageLoopNest_completes ntx_api.fresh 1 0 1 (fun _ => 2) unitStrides
    (by decide) (by decide) (by decide) (by decide)
  have h := (copy_replicate (exampleJob unitStrides 1 0 8 0 0 false) (by decide)).2
    ntx_api.fresh (fun _ => 2) unitStrides d 16 32 0 1 false hd rfl
  have e : exampleJob unitStrides 1 0 8 0 0 false
      = stageCmd (stageAguOffs d 16 32 0) 8 (exampleJob unitStrides 1 0 8 0 0 false).initSel
          (exampleJob unitStrides 1 0 8 0 0 false).auxFunc 1 false := by
    unfold exampleJob; rw [hd]; rfl
  obtain ⟨x, hx⟩ := h.2 (by decide) (by decide) (exampleRun exampleWords)
  have hv := h.1 (exampleRun exampleWords) x hx 1 (by decide)
  rw [e, hx]
  refine ⟨rfl, ?_⟩
  show load32 x.2.st.mem 4 = 0x40000000
  have e4 : (0 : Int) + 4 * ((1 : Nat) : Int) = 4 := by decide
  have hi : (exampleJob unitStrides 1 0 8 0 0 false).initSel = 0 := rfl
  have ha : (stageAguOffs d 16 32 0).aguOff 0 = 16 := by simp [stageAguOffs]
  rw [e4, hi, ha] at hv
  rw [hv]
  decide
/-! ## ReLU in the store phase of the MAC family -/

/-- Adding the zero image leaves a canonical accumulator as it is. -/
theorem pcsAdd_zero_canonical (a : fp32_accuType) (hwf : a.wf) (hcan : a.canonical) :
    pcsAdd fp32_accuType.zero a = a := by
  apply fp32_accuType.toNat_inj _ _ (pcsAdd_wf _ _) hwf
  rw [pcsAdd_toNat _ _ fp32_accuType.zero_wf hwf]
  have hz : fp32_accuType.zero.toNat = 0 := by decide
  rw [hz, Nat.zero_add]
  have hlt := a.toNat_lt hwf
  rcases (fp32_accuType.canonical_iff a hwf).1 hcan with h | h
  · unfold signExt284
    split <;> omega
  · unfold signExt284
    split <;> omega

/-- Claim C20 as stated fails. With `auxFunc = 2` (bit 0 clear) and the
accumulator image of `-1.0`, the store writes `+0`, not the normalised result
`0xBF800000`; and for the accumulator `2^283`, which is not canonical, the store
with `auxFunc = 0` writes `0xFF800000` while `pcsToFp32` of the accumulator is
`0x7F800000`. -/
theorem mac_store_relu_counterexample :
    (auxTwoJob.auxFunc &&& 1 = 0 ∧
      pcsToFp32 (accuState0 (fp32ToPcs 0xBF800000)).accuState = 0xBF800000 ∧
      load32 ((nstMacOp auxTwoJob).store (fun _ => 0)
        (accuState0 (fp32ToPcs 0xBF800000))).mem 0 = 0) ∧
    (ntx_api.fresh.auxFunc &&& 1 = 0 ∧
      pcsToFp32 (accuState0 ⟨0, 0, 0, 0, 2 ^ 27⟩).accuState = 0x7F800000 ∧
      load32 ((nstMacOp ntx_api.fresh).store (fun _ => 0)
        (accuState0 ⟨0, 0, 0, 0, 2 ^ 27⟩)).mem 0 = 0xFF800000) := by
  refine ⟨⟨by decide, by decide, by decide⟩, ⟨by decide, by decide, by decide⟩⟩

/-- Claim C20, amended. MAC store applies ReLU exactly when `auxFunc` is nonzero:
for every canonical accumulator and every `auxFunc`, the word written to
`*agu[2]` is `+0` if `auxFunc != 0` and the normalised result `pcsToFp32(accu)`
has its sign bit set, and is `pcsToFp32(accu)` unchanged otherwise (in
particular for `auxFunc = 0`); the accumulator is left as it was. -/
theorem mac_store_relu (ntx : ntx_api) (agu : Nat → Int) (s : NtxState)
    (hwf : s.accuState.wf) (hcan : s.accuState.canonical) :
    ((nstMacOp ntx).store agu s).mem
      = store32 s.mem (agu 2)
          (if ntx.auxFunc ≠ 0 ∧ fp32_getSign (pcsToFp32 s.accuState) = true then C_FP32_ZERO_VAL
            else pcsToFp32 s.accuState) ∧
    load32 ((nstMacOp ntx).store agu s).mem (agu 2)
      = (if ntx.auxFunc ≠ 0 ∧ fp32_getSign (pcsToFp32 s.accuState) = true then C_FP32_ZERO_VAL
          else pcsToFp32 s.accuState) ∧
    ((nstMacOp ntx).store agu s).accuState = s.accuState := by
  have e : (pcsMac C_FP32_ZERO_VAL C_FP32_ZERO_VAL 0 0 1 s.accuState (load32 s.mem (agu 2)))
      = (s.accuState, pcsToFp32 s.accuState) := by
    have e1 : extFp32ToPcs false 0 0 = fp32_accuType.zero := by decide
    simp [pcsMac, fp32_isZero, C_FP32_ZERO_VAL, e1, pcsAdd_zero_canonical _ hwf hcan]
  have hm : ((nstMacOp ntx).store agu s).mem
      = store32 s.mem (agu 2)
          (if ntx.auxFunc ≠ 0 ∧ fp32_getSign (pcsToFp32 s.accuState) = true then C_FP32_ZERO_VAL
            else pcsToFp32 s.accuState) := by
    show (macStore ntx agu s).mem = _
    unfold macStore
    simp only [e]
  refine ⟨hm, ?_, ?_⟩
  · rw [hm]
    apply load32_store32_same
    split
    · decide
    · exact pcsToFp32_lt _
  · show (macStore ntx agu s).accuState = _
    unfold macStore
    simp only [e]

theorem mac_store_relu_witness :
    load32 ((nstMacOp auxTwoJob).store (fun _ => 0) (accuState0 (fp32ToPcs 0xBF800000))).mem 0
      = C_FP32_ZERO_VAL :=
  (mac_store_relu auxTwoJob (fun _ => 0) (accuState0 (fp32ToPcs 0xBF800000))
    (by decide) (by decide)).2.1.trans (by decide)
/-! ## The COPY opcode in vector mode -/

/-- The events of a completed run of a staged job agree with absolute
addressing. -/
theorem nstFuncModelLog_absolute {σ : Type} (ntx : ntx_api) (ops : Nat → nstInternalOp σ)
    (r : NstRun σ) (n : Nat → Nat) (S : Nat → Nat → Int) (outer : Nat) (ho : outer ≤ 5)
    (hS : ∀ a l, a < 3 → l < outer → ntx.aguStride a l = 4 * (S a l - lowerOffset n S a l))
    (hlb : ∀ l, l < outer → ntx.loopBound l = n l - 1) (hout : ntx.outerLevel = outer) :
    ∀ e ∈ (nstFuncModelLog ntx ops r).state.log, e.absolute ntx.aguOff n S outer := by
  unfold nstFuncModelLog
  split
  · intro e he; cases he
  · split
    · intro e he; cases he
    · split
      · intro e he; cases he
      · split
        · intro e he; cases he
        · split
          · intro e he; cases he
          · split
            · intro e he; cases he
            · rw [hout]
              exact (nstLooperLog_agu ntx _ ntx.aguOff n S outer ho hS hlb outer
                (le_refl _) true [] _ (fun h => by cases h) (by simp)
                (by intro a _; simp [pathOffset])
                (by intro e he; cases he)).1

/-- One frame at level 0 of a COPY job in vector mode with `innerLevel = 0`:
the word at `agu[0]` is copied to `agu[2]`. -/
theorem copy_vect_frame0 (job : ntx_api) (h1 : job.auxFunc &&& 0x1 ≠ 0) (j2 : job.innerLevel = 0)
    (isLast : Bool) (path : List Nat) (agu : Nat → Int) (s : NtxState) :
    (replay (nstCopyOp job) (frameEvents job 0 isLast path agu).1 s).mem
      = store32 s.mem (agu 2) (load32 s.mem (agu 0)) ∧
    ⟨EventKind.execute, 0, path, agu⟩ ∈ (frameEvents job 0 isLast path agu).1 := by
  have hm : job.auxFunc &&& 1 = job.auxFunc % 2 := Nat.and_one_is_mod _
  have h1m : job.auxFunc % 2 = 1 := by
    have := Nat.mod_lt job.auxFunc (show 0 < 2 by norm_num)
    rw [hm] at h1
    omega
  by_cases c1 : job.initLevel = 0 <;>
    simp [frameEvents, c1, j2, replay_cons, replay_nil, Event.apply, nstCopyOp, h1m]

theorem drop_eq_cons_iff (t : List Nat) (level j : Nat) (path : List Nat)
    (h : level < t.length) :
    t.drop level = j :: path ↔ t.getD level 0 = j ∧ t.drop (level + 1) = path := by
  rw [List.drop_eq_getElem_cons h]
  have e : t.getD level 0 = t[level] := by
    rw [List.getD_eq_getElem?_getD, List.getElem?_eq_getElem h]
    rfl
  rw [e]
  constructor
  · intro hh
    injection hh with a b
    exact ⟨a, b⟩
  · rintro ⟨a, b⟩
    rw [a, b]

/-- The loop of a frame above level 0 of a COPY job in vector mode, given the
effect of the frames one level down. -/
theorem copy_vect_loop (job : ntx_api) (n : Nat → Nat) (S : Nat → Nat → Int) (outer : Nat)
    (hlb : ∀ l, l < outer → job.loopBound l = n l - 1) (hn : ∀ l, l < outer → 0 < n l)
    (mem0 : Mem) (level : Nat) (hlev : level < outer) (path : List Nat)
    (hpath : level + 1 + path.length = outer)
    (hvalid : ∀ i, i < path.length → path.getD i 0 < n (level + 1 + i))
    (IH : ∀ (isLast : Bool) (path2 : List Nat) (agu : Nat → Int) (s : NtxState)
      (D : List Nat → Prop),
      level + path2.length = outer → (∀ i, i < path2.length → path2.getD i 0 < n (level + i)) →
      (∀ e ∈ (frameEvents job level isLast path2 agu).1, e.absolute job.aguOff n S outer) →
      (∀ t, tupleOk n outer t →
        load32 s.mem (job.aguOff 0 + 4 * pathOffset S 0 0 t)
          = load32 mem0 (job.aguOff 0 + 4 * pathOffset S 0 0 t)) →
      (∀ t, tupleOk n outer t → D t →
        load32 s.mem (job.aguOff 2 + 4 * pathOffset S 2 0 t)
          = load32 mem0 (job.aguOff 0 + 4 * pathOffset S 0 0 t)) →
      (∀ t, tupleOk n outer t →
        load32 (replay (nstCopyOp job) (frameEvents job level isLast path2 agu).1 s).mem
            (job.aguOff 0 + 4 * pathOffset S 0 0 t)
          = load32 mem0 (job.aguOff 0 + 4 * pathOffset S 0 0 t)) ∧
      (∀ t, tupleOk n outer t → (D t ∨ t.drop level = path2) →
        load32 (replay (nstCopyOp job) (frameEvents job level isLast path2 agu).1 s).mem
            (job.aguOff 2 + 4 * pathOffset S 2 0 t)
          = load32 mem0 (job.aguOff 0 + 4 * pathOffset S 0 0 t))) :
    ∀ (m k : Nat) (agu : Nat → Int) (s : NtxState) (D : List Nat → Prop),
      k + m = job.loopBound level + 1 →
      (∀ e ∈ (loopEvents
          (fun j => frameEvents job level (decide (j = job.loopBound level)) (j :: path))
          m k agu).1, e.absolute job.aguOff n S outer) →
      (∀ t, tupleOk n outer t →
        load32 s.mem (job.aguOff 0 + 4 * pathOffset S 0 0 t)
          = load32 mem0 (job.aguOff 0 + 4 * pathOffset S 0 0 t)) →
      (∀ t, tupleOk n outer t → D t →
        load32 s.mem (job.aguOff 2 + 4 * pathOffset S 2 0 t)
          = load32 mem0 (job.aguOff 0 + 4 * pathOffset S 0 0 t)) →
      (∀ t, tupleOk n outer t →
        load32 (replay (nstCopyOp job) (loopEvents
            (fun j => frameEvents job level (decide (j = job.loopBound level)) (j :: path))
            m k agu).1 s).mem (job.aguOff 0 + 4 * pathOffset S 0 0 t)
          = load32 mem0 (job.aguOff 0 + 4 * pathOffset S 0 0 t)) ∧
      (∀ t, tupleOk n outer t →
        (D t ∨ (t.drop (level + 1) = path ∧ k ≤ t.getD level 0 ∧ t.getD level 0 < k + m)) →
        load32 (replay (nstCopyOp job) (loopEvents
            (fun j => frameEvents job level (decide (j = job.loopBound level)) (j :: path))
            m k agu).1 s).mem (job.aguOff 2 + 4 * pathOffset S 2 0 t)
          = load32 mem0 (job.aguOff 0 + 4 * pathOffset S 0 0 t)) := by
  intro m
  induction m with
  | zero =>
    intro k agu s D _ _ h1 h2
    refine ⟨h1, fun t ht hD => ?_⟩
    rcases hD with hD | ⟨_, a, b⟩
    · exact h2 t ht hD
    · omega
  | succ m ih =>
    intro k agu s D hk hev h1 h2
    simp only [loopEvents] at hev ⊢
    rw [replay_append]
    have hkn : k < n level := by
      have := hlb level hlev
      have := hn level hlev
      omega
    obtain ⟨a1, a2⟩ := IH (decide (k = job.loopBound level)) (k :: path) agu s D
      (by simp only [List.length_cons]; omega)
      (by
        intro i hi
        cases i with
        | zero => simpa using hkn
        | succ i =>
          have := hvalid i (by simpa using hi)
          simp only [List.getD_cons_succ]
          have e : level + (i + 1) = level + 1 + i := by omega
          rw [e]
          exact this)
      (fun e he => hev e (List.mem_append_left _ he)) h1 h2
    obtain ⟨b1, b2⟩ := ih (k + 1) _ _ (fun t => D t ∨ t.drop level = k :: path) (by omega)
      (fun e he => hev e (List.mem_append_right _ he)) a1 a2
    refine ⟨b1, fun t ht hD => ?_⟩
    apply b2 t ht
    rcases hD with hD | ⟨c1, c2, c3⟩
    · exact Or.inl (Or.inl hD)
    · by_cases hx : t.getD level 0 = k
      · refine Or.inl (Or.inr ?_)
        rw [drop_eq_cons_iff t level k path (by rw [ht.1]; exact hlev)]
        exact ⟨hx, c1⟩
      · exact Or.inr ⟨c1, by omega, by omega⟩

/-- A frame at any level of a COPY job in vector mode with `innerLevel = 0`:
the source words stay as they were and every destination word whose index
tuple ends in the loop indices of the frame holds its source word. -/
theorem copy_vect_level (job : ntx_api) (h1 : job.auxFunc &&& 0x1 ≠ 0) (j2 : job.innerLevel = 0)
    (n : Nat → Nat) (S : Nat → Nat → Int) (outer : Nat)
    (hlb : ∀ l, l < outer → job.loopBound l = n l - 1) (hn : ∀ l, l < outer → 0 < n l)
    (mem0 : Mem)
    (hsep : ∀ t u, tupleOk n outer t → tupleOk n outer u →
      job.aguOff 0 + 4 * pathOffset S 0 0 t + 4 ≤ job.aguOff 2 + 4 * pathOffset S 2 0 u ∨
      job.aguOff 2 + 4 * pathOffset S 2 0 u + 4 ≤ job.aguOff 0 + 4 * pathOffset S 0 0 t)
    (hdist : ∀ t u, tupleOk n outer t → tupleOk n outer u → t ≠ u →
      pathOffset S 2 0 t ≠ pathOffset S 2 0 u)
    (level : Nat) :
    level ≤ outer →
    ∀ (isLast : Bool) (path : List Nat) (agu : Nat → Int) (s : NtxState) (D : List Nat → Prop),
      level + path.length = outer → (∀ i, i < path.length → path.getD i 0 < n (level + i)) →
      (∀ e ∈ (frameEvents job level isLast path agu).1, e.absolute job.aguOff n S outer) →
      (∀ t, tupleOk n outer t →
        load32 s.mem (job.aguOff 0 + 4 * pathOffset S 0 0 t)
          = load32 mem0 (job.aguOff 0 + 4 * pathOffset S 0 0 t)) →
      (∀ t, tupleOk n outer t → D t →
        load32 s.mem (job.aguOff 2 + 4 * pathOffset S 2 0 t)
          = load32 mem0 (job.aguOff 0 + 4 * pathOffset S 0 0 t)) →
      (∀ t, tupleOk n outer t →
        load32 (replay (nstCopyOp job) (frameEvents job level isLast path agu).1 s).mem
            (job.aguOff 0 + 4 * pathOffset S 0 0 t)
          = load32 mem0 (job.aguOff 0 + 4 * pathOffset S 0 0 t)) ∧
      (∀ t, tupleOk n outer t → (D t ∨ t.drop level = path) →
        load32 (replay (nstCopyOp job) (frameEvents job level isLast path agu).1 s).mem
            (job.aguOff 2 + 4 * pathOffset S 2 0 t)
          = load32 mem0 (job.aguOff 0 + 4 * pathOffset S 0 0 t)) := by
  induction level with
  | zero =>
    intro _ isLast path agu s D hlen hval hev i1 i2
    have hok : tupleOk n outer path := by
      refine ⟨by omega, fun l hl => ?_⟩
      have := hval l (by omega)
      simpa using this
    obtain ⟨hmem, hex⟩ := copy_vect_frame0 job h1 j2 isLast path agu s
    obtain ⟨_, habs⟩ := hev _ hex
    have g0 : agu 0 = job.aguOff 0 + 4 * pathOffset S 0 0 path := by
      have := habs 0 (by decide)
      simpa using this
    have g2 : agu 2 = job.aguOff 2 + 4 * pathOffset S 2 0 path := by
      have := habs 2 (by decide)
      simpa using this
    rw [hmem, g0, g2, i1 path hok]
    constructor
    · intro t ht
      rw [load32_store32_disj _ _ _ _ (by
        rcases hsep t path ht hok with h | h
        · exact Or.inr h
        · exact Or.inl h)]
      exact i1 t ht
    · intro t ht hD
      by_cases htp : t = path
      · subst htp
        exact load32_store32_same _ _ _ (load32_lt _ _)
      · have hD2 : D t := by
          rcases hD with h | h
          · exact h
          · exact absurd (by simpa using h) htp
        have hne := hdist t path ht hok htp
        rw [load32_store32_disj _ _ _ _ (by omega)]
        exact i2 t ht hD2
  | succ level ih =>
    intro hle isLast path agu s D hlen hval hev i1 i2
    have hlev : level < outer := by omega
    have hm : job.auxFunc &&& 1 = job.auxFunc % 2 := Nat.and_one_is_mod _
    have h1m : job.auxFunc % 2 = 1 := by
      have := Nat.mod_lt job.auxFunc (show 0 < 2 by norm_num)
      rw [hm] at h1
      omega
    have e : frameEvents job (level + 1) isLast path agu
        = ([⟨EventKind.frame, level + 1, path, agu⟩]
            ++ (if job.initLevel = level + 1 then [⟨EventKind.init, level + 1, path, agu⟩] else [])
            ++ (loopEvents
                (fun j => frameEvents job level (decide (j = job.loopBound level)) (j :: path))
                (job.loopBound level + 1) 0 agu).1
            ++ (if job.innerLevel = level + 1 then [⟨EventKind.store, level + 1, path,
                (loopEvents
                  (fun j => frameEvents job level (decide (j = job.loopBound level)) (j :: path))
                  (job.loopBound level + 1) 0 agu).2⟩] else []),
           if level + 1 < C_N_HW_LOOPS ∧ isLast = false then aguUpdate job (level + 1)
              (loopEvents
                (fun j => frameEvents job level (decide (j = job.loopBound level)) (j :: path))
                (job.loopBound level + 1) 0 agu).2
            else (loopEvents
                (fun j => frameEvents job level (decide (j = job.loopBound level)) (j :: path))
                (job.loopBound level + 1) 0 agu).2) := rfl
    rw [e] at hev ⊢
    have hj2 : ¬ (job.innerLevel = level + 1) := by omega
    simp only [if_neg hj2, List.append_nil] at hev ⊢
    have hpre : ∀ s : NtxState, replay (nstCopyOp job)
        ([⟨EventKind.frame, level + 1, path, agu⟩]
          ++ (if job.initLevel = level + 1 then [⟨EventKind.init, level + 1, path, agu⟩] else []))
        s = s := by
      intro s
      by_cases c1 : job.initLevel = level + 1 <;>
        simp [c1, replay_cons, replay_nil, Event.apply, nstCopyOp, h1m]
    rw [replay_append, hpre]
    obtain ⟨b1, b2⟩ := copy_vect_loop job n S outer hlb hn mem0 level hlev path (by omega)
      (fun i hi => by
        have := hval i hi
        exact this)
      (fun isLast2 path2 agu2 s2 D2 q1 q2 q3 q4 q5 =>
        ih (by omega) isLast2 path2 agu2 s2 D2 q1 q2 q3 q4 q5)
      (job.loopBound level + 1) 0 agu s D (by omega)
      (fun e he => hev e (List.mem_append_right _ he)) i1 i2
    refine ⟨b1, fun t ht hD => ?_⟩
    apply b2 t ht
    rcases hD with hD | hD
    · exact Or.inl hD
    · refine Or.inr ⟨hD, by omega, ?_⟩
      have h3 := ht.2 level hlev
      have h4 := hlb level hlev
      have h5 := hn level hlev
      omega

/-- Claim C18 as stated fails. With the source element stride `2^30` the staged
byte stride `4 * 2^30` does not fit 32 bits and is staged as 0: source and
destination ranges do not overlap and the destination addresses are distinct,
but the destination word of index 1 is the source word of index 0 (1), not the
original source word at `base0 + 4 * 2^30` (2). -/
theorem copy_vector_counterexample :
    (issueCmd (exampleJob farStrides 0 0 8 3 1 false) farRun).isDone = true ∧
    (∀ t ∈ [[0], [1]], ∀ u ∈ [[0], [1]],
      tupleOk (fun _ => 2) 1 t ∧ tupleOk (fun _ => 2) 1 u ∧
      ((16 : Int) + 4 * pathOffset farStrides 0 0 t + 4 ≤ 0 + 4 * pathOffset farStrides 2 0 u ∨
        (0 : Int) + 4 * pathOffset farStrides 2 0 u + 4 ≤ 16 + 4 * pathOffset farStrides 0 0 t) ∧
      (t ≠ u → pathOffset farStrides 2 0 t ≠ pathOffset farStrides 2 0 u)) ∧
    load32 (issueCmd (exampleJob farStrides 0 0 8 3 1 false) farRun).state.2.st.mem
      (0 + 4 * pathOffset farStrides 2 0 [1]) = 1 ∧
    load32 farRun.st.mem (16 + 4 * pathOffset farStrides 0 0 [1]) = 2 := by
  refine ⟨by decide, by decide, by decide, by decide⟩

/-- Claim C18, amended. COPY in vector mode copies verbatim: for a COPY job with
`auxFunc & 1 = 1`, `innerLevel = 0`, counts `n_l` and element strides `S[0][l]`
(source) and `S[2][l]` (destination) with no 32-bit overflow in the stride
computation, such that source and destination ranges do not overlap and
destination addresses are pairwise distinct, after a completed `issueCmd` the
destination word at `base2 + 4 * sum_l i_l * S[2][l]` equals the original source
word at `base0 + 4 * sum_l i_l * S[0][l]` for every index tuple, independently
of `initSel` and polarity; and the command completes when address checking is
off. -/
theorem copy_vector (ntx0 : ntx_api) (initL outerL : Nat) (n : Nat → Nat) (S : Nat → Nat → Int)
    (d : ntx_api) (base0 base1 base2 : Int) (initSel auxFunc irqCfg : Nat) (p : Bool)
    (hstage : stageLoopNest ntx0 initL 0 outerL n S = Outcome.done d)
    (hfit : strideFits outerL n S) (haux : auxFunc &&& 0x1 = 1)
    (hsep : ∀ t u, tupleOk n outerL t → tupleOk n outerL u →
      base0 + 4 * pathOffset S 0 0 t + 4 ≤ base2 + 4 * pathOffset S 2 0 u ∨
      base2 + 4 * pathOffset S 2 0 u + 4 ≤ base0 + 4 * pathOffset S 0 0 t)
    (hdist : ∀ t u, tupleOk n outerL t → tupleOk n outerL u → t ≠ u →
      base2 + 4 * pathOffset S 2 0 t ≠ base2 + 4 * pathOffset S 2 0 u) :
    (∀ (r : NstRun NtxState) (x : ntx_api × NstRun NtxState),
      issueCmd (stageCmd (stageAguOffs d base0 base1 base2) 8 initSel auxFunc irqCfg p) r
        = Outcome.done x →
      ∀ t, tupleOk n outerL t →
        load32 x.2.st.mem (base2 + 4 * pathOffset S 2 0 t)
          = load32 r.st.mem (base0 + 4 * pathOffset S 0 0 t)) ∧
    (ntx0.checkTcdmAddrs = false → (∀ l, l < 5 → ntx0.loopBound l < 2 ^ 16) →
      ∀ r : NstRun NtxState,
        ∃ x, issueCmd (stageCmd (stageAguOffs d base0 base1 base2) 8 initSel auxFunc irqCfg p) r
          = Outcome.done x) := by
  obtain ⟨⟨o1, o2, o3⟩, hn, ⟨l1, l2, l3⟩, hst, hlb, hrest, hc, _⟩ :=
    stageLoopNest_done ntx0 initL 0 outerL n S d hstage
  generalize hjob : stageCmd (stageAguOffs d base0 base1 base2) 8 initSel auxFunc irqCfg p = job
  have j1 : job.initLevel = initL := by rw [← hjob]; exact l1
  have j2 : job.innerLevel = 0 := by rw [← hjob]; exact l2
  have j3 : job.outerLevel = outerL := by rw [← hjob]; exact l3
  have j4 : job.opCode = 8 := by rw [← hjob]; rfl
  have j6 : job.auxFunc = auxFunc := by rw [← hjob]; rfl
  have j8 : job.loopBound = d.loopBound := by rw [← hjob]; rfl
  have j9 : job.aguStride = d.aguStride := by rw [← hjob]; rfl
  have j10 : job.aguOff 0 = base0 ∧ job.aguOff 1 = base1 ∧ job.aguOff 2 = base2 := by
    rw [← hjob]; exact ⟨rfl, rfl, rfl⟩
  have j11 : job.checkTcdmAddrs = d.checkTcdmAddrs := by rw [← hjob]; rfl
  constructor
  · intro r x hx t ht
    obtain ⟨hrun, _⟩ := issueCmd_done job r x hx
    obtain ⟨hlog, hstate, _⟩ := nstFuncModel_events job (nstOps job) r x.2 hrun
    have hS : ∀ a l, a < 3 → l < outerL →
        job.aguStride a l = 4 * (S a l - lowerOffset n S a l) := by
      intro a l ha hl
      rw [j9, hst a l ha hl]
      exact wrapS32_of_fits _ (hfit a ha l hl).1 (hfit a ha l hl).2
    have hlbj : ∀ l, l < outerL → job.loopBound l = n l - 1 := by
      intro l hl; rw [j8]; exact hlb l hl
    have habs := nstFuncModelLog_absolute job (nstOps job) r n S outerL o3 hS hlbj j3
    rw [hlog] at habs
    have habs2 : ∀ e ∈ (frameEvents job outerL true [] job.aguOff).1,
        e.absolute job.aguOff n S outerL := by
      rw [← j3]
      intro e he
      rw [j3]
      exact habs e he
    have hop : nstOps job job.opCode = nstCopyOp job := by rw [j4]; rfl
    rw [hop, j3] at hstate
    have hne : job.auxFunc &&& 0x1 ≠ 0 := by rw [j6, haux]; decide
    obtain ⟨_, c2⟩ := copy_vect_level job hne j2 n S outerL hlbj (fun l hl => (hn l hl).1)
      r.st.mem
      (by rw [j10.1, j10.2.2]; exact hsep)
      (by
        intro t u ht hu htu h
        exact hdist t u ht hu htu (by rw [h]))
      outerL (le_refl _) true [] job.aguOff r.st (fun _ => False) (by simp)
      (by intro i hi; simp at hi) habs2 (fun _ _ => rfl) (fun _ _ h => absurd h id)
    have := c2 t ht (Or.inr (by rw [← ht.1]; exact List.drop_length t))
    rw [j10.1, j10.2.2] at this
    rw [hstate]
    exact this
  · intro hc0 hb0 r
    apply issueCmd_completes job r
    · rw [j1, j2, j3]; omega
    · intro l hl
      rw [j8]
      by_cases h0 : l < outerL
      · rw [hlb l h0]
        have := (hn l h0).2
        omega
      · rw [(hrest l (by omega)).1]; exact hb0 l hl
    · rw [j4]; omega
    · rw [j11, hc, hc0]

theorem copy_vector_witness :
    (issueCmd (exampleJob unitStrides 0 0 8 3 1 false) (exampleRun exampleWords)).isDone = true ∧
      load32 (issueCmd (exampleJob unitStrides 0 0 8 3 1 false)
        (exampleRun exampleWords)).state.2.st.mem 4 = 0x40400000 := by
  obtain ⟨d, hd⟩ := stageLoopNest_completes ntx_api.fresh 0 0 1 (fun _ => 2) unitStrides
    (by decide) (by decide) (by decide) (by decide)
  have hone : ∀ t, tupleOk (fun _ => 2) 1 t → ∃ i : Nat, i < 2 ∧ t = [i] := by
    intro t ht
    obtain ⟨hl, hv⟩ := ht
    match t, hl with
    | [i], _ => exact ⟨i, by simpa using hv 0 (by decide), rfl⟩
  have h := copy_vector ntx_api.fresh 0 1 (fun _ => 2) unitStrides d 16 32 0 3 1 1 false hd
    (by decide) (by decide)
    (by
      intro t u ht hu
      obtain ⟨i, hi, rfl⟩ := hone t ht
      obtain ⟨j, hj, rfl⟩ := hone u hu
      simp only [pathOffset, unitStrides]
      omega)
    (by
      intro t u ht hu htu
      obtain ⟨i, hi, rfl⟩ := hone t ht
      obtain ⟨j, hj, rfl⟩ := hone u hu
      have hij : i ≠ j := fun h => htu (by rw [h])
      simp only [pathOffset, unitStrides]
      omega)
  have e : exampleJob unitStrides 0 0 8 3 1 false
      = stageCmd (stageAguOffs d 16 32 0) 8 3 1 1 false := by
    unfold exampleJob; rw [hd]; rfl
  obtain ⟨x, hx⟩ := h.2 (by decide) (by decide) (exampleRun exampleWords)
  have hv := h.1 (exampleRun exampleWords) x hx [1] (by decide)
  rw [e, hx]
  refine ⟨rfl, ?_⟩
  show load32 x.2.st.mem 4 = 0x40400000
  have e4 : (0 : Int) + 4 * pathOffset unitStrides 2 0 [1] = 4 := by decide
  rw [e4] at hv
  rw [hv]
  decide

/-! ## The order of `fp32Key` is the order of the values -/

theorem fp32Scaled_lt (x y : Nat) (h : x % 2 ^ 31 < y % 2 ^ 31) :
    fp32Scaled x < fp32Scaled y := by
  have hx : x % 2 ^ 31 = x / 2 ^ 23 % 2 ^ 8 * 2 ^ 23 + x % 2 ^ 23 := by omega
  have hy : y % 2 ^ 31 = y / 2 ^ 23 % 2 ^ 8 * 2 ^ 23 + y % 2 ^ 23 := by omega
  have hm1 : x % 2 ^ 23 < 2 ^ 23 := Nat.mod_lt _ (by norm_num)
  have hm2 : y % 2 ^ 23 < 2 ^ 23 := Nat.mod_lt _ (by norm_num)
  unfold fp32Scaled
  rw [hx, hy] at h
  generalize x / 2 ^ 23 % 2 ^ 8 = e1 at h ⊢
  generalize y / 2 ^ 23 % 2 ^ 8 = e2 at h ⊢
  generalize x % 2 ^ 23 = m1 at h hm1 ⊢
  generalize y % 2 ^ 23 = m2 at h hm2 ⊢
  have hP : ∀ k : Nat, 0 < 2 ^ k := fun k => Nat.pos_of_ne_zero (by positivity)
  by_cases c1 : e1 = 0
  · by_cases c2 : e2 = 0
    · rw [if_pos c1, if_pos c2]; omega
    · rw [if_pos c1, if_neg c2]
      have := hP (e2 - 1)
      calc m1 < 2 ^ 23 + m2 := by omega
        _ ≤ (2 ^ 23 + m2) * 2 ^ (e2 - 1) := Nat.le_mul_of_pos_right _ this
  · have c2 : e2 ≠ 0 := by omega
    rw [if_neg c1, if_neg c2]
    by_cases c3 : e1 = e2
    · subst c3
      exact Nat.mul_lt_mul_of_pos_right (by omega) (hP _)
    · have hlt : e1 < e2 := by omega
      have h1 : (2 ^ 23 + m1) * 2 ^ (e1 - 1) < 2 ^ 24 * 2 ^ (e1 - 1) :=
        Nat.mul_lt_mul_of_pos_right (by omega) (hP _)
      have h2 : 2 ^ 24 * 2 ^ (e1 - 1) = 2 ^ 23 * 2 ^ e1 := by
        have : e1 = (e1 - 1) + 1 := by omega
        conv_rhs => rw [this, pow_succ]
        ring
      have h3 : 2 ^ 23 * 2 ^ e1 ≤ 2 ^ 23 * 2 ^ (e2 - 1) :=
        Nat.mul_le_mul_left _ (Nat.pow_le_pow_right (by norm_num) (by omega))
      have h4 : 2 ^ 23 * 2 ^ (e2 - 1) ≤ (2 ^ 23 + m2) * 2 ^ (e2 - 1) :=
        Nat.mul_le_mul_right _ (by omega)
      omega

theorem fp32Scaled_congr (x y : Nat) (h : x % 2 ^ 31 = y % 2 ^ 31) :
    fp32Scaled x = fp32Scaled y := by
  have h1 : x / 2 ^ 23 % 2 ^ 8 = y / 2 ^ 23 % 2 ^ 8 := by omega
  have h2 : x % 2 ^ 23 = y % 2 ^ 23 := by omega
  unfold fp32Scaled
  rw [h1, h2]

theorem fp32Scaled_le_iff (x y : Nat) :
    fp32Scaled x ≤ fp32Scaled y ↔ x % 2 ^ 31 ≤ y % 2 ^ 31 := by
  constructor
  · intro h
    by_contra hc
    have := fp32Scaled_lt y x (by omega)
    omega
  · intro h
    rcases Nat.lt_or_eq_of_le h with h1 | h1
    · exact Nat.le_of_lt (fp32Scaled_lt x y h1)
    · exact Nat.le_of_eq (fp32Scaled_congr x y h1)

theorem fp32Scaled_eq_zero_iff (x : Nat) : fp32Scaled x = 0 ↔ x % 2 ^ 31 = 0 := by
  have h0 : fp32Scaled 0 = 0 := by decide
  have h := fp32Scaled_le_iff x 0
  rw [h0] at h
  have e : (0 : Nat) % 2 ^ 31 = 0 := by decide
  rw [e] at h
  omega

/-- The order of the sign-magnitude keys is the order of the binary32 values. -/
theorem fp32Key_le_iff (x y : Nat) : fp32Key x ≤ fp32Key y ↔ fp32Value x ≤ fp32Value y := by
  have hxy := fp32Scaled_le_iff x y
  have hyx := fp32Scaled_le_iff y x
  have hx0 := fp32Scaled_eq_zero_iff x
  have hy0 := fp32Scaled_eq_zero_iff y
  unfold fp32Value fp32Key
  rw [div_le_div_iff_of_pos_right (by positivity)]
  by_cases sx : x / 2 ^ 31 % 2 = 1 <;> by_cases sy : y / 2 ^ 31 % 2 = 1
  · simp only [sx, sy, if_true]
    rw [neg_le_neg_iff, neg_le_neg_iff, Nat.cast_le, Nat.cast_le]
    exact hyx.symm
  · simp only [sx, sy, if_true, if_false]
    constructor
    · intro _
      have h1 : (0 : ℚ) ≤ (fp32Scaled x : ℚ) := Nat.cast_nonneg _
      have h2 : (0 : ℚ) ≤ (fp32Scaled y : ℚ) := Nat.cast_nonneg _
      linarith
    · intro _
      omega
  · simp only [sx, sy, if_true, if_false]
    constructor
    · intro h
      have a1 : x % 2 ^ 31 = 0 := by omega
      have a2 : y % 2 ^ 31 = 0 := by omega
      rw [hx0.2 a1, hy0.2 a2]
      simp
    · intro h
      have h1 : (0 : ℚ) ≤ (fp32Scaled x : ℚ) := Nat.cast_nonneg _
      have h2 : (0 : ℚ) ≤ (fp32Scaled y : ℚ) := Nat.cast_nonneg _
      have a1 : (fp32Scaled x : ℚ) = 0 := by linarith
      have a2 : (fp32Scaled y : ℚ) = 0 := by linarith
      have b1 : fp32Scaled x = 0 := by exact_mod_cast a1
      have b2 : fp32Scaled y = 0 := by exact_mod_cast a2
      have c1 := hx0.1 b1
      have c2 := hy0.1 b2
      omega
  · simp only [sx, sy, if_false]
    rw [Nat.cast_le, Nat.cast_le]
    exact hxy.symm

/-- Sample values: `0x3F800000` is 1, `0xC0000000` is -2, `0x3F000000` is 1/2 and
the smallest subnormal `0x00000001` is `2^(-149)`. -/
theorem fp32Value_samples :
    fp32Value 0x3F800000 = 1 ∧ fp32Value 0xC0000000 = -2 ∧ fp32Value 0x3F000000 = 1 / 2 ∧
      fp32Value 0x00000001 = 1 / 2 ^ 149 := by
  refine ⟨?_, ?_, ?_, ?_⟩ <;> norm_num [fp32Value, fp32Scaled]

/-! ## Overwriting the accumulator and zero operands -/

theorem extFp32ToPcs_zero_mant (s : Bool) : extFp32ToPcs s 0 0 = fp32_accuType.zero := by
  cases s <;> decide

theorem pcsMac_zero_image (a b subEn normEn accuSel : Nat) (accu : fp32_accuType) (res : Nat)
    (hz : a % 2 ^ 31 = 0 ∨ b % 2 ^ 31 = 0) :
    (pcsMac a b accuSel subEn normEn accu res).1
      = if accuSel ≠ 0 then fp32_accuType.zero else pcsAdd fp32_accuType.zero accu := by
  have hz2 : (fp32_isZero a || fp32_isZero b) = true := by
    rw [fp32_isZero_eq, fp32_isZero_eq]
    have e31 : (2:Nat) ^ 31 = 2147483648 := by norm_num
    rw [e31] at hz
    rcases hz with h | h <;> simp [h]
  unfold pcsMac
  simp only [hz2, if_true, extFp32ToPcs_zero_mant]

/-- Claim C27. Overwrite with an operand: for every word `x` (zeros, infinities
and patterns with exponent field 0 included) and every previous accumulator, the
call `pcsMac(x, 0x3F800000, accuSel = 1, subEn = 0, normEn = 0, accuState, res)`
sets the accumulator to exactly `fp32ToPcs(x)` and leaves `res` unchanged. -/
theorem pcsMac_overwrite_operand (x : Nat) (accu : fp32_accuType) (res : Nat) :
    pcsMac x 0x3F800000 1 0 0 accu res = (fp32ToPcs x, res) := by
  have h1 := pcsMac_one_image x accu res
  have h2 : (pcsMac x 0x3F800000 1 0 0 accu res).2 = res := by
    unfold pcsMac
    simp
  exact Prod.ext h1 h2

/-- Claim C28. A zero operand contributes nothing: for all words `a`, `b` one of
which is zero (low 31 bits all zero, either sign, the other operand arbitrary)
and every `subEn`, `pcsMac` with `accuSel = 0` leaves a canonical accumulator
unchanged and `pcsMac` with `accuSel = 1` (any nonzero value) sets it to
all-zero limbs; in particular the call `pcsMac(0, 0, 0, 0, normEn = 1)` of the
store phases returns `pcsToFp32(accu)` and leaves a canonical accumulator as it
is. -/
theorem pcsMac_zero_operand (a b subEn normEn : Nat) (accu : fp32_accuType) (res : Nat)
    (hz : a % 2 ^ 31 = 0 ∨ b % 2 ^ 31 = 0) (hwf : accu.wf) (hcan : accu.canonical) :
    (pcsMac a b 0 subEn normEn accu res).1 = accu ∧
    (∀ accuSel, accuSel ≠ 0 →
      (pcsMac a b accuSel subEn normEn accu res).1 = fp32_accuType.zero) ∧
    pcsMac 0 0 0 0 1 accu res = (accu, pcsToFp32 accu) := by
  refine ⟨?_, ?_, ?_⟩
  · rw [pcsMac_zero_image a b subEn normEn 0 accu res hz]
    simp only [ne_eq, not_true_eq_false, if_false]
    exact pcsAdd_zero_canonical accu hwf hcan
  · intro accuSel h
    rw [pcsMac_zero_image a b subEn normEn accuSel accu res hz, if_pos h]
  · have h1 : (pcsMac 0 0 0 0 1 accu res).1 = accu := by
      rw [pcsMac_zero_image 0 0 0 1 0 accu res (Or.inl (by decide))]
      simp only [ne_eq, not_true_eq_false, if_false]
      exact pcsAdd_zero_canonical accu hwf hcan
    have h2 : (pcsMac 0 0 0 0 1 accu res).2 = pcsToFp32 (pcsMac 0 0 0 0 0 accu res).1 :=
      pcsMac_norm 0 0 0 0 accu res
    have h3 : (pcsMac 0 0 0 0 0 accu res).1 = accu := by
      rw [pcsMac_zero_image 0 0 0 0 0 accu res (Or.inl (by decide))]
      simp only [ne_eq, not_true_eq_false, if_false]
      exact pcsAdd_zero_canonical accu hwf hcan
    rw [h3] at h2
    exact Prod.ext h1 h2

theorem pcsMac_zero_operand_witness :
    (pcsMac 0x80000000 0x7F800000 0 1 0 (exampleStore 0) 5).1 = exampleStore 0 ∧
      pcsMac 0 0 0 0 1 (exampleStore 0) 5 = (exampleStore 0, pcsToFp32 (exampleStore 0)) :=
  ⟨(pcsMac_zero_operand 0x80000000 0x7F800000 1 0 (exampleStore 0) 5 (Or.inl (by decide))
      (by decide) (by decide)).1,
   (pcsMac_zero_operand 0x80000000 0x7F800000 1 0 (exampleStore 0) 5 (Or.inl (by decide))
      (by decide) (by decide)).2.2⟩

/-! ## Placement, saturation, negation and the clamp -/

theorem extFp32ToPcs_place (e : Nat) (m : Nat) (he : e ≤ 254) (hm : m < 2 ^ 48) :
    extFp32ToPcs false (e : Int) m = accuOfNat (m * 2 ^ e / 2 ^ 23) := by
  rw [extFp32ToPcs_eq]
  have h0 : ¬ ((e : Int) < 0) := by omega
  have h1 : ¬ ((e : Int) ≥ (C_FP32_EXP_MASK_ALIGNED : Int)) := by
    simp only [C_FP32_EXP_MASK_ALIGNED]; omega
  simp only [h0, h1, if_false, Bool.false_eq_true]
  rw [← extPlace_toNat e m (by omega) hm]
  exact (accuOfNat_of_toNat _ (extPlace_wf _ _ (by omega))).symm

theorem extFp32ToPcs_sat (sign : Bool) (e : Int) (m : Nat) (he : 255 ≤ e) :
    extFp32ToPcs sign e m = extFp32ToPcs sign 255 (1 <<< 46) := by
  rw [extFp32ToPcs_eq, extFp32ToPcs_eq]
  have h0 : ¬ (e < 0) := by omega
  have h1 : e ≥ (C_FP32_EXP_MASK_ALIGNED : Int) := by
    simp only [C_FP32_EXP_MASK_ALIGNED]; omega
  have h2 : ¬ ((255 : Int) < 0) := by omega
  have h3 : (255 : Int) ≥ (C_FP32_EXP_MASK_ALIGNED : Int) := by
    simp only [C_FP32_EXP_MASK_ALIGNED]; omega
  simp only [h0, h1, h2, h3, if_true, if_false]

/-- Claim C29. Exact placement by `extFp32ToPcs`: for sign clear, every exponent
`e` with `0 ≤ e ≤ 254` and every mantissa `m < 2^48` the output is the split into
five limbs of the integer `floor(m * 2^(e-23))`, which is `m << (e-23)` when
`e ≥ 23` and `m >> (23-e)` otherwise (so the part crossing a limb boundary is in
the next limb and all other limbs are zero); for `e < 0` the output is all zero
for either sign; for sign set the output is `pcsInv` of the output for sign
clear. -/
theorem extFp32ToPcs_placement (sign : Bool) (e : Int) (m : Nat) :
    (0 ≤ e → e ≤ 254 → m < 2 ^ 48 →
      extFp32ToPcs false e m = accuOfNat (m * 2 ^ e.toNat / 2 ^ 23) ∧
      (extFp32ToPcs false e m).toNat = m * 2 ^ e.toNat / 2 ^ 23 ∧
      (23 ≤ e → (extFp32ToPcs false e m).toNat = m <<< (e - 23).toNat) ∧
      (e < 23 → (extFp32ToPcs false e m).toNat = m >>> (23 - e).toNat)) ∧
    (e < 0 → extFp32ToPcs sign e m = fp32_accuType.zero) ∧
    (m < 2 ^ 64 → extFp32ToPcs true e m = pcsInv (extFp32ToPcs false e m)) := by
  refine ⟨?_, ?_, ?_⟩
  · intro h0 h254 hm
    obtain ⟨n, rfl⟩ := Int.eq_ofNat_of_zero_le h0
    have hn : n ≤ 254 := by omega
    have hpl := extFp32ToPcs_place n m hn hm
    have hlt : m * 2 ^ n / 2 ^ 23 < 2 ^ 320 := by
      have h1 : m * 2 ^ n < 2 ^ 48 * 2 ^ 254 :=
        Nat.mul_lt_mul_of_lt_of_le hm (Nat.pow_le_pow_right (by norm_num) hn) (by positivity)
      have h2 : m * 2 ^ n / 2 ^ 23 ≤ m * 2 ^ n := Nat.div_le_self _ _
      have h3 : (2:Nat) ^ 48 * 2 ^ 254 < 2 ^ 320 := by norm_num
      omega
    have htn : (extFp32ToPcs false (n : Int) m).toNat = m * 2 ^ n / 2 ^ 23 := by
      rw [hpl]; exact accuOfNat_toNat _ hlt
    simp only [Int.toNat_ofNat]
    refine ⟨hpl, htn, ?_, ?_⟩
    · intro h23
      have h23n : 23 ≤ n := by omega
      have e1 : ((n : Int) - 23).toNat = n - 23 := by omega
      rw [htn, e1, Nat.shiftLeft_eq]
      have e2 : (2:Nat) ^ n = 2 ^ (n - 23) * 2 ^ 23 := by
        rw [← pow_add]; congr 1; omega
      rw [e2, ← Nat.mul_assoc, Nat.mul_div_cancel _ (by positivity)]
    · intro h23
      have h23n : n < 23 := by omega
      have e1 : (23 - (n : Int)).toNat = 23 - n := by omega
      rw [htn, e1, Nat.shiftRight_eq_div_pow]
      have e2 : (2:Nat) ^ 23 = 2 ^ n * 2 ^ (23 - n) := by
        rw [← pow_add]; congr 1; omega
      rw [e2, ← Nat.div_div_eq_div_mul, Nat.mul_div_cancel _ (by positivity)]
  · intro h
    rw [extFp32ToPcs_eq, if_pos h]
  · intro hm
    exact extFp32ToPcs_not false e m hm

theorem extFp32ToPcs_placement_witness :
    extFp32ToPcs false 100 (2 ^ 47 + 1) = accuOfNat ((2 ^ 47 + 1) * 2 ^ (100 : Int).toNat / 2 ^ 23) ∧
    extFp32ToPcs true (-1) 5 = fp32_accuType.zero ∧
    extFp32ToPcs true 100 5 = pcsInv (extFp32ToPcs false 100 5) :=
  ⟨((extFp32ToPcs_placement true 100 (2 ^ 47 + 1)).1 (by decide) (by decide) (by norm_num)).1,
   (extFp32ToPcs_placement true (-1) 5).2.1 (by decide),
   (extFp32ToPcs_placement true 100 5).2.2 (by norm_num)⟩

/-- Counterexample to claim C30 as stated: at exponent 255 with mantissa `2^47`
the code saturates (image `2^278`) where the unmodified placement is
`2^47 << 232 = 2^279`; and at exponent 256 the code gives `2^278`, the
placement of `1 << 46` at exponent 255, not the placement at exponent 256
(`2^279`). -/
theorem extFp32ToPcs_saturation_counterexample :
    (extFp32ToPcs false 255 (2 ^ 47)).toNat = 2 ^ 278 ∧
    (2 ^ 47) <<< (255 - 23) = 2 ^ 279 ∧
    (extFp32ToPcs false 256 (2 ^ 47)).toNat = 2 ^ 278 ∧
    (extPlace 256 (1 <<< 46)).toNat = 2 ^ 279 ∧
    (extPlace 255 (1 <<< 46)).toNat = 2 ^ 278 := by
  decide

/-- Claim C30, amended. `extFp32ToPcs` saturates exactly when `exp ≥ 255`: for
`exp ≥ 255` the exponent is clamped to 255 and the mantissa replaced by
`1 << 46` (for sign clear the image is `2^278`, whatever the mantissa), while
for every `exp` with `0 ≤ exp < 255` and mantissa `m < 2^48` with sign clear the
output is the unmodified placement `floor(m * 2^(exp-23))`. -/
theorem extFp32ToPcs_saturates (sign : Bool) (e : Int) (m : Nat) :
    (255 ≤ e →
      extFp32ToPcs sign e m
        = (if sign then pcsInv (extPlace 255 (1 <<< 46)) else extPlace 255 (1 <<< 46)) ∧
      (extFp32ToPcs false e m).toNat = 2 ^ 278) ∧
    (0 ≤ e → e < 255 → m < 2 ^ 48 →
      extFp32ToPcs false e m = accuOfNat (m * 2 ^ e.toNat / 2 ^ 23)) := by
  refine ⟨?_, ?_⟩
  · intro he
    refine ⟨?_, ?_⟩
    · rw [extFp32ToPcs_sat sign e m he]
      cases sign <;> decide
    · rw [extFp32ToPcs_sat false e m he]
      decide
  · intro h0 h255 hm
    obtain ⟨n, rfl⟩ := Int.eq_ofNat_of_zero_le h0
    simp only [Int.toNat_ofNat]
    exact extFp32ToPcs_place n m (by omega) hm

theorem extFp32ToPcs_saturates_witness :
    (extFp32ToPcs false 300 7).toNat = 2 ^ 278 ∧
    extFp32ToPcs false 254 (2 ^ 47) = accuOfNat (2 ^ 47 * 2 ^ (254 : Int).toNat / 2 ^ 23) :=
  ⟨((extFp32ToPcs_saturates false 300 7).1 (by decide)).2,
   (extFp32ToPcs_saturates false 254 (2 ^ 47)).2 (by decide) (by decide) (by norm_num)⟩

/-- Counterexample to claim C33 as stated: the accumulator with image
`-2^283` (limb 4 equal to `2^64 - 2^27`, the other limbs zero) is canonical,
and its negation has image `2^283`, which is not canonical. -/
theorem pcsInv_canonical_counterexample :
    (⟨0, 0, 0, 0, 2 ^ 64 - 2 ^ 27⟩ : fp32_accuType).wf ∧
    (⟨0, 0, 0, 0, 2 ^ 64 - 2 ^ 27⟩ : fp32_accuType).canonical ∧
    pcsInv ⟨0, 0, 0, 0, 2 ^ 64 - 2 ^ 27⟩ = ⟨0, 0, 0, 0, 2 ^ 27⟩ ∧
    ¬ (pcsInv ⟨0, 0, 0, 0, 2 ^ 64 - 2 ^ 27⟩).canonical := by
  decide

/-- Claim C33, amended. Negation preserves canonicity away from the most
negative value: for every canonical accumulator `A` whose image is not
`-2^283` (that is `2^320 - 2^283` as a 320-bit pattern), `pcsInv(A)` is
canonical. -/
theorem pcsInv_canonical (a : fp32_accuType) (hwf : a.wf) (hcan : a.canonical)
    (hmin : a.toNat ≠ 2 ^ 320 - 2 ^ 283) : (pcsInv a).canonical := by
  rw [fp32_accuType.canonical_iff _ (pcsInv_wf a), pcsInv_toNat a hwf]
  rw [fp32_accuType.canonical_iff _ hwf] at hcan
  have hlt := a.toNat_lt hwf
  rcases hcan with h | h
  · by_cases h0 : a.toNat = 0
    · left; rw [h0]; norm_num
    · right; omega
  · left; omega

theorem pcsInv_canonical_witness :
    (pcsInv (⟨5, 0, 0, 0, 0⟩ : fp32_accuType)).canonical :=
  pcsInv_canonical ⟨5, 0, 0, 0, 0⟩ (by decide) (by decide) (by decide)

/-- Counterexample to claim C34 as stated: `C_FP32_PCS_WIDTH & 63` is 28, not
60, and for the sum of limb 4 equal to `2^27` with zero the top limb of
`pcsAdd` is `2^64 - 2^27`, while a clamp by shifts of 4 bits would leave
`2^27`. -/
theorem pcsAdd_clamp_counterexample :
    C_FP32_PCS_WIDTH &&& 63 = 28 ∧
    (pcsAdd ⟨0, 0, 0, 0, 2 ^ 27⟩ fp32_accuType.zero).w4 = 2 ^ 64 - 2 ^ 27 ∧
    (pcsAddLoop ⟨0, 0, 0, 0, 2 ^ 27⟩ fp32_accuType.zero 5 0 0 fp32_accuType.zero).w4 = 2 ^ 27 ∧
    clampShift 4 (2 ^ 27) = 2 ^ 27 ∧
    clampShift 36 (2 ^ 27) = 2 ^ 64 - 2 ^ 27 := by
  decide

/-- Claim C34, amended. The clamp of the top limb in `pcsAdd` uses
`w = C_FP32_PCS_WIDTH & 63 = 28`: for all `A`, `B` the top limb of `pcsAdd(A, B)`
is the top limb `t` of the limbwise sum with carries, shifted left by
`64 - w = 36` bits and then arithmetically right by 36 bits, so that bits 28..63
of limb 4 are a sign extension of bit 27 and bits 0..27 of `t` are kept; the
four lower limbs are those of the limbwise sum. -/
theorem pcsAdd_clamp (a b : fp32_accuType) :
    C_FP32_PCS_WIDTH &&& 63 = 28 ∧
    (pcsAdd a b).w4
      = clampShift 36 (pcsAddLoop a b C_FP32_N_ACCU_WORDS 0 0 fp32_accuType.zero).w4 ∧
    (pcsAdd a b).w4 % 2 ^ 28
      = (pcsAddLoop a b C_FP32_N_ACCU_WORDS 0 0 fp32_accuType.zero).w4 % 2 ^ 28 ∧
    (∀ i, 28 ≤ i → i < 64 → (pcsAdd a b).w4.testBit i = (pcsAdd a b).w4.testBit 27) ∧
    (pcsAdd a b).w0 = (pcsAddLoop a b C_FP32_N_ACCU_WORDS 0 0 fp32_accuType.zero).w0 ∧
    (pcsAdd a b).w1 = (pcsAddLoop a b C_FP32_N_ACCU_WORDS 0 0 fp32_accuType.zero).w1 ∧
    (pcsAdd a b).w2 = (pcsAddLoop a b C_FP32_N_ACCU_WORDS 0 0 fp32_accuType.zero).w2 ∧
    (pcsAdd a b).w3 = (pcsAddLoop a b C_FP32_N_ACCU_WORDS 0 0 fp32_accuType.zero).w3 := by
  have hcl : ∀ w, clampShift 36 w = clampLimb w := by
    intro w
    have := clamp_eq w
    have h36 : 64 - (C_FP32_PCS_WIDTH &&& 0x3F) = 36 := by decide
    rw [h36] at this
    exact this
  have hadd : pcsAdd a b
      = pcsAddClamp (pcsAddLoop a b C_FP32_N_ACCU_WORDS 0 0 fp32_accuType.zero) := rfl
  generalize pcsAddLoop a b C_FP32_N_ACCU_WORDS 0 0 fp32_accuType.zero = L at hadd
  rw [hadd, pcsAddClamp_eq]
  refine ⟨by decide, (hcl _).symm, ?_, ?_, rfl, rfl, rfl, rfl⟩
  · show clampLimb L.w4 % 2 ^ 28 = L.w4 % 2 ^ 28
    unfold clampLimb
    split <;> omega
  · intro i h1 h2
    show (clampLimb L.w4).testBit i = (clampLimb L.w4).testBit 27
    have hc : clampLimb L.w4 / 2 ^ 27 = 0 ∨ clampLimb L.w4 / 2 ^ 27 = 2 ^ 37 - 1 := by
      unfold clampLimb
      split <;> omega
    have key : ∀ j, (clampLimb L.w4 / 2 ^ 27).testBit j = (clampLimb L.w4).testBit (27 + j) := by
      intro j
      rw [← Nat.shiftRight_eq_div_pow, Nat.testBit_shiftRight]
    have e : 27 + (i - 27) = i := by omega
    rw [← e, ← key, ← key 0]
    rcases hc with h | h
    · rw [h]; simp
    · rw [h, Nat.testBit_two_pow_sub_one, Nat.testBit_two_pow_sub_one]
      have : i - 27 < 37 := by omega
      simp [this]

/-! ## The cases of `pcsToFp32` by the size of the magnitude -/

/-- The scan of `pcsToFp32` leaves `tmpExp = p - 23` for a magnitude whose most
significant set bit has index `p`. -/
theorem pcsToFp32Scan_msb (T : fp32_accuType) (hwf : T.wf) (p : Nat)
    (hp1 : 2 ^ p ≤ T.toNat) (hp2 : T.toNat < 2 ^ (p + 1)) :
    ∃ off lz, pcsToFp32Scan T 5 296 = (off, lz, (p : Int) - 23) := by
  have hne : T.toNat ≠ 0 := by
    have : 0 < 2 ^ p := Nat.pos_of_ne_zero (by positivity)
    omega
  obtain ⟨off, W, low, hoff, hW, hW0, hWlt, hlow, hval, hscan, -⟩ := top_limb T hwf hne
  obtain ⟨L, hL63, hclz, hL1, hL2⟩ := clzll_spec W hW0 hWlt
  have hpos : 0 < 2 ^ (64 * off) := Nat.pos_of_ne_zero (by positivity)
  have hb1 : 2 ^ (64 * off + L) ≤ T.toNat := by
    rw [hval, pow_add, Nat.mul_comm (2 ^ (64 * off))]
    exact le_trans (Nat.mul_le_mul_right _ hL1) (Nat.le_add_right _ _)
  have hb2 : T.toNat < 2 ^ (64 * off + L + 1) := by
    have e : 64 * off + L + 1 = (L + 1) + 64 * off := by omega
    rw [hval, e, pow_add]
    calc W * 2 ^ (64 * off) + low < W * 2 ^ (64 * off) + 2 ^ (64 * off) := by omega
      _ = (W + 1) * 2 ^ (64 * off) := by ring
      _ ≤ 2 ^ (L + 1) * 2 ^ (64 * off) := Nat.mul_le_mul_right _ hL2
  have hp : p = 64 * off + L := pow_bracket_unique _ _ _ hp1 hp2 hb1 hb2
  refine ⟨off, clzll W, ?_⟩
  rw [hscan 296, hclz]
  congr 2
  omega

theorem exists_msb (v : Nat) (h : v ≠ 0) : ∃ p, 2 ^ p ≤ v ∧ v < 2 ^ (p + 1) :=
  ⟨Nat.log2 v, Nat.log2_self_le h, Nat.lt_log2_self⟩

/-- A magnitude below `2^23` (virtual exponent negative, or no set bit at all)
gives the bare sign. -/
theorem pcsToFp32Mag_small (T : fp32_accuType) (hwf : T.wf) (s0 : Nat)
    (h : T.toNat < 2 ^ 23) : pcsToFp32Mag s0 T = s0 := by
  by_cases h0 : T.toNat = 0
  · have hT : T = fp32_accuType.zero :=
      fp32_accuType.toNat_inj _ _ hwf fp32_accuType.zero_wf (by rw [h0]; rfl)
    have hs : pcsToFp32Scan fp32_accuType.zero 5 296 = (0, 0, -24) := by decide
    rw [hT, pcsToFp32Mag_of_scan s0 _ 0 0 (-24) hs, if_pos (by decide)]
    exact Nat.or_zero _
  · obtain ⟨p, hp1, hp2⟩ := exists_msb _ h0
    have hp : p < 23 := by
      by_contra hc
      have : (2:Nat) ^ 23 ≤ 2 ^ p := Nat.pow_le_pow_right (by norm_num) (by omega)
      omega
    obtain ⟨off, lz, hs⟩ := pcsToFp32Scan_msb T hwf p hp1 hp2
    rw [pcsToFp32Mag_of_scan s0 T off lz _ hs, if_pos (by omega)]
    exact Nat.or_zero _

/-- A magnitude of `2^278` or more (virtual exponent 255 or more) gives the
infinity pattern. -/
theorem pcsToFp32Mag_big (T : fp32_accuType) (hwf : T.wf) (s0 : Nat)
    (h : 2 ^ 278 ≤ T.toNat) : pcsToFp32Mag s0 T = s0 ||| C_FP32_INF_VAL := by
  have h0 : T.toNat ≠ 0 := by
    have : 0 < 2 ^ 278 := Nat.pos_of_ne_zero (by positivity)
    omega
  obtain ⟨p, hp1, hp2⟩ := exists_msb _ h0
  have hp : 278 ≤ p := by
    by_contra hc
    have : (2:Nat) ^ (p + 1) ≤ 2 ^ 278 := Nat.pow_le_pow_right (by norm_num) (by omega)
    omega
  obtain ⟨off, lz, hs⟩ := pcsToFp32Scan_msb T hwf p hp1 hp2
  rw [pcsToFp32Mag_of_scan s0 T off lz _ hs, if_neg (by omega), if_pos (by omega)]

/-- The sign and the magnitude that `pcsToFp32` works on. -/
theorem pcsToFp32_split (a : fp32_accuType) (hwf : a.wf) :
    ∃ T : fp32_accuType, T.wf ∧ T.toNat = accuMagnitude a ∧
      pcsToFp32 a = pcsToFp32Mag (a.w4 / 2 ^ 63 * 2 ^ 31) T ∧
      (a.w4 / 2 ^ 63 = 0 ∨ a.w4 / 2 ^ 63 = 1) := by
  have hlt := a.toNat_lt hwf
  have h4 : a.w4 < 2 ^ 64 := hwf.2.2.2.2
  have hg : a.get (C_FP32_N_ACCU_WORDS - 1) = a.w4 := rfl
  rw [pcsToFp32_eq]
  by_cases h : a.toNat < 2 ^ 319
  · have hz := get4_shift_zero a h
    have hz2 : a.w4 / 2 ^ 63 = 0 := by
      rw [hg, Nat.shiftRight_eq_div_pow] at hz; exact hz
    refine ⟨a, hwf, ?_, ?_, Or.inl hz2⟩
    · unfold accuMagnitude; rw [if_pos h]
    · rw [hz, hz2]; simp
  · have hz := get4_shift_ne_zero a hwf (by omega)
    have hz2 : a.w4 / 2 ^ 63 = 1 := by
      rw [hg, Nat.shiftRight_eq_div_pow] at hz; omega
    refine ⟨pcsInv a, pcsInv_wf a, ?_, ?_, Or.inr hz2⟩
    · rw [pcsInv_toNat a hwf]
      unfold accuMagnitude; rw [if_neg h]
      exact Nat.mod_eq_of_lt (by omega)
    · rw [hz2]
      simp only [hz, ne_eq, not_false_eq_true, decide_True, if_true]
      rfl

/-- The word `pcsToFp32` returns, by the size of the magnitude. -/
theorem pcsToFp32_cases (a : fp32_accuType) (hwf : a.wf) :
    (a.w4 / 2 ^ 63 = 0 ∨ a.w4 / 2 ^ 63 = 1) ∧
    (accuMagnitude a < 2 ^ 23 → pcsToFp32 a = a.w4 / 2 ^ 63 * 2 ^ 31) ∧
    (2 ^ 278 ≤ accuMagnitude a → pcsToFp32 a = a.w4 / 2 ^ 63 * 2 ^ 31 + 0x7F800000) ∧
    (∀ p, 2 ^ p ≤ accuMagnitude a → accuMagnitude a < 2 ^ (p + 1) → 23 ≤ p → p ≤ 277 →
      pcsToFp32 a = a.w4 / 2 ^ 63 * 2 ^ 31 + (p - 23) * 2 ^ 23
        + accuMagnitude a / 2 ^ (p - 23) % 2 ^ 23) := by
  obtain ⟨T, hT, hm, hc, hs⟩ := pcsToFp32_split a hwf
  have hs0 : a.w4 / 2 ^ 63 * 2 ^ 31 = 0 ∨ a.w4 / 2 ^ 63 * 2 ^ 31 = 2 ^ 31 := by
    rcases hs with h | h <;> rw [h] <;> simp
  refine ⟨hs, ?_, ?_, ?_⟩
  · intro h
    rw [hc, pcsToFp32Mag_small T hT _ (by rw [hm]; exact h)]
  · intro h
    rw [hc, pcsToFp32Mag_big T hT _ (by rw [hm]; exact h)]
    exact sign_or _ _ hs0 (by decide)
  · intro p hp1 hp2 h23 h277
    rw [hc, pcsToFp32Mag_eq T hT _ hs0 p (by rw [hm]; exact hp1) (by rw [hm]; exact hp2) h23 h277,
      hm]

/-! ## Truncation, infinity and the absence of NaN in `pcsToFp32` -/

theorem msb_range (v p : Nat) (h1 : 2 ^ p ≤ v) (h2 : v < 2 ^ (p + 1)) (lo hi : Nat) :
    (2 ^ lo ≤ v → lo ≤ p) ∧ (v < 2 ^ hi → p < hi) := by
  constructor
  · intro h
    by_contra hc
    have : (2:Nat) ^ (p + 1) ≤ 2 ^ lo := Nat.pow_le_pow_right (by norm_num) (by omega)
    omega
  · intro h
    by_contra hc
    have : (2:Nat) ^ hi ≤ 2 ^ p := Nat.pow_le_pow_right (by norm_num) (by omega)
    omega

theorem pack_or (s E f : Nat) (_hs : s = 0 ∨ s = 1) (hE : E < 2 ^ 8) :
    (s <<< 31) ||| (E <<< 23) ||| (f &&& 0x7FFFFF) = s * 2 ^ 31 + E * 2 ^ 23 + f % 2 ^ 23 := by
  have hm : f &&& 0x7FFFFF = f % 2 ^ 23 := and_mask23 f
  rw [hm, Nat.shiftLeft_eq, Nat.shiftLeft_eq, or_eq_add _ _ 31 (by omega)]
  exact or_eq_add_of_mod _ _ 23 (by omega) (Nat.mod_lt _ (by norm_num))

/-- Claim C31. Truncation to the top 24 bits by `pcsToFp32`: for every
accumulator whose 320-bit complement-of-two magnitude `m` has its most
significant set bit at index `p` with `23 ≤ p ≤ 277`, the output is
`s<<31 | (p-23)<<23 | ((m >> (p-23)) & 0x7FFFFF)`, where `s` is bit 63 of limb 4;
the magnitude bits below index `p-23` are discarded: an accumulator with the
same sign bit and the same magnitude bits from index `p-23` up gives the same
word (the proof covers the window straddling two limbs). -/
theorem pcsToFp32_truncates (a : fp32_accuType) (hwf : a.wf) (p : Nat)
    (hp1 : 2 ^ p ≤ accuMagnitude a) (hp2 : accuMagnitude a < 2 ^ (p + 1))
    (h23 : 23 ≤ p) (h277 : p ≤ 277) :
    pcsToFp32 a
      = ((a.w4 >>> 63) <<< 31) ||| ((p - 23) <<< 23)
          ||| ((accuMagnitude a >>> (p - 23)) &&& 0x7FFFFF) ∧
    ∀ b : fp32_accuType, b.wf → b.w4 >>> 63 = a.w4 >>> 63 →
      accuMagnitude b >>> (p - 23) = accuMagnitude a >>> (p - 23) →
      pcsToFp32 b = pcsToFp32 a := by
  obtain ⟨hs, -, -, hn⟩ := pcsToFp32_cases a hwf
  have ha := hn p hp1 hp2 h23 h277
  constructor
  · rw [ha, Nat.shiftRight_eq_div_pow, Nat.shiftRight_eq_div_pow, pack_or _ _ _ hs (by omega)]
  · intro b hb hsb hmb
    rw [Nat.shiftRight_eq_div_pow, Nat.shiftRight_eq_div_pow] at hsb hmb
    obtain ⟨-, -, -, hnb⟩ := pcsToFp32_cases b hb
    have hpos : 0 < 2 ^ (p - 23) := Nat.pos_of_ne_zero (by positivity)
    have e1 : (2:Nat) ^ p = 2 ^ 23 * 2 ^ (p - 23) := by
      rw [← pow_add]; congr 1; omega
    have e2 : (2:Nat) ^ (p + 1) = 2 ^ 24 * 2 ^ (p - 23) := by
      rw [← pow_add]; congr 1; omega
    have q1 : 2 ^ 23 ≤ accuMagnitude a / 2 ^ (p - 23) := by
      rw [Nat.le_div_iff_mul_le hpos, ← e1]; exact hp1
    have q2 : accuMagnitude a / 2 ^ (p - 23) < 2 ^ 24 := by
      rw [Nat.div_lt_iff_lt_mul hpos, ← e2]; exact hp2
    rw [← hmb] at q1 q2
    have b1 : 2 ^ p ≤ accuMagnitude b := by
      rw [e1, ← Nat.le_div_iff_mul_le hpos]; exact q1
    have b2 : accuMagnitude b < 2 ^ (p + 1) := by
      rw [e2, ← Nat.div_lt_iff_lt_mul hpos]; exact q2
    rw [hnb p b1 b2 h23 h277, ha, hsb, hmb]

theorem pcsToFp32_truncates_witness :
    pcsToFp32 (⟨0, 2 ^ 63 + 5, 2 ^ 20 + 2 ^ 3 + 1, 0, 0⟩ : fp32_accuType)
      = ((0 >>> 63) <<< 31) ||| ((148 - 23) <<< 23)
          ||| ((accuMagnitude ⟨0, 2 ^ 63 + 5, 2 ^ 20 + 2 ^ 3 + 1, 0, 0⟩ >>> (148 - 23))
                &&& 0x7FFFFF) :=
  (pcsToFp32_truncates ⟨0, 2 ^ 63 + 5, 2 ^ 20 + 2 ^ 3 + 1, 0, 0⟩ (by decide) 148
    (by decide) (by decide) (by decide) (by decide)).1

/-- Counterexample to claim C32 as stated: the accumulator with magnitude
`2^278 + 2^277` has its most significant set bit at index 278, so its virtual
exponent is 255, below 256; `pcsToFp32` returns the infinity pattern
`0x7F800000` for it, not the word `0x7FC00000` with exponent field 255 and the
23 bits below the leading one. -/
theorem pcsToFp32_infinity_counterexample :
    accuMagnitude ⟨0, 0, 0, 0, 2 ^ 22 + 2 ^ 21⟩ = 2 ^ 278 + 2 ^ 277 ∧
    2 ^ 278 ≤ accuMagnitude ⟨0, 0, 0, 0, 2 ^ 22 + 2 ^ 21⟩ ∧
    accuMagnitude ⟨0, 0, 0, 0, 2 ^ 22 + 2 ^ 21⟩ < 2 ^ 279 ∧
    pcsToFp32 ⟨0, 0, 0, 0, 2 ^ 22 + 2 ^ 21⟩ = 0x7F800000 ∧
    ((0 <<< 31) ||| (255 <<< 23)
      ||| ((accuMagnitude ⟨0, 0, 0, 0, 2 ^ 22 + 2 ^ 21⟩ >>> 255) &&& 0x7FFFFF)) = 0x7FC00000 := by
  decide

/-- Claim C32, amended. `pcsToFp32` returns an infinity pattern (recorded sign
`| 0x7F800000`) if and only if the virtual exponent (index of the most
significant set bit of the magnitude, minus 23) is at least 255, that is the
magnitude is at least `2^278`; for virtual exponent 254 it packs exponent field
254 together with the 23 bits below the leading one. -/
theorem pcsToFp32_infinity (a : fp32_accuType) (hwf : a.wf) :
    (pcsToFp32 a = ((a.w4 >>> 63) <<< 31) ||| 0x7F800000 ↔ 2 ^ 278 ≤ accuMagnitude a) ∧
    (2 ^ 277 ≤ accuMagnitude a → accuMagnitude a < 2 ^ 278 →
      pcsToFp32 a = ((a.w4 >>> 63) <<< 31) ||| (254 <<< 23)
        ||| ((accuMagnitude a >>> 254) &&& 0x7FFFFF)) := by
  obtain ⟨hs, hsmall, hbig, hn⟩ := pcsToFp32_cases a hwf
  have hinf : ((a.w4 >>> 63) <<< 31) ||| 0x7F800000 = a.w4 / 2 ^ 63 * 2 ^ 31 + 0x7F800000 := by
    rw [Nat.shiftRight_eq_div_pow, Nat.shiftLeft_eq]
    exact or_eq_add _ _ 31 (by norm_num)
  refine ⟨⟨?_, ?_⟩, ?_⟩
  · intro h
    rw [hinf] at h
    by_contra hc
    by_cases h23 : accuMagnitude a < 2 ^ 23
    · rw [hsmall h23] at h; omega
    · obtain ⟨p, hp1, hp2⟩ := exists_msb (accuMagnitude a) (by omega)
      have r := msb_range _ p hp1 hp2 23 278
      have h1 : 23 ≤ p := r.1 (by omega)
      have h2 : p < 278 := r.2 (by omega)
      rw [hn p hp1 hp2 h1 (by omega)] at h
      have := Nat.mod_lt (accuMagnitude a / 2 ^ (p - 23)) (show 0 < 2 ^ 23 by norm_num)
      omega
  · intro h
    rw [hinf]; exact hbig h
  · intro h1 h2
    have := hn 277 h1 h2 (by norm_num) (by norm_num)
    rw [this, Nat.shiftRight_eq_div_pow, Nat.shiftRight_eq_div_pow, pack_or _ _ _ hs (by norm_num)]

theorem pcsToFp32_infinity_witness :
    (pcsToFp32 (⟨0, 0, 0, 0, 2 ^ 22⟩ : fp32_accuType)
        = (((2 ^ 22) >>> 63) <<< 31) ||| 0x7F800000 ↔
      2 ^ 278 ≤ accuMagnitude ⟨0, 0, 0, 0, 2 ^ 22⟩) ∧
    pcsToFp32 (⟨0, 0, 0, 0, 2 ^ 22⟩ : fp32_accuType) = 0x7F800000 :=
  ⟨(pcsToFp32_infinity ⟨0, 0, 0, 0, 2 ^ 22⟩ (by decide)).1, by decide⟩

/-- Claim C37. No NaN from `pcsToFp32`: for every accumulator (five arbitrary
64-bit limbs) the output either has exponent field below 255 or is exactly
`0x7F800000` or `0xFF800000`, so it is never a NaN pattern; and whenever the
exponent is packed (most significant set bit of the magnitude at index `p`,
`23 ≤ p ≤ 277`) the exponent field of the output is the virtual exponent
`p - 23` and the fraction field is the 23 bits below the leading one, the
assembled fraction not reaching into the exponent field. -/
theorem pcsToFp32_never_nan (a : fp32_accuType) (hwf : a.wf) :
    (pcsToFp32 a / 2 ^ 23 % 2 ^ 8 < 255 ∨ pcsToFp32 a = 0x7F800000 ∨
      pcsToFp32 a = 0xFF800000) ∧
    fp32_isNaN (pcsToFp32 a) = false ∧
    (∀ p, 2 ^ p ≤ accuMagnitude a → accuMagnitude a < 2 ^ (p + 1) → 23 ≤ p → p ≤ 277 →
      pcsToFp32 a / 2 ^ 23 % 2 ^ 8 = p - 23 ∧
      pcsToFp32 a % 2 ^ 23 = accuMagnitude a / 2 ^ (p - 23) % 2 ^ 23) := by
  obtain ⟨hs, hsmall, hbig, hn⟩ := pcsToFp32_cases a hwf
  have hfield : ∀ p, 2 ^ p ≤ accuMagnitude a → accuMagnitude a < 2 ^ (p + 1) → 23 ≤ p →
      p ≤ 277 → pcsToFp32 a / 2 ^ 23 % 2 ^ 8 = p - 23 ∧
      pcsToFp32 a % 2 ^ 23 = accuMagnitude a / 2 ^ (p - 23) % 2 ^ 23 := by
    intro p hp1 hp2 h23 h277
    rw [hn p hp1 hp2 h23 h277]
    have := Nat.mod_lt (accuMagnitude a / 2 ^ (p - 23)) (show 0 < 2 ^ 23 by norm_num)
    generalize accuMagnitude a / 2 ^ (p - 23) % 2 ^ 23 = f at *
    rcases hs with h | h <;> rw [h] <;> constructor <;> omega
  have hmain : pcsToFp32 a / 2 ^ 23 % 2 ^ 8 < 255 ∨ pcsToFp32 a = 0x7F800000 ∨
      pcsToFp32 a = 0xFF800000 := by
    by_cases h23 : accuMagnitude a < 2 ^ 23
    · left
      rw [hsmall h23]
      rcases hs with h | h <;> rw [h] <;> norm_num
    · by_cases h278 : 2 ^ 278 ≤ accuMagnitude a
      · right
        rw [hbig h278]
        rcases hs with h | h <;> rw [h] <;> norm_num
      · left
        obtain ⟨p, hp1, hp2⟩ := exists_msb (accuMagnitude a) (by omega)
        have r := msb_range _ p hp1 hp2 23 278
        have h1 : 23 ≤ p := r.1 (by omega)
        have h2 : p < 278 := r.2 (by omega)
        rw [(hfield p hp1 hp2 h1 (by omega)).1]
        omega
  refine ⟨hmain, ?_, hfield⟩
  unfold fp32_isNaN
  rcases hmain with h | h | h
  · have : ¬ (pcsToFp32 a / 2 ^ 23 % 2 ^ 8 = 255) := by omega
    rw [decide_eq_false this]
    rfl
  · rw [h]; decide
  · rw [h]; decide

theorem pcsToFp32_never_nan_witness :
    fp32_isNaN (pcsToFp32 (⟨0, 0, 0, 0, 2 ^ 22 + 2 ^ 21⟩ : fp32_accuType)) = false :=
  (pcsToFp32_never_nan ⟨0, 0, 0, 0, 2 ^ 22 + 2 ^ 21⟩ (by decide)).2.1

/-! ## Canonical accumulators and the size of a product image -/

theorem canonical_toInt_range (a : fp32_accuType) (hwf : a.wf) (hcan : a.canonical) :
    -2 ^ 283 ≤ a.toInt ∧ a.toInt < 2 ^ 283 := by
  rw [fp32_accuType.canonical_iff a hwf] at hcan
  have hlt := a.toNat_lt hwf
  unfold fp32_accuType.toInt
  rcases hcan with h | h
  · have : a.toNat < 2 ^ 283 := by omega
    rw [if_pos (by omega)]
    omega
  · have : 2 ^ 320 - 2 ^ 283 ≤ a.toNat := by omega
    rw [if_neg (by omega)]
    omega

theorem pcsAdd_canonical (a b : fp32_accuType) (ha : a.wf) (hb : b.wf) :
    (pcsAdd a b).canonical := by
  rw [fp32_accuType.canonical_iff _ (pcsAdd_wf a b), pcsAdd_toNat a b ha hb]
  have := Nat.mod_lt (a.toNat + b.toNat) (show 0 < 2 ^ 284 by norm_num)
  generalize (a.toNat + b.toNat) % 2 ^ 284 = v at this
  unfold signExt284
  split <;> omega

/-- The image `extFp32ToPcs` builds from a mantissa below `2^48` is canonical
and has magnitude below `2^279`. -/
theorem extFp32ToPcs_bound (sg : Bool) (e : Int) (m : Nat) (hm : m < 2 ^ 48) :
    (extFp32ToPcs sg e m).wf ∧ (extFp32ToPcs sg e m).canonical ∧
    -2 ^ 279 < (extFp32ToPcs sg e m).toInt ∧ (extFp32ToPcs sg e m).toInt < 2 ^ 279 ∧
    accuMagnitude (extFp32ToPcs sg e m) < 2 ^ 279 := by
  by_cases h0 : e < 0
  · have : extFp32ToPcs sg e m = fp32_accuType.zero := by rw [extFp32ToPcs_eq, if_pos h0]
    rw [this]
    decide
  · by_cases h255 : 255 ≤ e
    · rw [extFp32ToPcs_sat sg e m h255]
      cases sg <;> decide
    · obtain ⟨n, rfl⟩ := Int.eq_ofNat_of_zero_le (by omega : 0 ≤ e)
      have hn : n ≤ 254 := by omega
      have hpl := extFp32ToPcs_place n m hn hm
      have hv : m * 2 ^ n / 2 ^ 23 < 2 ^ 279 := by
        have h1 : m * 2 ^ n < 2 ^ 48 * 2 ^ 254 :=
          Nat.mul_lt_mul_of_lt_of_le hm (Nat.pow_le_pow_right (by norm_num) hn) (by positivity)
        have e1 : (2:Nat) ^ 48 * 2 ^ 254 = 2 ^ 23 * 2 ^ 279 := by norm_num
        rw [e1] at h1
        exact Nat.div_lt_of_lt_mul h1
      generalize m * 2 ^ n / 2 ^ 23 = v at hpl hv
      have hwf0 : (accuOfNat v).wf := accuOfNat_wf v
      have ht0 : (accuOfNat v).toNat = v := accuOfNat_toNat v (by omega)
      cases sg
      · rw [hpl]
        refine ⟨hwf0, ?_, ?_, ?_, ?_⟩
        · rw [fp32_accuType.canonical_iff _ hwf0, ht0]; left; omega
        · unfold fp32_accuType.toInt; rw [ht0, if_pos (by omega)]; omega
        · unfold fp32_accuType.toInt; rw [ht0, if_pos (by omega)]; omega
        · unfold accuMagnitude; rw [ht0, if_pos (by omega)]; exact hv
      · have hinv := extFp32ToPcs_not false (n : Int) m (by omega)
        simp only [Bool.not_false] at hinv
        rw [hinv, hpl]
        have ht1 := pcsInv_toNat _ hwf0
        rw [ht0] at ht1
        refine ⟨pcsInv_wf _, ?_, ?_, ?_, ?_⟩
        · rw [fp32_accuType.canonical_iff _ (pcsInv_wf _), ht1]
          by_cases hz : v = 0
          · left; rw [hz]; norm_num
          · right; omega
        · unfold fp32_accuType.toInt; rw [ht1]
          by_cases hz : v = 0
          · rw [hz]; norm_num
          · rw [if_neg (by omega)]; omega
        · unfold fp32_accuType.toInt; rw [ht1]
          by_cases hz : v = 0
          · rw [hz]; norm_num
          · rw [if_neg (by omega)]; omega
        · unfold accuMagnitude; rw [ht1]
          by_cases hz : v = 0
          · rw [hz]; norm_num
          · rw [if_neg (by omega)]; omega

theorem mantFull_mul_lt (a b : Nat) : fp32_getMantFull a * fp32_getMantFull b < 2 ^ 48 := by
  rw [fp32_getMantFull_eq, fp32_getMantFull_eq]
  have h1 := Nat.mod_lt a (show 0 < 2 ^ 23 by norm_num)
  have h2 := Nat.mod_lt b (show 0 < 2 ^ 23 by norm_num)
  calc (a % 2 ^ 23 + 2 ^ 23) * (b % 2 ^ 23 + 2 ^ 23) < 2 ^ 24 * 2 ^ 24 :=
        Nat.mul_lt_mul_of_lt_of_le (by omega) (by omega) (by norm_num)
    _ = 2 ^ 48 := by norm_num

theorem productImage_bound (p : Bool) (a b : Nat) :
    (productImage p a b).wf ∧ (productImage p a b).canonical ∧
    -2 ^ 279 < (productImage p a b).toInt ∧ (productImage p a b).toInt < 2 ^ 279 ∧
    accuMagnitude (productImage p a b) < 2 ^ 279 := by
  unfold productImage
  split
  · decide
  · exact extFp32ToPcs_bound _ _ _ (mantFull_mul_lt a b)

/-- The accumulator `pcsMac` leaves: the image of the product, or the image
added to the accumulator. -/
theorem pcsMac_fst (a b accuSel subEn normEn : Nat) (accu : fp32_accuType) (res : Nat) :
    (pcsMac a b accuSel subEn normEn accu res).1
      = if accuSel ≠ 0 then productImage (decide (subEn ≠ 0)) a b
        else pcsAdd (productImage (decide (subEn ≠ 0)) a b) accu := by
  have hm : u64 (fp32_getMantFull a * fp32_getMantFull b)
      = fp32_getMantFull a * fp32_getMantFull b := by
    unfold u64
    exact Nat.mod_eq_of_lt (lt_trans (mantFull_mul_lt a b) (by norm_num))
  unfold pcsMac productImage
  simp only [hm]
  by_cases hz : fp32_isZero a = true ∨ fp32_isZero b = true
  · have hz2 : (fp32_isZero a || fp32_isZero b) = true := by simpa using hz
    simp only [hz, hz2, if_true]
    rw [extFp32ToPcs_zero_mant]
  · have hz2 : (fp32_isZero a || fp32_isZero b) = false := by simpa using hz
    simp only [hz, hz2, if_false]
    simp [C_FP32_BIAS]

theorem pcsMac_fst_canonical (a b accuSel subEn normEn : Nat) (accu : fp32_accuType)
    (res : Nat) (hwf : accu.wf) :
    (pcsMac a b accuSel subEn normEn accu res).1.wf ∧
    (pcsMac a b accuSel subEn normEn accu res).1.canonical := by
  rw [pcsMac_fst]
  obtain ⟨h1, h2, -⟩ := productImage_bound (decide (subEn ≠ 0)) a b
  split
  · exact ⟨h1, h2⟩
  · exact ⟨pcsAdd_wf _ _, pcsAdd_canonical _ _ h1 hwf⟩

theorem zero_canonical : fp32_accuType.zero.canonical := by decide

theorem replay_invariant {σ : Type} (op : nstInternalOp σ) (P : σ → Prop)
    (hinit : ∀ agu s, P s → P (op.init agu s))
    (hexec : ∀ agu s, P s → P (op.execute agu s))
    (hstore : ∀ agu s, P s → P (op.store agu s)) :
    ∀ (log : List Event) (s : σ), P s → P (replay op log s) := by
  intro log
  induction log with
  | nil => intro s h; exact h
  | cons e l ih =>
    intro s h
    rw [replay_cons]
    apply ih
    unfold Event.apply
    cases e.kind
    · exact h
    · exact hinit _ _ h
    · exact hexec _ _ h
    · exact hstore _ _ h

theorem phases_canonical (ntx : ntx_api) (c : Nat) (agu : Nat → Int) (s : NtxState)
    (hwf : s.accuState.wf) (hcan : s.accuState.canonical) :
    (((nstOps ntx c).init agu s).accuState.wf ∧
      ((nstOps ntx c).init agu s).accuState.canonical) ∧
    (((nstOps ntx c).execute agu s).accuState.wf ∧
      ((nstOps ntx c).execute agu s).accuState.canonical) ∧
    (((nstOps ntx c).store agu s).accuState.wf ∧
      ((nstOps ntx c).store agu s).accuState.canonical) := by
  have hz : fp32_accuType.zero.wf ∧ fp32_accuType.zero.canonical :=
    ⟨fp32_accuType.zero_wf, zero_canonical⟩
  have hs : s.accuState.wf ∧ s.accuState.canonical := ⟨hwf, hcan⟩
  obtain ⟨M, hM⟩ : ∃ M : Nat → Nat → Nat → Nat → Nat → fp32_accuType → Nat → fp32_accuType,
      ∀ a b c d e f g, (pcsMac a b c d e f g).1 = M a b c d e f g :=
    ⟨_, fun _ _ _ _ _ _ _ => rfl⟩
  have hMc : ∀ a b c d e g, (M a b c d e s.accuState g).wf ∧
      (M a b c d e s.accuState g).canonical := by
    intro a b c d e g
    rw [← hM]
    exact pcsMac_fst_canonical a b c d e s.accuState g hwf
  unfold nstOps
  split_ifs
  all_goals
    refine ⟨?_, ?_, ?_⟩ <;>
    simp only [nstMacOp, nstVAddSubOp, nstVMultOp, nstOuterPOp, nstMaxMinOp, nstThTstOp,
      nstMaskOp, nstMaskMacOp, nstCopyOp, macStore, hM] <;>
    (try split) <;>
    first
      | exact hz
      | exact hs
      | exact hMc _ _ _ _ _ _

/-- Claim C35. The accumulator stays canonical: the `accuState` of a freshly
constructed descriptor (all limbs zero) is canonical, and for each of the nine
opcodes (every opcode value `c`, every descriptor, every pointer triple and
every memory) each of the phases init, execute and store started with a
canonical `accuState` ends with a canonical `accuState`; hence so does every
sequence of phase calls. -/
theorem accuState_stays_canonical (ntx : ntx_api) (c : Nat) (agu : Nat → Int) (s : NtxState)
    (hwf : s.accuState.wf) (hcan : s.accuState.canonical) :
    (∀ mem tst opA opB, (NtxState.fresh mem tst opA opB).accuState.wf ∧
      (NtxState.fresh mem tst opA opB).accuState.canonical) ∧
    ((nstOps ntx c).init agu s).accuState.canonical ∧
    ((nstOps ntx c).execute agu s).accuState.canonical ∧
    ((nstOps ntx c).store agu s).accuState.canonical ∧
    ((nstOps ntx c).init agu s).accuState.wf ∧
    ((nstOps ntx c).execute agu s).accuState.wf ∧
    ((nstOps ntx c).store agu s).accuState.wf ∧
    ∀ log : List Event, (replay (nstOps ntx c) log s).accuState.canonical := by
  obtain ⟨h1, h2, h3⟩ := phases_canonical ntx c agu s hwf hcan
  refine ⟨fun _ _ _ _ => ⟨fp32_accuType.zero_wf, zero_canonical⟩,
    h1.2, h2.2, h3.2, h1.1, h2.1, h3.1, ?_⟩
  intro log
  have := replay_invariant (nstOps ntx c)
    (fun t : NtxState => t.accuState.wf ∧ t.accuState.canonical)
    (fun agu t ht => (phases_canonical ntx c agu t ht.1 ht.2).1)
    (fun agu t ht => (phases_canonical ntx c agu t ht.1 ht.2).2.1)
    (fun agu t ht => (phases_canonical ntx c agu t ht.1 ht.2).2.2)
    log s ⟨hwf, hcan⟩
  exact this.2

theorem accuState_stays_canonical_witness :
    ((nstOps ntx_api.fresh 0).execute (fun _ => 0)
        (NtxState.fresh (wordMem [0x3F800000]) false 0 0)).accuState.canonical ∧
    ((nstOps ntx_api.fresh 7).store (fun _ => 0)
        (NtxState.fresh (wordMem [0x3F800000]) true 0 0)).accuState.canonical :=
  ⟨(accuState_stays_canonical ntx_api.fresh 0 (fun _ => 0)
      (NtxState.fresh (wordMem [0x3F800000]) false 0 0) (by decide) (by decide)).2.2.1,
   (accuState_stays_canonical ntx_api.fresh 7 (fun _ => 0)
      (NtxState.fresh (wordMem [0x3F800000]) true 0 0) (by decide) (by decide)).2.2.2.1⟩

/-! ## Sixteen products -/

theorem pcsMacCalls_cons (accu : fp32_accuType) (c : Nat × Nat × Nat)
    (l : List (Nat × Nat × Nat)) :
    pcsMacCalls accu (c :: l)
      = pcsMacCalls (pcsAdd (productImage (decide (c.2.2 ≠ 0)) c.1 c.2.1) accu) l := by
  show pcsMacCalls (pcsMac c.1 c.2.1 0 c.2.2 0 accu 0).1 l = _
  rw [pcsMac_fst]
  simp

theorem pcsMacCalls_spec (l : List (Nat × Nat × Nat)) :
    ∀ accu : fp32_accuType, accu.wf → accu.canonical →
      (pcsMacCalls accu l).wf ∧ (pcsMacCalls accu l).canonical ∧
      ((pcsMacCalls accu l).toNat : Int) ≡ (accu.toNat : Int) + imageSum l [ZMOD 2 ^ 284] := by
  induction l with
  | nil =>
    intro accu h1 h2
    refine ⟨h1, h2, ?_⟩
    simp [pcsMacCalls, imageSum]
  | cons c l ih =>
    intro accu h1 h2
    rw [pcsMacCalls_cons]
    obtain ⟨hw, -⟩ := productImage_bound (decide (c.2.2 ≠ 0)) c.1 c.2.1
    obtain ⟨r1, r2, r3⟩ := ih _ (pcsAdd_wf _ accu) (pcsAdd_canonical _ accu hw h1)
    refine ⟨r1, r2, ?_⟩
    have hm := pcsAdd_modEq _ accu hw h1
    have e : imageSum (c :: l)
        = (productImage (decide (c.2.2 ≠ 0)) c.1 c.2.1).toInt + imageSum l := by
      simp [imageSum]
    rw [e]
    calc ((pcsMacCalls (pcsAdd (productImage (decide (c.2.2 ≠ 0)) c.1 c.2.1) accu) l).toNat : Int)
        ≡ ((pcsAdd (productImage (decide (c.2.2 ≠ 0)) c.1 c.2.1) accu).toNat : Int)
            + imageSum l [ZMOD 2 ^ 284] := r3
      _ ≡ ((productImage (decide (c.2.2 ≠ 0)) c.1 c.2.1).toInt + (accu.toNat : Int))
            + imageSum l [ZMOD 2 ^ 284] := Int.ModEq.add_right _ hm
      _ = (accu.toNat : Int)
            + ((productImage (decide (c.2.2 ≠ 0)) c.1 c.2.1).toInt + imageSum l) := by ring

theorem imageSum_bound (l : List (Nat × Nat × Nat)) :
    -((l.length : Int) * (2 ^ 279 - 1)) ≤ imageSum l ∧
      imageSum l ≤ (l.length : Int) * (2 ^ 279 - 1) := by
  induction l with
  | nil => simp [imageSum]
  | cons c l ih =>
    have e : imageSum (c :: l)
        = (productImage (decide (c.2.2 ≠ 0)) c.1 c.2.1).toInt + imageSum l := by
      simp [imageSum]
    obtain ⟨-, -, b1, b2, -⟩ := productImage_bound (decide (c.2.2 ≠ 0)) c.1 c.2.1
    rw [e]
    simp only [List.length_cons, Nat.cast_add, Nat.cast_one]
    generalize (productImage (decide (c.2.2 ≠ 0)) c.1 c.2.1).toInt = x at b1 b2
    generalize imageSum l = y at ih
    generalize (l.length : Int) = n at ih
    constructor <;> nlinarith [ih.1, ih.2]

/-- Claim C36. Sixteen products never wrap: the accumulator image that the
multiply step of `pcsMac` produces for two 32-bit words (saturated or not, either
`subEn`) has magnitude below `2^279`, and an accumulating call adds it to the
accumulator; so starting from the all-zero accumulator, after at most 16
accumulating calls (`accuSel = 0`) the accumulator read as a signed integer is
the exact sum of the product images; and there are 17 products for which the
accumulator differs from the exact sum. -/
theorem sixteen_products_exact (calls : List (Nat × Nat × Nat)) (hlen : calls.length ≤ 16) :
    (∀ a b subEn normEn accu res,
      accuMagnitude (productImage (decide (subEn ≠ 0)) a b) < 2 ^ 279 ∧
      -2 ^ 279 < (productImage (decide (subEn ≠ 0)) a b).toInt ∧
      (productImage (decide (subEn ≠ 0)) a b).toInt < 2 ^ 279 ∧
      (pcsMac a b 0 subEn normEn accu res).1
        = pcsAdd (productImage (decide (subEn ≠ 0)) a b) accu ∧
      (pcsMac a b 1 subEn normEn accu res).1 = productImage (decide (subEn ≠ 0)) a b) ∧
    (pcsMacCalls fp32_accuType.zero calls).toInt = imageSum calls ∧
    (-2 ^ 283 ≤ imageSum calls ∧ imageSum calls < 2 ^ 283) ∧
    (wrapCalls.length = 17 ∧
      (pcsMacCalls fp32_accuType.zero wrapCalls).toInt ≠ imageSum wrapCalls) := by
  have hb := imageSum_bound calls
  have hlen2 : (calls.length : Int) ≤ 16 := by exact_mod_cast hlen
  have hlen0 : (0 : Int) ≤ (calls.length : Int) := Int.natCast_nonneg _
  have hrange : -2 ^ 283 ≤ imageSum calls ∧ imageSum calls < 2 ^ 283 := by
    generalize imageSum calls = y at hb
    generalize (calls.length : Int) = n at hb hlen2 hlen0
    constructor <;> nlinarith [hb.1, hb.2]
  refine ⟨?_, ?_, hrange, ?_⟩
  · intro a b subEn normEn accu res
    obtain ⟨-, -, b1, b2, b3⟩ := productImage_bound (decide (subEn ≠ 0)) a b
    refine ⟨b3, b1, b2, ?_, ?_⟩
    · rw [pcsMac_fst]; simp
    · rw [pcsMac_fst]; simp
  · obtain ⟨r1, r2, r3⟩ := pcsMacCalls_spec calls fp32_accuType.zero
      fp32_accuType.zero_wf zero_canonical
    have hr := canonical_toInt_range _ r1 r2
    have hm := toInt_modEq (pcsMacCalls fp32_accuType.zero calls)
    have hz : ((fp32_accuType.zero.toNat : Nat) : Int) = 0 := by decide
    rw [hz, zero_add] at r3
    have := hm.trans r3
    unfold Int.ModEq at this
    generalize (pcsMacCalls fp32_accuType.zero calls).toInt = x at *
    generalize imageSum calls = y at *
    omega
  · decide

theorem sixteen_products_exact_witness :
    (pcsMacCalls fp32_accuType.zero (List.replicate 16 (0x5F7FFFFF, 0x5FFFFFFF, 0))).toInt
      = imageSum (List.replicate 16 (0x5F7FFFFF, 0x5FFFFFFF, 0)) :=
  (sixteen_products_exact (List.replicate 16 (0x5F7FFFFF, 0x5FFFFFFF, 0)) (by decide)).2.1

/-! ## The conversions are total -/

theorem limbIndex_some (k : Nat) (h : k < 5) : limbIndex (k : Int) = some k := by
  unfold limbIndex
  rw [if_pos ⟨by omega, by simp only [C_FP32_N_ACCU_WORDS]; omega⟩]
  simp

theorem limbIndex_int (z : Int) (k : Nat) (hz : z = (k : Int)) (h : k < 5) :
    limbIndex z = some k := by
  rw [hz]; exact limbIndex_some k h

theorem shiftAmount_some (z : Int) (n : Nat) (hz : z = (n : Int)) (h : n < 64) :
    shiftAmount z = some n := by
  unfold shiftAmount
  rw [if_pos ⟨by omega, by omega⟩, hz]
  simp

theorem extFp32ToPcsChecked_eq (sign : Bool) (exponent : Int) (mantissa : Nat) :
    extFp32ToPcsChecked sign exponent mantissa = some (extFp32ToPcs sign exponent mantissa) := by
  unfold extFp32ToPcsChecked extFp32ToPcs
  simp only []
  by_cases h0 : exponent < 0
  · rw [if_pos h0, if_pos h0]
  · rw [if_neg h0, if_neg h0]
    generalize hE : (if exponent ≥ (C_FP32_EXP_MASK_ALIGNED : Int) then
      (C_FP32_EXP_MASK_ALIGNED : Int) else exponent) = tmpExp
    generalize (if exponent ≥ (C_FP32_EXP_MASK_ALIGNED : Int) then
      1 <<< (C_FP32_MANT_WIDTH * 2) else mantissa) = tmpMant
    have hr : 0 ≤ tmpExp ∧ tmpExp ≤ 255 := by
      rw [← hE]
      simp only [C_FP32_EXP_MASK_ALIGNED]
      split <;> omega
    simp only [C_FP32_MANT_WIDTH]
    by_cases hs : tmpExp - ((23 : Nat) : Int) < 0
    · rw [if_pos hs, if_pos hs]
      have e0 : limbIndex 0 = some 0 := limbIndex_some 0 (by norm_num)
      have e1 : shiftAmount (-(tmpExp - ((23 : Nat) : Int)))
          = some (-(tmpExp - ((23 : Nat) : Int))).toNat :=
        shiftAmount_some _ _ (by omega) (by omega)
      rw [e0, e1]
      rfl
    · rw [if_neg hs, if_neg hs]
      obtain ⟨S, hS⟩ : ∃ S : Nat, (tmpExp - ((23 : Nat) : Int)).toNat = S := ⟨_, rfl⟩
      have hS232 : S ≤ 232 := by omega
      rw [hS]
      have hoff : S >>> 6 < 4 := by
        rw [Nat.shiftRight_eq_div_pow]; omega
      have hsh : S &&& 0x3F = S % 64 := Nat.and_pow_two_sub_one_eq_mod S 6
      have e0 : limbIndex ((S >>> 6 : Nat) : Int) = some (S >>> 6) :=
        limbIndex_some _ (by omega)
      have e1 : shiftAmount ((S &&& 0x3F : Nat) : Int) = some (S &&& 0x3F) :=
        shiftAmount_some _ _ rfl (by rw [hsh]; omega)
      rw [e0, e1]
      simp only [Option.some_bind]
      by_cases hsp : (S &&& 0x3F) + (2 + 2 * 23) > 64
      · rw [if_pos hsp, if_pos hsp]
        have e2 : limbIndex (((S >>> 6 : Nat) : Int) + 1) = some (S >>> 6 + 1) :=
          limbIndex_int _ _ (by push_cast; rfl) (by omega)
        have e3 : shiftAmount (64 - ((S &&& 0x3F : Nat) : Int)) = some (64 - (S &&& 0x3F)) :=
          shiftAmount_some _ _ (by rw [hsh]; omega) (by omega)
        rw [e2, e3]
        rfl
      · rw [if_neg hsp, if_neg hsp]
        rfl

theorem pcsToFp32ScanChecked_eq (T : fp32_accuType) :
    ∀ (n : Nat), n ≤ 5 → ∀ e : Int,
      pcsToFp32ScanChecked T n e = some (pcsToFp32Scan T n e) := by
  intro n
  induction n with
  | zero => intro _ e; rfl
  | succ k ih =>
    intro hk e
    unfold pcsToFp32ScanChecked pcsToFp32Scan
    rw [limbIndex_some k (by omega)]
    simp only [Option.some_bind]
    by_cases h : T.get k ≠ 0
    · rw [if_pos h, if_pos h]
      unfold clzllChecked
      rw [if_pos h]
      rfl
    · rw [if_neg h, if_neg h]
      exact ih (by omega) _

/-- What the scan of `pcsToFp32` returns: a negative exponent, or the offset
of a limb whose leading one is at bit `L`. -/
theorem pcsToFp32Scan_facts (T : fp32_accuType) (hwf : T.wf) :
    (pcsToFp32Scan T 5 296).2.2 < 0 ∨
    ((pcsToFp32Scan T 5 296).1 ≤ 4 ∧ ∃ L : Nat, L ≤ 63 ∧
      (pcsToFp32Scan T 5 296).2.1 = 63 - L ∧
      (pcsToFp32Scan T 5 296).2.2 = 64 * ((pcsToFp32Scan T 5 296).1 : Int) + L - 23) := by
  by_cases h0 : T.toNat = 0
  · left
    have hT : T = fp32_accuType.zero :=
      fp32_accuType.toNat_inj _ _ hwf fp32_accuType.zero_wf (by rw [h0]; rfl)
    rw [hT]
    decide
  · right
    obtain ⟨off, W, low, hoff, hW, hW0, hWlt, -, -, hscan, -⟩ := top_limb T hwf h0
    obtain ⟨L, hL63, hclz, -, -⟩ := clzll_spec W hW0 hWlt
    rw [hscan 296]
    refine ⟨hoff, L, hL63, hclz, ?_⟩
    show (296 : Int) - 64 * ((4 - off : Nat) : Int) - ((clzll W : Nat) : Int) = _
    rw [hclz]
    omega

theorem pcsToFp32Checked_eq (a : fp32_accuType) (hwf : a.wf) :
    pcsToFp32Checked a = some (pcsToFp32 a) := by
  have htop : limbIndex ((C_FP32_N_ACCU_WORDS : Int) - 1) = some (C_FP32_N_ACCU_WORDS - 1) := by
    decide
  unfold pcsToFp32Checked pcsToFp32
  rw [htop]
  simp only [Option.some_bind]
  generalize (if decide (a.get (C_FP32_N_ACCU_WORDS - 1) >>> 63 ≠ 0) = true
    then C_FP32_SIGN_MASK else 0) = s0
  have hTwf : (if decide (a.get (C_FP32_N_ACCU_WORDS - 1) >>> 63 ≠ 0) = true
      then pcsInv a else a).wf := by
    split
    · exact pcsInv_wf a
    · exact hwf
  generalize (if decide (a.get (C_FP32_N_ACCU_WORDS - 1) >>> 63 ≠ 0) = true
    then pcsInv a else a) = T at hTwf
  have hE0 : ((C_FP32_N_ACCU_WORDS : Int) * 64 - (C_FP32_MANT_WIDTH : Int) - 1) = 296 := by
    decide
  rw [hE0, pcsToFp32ScanChecked_eq T 5 (le_refl _) 296]
  simp only [Option.some_bind]
  have hf := pcsToFp32Scan_facts T hTwf
  generalize pcsToFp32Scan T 5 296 = sc at hf
  obtain ⟨off, lz, te⟩ := sc
  simp only [] at hf ⊢
  by_cases h1 : te < 0
  · rw [if_pos h1, if_pos h1]
  · rw [if_neg h1, if_neg h1]
    by_cases h2 : te ≥ (C_FP32_EXP_MASK_ALIGNED : Int)
    · rw [if_pos h2, if_pos h2]
    · rw [if_neg h2, if_neg h2]
      rcases hf with hf | ⟨hoff, L, hL, hlz, hte⟩
      · exact absurd hf h1
      · have e0 : limbIndex (off : Int) = some off := limbIndex_some off (by omega)
        simp only [C_FP32_MANT_WIDTH]
        by_cases h3 : (64 : Int) - 1 - ((23 : Nat) : Int) - (lz : Int) ≥ 0
        · rw [if_pos h3, if_pos h3, e0]
          have e1 : shiftAmount ((64 : Int) - 1 - ((23 : Nat) : Int) - (lz : Int))
              = some ((64 : Int) - 1 - ((23 : Nat) : Int) - (lz : Int)).toNat :=
            shiftAmount_some _ _ (by omega) (by omega)
          rw [e1]
          rfl
        · rw [if_neg h3, if_neg h3, e0]
          have e1 : shiftAmount (-((64 : Int) - 1 - ((23 : Nat) : Int) - (lz : Int)))
              = some (-((64 : Int) - 1 - ((23 : Nat) : Int) - (lz : Int))).toNat :=
            shiftAmount_some _ _ (by omega) (by omega)
          have e2 : limbIndex ((off : Int) - 1) = some (off - 1) :=
            limbIndex_int _ _ (by omega) (by omega)
          have e3 : shiftAmount (64 + ((64 : Int) - 1 - ((23 : Nat) : Int) - (lz : Int)))
              = some (64 + ((64 : Int) - 1 - ((23 : Nat) : Int) - (lz : Int))).toNat :=
            shiftAmount_some _ _ (by omega) (by omega)
          rw [e1, e2, e3]
          rfl

/-- Claim C38. The accumulator conversions are total: for every sign, every
exponent (every `int32_t` in particular) and every mantissa, `extFp32ToPcs` with
each limb index checked to be in `0..4` and each shift amount checked to be in
`0..63` runs through and gives the output of `extFp32ToPcs`; for every
accumulator of five 64-bit limbs, `pcsToFp32` with each limb index checked to be
in `0..4` (the index `off - 1` of the lower limb included), each shift amount
checked to be in `0..63` and the count of leading zeros checked to be called on
a nonzero limb runs through and gives the output of `pcsToFp32`. -/
theorem conversions_total (sign : Bool) (exponent : Int) (mantissa : Nat)
    (a : fp32_accuType) (hwf : a.wf) :
    extFp32ToPcsChecked sign exponent mantissa = some (extFp32ToPcs sign exponent mantissa) ∧
    pcsToFp32Checked a = some (pcsToFp32 a) :=
  ⟨extFp32ToPcsChecked_eq sign exponent mantissa, pcsToFp32Checked_eq a hwf⟩

theorem conversions_total_witness :
    extFp32ToPcsChecked true 254 (2 ^ 64 - 1) = some (extFp32ToPcs true 254 (2 ^ 64 - 1)) ∧
    pcsToFp32Checked ⟨2 ^ 64 - 1, 1, 0, 0, 0⟩ = some (pcsToFp32 ⟨2 ^ 64 - 1, 1, 0, 0, 0⟩) :=
  conversions_total true 254 (2 ^ 64 - 1) ⟨2 ^ 64 - 1, 1, 0, 0, 0⟩ (by decide)

/-! ## The reserved selector of THTST -/

/-- Counterexample to claim C22 as stated: with `polarity = 1` and the reserved
selector (`auxFunc = 3`) the execute phase leaves `tst = 0`, and the store phase
writes `aluState` (5 here), not the operand `*agu[1]` (9 here); with
`auxFunc = 7` it writes `0.0`, not `1.0`. -/
theorem thtst_reserved_counterexample :
    reservedJob.auxFunc &&& 3 = 3 ∧ reservedJob.polarity = true ∧
    ((nstThTstOp reservedJob).execute aguWords (aluFive [0, 9, 0])).tst = false ∧
    load32 (aluFive [0, 9, 0]).mem (aguWords 1) = 9 ∧
    load32 ((nstThTstOp reservedJob).store aguWords
      ((nstThTstOp reservedJob).execute aguWords (aluFive [0, 9, 0]))).mem (aguWords 2) = 5 ∧
    reservedBinJob.auxFunc &&& 3 = 3 ∧ reservedBinJob.polarity = true ∧
    load32 ((nstThTstOp reservedBinJob).store aguWords
      ((nstThTstOp reservedBinJob).execute aguWords (aluFive [0, 9, 0]))).mem (aguWords 2)
      = C_FP32_ZERO_VAL := by
  decide

/-- Claim C22, amended. THTST with the reserved selector: for every `aluState`
and operand, when `(auxFunc & 3) = 3` the execute phase computes `tst = 0`
whatever the polarity (the default branch applies no XOR), so the test fails for
polarity 0 and for polarity 1, and store writes `aluState` (or `0.0` when
`auxFunc & 4` is set) to `*agu[2]`. -/
theorem thtst_reserved (ntx : ntx_api) (agu agu2 : Nat → Int) (s : NtxState)
    (h : ntx.auxFunc &&& 3 = 3) :
    ((nstThTstOp ntx).execute agu s).tst = false ∧
    ((nstThTstOp ntx).store agu2 ((nstThTstOp ntx).execute agu s)).mem
      = store32 s.mem (agu2 2)
          (if ntx.auxFunc &&& 4 ≠ 0 then C_FP32_ZERO_VAL else s.aluState) := by
  have ht : ((nstThTstOp ntx).execute agu s).tst = false := by
    simp only [nstThTstOp]
    rw [h]
    rfl
  refine ⟨ht, ?_⟩
  have hm : ((nstThTstOp ntx).execute agu s).mem = s.mem := rfl
  have ha : ((nstThTstOp ntx).execute agu s).aluState = s.aluState := rfl
  generalize (nstThTstOp ntx).execute agu s = s2 at ht hm ha
  simp only [nstThTstOp]
  split
  · simp only [ht, hm, Bool.false_eq_true, if_false]
  · simp only [ht, hm, ha, Bool.false_eq_true, if_false]

theorem thtst_reserved_witness :
    ((nstThTstOp reservedJob).execute aguWords (aluFive [0, 9, 0])).tst = false :=
  (thtst_reserved reservedJob aguWords aguWords (aluFive [0, 9, 0]) (by decide)).1

/-! ## The state at a failed assertion of `stageLoopNest` -/

theorem stageBoundLoop_trap (n : Nat → Nat) (k : Nat) (c : Nat) :
    ∀ (k0 : Nat) (ntx : ntx_api), k0 ≤ k → k < k0 + c →
      (∀ j, k0 ≤ j → j < k → 0 < n j ∧ n j < 2 ^ 16) → ¬ (0 < n k ∧ n k < 2 ^ 16) →
      ∃ d, stageBoundLoop n c k0 ntx = Outcome.trap d ∧
        d = { ntx with loopBound := d.loopBound } ∧
        (∀ j, k0 ≤ j → j < k → d.loopBound j = n j - 1) ∧
        (∀ j, (j < k0 ∨ k ≤ j) → d.loopBound j = ntx.loopBound j) := by
  induction c with
  | zero => intro k0 ntx h1 h2; omega
  | succ c ih =>
    intro k0 ntx h1 h2 hok hbad
    unfold stageBoundLoop
    simp only [C_HW_LOOP_WIDTH]
    by_cases hk : k0 = k
    · subst hk
      by_cases hlt : n k0 < 2 ^ 16
      · have hz : ¬ (n k0 > 0) := fun h => hbad ⟨h, hlt⟩
        rw [if_neg (not_not.mpr hlt), if_pos hz]
        exact ⟨ntx, rfl, rfl, fun j a b => by omega, fun _ _ => rfl⟩
      · rw [if_pos hlt]
        exact ⟨ntx, rfl, rfl, fun j a b => by omega, fun _ _ => rfl⟩
    · have hk0 := hok k0 (le_refl _) (by omega)
      rw [if_neg (not_not.mpr hk0.2), if_neg (not_not.mpr hk0.1)]
      obtain ⟨d, hd, hshape, hlow, hrest⟩ :=
        ih (k0 + 1) { ntx with loopBound := Function.update ntx.loopBound k0 (n k0 - 1) }
          (by omega) (by omega) (fun j a b => hok j (by omega) b) hbad
      refine ⟨d, hd, ?_, ?_, ?_⟩
      · rw [hshape]
      · intro j a b
        by_cases hj : j = k0
        · subst hj
          rw [hrest j (Or.inl (by omega))]
          simp [Function.update]
        · exact hlow j (by omega) b
      · intro j hj
        rw [hrest j (by omega)]
        have : j ≠ k0 := by omega
        simp [Function.update, this]

/-- Counterexample to claim C23 as stated: the call
`stageLoopNest(1, 1, 1, {0, ..}, S)` on a fresh descriptor is rejected (the count
at level 0 is zero), and at the failed assertion `initLevel`, `innerLevel`,
`outerLevel` and `loopLevels` already have their new values; the call with
counts `{3, 0, ..}` and `outerLevel = 2` is rejected at level 1 after
`loopBound[0]` has been written. -/
theorem stageLoopNest_atomic_counterexample :
    (stageLoopNest ntx_api.fresh 1 1 1 (fun _ => 0) unitStrides).isDone = false ∧
    ntx_api.fresh.initLevel = 0 ∧
    (stageLoopNest ntx_api.fresh 1 1 1 (fun _ => 0) unitStrides).state.initLevel = 1 ∧
    (stageLoopNest ntx_api.fresh 1 1 1 (fun _ => 0) unitStrides).state.innerLevel = 1 ∧
    (stageLoopNest ntx_api.fresh 1 1 1 (fun _ => 0) unitStrides).state.outerLevel = 1 ∧
    ntx_api.fresh.loopLevels = 0 ∧
    (stageLoopNest ntx_api.fresh 1 1 1 (fun _ => 0) unitStrides).state.loopLevels = 1168 ∧
    (stageLoopNest ntx_api.fresh 1 1 2 (fun k => [3, 0].getD k 0) unitStrides).isDone = false ∧
    ntx_api.fresh.loopBound 0 = 0 ∧
    (stageLoopNest ntx_api.fresh 1 1 2 (fun k => [3, 0].getD k 0) unitStrides).state.loopBound 0
      = 2 := by
  decide

/-- Claim C23, amended. What a rejected call of `stageLoopNest` leaves: when the
level ordering `innerLevel <= initLevel <= outerLevel <= 5` is violated, every
field of the descriptor still has the value it had before the call; when the
ordering holds and the first rejected count (`loopBound_[k]` equal to 0 or
`>= 2^16`, `k < outerLevel`) is at level `k`, the fields `initLevel`,
`innerLevel`, `outerLevel` and `loopLevels` have their new values and
`loopBound[j] = loopBound_[j] - 1` for `j < k`, while `loopBound` at the levels
from `k` on, `aguStride`, `prepNstCmd` and every other field still have the
values they had before the call. -/
theorem stageLoopNest_rejected (ntx : ntx_api) (initL innerL outerL : Nat) (n : Nat → Nat)
    (S : Nat → Nat → Int) :
    (¬ (innerL ≤ initL ∧ initL ≤ outerL ∧ outerL ≤ 5) →
      stageLoopNest ntx initL innerL outerL n S = Outcome.trap ntx) ∧
    (innerL ≤ initL → initL ≤ outerL → outerL ≤ 5 →
      ∀ k, k < outerL → (∀ j, j < k → 0 < n j ∧ n j < 2 ^ 16) → ¬ (0 < n k ∧ n k < 2 ^ 16) →
      ∃ d, stageLoopNest ntx initL innerL outerL n S = Outcome.trap d ∧
        d = { ntx with initLevel := initL, innerLevel := innerL, outerLevel := outerL,
                       loopLevels := d.loopLevels, loopBound := d.loopBound } ∧
        d.loopLevels = u32 ((outerL &&& 0x7) <<< 10) ||| u32 ((innerL &&& 0x7) <<< 7)
          ||| u32 ((initL &&& 0x7) <<< 4) ∧
        (∀ j, j < k → d.loopBound j = n j - 1) ∧
        (∀ j, k ≤ j → d.loopBound j = ntx.loopBound j) ∧
        d.aguStride = ntx.aguStride ∧ d.prepNstCmd = ntx.prepNstCmd) := by
  constructor
  · intro h
    unfold stageLoopNest
    simp only [C_N_HW_LOOPS]
    by_cases h1 : initL ≥ innerL
    · by_cases h2 : outerL ≥ innerL
      · by_cases h3 : outerL ≥ initL
        · have h4 : ¬ (5 ≥ outerL) := fun h4 => h ⟨h1, h3, h4⟩
          rw [if_neg (by simpa using h1), if_neg (by simpa using h2),
            if_neg (by simpa using h3), if_pos h4]
        · rw [if_neg (by simpa using h1), if_neg (by simpa using h2), if_pos h3]
      · rw [if_neg (by simpa using h1), if_pos h2]
    · rw [if_pos h1]
  · intro h1 h2 h3 k hk hok hbad
    unfold stageLoopNest
    simp only [C_N_HW_LOOPS]
    rw [if_neg (by simpa using h1), if_neg (by simp; omega), if_neg (by simpa using h2),
      if_neg (by simpa using h3)]
    obtain ⟨d, hd, hshape, hlow, hrest⟩ := stageBoundLoop_trap n k outerL 0
      { ntx with initLevel := initL, innerLevel := innerL, outerLevel := outerL,
                 loopLevels := u32 ((outerL &&& 0x7) <<<
                     (2 * C_NTX_LOOP_LEVEL_WIDTH + C_NTX_OPCODE_WIDTH))
                   ||| u32 ((innerL &&& 0x7) <<< (C_NTX_LOOP_LEVEL_WIDTH + C_NTX_OPCODE_WIDTH))
                   ||| u32 ((initL &&& 0x7) <<< C_NTX_OPCODE_WIDTH) }
      (Nat.zero_le _) (by omega) (fun j _ b => hok j b) hbad
    refine ⟨d, ?_, ?_, ?_, fun j hj => hlow j (Nat.zero_le _) hj,
      fun j hj => ?_, ?_, ?_⟩
    · rw [hd]; rfl
    · rw [hshape]
    · rw [hshape]; rfl
    · rw [hrest j (Or.inr hj)]
    · rw [hshape]
    · rw [hshape]

theorem stageLoopNest_rejected_witness :
    stageLoopNest ntx_api.fresh 0 1 1 (fun _ => 1) unitStrides = Outcome.trap ntx_api.fresh :=
  (stageLoopNest_rejected ntx_api.fresh 0 1 1 (fun _ => 1) unitStrides).1 (by decide)

/-! ## The assertions of `nstFuncModel` -/

theorem nstFuncModel_of_ok {σ : Type} (ntx : ntx_api) (ops : Nat → nstInternalOp σ)
    (r : NstRun σ)
    (h : ntx.innerLevel ≤ ntx.initLevel ∧ ntx.initLevel ≤ ntx.outerLevel ∧ ntx.outerLevel ≤ 5 ∧
      ntx.opCode ≤ 8 ∧ ∀ k, k < 5 → ntx.loopBound k < 2 ^ 16) :
    nstFuncModel ntx ops r
      = nstLooper ntx (ops ntx.opCode) ntx.outerLevel true { r with agu := ntx.aguOff } := by
  obtain ⟨h1, h2, h3, h4, h5⟩ := h
  unfold nstFuncModel
  simp only [C_N_HW_LOOPS, C_N_NTX_OPCODES, C_HW_LOOP_WIDTH]
  rw [if_neg (by simpa using h1), if_neg (by simp; omega), if_neg (by simpa using h2),
    if_neg (by simpa using h3), if_neg (by simp; omega), if_neg (by simpa using h5)]

theorem nstFuncModel_of_bad {σ : Type} (ntx : ntx_api) (ops : Nat → nstInternalOp σ)
    (r : NstRun σ)
    (h : ¬ (ntx.innerLevel ≤ ntx.initLevel ∧ ntx.initLevel ≤ ntx.outerLevel ∧
      ntx.outerLevel ≤ 5 ∧ ntx.opCode ≤ 8 ∧ ∀ k, k < 5 → ntx.loopBound k < 2 ^ 16)) :
    nstFuncModel ntx ops r = Outcome.trap r := by
  unfold nstFuncModel
  simp only [C_N_HW_LOOPS, C_N_NTX_OPCODES, C_HW_LOOP_WIDTH]
  split_ifs with a1 a2 a3 a4 a5 a6
  all_goals first
    | rfl
    | exact absurd ⟨by omega, by omega, by omega, by omega, by assumption⟩ h

theorem nstLooper_completes {σ : Type} (ntx : ntx_api) (op : nstInternalOp σ)
    (hc : ntx.checkTcdmAddrs = false) (level : Nat) (isLast : Bool) (r : NstRun σ) :
    ∃ r2, nstLooper ntx op level isLast r = Outcome.done r2 := by
  obtain ⟨t2, ht2⟩ := nstLooperLog_completes ntx op hc level isLast [] ⟨r, []⟩
  have := nstLooperLog_erase ntx op level isLast [] ⟨r, []⟩
  rw [ht2] at this
  exact ⟨t2.run, this.symm⟩

/-- Claim C24. With address checking disabled, `nstFuncModel` (issue) traps if
and only if not (`innerLevel <= initLevel <= outerLevel <= 5` and `opCode <= 8`
and `loopBound[k] < 2^16` for all `k < 5`); when it traps, the AGU pointers, the
state registers and the memory are those before the call; otherwise it runs the
loop driver from `aguOff` with the opcode object of `opCode`, and each opcode in
`0..8` is dispatched to its own triple of phases. -/
theorem nstFuncModel_trap_iff (ntx : ntx_api) (r : NstRun NtxState)
    (hc : ntx.checkTcdmAddrs = false) :
    ((nstFuncModel ntx (nstOps ntx) r).isDone = false ↔
      ¬ (ntx.innerLevel ≤ ntx.initLevel ∧ ntx.initLevel ≤ ntx.outerLevel ∧
        ntx.outerLevel ≤ 5 ∧ ntx.opCode ≤ 8 ∧ ∀ k, k < 5 → ntx.loopBound k < 2 ^ 16)) ∧
    ((nstFuncModel ntx (nstOps ntx) r).isDone = false →
      nstFuncModel ntx (nstOps ntx) r = Outcome.trap r) ∧
    ((nstFuncModel ntx (nstOps ntx) r).isDone = true →
      nstFuncModel ntx (nstOps ntx) r
        = nstLooper ntx (nstOps ntx ntx.opCode) ntx.outerLevel true
            { r with agu := ntx.aguOff }) ∧
    (nstOps ntx 0 = nstMacOp ntx ∧ nstOps ntx 1 = nstVAddSubOp ntx ∧
      nstOps ntx 2 = nstVMultOp ntx ∧ nstOps ntx 3 = nstOuterPOp ntx ∧
      nstOps ntx 4 = nstMaxMinOp ntx ∧ nstOps ntx 5 = nstThTstOp ntx ∧
      nstOps ntx 6 = nstMaskOp ntx ∧ nstOps ntx 7 = nstMaskMacOp ntx ∧
      nstOps ntx 8 = nstCopyOp ntx) := by
  have hgood : (ntx.innerLevel ≤ ntx.initLevel ∧ ntx.initLevel ≤ ntx.outerLevel ∧
      ntx.outerLevel ≤ 5 ∧ ntx.opCode ≤ 8 ∧ ∀ k, k < 5 → ntx.loopBound k < 2 ^ 16) →
      (nstFuncModel ntx (nstOps ntx) r).isDone = true := by
    intro h
    rw [nstFuncModel_of_ok ntx (nstOps ntx) r h]
    obtain ⟨r2, hr2⟩ := nstLooper_completes ntx (nstOps ntx ntx.opCode) hc ntx.outerLevel true
      { r with agu := ntx.aguOff }
    rw [hr2]
    rfl
  have hbad : ¬ (ntx.innerLevel ≤ ntx.initLevel ∧ ntx.initLevel ≤ ntx.outerLevel ∧
      ntx.outerLevel ≤ 5 ∧ ntx.opCode ≤ 8 ∧ ∀ k, k < 5 → ntx.loopBound k < 2 ^ 16) →
      nstFuncModel ntx (nstOps ntx) r = Outcome.trap r :=
    nstFuncModel_of_bad ntx (nstOps ntx) r
  refine ⟨⟨?_, ?_⟩, ?_, ?_, ?_⟩
  · intro h hg
    rw [hgood hg] at h
    cases h
  · intro h
    rw [hbad h]
    rfl
  · intro h
    by_cases hg : (ntx.innerLevel ≤ ntx.initLevel ∧ ntx.initLevel ≤ ntx.outerLevel ∧
        ntx.outerLevel ≤ 5 ∧ ntx.opCode ≤ 8 ∧ ∀ k, k < 5 → ntx.loopBound k < 2 ^ 16)
    · rw [hgood hg] at h
      cases h
    · exact hbad hg
  · intro h
    by_cases hg : (ntx.innerLevel ≤ ntx.initLevel ∧ ntx.initLevel ≤ ntx.outerLevel ∧
        ntx.outerLevel ≤ 5 ∧ ntx.opCode ≤ 8 ∧ ∀ k, k < 5 → ntx.loopBound k < 2 ^ 16)
    · exact nstFuncModel_of_ok ntx (nstOps ntx) r hg
    · rw [hbad hg] at h
      cases h
  · exact ⟨rfl, rfl, rfl, rfl, rfl, rfl, rfl, rfl, rfl⟩

theorem nstFuncModel_trap_iff_witness :
    nstFuncModel overlongJob (nstOps overlongJob) (exampleRun [])
      = Outcome.trap (exampleRun []) :=
  (nstFuncModel_trap_iff overlongJob (exampleRun []) rfl).2.1 (by decide)

/-! ## Levels from `outerLevel` on -/

theorem nstLoop_congr {α : Type} (b1 b2 : Nat → α → Outcome α) (h : ∀ k r, b1 k r = b2 k r)
    (n : Nat) : ∀ k r, nstLoop b1 n k r = nstLoop b2 n k r := by
  induction n with
  | zero => intro k r; rfl
  | succ n ih =>
    intro k r
    unfold nstLoop
    rw [h k r]
    cases b2 k r with
    | done a => exact ih (k + 1) a
    | trap a => rfl

theorem nstLooper_levels {σ : Type} (ntx1 ntx2 : ntx_api) (op : nstInternalOp σ)
    (hf : ntx1.checkTcdmAddrs = ntx2.checkTcdmAddrs ∧ ntx1.tcdmLow = ntx2.tcdmLow ∧
      ntx1.tcdmHigh = ntx2.tcdmHigh ∧ ntx1.initLevel = ntx2.initLevel ∧
      ntx1.innerLevel = ntx2.innerLevel)
    (outer : Nat)
    (hlb : ∀ k, k < outer → ntx1.loopBound k = ntx2.loopBound k)
    (hst : ∀ a k, k < outer → ntx1.aguStride a k = ntx2.aguStride a k) (level : Nat) :
    level ≤ outer → ∀ (isLast : Bool) (r : NstRun σ), (isLast = false → level < outer) →
      nstLooper ntx1 op level isLast r = nstLooper ntx2 op level isLast r := by
  obtain ⟨f1, f2, f3, f4, f5⟩ := hf
  have hupd : ∀ l agu, l < outer → aguUpdate ntx1 l agu = aguUpdate ntx2 l agu := by
    intro l agu hl
    funext o
    unfold aguUpdate
    rw [hst o l hl]
  have hframe : ∀ (l : Nat) (isLast : Bool) (inner : NstRun σ → Outcome (NstRun σ))
      (r : NstRun σ), (isLast = false → l < outer) →
      nstFrame ntx1 op l isLast inner r = nstFrame ntx2 op l isLast inner r := by
    intro l isLast inner r hl
    unfold nstFrame tcdmOk
    cases isLast with
    | true => simp [f1, f2, f3, f4, f5]
    | false =>
      have hu : ∀ agu, aguUpdate ntx1 l agu = aguUpdate ntx2 l agu :=
        fun agu => hupd l agu (hl rfl)
      simp only [f1, f2, f3, f4, f5, hu]
  induction level with
  | zero =>
    intro _ isLast r hl
    unfold nstLooper
    exact hframe 0 isLast _ r hl
  | succ l ih =>
    intro hle isLast r hl
    unfold nstLooper
    rw [hlb l (by omega)]
    have hb : (fun k => nstLooper ntx1 op l (decide (k = ntx2.loopBound l)))
        = (fun k => nstLooper ntx2 op l (decide (k = ntx2.loopBound l))) := by
      funext k r2
      exact ih (by omega) _ r2 (fun _ => by omega)
    rw [hb]
    exact hframe (l + 1) isLast _ r hl

/-- Claim C26. Levels from `outerLevel` on are ignored: two descriptors that
are identical except for `loopBound[k]` and `aguStride[a][k]` at levels
`k >= outerLevel`, with all `loopBound` values below `2^16`, run on the same
memory and state, give the same outcome of `nstFuncModel`: the same memory
contents, AGU pointers and accu/alu/cnt/idx state, and the same completion. -/
theorem nstFuncModel_outer_levels_ignored (ntx : ntx_api) (lb2 : Nat → Nat)
    (st2 : Nat → Nat → Int) (r : NstRun NtxState)
    (hlb : ∀ k, k < ntx.outerLevel → lb2 k = ntx.loopBound k)
    (hst : ∀ a k, k < ntx.outerLevel → st2 a k = ntx.aguStride a k)
    (hb1 : ∀ k, k < 5 → ntx.loopBound k < 2 ^ 16) (hb2 : ∀ k, k < 5 → lb2 k < 2 ^ 16) :
    nstFuncModel { ntx with loopBound := lb2, aguStride := st2 }
        (nstOps { ntx with loopBound := lb2, aguStride := st2 }) r
      = nstFuncModel ntx (nstOps ntx) r := by
  have hops : nstOps { ntx with loopBound := lb2, aguStride := st2 } = nstOps ntx := rfl
  rw [hops]
  by_cases hg : ntx.innerLevel ≤ ntx.initLevel ∧ ntx.initLevel ≤ ntx.outerLevel ∧
      ntx.outerLevel ≤ 5 ∧ ntx.opCode ≤ 8
  · rw [nstFuncModel_of_ok ntx (nstOps ntx) r ⟨hg.1, hg.2.1, hg.2.2.1, hg.2.2.2, hb1⟩,
      nstFuncModel_of_ok { ntx with loopBound := lb2, aguStride := st2 } (nstOps ntx) r
        ⟨hg.1, hg.2.1, hg.2.2.1, hg.2.2.2, hb2⟩]
    exact nstLooper_levels { ntx with loopBound := lb2, aguStride := st2 } ntx _
      ⟨rfl, rfl, rfl, rfl, rfl⟩ ntx.outerLevel hlb hst ntx.outerLevel (le_refl _) true _
      (fun h => by cases h)
  · rw [nstFuncModel_of_bad ntx (nstOps ntx) r (fun h => hg ⟨h.1, h.2.1, h.2.2.1, h.2.2.2.1⟩),
      nstFuncModel_of_bad { ntx with loopBound := lb2, aguStride := st2 } (nstOps ntx) r
        (fun h => hg ⟨h.1, h.2.1, h.2.2.1, h.2.2.2.1⟩)]

theorem nstFuncModel_outer_levels_ignored_witness :
    nstFuncModel { smallJob with loopBound := fun k => if k < 3 then smallJob.loopBound k else 7,
                                 aguStride := fun a k =>
                                   if k < 3 then smallJob.aguStride a k else 12 }
        (nstOps { smallJob with
          loopBound := fun k => if k < 3 then smallJob.loopBound k else 7,
          aguStride := fun a k => if k < 3 then smallJob.aguStride a k else 12 })
        (exampleRun [])
      = nstFuncModel smallJob (nstOps smallJob) (exampleRun []) :=
  nstFuncModel_outer_levels_ignored smallJob
    (fun k => if k < 3 then smallJob.loopBound k else 7)
    (fun a k => if k < 3 then smallJob.aguStride a k else 12) (exampleRun [])
    (fun k hk => by
      have h3 : smallJob.outerLevel = 3 := by decide
      rw [h3] at hk
      simp [hk])
    (fun a k hk => by
      have h3 : smallJob.outerLevel = 3 := by decide
      rw [h3] at hk
      simp [hk])
    (by decide) (by decide)

/-! ## The level of each phase call -/

/-- A property of events that holds for every frame entry, for an init at
`initLevel`, for an execute at level 0 and for a store at `innerLevel` holds for
every event in the log of a frame, completed or not. -/
theorem nstFrameLog_kinds {σ : Type} (ntx : ntx_api) (op : nstInternalOp σ) (P : Event → Prop)
    (hframe : ∀ level path agu, P ⟨EventKind.frame, level, path, agu⟩)
    (hinit : ∀ path agu, P ⟨EventKind.init, ntx.initLevel, path, agu⟩)
    (hstore : ∀ path agu, P ⟨EventKind.store, ntx.innerLevel, path, agu⟩)
    (level : Nat) (isLast : Bool) (path : List Nat)
    (inner : NstLogged σ → Outcome (NstLogged σ))
    (hin : ∀ u : NstLogged σ, (∀ e ∈ u.log, P e) → ∀ e ∈ (inner u).state.log, P e)
    (t : NstLogged σ) (hlog : ∀ e ∈ t.log, P e) :
    ∀ e ∈ (nstFrameLog ntx op level isLast path inner t).state.log, P e := by
  have hlog1 : ∀ e ∈ t.log ++ [(⟨EventKind.frame, level, path, t.run.agu⟩ : Event)], P e := by
    intro e he
    rcases List.mem_append.1 he with h | h
    · exact hlog e h
    · rw [List.mem_singleton.1 h]; exact hframe _ _ _
  unfold nstFrameLog
  simp only []
  split
  · exact hlog1
  · generalize hu0 : (if ntx.initLevel = level then
        ({ run := { t.run with st := op.init t.run.agu t.run.st },
           log := (t.log ++ [⟨EventKind.frame, level, path, t.run.agu⟩]) ++
             [⟨EventKind.init, level, path, t.run.agu⟩] } : NstLogged σ)
      else { t with log := t.log ++ [⟨EventKind.frame, level, path, t.run.agu⟩] }) = u0
    have hu0log : ∀ e ∈ u0.log, P e := by
      rw [← hu0]; split
      · rename_i hl
        intro e he
        rcases List.mem_append.1 he with h | h
        · exact hlog1 e h
        · rw [List.mem_singleton.1 h, ← hl]; exact hinit _ _
      · exact hlog1
    have hin1 := hin u0 hu0log
    cases hres : inner u0 with
    | trap v =>
      rw [hres] at hin1
      exact hin1
    | done v =>
      rw [hres] at hin1
      have hvlog : ∀ e ∈ v.log, P e := hin1
      simp only [Outcome.bind_done]
      intro e he
      rw [Outcome.state_done] at he
      by_cases c2 : ntx.innerLevel = level <;>
        by_cases c3 : level < C_N_HW_LOOPS ∧ isLast = false <;>
        simp only [c2, c3, if_true, if_false] at he
      · rcases List.mem_append.1 he with h | h
        · exact hvlog e h
        · rw [List.mem_singleton.1 h, ← c2]; exact hstore _ _
      · rcases List.mem_append.1 he with h | h
        · exact hvlog e h
        · rw [List.mem_singleton.1 h, ← c2]; exact hstore _ _
      · exact hvlog e he
      · exact hvlog e he

theorem nstLoop_state_inv {α : Type} (body : Nat → α → Outcome α) (R : α → Prop)
    (hbody : ∀ k u, R u → R (body k u).state) (n : Nat) :
    ∀ k t, R t → R (nstLoop body n k t).state := by
  induction n with
  | zero => intro k t h; exact h
  | succ n ih =>
    intro k t h
    have hb := hbody k t h
    show R ((body k t).bind (nstLoop body n (k + 1))).state
    cases hres : body k t with
    | trap v => rw [hres] at hb; exact hb
    | done v =>
      rw [hres] at hb
      exact ih (k + 1) v hb

theorem nstLooperLog_kinds {σ : Type} (ntx : ntx_api) (op : nstInternalOp σ) (P : Event → Prop)
    (hframe : ∀ level path agu, P ⟨EventKind.frame, level, path, agu⟩)
    (hinit : ∀ path agu, P ⟨EventKind.init, ntx.initLevel, path, agu⟩)
    (hexec : ∀ path agu, P ⟨EventKind.execute, 0, path, agu⟩)
    (hstore : ∀ path agu, P ⟨EventKind.store, ntx.innerLevel, path, agu⟩) (level : Nat) :
    ∀ (isLast : Bool) (path : List Nat) (t : NstLogged σ), (∀ e ∈ t.log, P e) →
      ∀ e ∈ (nstLooperLog ntx op level isLast path t).state.log, P e := by
  induction level with
  | zero =>
    intro isLast path t hlog
    exact nstFrameLog_kinds ntx op P hframe hinit hstore 0 isLast path _ (by
      intro u hu e he
      rw [Outcome.state_done] at he
      rcases List.mem_append.1 he with h | h
      · exact hu e h
      · rw [List.mem_singleton.1 h]; exact hexec _ _) t hlog
  | succ level ih =>
    intro isLast path t hlog
    exact nstFrameLog_kinds ntx op P hframe hinit hstore (level + 1) isLast path _ (by
      intro u hu
      exact nstLoop_state_inv
        (fun k => nstLooperLog ntx op level (decide (k = ntx.loopBound level)) (k :: path))
        (fun v : NstLogged σ => ∀ e ∈ v.log, P e)
        (fun k v hv => ih _ _ v hv) _ 0 u hu) t hlog

/-- Every init call in the log of `nstFuncModel` is at `initLevel`, every
execute call at level 0 and every store call at `innerLevel`. -/
theorem nstFuncModelLog_kinds {σ : Type} (ntx : ntx_api) (ops : Nat → nstInternalOp σ)
    (r : NstRun σ) :
    ∀ e ∈ (nstFuncModelLog ntx ops r).state.log,
      (e.kind = EventKind.init → e.level = ntx.initLevel) ∧
      (e.kind = EventKind.execute → e.level = 0) ∧
      (e.kind = EventKind.store → e.level = ntx.innerLevel) := by
  unfold nstFuncModelLog
  split_ifs
  all_goals first
    | (intro e he; cases he)
    | exact nstLooperLog_kinds ntx _
        (fun e => (e.kind = EventKind.init → e.level = ntx.initLevel) ∧
          (e.kind = EventKind.execute → e.level = 0) ∧
          (e.kind = EventKind.store → e.level = ntx.innerLevel))
        (by intro _ _ _; dsimp only; refine ⟨?_, ?_, ?_⟩ <;> intro h <;> cases h)
        (by intro _ _; dsimp only; refine ⟨?_, ?_, ?_⟩ <;> intro h <;> first | rfl | cases h)
        (by intro _ _; dsimp only; refine ⟨?_, ?_, ?_⟩ <;> intro h <;> first | rfl | cases h)
        (by intro _ _; dsimp only; refine ⟨?_, ?_, ?_⟩ <;> intro h <;> first | rfl | cases h)
        ntx.outerLevel true [] _ (by intro e he; cases he)

/-- Claim C40. Store address: after a call of `stageLoopNest` that returned,
with counts `n_l` and element strides `S[a][l]` whose staged byte strides do not
overflow 32 bits, and `stageAguOffs` with bases `base_a`, every store call of the
run of `nstFuncModel` is in a frame at `innerLevel`, and with the enclosing loop
indices `path = (i_l)` for `l >= innerLevel` each AGU pointer equals
`base_a + 4 * (sum_{l >= innerLevel} i_l * S[a][l]
  + sum_{l < innerLevel} (n_l - 1) * S[a][l])`:
the address of the last inner iteration of that frame, which is the address at
the entry of the frame plus `4 * sum_{l < innerLevel} (n_l - 1) * S[a][l]`. -/
theorem store_address (ntx0 : ntx_api) (initL innerL outerL : Nat)
    (n : Nat → Nat) (S : Nat → Nat → Int) (base0 base1 base2 : Int) (d : ntx_api)
    (hstage : stageLoopNest ntx0 initL innerL outerL n S = Outcome.done d)
    (hfit : strideFits outerL n S)
    (σ : Type) (ops : Nat → nstInternalOp σ) (r : NstRun σ) :
    ∀ e ∈ (nstFuncModelLog (stageAguOffs d base0 base1 base2) ops r).state.log,
      e.kind = EventKind.store →
      e.level = innerL ∧ innerL + e.path.length = outerL ∧
      e.agu 0 = base0 + 4 * (pathOffset S 0 innerL e.path + lowerOffset n S 0 innerL) ∧
      e.agu 1 = base1 + 4 * (pathOffset S 1 innerL e.path + lowerOffset n S 1 innerL) ∧
      e.agu 2 = base2 + 4 * (pathOffset S 2 innerL e.path + lowerOffset n S 2 innerL) := by
  obtain ⟨⟨_, _, ho⟩, _, ⟨_, hinner, hout⟩, hstr, hlb, _, _⟩ :=
    stageLoopNest_done ntx0 initL innerL outerL n S d hstage
  have hS : ∀ a l, a < 3 → l < outerL →
      (stageAguOffs d base0 base1 base2).aguStride a l = 4 * (S a l - lowerOffset n S a l) := by
    intro a l ha hl
    show d.aguStride a l = _
    rw [hstr a l ha hl]
    exact wrapS32_of_fits _ (hfit a ha l hl).1 (hfit a ha l hl).2
  have habs := nstFuncModelLog_absolute (stageAguOffs d base0 base1 base2) ops r n S outerL ho
    hS hlb hout
  have hkind := nstFuncModelLog_kinds (stageAguOffs d base0 base1 base2) ops r
  intro e he hk
  obtain ⟨h1, h2⟩ := habs e he
  have hlev : e.level = innerL := by
    rw [(hkind e he).2.2 hk]
    exact hinner
  have b0 : (stageAguOffs d base0 base1 base2).aguOff 0 = base0 := by
    simp [stageAguOffs, Function.update]
  have b1 : (stageAguOffs d base0 base1 base2).aguOff 1 = base1 := by
    simp [stageAguOffs, Function.update]
  have b2 : (stageAguOffs d base0 base1 base2).aguOff 2 = base2 := by
    simp [stageAguOffs, Function.update]
  have g0 := h2 0 (by decide)
  have g1 := h2 1 (by decide)
  have g2 := h2 2 (by decide)
  rw [if_pos hk, hlev] at g0 g1 g2
  rw [b0] at g0
  rw [b1] at g1
  rw [b2] at g2
  rw [hlev] at h1
  exact ⟨hlev, h1, g0, g1, g2⟩

theorem store_address_witness :
    (nstFuncModelLog smallJob (fun _ => nopOp) ⟨fun _ => 0, ()⟩).state.log.all
      (fun e => !decide (e.kind = EventKind.store) ||
        decide (e.level = 1 ∧
          e.agu 0 = 1000 + 4 * (pathOffset test3dStrides 0 1 e.path
            + lowerOffset (fun k => [2, 3, 2].getD k 0) test3dStrides 0 1) ∧
          e.agu 1 = 2000 + 4 * (pathOffset test3dStrides 1 1 e.path
            + lowerOffset (fun k => [2, 3, 2].getD k 0) test3dStrides 1 1) ∧
          e.agu 2 = 3000 + 4 * (pathOffset test3dStrides 2 1 e.path
            + lowerOffset (fun k => [2, 3, 2].getD k 0) test3dStrides 2 1))) = true := by
  rw [List.all_eq_true]
  intro e he
  by_cases hk : e.kind = EventKind.store
  · have h := store_address ntx_api.fresh 2 1 3 (fun k => [2, 3, 2].getD k 0)
      test3dStrides 1000 2000 3000
      (stageLoopNest ntx_api.fresh 2 1 3 (fun k => [2, 3, 2].getD k 0) test3dStrides).state
      rfl (by decide) Unit (fun _ => nopOp) ⟨fun _ => 0, ()⟩ e he hk
    simp [hk, h.1, h.2.2.1, h.2.2.2.1, h.2.2.2.2]
  · simp [hk]

/-! ## Phase calls run at the pointers of a frame entry -/

theorem phasesAt_append (l1 : List Event) :
    ∀ (cur : Nat → Int) (ex : Bool) (l2 : List Event),
      phasesAt cur ex (l1 ++ l2) ↔
        phasesAt cur ex l1 ∧ phasesAt (phasesEnd cur ex l1).1 (phasesEnd cur ex l1).2 l2 := by
  induction l1 with
  | nil => intro cur ex l2; simp [phasesAt, phasesEnd]
  | cons e l ih =>
    intro cur ex l2
    obtain ⟨k, lv, p, a⟩ := e
    cases k
    · exact ih a false l2
    · show (a = cur ∧ phasesAt cur ex (l ++ l2)) ↔
        ((a = cur ∧ phasesAt cur ex l) ∧ phasesAt (phasesEnd cur ex l).1 (phasesEnd cur ex l).2 l2)
      rw [ih, and_assoc]
    · show (a = cur ∧ phasesAt cur true (l ++ l2)) ↔
        ((a = cur ∧ phasesAt cur true l) ∧
          phasesAt (phasesEnd cur true l).1 (phasesEnd cur true l).2 l2)
      rw [ih, and_assoc]
    · show ((a = cur ∧ ex = true) ∧ phasesAt cur ex (l ++ l2)) ↔
        (((a = cur ∧ ex = true) ∧ phasesAt cur ex l) ∧
          phasesAt (phasesEnd cur ex l).1 (phasesEnd cur ex l).2 l2)
      rw [ih]
      simp only [and_assoc]

theorem phasesEnd_append (l1 : List Event) :
    ∀ (cur : Nat → Int) (ex : Bool) (l2 : List Event),
      phasesEnd cur ex (l1 ++ l2)
        = phasesEnd (phasesEnd cur ex l1).1 (phasesEnd cur ex l1).2 l2 := by
  induction l1 with
  | nil => intro cur ex l2; rfl
  | cons e l ih =>
    intro cur ex l2
    obtain ⟨k, lv, p, a⟩ := e
    cases k
    · exact ih a false l2
    · exact ih cur ex l2
    · exact ih cur true l2
    · exact ih cur ex l2

theorem loopEvents_phasesAt (body : Nat → (Nat → Int) → List Event × (Nat → Int)) (lb : Nat)
    (hbody : ∀ k agu cur ex, phasesAt cur ex (body k agu).1 ∧
      (k = lb → phasesEnd cur ex (body k agu).1 = ((body k agu).2, true))) (n : Nat) :
    ∀ (k : Nat) (agu cur : Nat → Int) (ex : Bool), k + n = lb + 1 →
      phasesAt cur ex (loopEvents body n k agu).1 ∧
      (1 ≤ n → phasesEnd cur ex (loopEvents body n k agu).1
        = ((loopEvents body n k agu).2, true)) := by
  induction n with
  | zero =>
    intro k agu cur ex _
    exact ⟨trivial, fun h => by omega⟩
  | succ n ih =>
    intro k agu cur ex hk
    obtain ⟨b1, b2⟩ := hbody k agu cur ex
    have hi := ih (k + 1) (body k agu).2 (phasesEnd cur ex (body k agu).1).1
      (phasesEnd cur ex (body k agu).1).2 (by omega)
    show phasesAt cur ex ((body k agu).1 ++ (loopEvents body n (k + 1) (body k agu).2).1) ∧
      (1 ≤ n + 1 → phasesEnd cur ex
        ((body k agu).1 ++ (loopEvents body n (k + 1) (body k agu).2).1)
          = ((loopEvents body n (k + 1) (body k agu).2).2, true))
    rw [phasesAt_append, phasesEnd_append]
    refine ⟨⟨b1, hi.1⟩, fun _ => ?_⟩
    by_cases hn : n = 0
    · subst hn
      have hkl : k = lb := by omega
      rw [b2 hkl]
      rfl
    · exact hi.2 (by omega)

theorem frameEvents_phasesAt (ntx : ntx_api) (level : Nat) :
    ∀ (isLast : Bool) (path : List Nat) (agu cur : Nat → Int) (ex : Bool),
      phasesAt cur ex (frameEvents ntx level isLast path agu).1 ∧
      (isLast = true → phasesEnd cur ex (frameEvents ntx level isLast path agu).1
        = ((frameEvents ntx level isLast path agu).2, true)) := by
  induction level with
  | zero =>
    intro isLast path agu cur ex
    unfold frameEvents
    by_cases c1 : ntx.initLevel = 0 <;> by_cases c2 : ntx.innerLevel = 0 <;>
      cases isLast <;> simp [c1, c2, phasesAt, phasesEnd]
  | succ level ih =>
    intro isLast path agu cur ex
    have hl := fun (c : Nat → Int) (x : Bool) => loopEvents_phasesAt
      (fun k => frameEvents ntx level (decide (k = ntx.loopBound level)) (k :: path))
      (ntx.loopBound level)
      (fun k a c x => ⟨(ih _ _ a c x).1, fun hk => (ih _ _ a c x).2 (by simp [hk])⟩)
      (ntx.loopBound level + 1) 0 agu c x (by omega)
    unfold frameEvents
    simp only []
    generalize loopEvents
      (fun k => frameEvents ntx level (decide (k = ntx.loopBound level)) (k :: path))
      (ntx.loopBound level + 1) 0 agu = inner at hl
    have h1 := fun c x => (hl c x).1
    have h2 := fun c x => (hl c x).2 (by omega)
    by_cases c1 : ntx.initLevel = level + 1 <;> by_cases c2 : ntx.innerLevel = level + 1 <;>
      cases isLast <;>
      simp [c1, c2, phasesAt, phasesEnd, phasesAt_append, phasesEnd_append, h1, h2]

theorem frameEvents_head (ntx : ntx_api) (level : Nat) (isLast : Bool) (path : List Nat)
    (agu : Nat → Int) :
    ∃ rest, (frameEvents ntx level isLast path agu).1
      = ⟨EventKind.frame, level, path, agu⟩ :: rest := by
  cases level with
  | zero => exact ⟨_, rfl⟩
  | succ l => exact ⟨_, rfl⟩

theorem phasesAt_ok (ok : (Nat → Int) → Prop) (l : List Event) :
    ∀ (cur : Nat → Int) (ex : Bool), phasesAt cur ex l → ok cur →
      (∀ e ∈ l, e.kind = EventKind.frame → ok e.agu) → ∀ e ∈ l, ok e.agu := by
  induction l with
  | nil => intro _ _ _ _ _ e he; cases he
  | cons x l ih =>
    intro cur ex hp hcur hfr e he
    obtain ⟨k, lv, p, a⟩ := x
    have hrest : ∀ e ∈ l, e.kind = EventKind.frame → ok e.agu :=
      fun e he => hfr e (List.mem_cons_of_mem _ he)
    cases k
    · have hx : ok a := hfr ⟨EventKind.frame, lv, p, a⟩ (List.mem_cons_self _ _) rfl
      rcases List.mem_cons.1 he with h | h
      · rw [h]; exact hx
      · exact ih a false hp hx hrest e h
    · obtain ⟨h1, h2⟩ := hp
      rcases List.mem_cons.1 he with h | h
      · rw [h]; show ok a; rw [show a = cur from h1]; exact hcur
      · exact ih cur ex h2 hcur hrest e h
    · obtain ⟨h1, h2⟩ := hp
      rcases List.mem_cons.1 he with h | h
      · rw [h]; show ok a; rw [show a = cur from h1]; exact hcur
      · exact ih cur true h2 hcur hrest e h
    · obtain ⟨⟨h1, _⟩, h2⟩ := hp
      rcases List.mem_cons.1 he with h | h
      · rw [h]; show ok a; rw [show a = cur from h1]; exact hcur
      · exact ih cur ex h2 hcur hrest e h

/-! ## The address check at the entry of every frame -/

theorem nstLoop_done_inv {α : Type} (body : Nat → α → Outcome α) (R : α → Prop)
    (hbody : ∀ k u u2, body k u = Outcome.done u2 → R u → R u2) (n : Nat) :
    ∀ k t t2, nstLoop body n k t = Outcome.done t2 → R t → R t2 := by
  induction n with
  | zero =>
    intro k t t2 h hR
    rw [← Outcome.done_inj h]; exact hR
  | succ n ih =>
    intro k t t2 h hR
    obtain ⟨v, hv, hrest⟩ := Outcome.bind_eq_done _ _ _ h
    exact ih (k + 1) v t2 hrest (hbody k t v hv hR)

theorem nstFrameLog_checked {σ : Type} (ntx : ntx_api) (op : nstInternalOp σ)
    (hchk : ntx.checkTcdmAddrs = true) (level : Nat) (isLast : Bool) (path : List Nat)
    (inner : NstLogged σ → Outcome (NstLogged σ))
    (hin : ∀ u u2, inner u = Outcome.done u2 →
      (∀ e ∈ u.log, e.kind = EventKind.frame → tcdmOk ntx e.agu) →
      ∀ e ∈ u2.log, e.kind = EventKind.frame → tcdmOk ntx e.agu)
    (t t2 : NstLogged σ) (h : nstFrameLog ntx op level isLast path inner t = Outcome.done t2)
    (hlog : ∀ e ∈ t.log, e.kind = EventKind.frame → tcdmOk ntx e.agu) :
    ∀ e ∈ t2.log, e.kind = EventKind.frame → tcdmOk ntx e.agu := by
  unfold nstFrameLog at h
  simp only [] at h
  by_cases hok : tcdmOk ntx t.run.agu
  · rw [if_neg (fun hh => hh.2 hok)] at h
    have hlog1 : ∀ e ∈ t.log ++ [(⟨EventKind.frame, level, path, t.run.agu⟩ : Event)],
        e.kind = EventKind.frame → tcdmOk ntx e.agu := by
      intro e he hk
      rcases List.mem_append.1 he with h1 | h1
      · exact hlog e h1 hk
      · rw [List.mem_singleton.1 h1]; exact hok
    generalize hu0 : (if ntx.initLevel = level then
        ({ run := { t.run with st := op.init t.run.agu t.run.st },
           log := (t.log ++ [⟨EventKind.frame, level, path, t.run.agu⟩]) ++
             [⟨EventKind.init, level, path, t.run.agu⟩] } : NstLogged σ)
      else { t with log := t.log ++ [⟨EventKind.frame, level, path, t.run.agu⟩] }) = u0 at h
    have hu0log : ∀ e ∈ u0.log, e.kind = EventKind.frame → tcdmOk ntx e.agu := by
      rw [← hu0]; split
      · intro e he hk
        rcases List.mem_append.1 he with h1 | h1
        · exact hlog1 e h1 hk
        · rw [List.mem_singleton.1 h1] at hk; cases hk
      · exact hlog1
    obtain ⟨v, hv, hrest⟩ := Outcome.bind_eq_done _ _ _ h
    have hvlog := hin u0 v hv hu0log
    have e2 := Outcome.done_inj hrest
    intro e he hk
    rw [← e2] at he
    by_cases c2 : ntx.innerLevel = level <;>
      by_cases c3 : level < C_N_HW_LOOPS ∧ isLast = false <;>
      simp only [c2, c3, if_true, if_false] at he
    · rcases List.mem_append.1 he with h1 | h1
      · exact hvlog e h1 hk
      · rw [List.mem_singleton.1 h1] at hk; cases hk
    · rcases List.mem_append.1 he with h1 | h1
      · exact hvlog e h1 hk
      · rw [List.mem_singleton.1 h1] at hk; cases hk
    · exact hvlog e he hk
    · exact hvlog e he hk
  · rw [if_pos ⟨hchk, hok⟩] at h
    cases h

theorem nstLooperLog_checked {σ : Type} (ntx : ntx_api) (op : nstInternalOp σ)
    (hchk : ntx.checkTcdmAddrs = true) (level : Nat) :
    ∀ (isLast : Bool) (path : List Nat) (t t2 : NstLogged σ),
      nstLooperLog ntx op level isLast path t = Outcome.done t2 →
      (∀ e ∈ t.log, e.kind = EventKind.frame → tcdmOk ntx e.agu) →
      ∀ e ∈ t2.log, e.kind = EventKind.frame → tcdmOk ntx e.agu := by
  induction level with
  | zero =>
    intro isLast path t t2 h hlog
    exact nstFrameLog_checked ntx op hchk 0 isLast path _ (by
      intro u u2 hu hulog e he hk
      rw [← Outcome.done_inj hu] at he
      rcases List.mem_append.1 he with h1 | h1
      · exact hulog e h1 hk
      · rw [List.mem_singleton.1 h1] at hk; cases hk) t t2 h hlog
  | succ level ih =>
    intro isLast path t t2 h hlog
    exact nstFrameLog_checked ntx op hchk (level + 1) isLast path _ (by
      intro u u2 hu hulog
      exact nstLoop_done_inv
        (fun k => nstLooperLog ntx op level (decide (k = ntx.loopBound level)) (k :: path))
        (fun v : NstLogged σ => ∀ e ∈ v.log, e.kind = EventKind.frame → tcdmOk ntx e.agu)
        (fun k v v2 hv hvlog => ih _ _ v v2 hv hvlog) _ 0 u u2 hu hulog) t t2 h hlog

/-- The log of a completed run is the list of events of the outermost frame. -/
theorem nstFuncModelLog_log {σ : Type} (ntx : ntx_api) (ops : Nat → nstInternalOp σ)
    (r : NstRun σ) (t : NstLogged σ) (h : nstFuncModelLog ntx ops r = Outcome.done t) :
    t.log = (frameEvents ntx ntx.outerLevel true [] ntx.aguOff).1 ∧
    t.run.st = replay (ops ntx.opCode) (frameEvents ntx ntx.outerLevel true [] ntx.aguOff).1
      r.st := by
  have he := nstFuncModelLog_erase ntx ops r
  rw [h] at he
  have hd : nstFuncModel ntx ops r = Outcome.done t.run := he.symm
  obtain ⟨h1, h2, _⟩ := nstFuncModel_events ntx ops r t.run hd
  rw [h] at h1
  have := Outcome.done_inj h1
  constructor
  · rw [this]
  · exact h2

/-- Claim C25. With `checkTcdmAddrs` enabled, if `nstFuncModel` completes
without a failed assertion then the pointers `agu[0]`, `agu[1]`, `agu[2]` at the
moment of every init, execute and store call (and at every frame entry) lie in
`[tcdmLow, tcdmHigh]`: each phase call runs at the pointers of a frame entry
that was checked, the store at the end of a frame with `innerLevel > 0`
included. -/
theorem tcdm_check_covers_phases {σ : Type} (ntx : ntx_api) (ops : Nat → nstInternalOp σ)
    (r : NstRun σ) (t : NstLogged σ) (hchk : ntx.checkTcdmAddrs = true)
    (h : nstFuncModelLog ntx ops r = Outcome.done t) :
    ∀ e ∈ t.log, tcdmOk ntx e.agu := by
  have hfr : ∀ e ∈ t.log, e.kind = EventKind.frame → tcdmOk ntx e.agu := by
    unfold nstFuncModelLog at h
    split_ifs at h
    exact nstLooperLog_checked ntx _ hchk ntx.outerLevel true [] _ t h
      (by intro e he; cases he)
  obtain ⟨hlog, _⟩ := nstFuncModelLog_log ntx ops r t h
  rw [hlog] at hfr ⊢
  obtain ⟨rest, hrest⟩ := frameEvents_head ntx ntx.outerLevel true [] ntx.aguOff
  have h0 : tcdmOk ntx ntx.aguOff := by
    have := hfr ⟨EventKind.frame, ntx.outerLevel, [], ntx.aguOff⟩
      (by rw [hrest]; exact List.mem_cons_self _ _) rfl
    exact this
  exact phasesAt_ok (tcdmOk ntx) _ ntx.aguOff false
    (frameEvents_phasesAt ntx ntx.outerLevel true [] ntx.aguOff ntx.aguOff false).1 h0 hfr

theorem tcdm_check_covers_phases_witness :
    (nstFuncModelLog checkedJob (fun _ => nopOp) ⟨fun _ => 0, ()⟩).isDone = true ∧
    (nstFuncModelLog checkedJob (fun _ => nopOp) ⟨fun _ => 0, ()⟩).state.log.all
      (fun e => decide (tcdmOk checkedJob e.agu)) = true := by
  refine ⟨by decide, ?_⟩
  cases h : nstFuncModelLog checkedJob (fun _ => nopOp) ⟨fun _ => 0, ()⟩ with
  | done t =>
    rw [Outcome.state_done, List.all_eq_true]
    intro e he
    have := tcdm_check_covers_phases checkedJob (fun _ => nopOp) ⟨fun _ => 0, ()⟩ t rfl h e he
    simpa using this
  | trap t =>
    have hd : (nstFuncModelLog checkedJob (fun _ => nopOp) ⟨fun _ => 0, ()⟩).isDone = true := by
      decide
    rw [h] at hd
    cases hd

/-! ## The store phase of MASKMAC -/

theorem maskmac_opA (ntx : ntx_api) (l : List Event) :
    ∀ (cur : Nat → Int) (ex : Bool) (s : NtxState), phasesAt cur ex l →
      (ex = true → s.opA = cur 2) →
      ∀ pre e post, l = pre ++ e :: post → e.kind = EventKind.store →
        (replay (nstMaskMacOp ntx) pre s).opA = e.agu 2 := by
  induction l with
  | nil =>
    intro _ _ _ _ _ pre e post h
    cases pre <;> cases h
  | cons x l ih =>
    intro cur ex s hp hs pre e post hsplit hk
    cases pre with
    | nil =>
      simp only [List.nil_append, List.cons.injEq] at hsplit
      obtain ⟨hx, _⟩ := hsplit
      subst hx
      obtain ⟨k, lv, p, a⟩ := x
      simp only at hk
      subst hk
      obtain ⟨⟨h1, h2⟩, _⟩ := hp
      show s.opA = a 2
      rw [hs h2, show a = cur from h1]
    | cons y pre =>
      simp only [List.cons_append, List.cons.injEq] at hsplit
      obtain ⟨hx, hl⟩ := hsplit
      subst hx
      rw [replay_cons]
      obtain ⟨k, lv, p, a⟩ := x
      cases k
      · exact ih a false _ hp (fun h => by cases h) pre e post hl hk
      · obtain ⟨_, h2⟩ := hp
        refine ih cur ex _ h2 (fun hx => ?_) pre e post hl hk
        have := hs hx
        show ((nstMaskMacOp ntx).init a s).opA = cur 2
        rw [← this]
        rfl
      · obtain ⟨h1, h2⟩ := hp
        refine ih cur true _ h2 (fun _ => ?_) pre e post hl hk
        show a 2 = cur 2
        rw [show a = cur from h1]
      · obtain ⟨_, h2⟩ := hp
        refine ih cur ex _ h2 (fun hx => ?_) pre e post hl hk
        have := hs hx
        show ((nstMaskMacOp ntx).store a s).opA = cur 2
        rw [← this]
        simp only [nstMaskMacOp]
        split <;> rfl

/-- Claim C21. The store phase of MASKMAC: if `tst` is false at store time it
leaves the whole state as it is (every memory word, `*agu[2]` in particular, the
accumulator, `aluState`, `cntState` and `idxState`); if `tst` is true it adds
`fp32ToPcs` of the word at `opA` to the accumulator and writes `pcsToFp32` of the
new accumulator to `*agu[2]`, and `opA` is `agu[2]`: at every store call of a
completed MASKMAC run the pointer `opA`, set by the last execute call, equals
the pointer `agu[2]` of the store call. -/
theorem maskmac_store (ntx : ntx_api) (agu : Nat → Int) (s : NtxState) :
    (s.tst = false → (nstMaskMacOp ntx).store agu s = s) ∧
    (s.tst = true → s.opA = agu 2 →
      ((nstMaskMacOp ntx).store agu s).accuState
        = pcsAdd (fp32ToPcs (load32 s.mem (agu 2))) s.accuState ∧
      ((nstMaskMacOp ntx).store agu s).mem
        = store32 s.mem (agu 2) (pcsToFp32 ((nstMaskMacOp ntx).store agu s).accuState) ∧
      ((nstMaskMacOp ntx).store agu s).aluState = s.aluState ∧
      ((nstMaskMacOp ntx).store agu s).cntState = s.cntState ∧
      ((nstMaskMacOp ntx).store agu s).idxState = s.idxState) ∧
    (∀ (r : NstRun NtxState) (t : NstLogged NtxState), ntx.opCode = 7 →
      nstFuncModelLog ntx (nstOps ntx) r = Outcome.done t →
      ∀ pre e post, t.log = pre ++ e :: post → e.kind = EventKind.store →
        (replay (nstMaskMacOp ntx) pre r.st).opA = e.agu 2) := by
  refine ⟨?_, ?_, ?_⟩
  · intro h
    simp only [nstMaskMacOp, h, Bool.false_eq_true, if_false]
  · intro h hA
    have hacc : ((nstMaskMacOp ntx).store agu s).accuState
        = pcsAdd (fp32ToPcs (load32 s.mem (agu 2))) s.accuState := by
      simp only [nstMaskMacOp, h, if_true, hA]
      rw [pcsMac_fst]
      simp only [ne_eq, not_true_eq_false, if_false, decide_False]
      rw [productImage_one]
    refine ⟨hacc, ?_, ?_, ?_, ?_⟩
    · rw [hacc]
      simp only [nstMaskMacOp, h, if_true, hA]
      rw [pcsMac_norm, pcsMac_fst]
      simp only [ne_eq, not_true_eq_false, if_false, decide_False]
      rw [productImage_one]
    · simp only [nstMaskMacOp, h, if_true]
    · simp only [nstMaskMacOp, h, if_true]
    · simp only [nstMaskMacOp, h, if_true]
  · intro r t hop h pre e post hsplit hk
    obtain ⟨hlog, _⟩ := nstFuncModelLog_log ntx (nstOps ntx) r t h
    rw [hlog] at hsplit
    exact maskmac_opA ntx _ ntx.aguOff false r.st
      (frameEvents_phasesAt ntx ntx.outerLevel true [] ntx.aguOff ntx.aguOff false).1
      (fun hx => by cases hx) pre e post hsplit hk

theorem maskmac_store_witness :
    ((nstMaskMacOp maskMacJob).store aguWords
        ⟨wordMem [0, 0, 0x3F800000], fp32_accuType.zero, 0, 0, 0, true, 8, 0⟩).accuState
      = pcsAdd (fp32ToPcs (load32 (wordMem [0, 0, 0x3F800000]) (aguWords 2)))
          fp32_accuType.zero ∧
    (nstMaskMacOp maskMacJob).store aguWords (aluFive [0, 9, 0]) = aluFive [0, 9, 0] :=
  ⟨((maskmac_store maskMacJob aguWords
      ⟨wordMem [0, 0, 0x3F800000], fp32_accuType.zero, 0, 0, 0, true, 8, 0⟩).2.1 rfl rfl).1,
   (maskmac_store maskMacJob aguWords (aluFive [0, 9, 0])).1 rfl⟩

/-! ## The index register of MAXMIN -/

theorem maxminReads_append (ntx : ntx_api) (l1 : List Event) :
    ∀ (l2 : List Event) (s : NtxState),
      maxminReads ntx (l1 ++ l2) s
        = maxminReads ntx l1 s ++ maxminReads ntx l2 (replay (nstMaxMinOp ntx) l1 s) := by
  induction l1 with
  | nil => intro l2 s; rfl
  | cons e l ih =>
    intro l2 s
    show (if e.kind = EventKind.execute then [load32 s.mem (e.agu 1)] else [])
        ++ maxminReads ntx (l ++ l2) (e.apply (nstMaxMinOp ntx) s) = _
    rw [ih, replay_cons]
    show _ = ((if e.kind = EventKind.execute then [load32 s.mem (e.agu 1)] else [])
        ++ maxminReads ntx l (e.apply (nstMaxMinOp ntx) s)) ++ _
    rw [List.append_assoc]

theorem maxmin_execute_regs (ntx : ntx_api) (agu : Nat → Int) (s : NtxState) :
    ((nstMaxMinOp ntx).execute agu s).mem = s.mem ∧
    ((nstMaxMinOp ntx).execute agu s).cntState = u32 (s.cntState + 1) ∧
    (xor (floatGt s.aluState (load32 s.mem (agu 1))) (!ntx.polarity) = true →
      ((nstMaxMinOp ntx).execute agu s).aluState = load32 s.mem (agu 1) ∧
      ((nstMaxMinOp ntx).execute agu s).idxState = s.cntState) ∧
    (xor (floatGt s.aluState (load32 s.mem (agu 1))) (!ntx.polarity) = false →
      ((nstMaxMinOp ntx).execute agu s).aluState = s.aluState ∧
      ((nstMaxMinOp ntx).execute agu s).idxState = s.idxState) := by
  simp only [nstMaxMinOp]
  by_cases h : xor (floatGt s.aluState (load32 s.mem (agu 1))) (!ntx.polarity) = true
  · simp [h]
  · have h2 : xor (floatGt s.aluState (load32 s.mem (agu 1))) (!ntx.polarity) = false := by
      simpa using h
    simp [h2]

theorem maxmin_store_regs (ntx : ntx_api) (agu : Nat → Int) (s : NtxState) :
    ((nstMaxMinOp ntx).store agu s).aluState = s.aluState ∧
    ((nstMaxMinOp ntx).store agu s).cntState = s.cntState ∧
    ((nstMaxMinOp ntx).store agu s).idxState = s.idxState := by
  simp only [nstMaxMinOp]
  split <;> exact ⟨rfl, rfl, rfl⟩

theorem maxminCond_append (p : Bool) (v : Nat) (bs l : List Nat) (i : Nat)
    (hi : i < bs.length) :
    maxminCond p v (bs ++ l) i ↔ maxminCond p v bs i := by
  have e : ∀ j, j ≤ i → (bs ++ l).getD j 0 = bs.getD j 0 :=
    fun j hj => List.getD_append bs l 0 j (by omega)
  unfold maxminCond
  cases p
  · simp only [Bool.false_eq_true, if_false, e i (le_refl _)]
    constructor
    · rintro ⟨h1, h2⟩
      exact ⟨h1, fun j hj => by rw [← e j (by omega)]; exact h2 j hj⟩
    · rintro ⟨h1, h2⟩
      exact ⟨h1, fun j hj => by rw [e j (by omega)]; exact h2 j hj⟩
  · simp only [if_true, e i (le_refl _)]
    constructor
    · rintro ⟨h1, h2⟩
      exact ⟨h1, fun j hj => by rw [← e j (by omega)]; exact h2 j hj⟩
    · rintro ⟨h1, h2⟩
      exact ⟨h1, fun j hj => by rw [e j (by omega)]; exact h2 j hj⟩

/-- The test of the execute phase against the running extremum is the
condition of the specification on the index of the word read. -/
theorem maxminCond_last (p : Bool) (v alu b : Nat) (bs : List Nat)
    (h1 : maxminKey p v ≤ maxminKey p alu)
    (h2 : ∀ j, j < bs.length → maxminKey p (bs.getD j 0) ≤ maxminKey p alu)
    (h3 : maxminKey p alu = maxminKey p v ∨
      ∃ j, j < bs.length ∧ maxminKey p alu = maxminKey p (bs.getD j 0)) :
    maxminCond p v (bs ++ [b]) bs.length ↔
      (if p then fp32Key b < fp32Key alu else fp32Key alu ≤ fp32Key b) := by
  have eb : (bs ++ [b]).getD bs.length 0 = b := by
    rw [List.getD_append_right _ _ _ _ (le_refl _)]
    simp
  have e : ∀ j, j < bs.length → (bs ++ [b]).getD j 0 = bs.getD j 0 :=
    fun j hj => List.getD_append bs [b] 0 j hj
  unfold maxminCond
  rw [eb]
  cases p
  · simp only [maxminKey, Bool.false_eq_true, if_false] at h1 h2 h3 ⊢
    constructor
    · rintro ⟨c1, c2⟩
      rcases h3 with h | ⟨j, hj, h⟩
      · omega
      · have := c2 j hj
        rw [e j hj] at this
        omega
    · intro c
      refine ⟨by omega, fun j hj => ?_⟩
      rw [e j hj]
      have := h2 j hj
      omega
  · simp only [maxminKey, if_true] at h1 h2 h3 ⊢
    constructor
    · rintro ⟨c1, c2⟩
      rcases h3 with h | ⟨j, hj, h⟩
      · omega
      · have := c2 j hj
        rw [e j hj] at this
        omega
    · intro c
      refine ⟨by omega, fun j hj => ?_⟩
      rw [e j hj]
      have := h2 j hj
      omega

theorem maxmin_tst (p : Bool) (alu b : Nat) (ha : fp32_isNaN alu = false)
    (hb : fp32_isNaN b = false) :
    (xor (floatGt alu b) (!p) = true) ↔
      (if p then fp32Key b < fp32Key alu else fp32Key alu ≤ fp32Key b) := by
  rw [floatGt_eq alu b ha hb]
  cases p
  · simp
  · simp

/-- The registers of MAXMIN after the phase calls of an init frame: the
counter, the running extremum and the index register. -/
theorem maxmin_invariant (ntx : ntx_api) (s1 : NtxState) (hc : s1.cntState = 0)
    (hv : fp32_isNaN s1.aluState = false) (rest : List Event) :
    (∀ e ∈ rest, e.kind ≠ EventKind.init) →
    (maxminReads ntx rest s1).length ≤ 2 ^ 32 →
    (∀ b ∈ maxminReads ntx rest s1, fp32_isNaN b = false) →
    (replay (nstMaxMinOp ntx) rest s1).cntState = (maxminReads ntx rest s1).length % 2 ^ 32 ∧
    fp32_isNaN (replay (nstMaxMinOp ntx) rest s1).aluState = false ∧
    maxminKey ntx.polarity s1.aluState
      ≤ maxminKey ntx.polarity (replay (nstMaxMinOp ntx) rest s1).aluState ∧
    (∀ j, j < (maxminReads ntx rest s1).length →
      maxminKey ntx.polarity ((maxminReads ntx rest s1).getD j 0)
        ≤ maxminKey ntx.polarity (replay (nstMaxMinOp ntx) rest s1).aluState) ∧
    (maxminKey ntx.polarity (replay (nstMaxMinOp ntx) rest s1).aluState
        = maxminKey ntx.polarity s1.aluState ∨
      ∃ j, j < (maxminReads ntx rest s1).length ∧
        maxminKey ntx.polarity (replay (nstMaxMinOp ntx) rest s1).aluState
          = maxminKey ntx.polarity ((maxminReads ntx rest s1).getD j 0)) ∧
    (((replay (nstMaxMinOp ntx) rest s1).idxState = s1.idxState ∧
        ∀ i, i < (maxminReads ntx rest s1).length →
          ¬ maxminCond ntx.polarity s1.aluState (maxminReads ntx rest s1) i) ∨
      maxminIndex ntx.polarity s1.aluState (maxminReads ntx rest s1)
        (replay (nstMaxMinOp ntx) rest s1).idxState) := by
  induction rest using List.reverseRecOn with
  | nil =>
    intro _ _ _
    refine ⟨hc, hv, le_refl _, fun j hj => absurd hj (by simp [maxminReads]), Or.inl rfl,
      Or.inl ⟨rfl, fun i hi => absurd hi (by simp [maxminReads])⟩⟩
  | append_singleton l e ih =>
    intro hkinds hlen hnan
    rw [maxminReads_append] at hlen hnan ⊢
    rw [replay_append]
    have hkl : ∀ x ∈ l, x.kind ≠ EventKind.init :=
      fun x hx => hkinds x (List.mem_append_left _ hx)
    have hke : e.kind ≠ EventKind.init := hkinds e (List.mem_append_right _ (by simp))
    have hlen1 : (maxminReads ntx l s1).length ≤ 2 ^ 32 := by
      rw [List.length_append] at hlen; omega
    obtain ⟨i1, i2, i3, i4, i5, i6⟩ := ih hkl hlen1
      (fun b hb => hnan b (List.mem_append_left _ hb))
    generalize hbs : maxminReads ntx l s1 = bs at *
    generalize ht : replay (nstMaxMinOp ntx) l s1 = t at *
    obtain ⟨k, lv, pth, agu⟩ := e
    cases k
    · -- a frame entry
      have er : maxminReads ntx [(⟨EventKind.frame, lv, pth, agu⟩ : Event)] t = [] := rfl
      rw [er, List.append_nil]
      exact ⟨i1, i2, i3, i4, i5, i6⟩
    · exact absurd rfl hke
    · -- an execute call
      have er : maxminReads ntx [(⟨EventKind.execute, lv, pth, agu⟩ : Event)] t
          = [load32 t.mem (agu 1)] := rfl
      rw [er] at hlen hnan ⊢
      have hrep : replay (nstMaxMinOp ntx) [(⟨EventKind.execute, lv, pth, agu⟩ : Event)] t
          = (nstMaxMinOp ntx).execute agu t := rfl
      rw [hrep]
      obtain ⟨x1, x2, x3, x4⟩ := maxmin_execute_regs ntx agu t
      generalize load32 t.mem (agu 1) = b at *
      have hb : fp32_isNaN b = false := hnan b (List.mem_append_right _ (by simp))
      have hk : bs.length < 2 ^ 32 := by
        rw [List.length_append] at hlen
        simp only [List.length_singleton] at hlen
        omega
      have hcnt : t.cntState = bs.length := by
        rw [i1]; exact Nat.mod_eq_of_lt hk
      have hlast := maxminCond_last ntx.polarity s1.aluState t.aluState b bs i3 i4 i5
      have htst := maxmin_tst ntx.polarity t.aluState b i2 hb
      have eb : (bs ++ [b]).getD bs.length 0 = b := by
        rw [List.getD_append_right _ _ _ _ (le_refl _)]
        simp
      have eold : ∀ j, j < bs.length → (bs ++ [b]).getD j 0 = bs.getD j 0 :=
        fun j hj => List.getD_append bs [b] 0 j hj
      have hlen2 : (bs ++ [b]).length = bs.length + 1 := by simp
      generalize (nstMaxMinOp ntx).execute agu t = t2 at *
      have hc2 : t2.cntState = (bs ++ [b]).length % 2 ^ 32 := by
        rw [x2, hcnt, hlen2]; rfl
      by_cases htrue : xor (floatGt t.aluState b) (!ntx.polarity) = true
      · obtain ⟨y1, y2⟩ := x3 htrue
        have hcond : maxminCond ntx.polarity s1.aluState (bs ++ [b]) bs.length :=
          hlast.2 (htst.1 htrue)
        have hge : maxminKey ntx.polarity t.aluState ≤ maxminKey ntx.polarity b := by
          have := htst.1 htrue
          unfold maxminKey
          cases hp : ntx.polarity <;> simp only [hp, if_true, Bool.false_eq_true, if_false] at this ⊢
          · exact this
          · omega
        refine ⟨hc2, by rw [y1]; exact hb, by rw [y1]; omega, ?_, ?_, ?_⟩
        · intro j hj
          rw [y1]
          by_cases hjk : j = bs.length
          · rw [hjk, eb]
          · rw [eold j (by omega)]
            have := i4 j (by omega)
            omega
        · right
          exact ⟨bs.length, by omega, by rw [y1, eb]⟩
        · right
          refine ⟨by rw [y2, hcnt]; omega, by rw [y2, hcnt]; exact hcond, ?_⟩
          intro j h2 h1
          rw [y2, hcnt] at h1
          omega
      · have hfalse : xor (floatGt t.aluState b) (!ntx.polarity) = false := by simpa using htrue
        obtain ⟨y1, y2⟩ := x4 hfalse
        have hncond : ¬ maxminCond ntx.polarity s1.aluState (bs ++ [b]) bs.length :=
          fun hcd => htrue (htst.2 (hlast.1 hcd))
        have hle : maxminKey ntx.polarity b ≤ maxminKey ntx.polarity t.aluState := by
          have : ¬ (if ntx.polarity = true then fp32Key b < fp32Key t.aluState
              else fp32Key t.aluState ≤ fp32Key b) := fun h => htrue (htst.2 h)
          unfold maxminKey
          cases hp : ntx.polarity <;> simp only [hp, if_true, Bool.false_eq_true, if_false] at this ⊢
          · omega
          · omega
        refine ⟨hc2, by rw [y1]; exact i2, by rw [y1]; exact i3, ?_, ?_, ?_⟩
        · intro j hj
          rw [y1]
          by_cases hjk : j = bs.length
          · rw [hjk, eb]; exact hle
          · rw [eold j (by omega)]
            exact i4 j (by omega)
        · rw [y1]
          rcases i5 with h | ⟨j, hj, h⟩
          · exact Or.inl h
          · exact Or.inr ⟨j, by omega, by rw [eold j hj]; exact h⟩
        · rw [y2]
          rcases i6 with ⟨a1, a2⟩ | ⟨a1, a2, a3⟩
          · left
            refine ⟨a1, fun i hi => ?_⟩
            by_cases hik : i = bs.length
            · rw [hik]; exact hncond
            · rw [maxminCond_append _ _ _ _ _ (by omega)]
              exact a2 i (by omega)
          · right
            refine ⟨by omega, (maxminCond_append _ _ _ _ _ a1).2 a2, fun j h2 h1 => ?_⟩
            by_cases hjk : j = bs.length
            · rw [hjk]; exact hncond
            · rw [maxminCond_append _ _ _ _ _ (by omega)]
              exact a3 j (by omega) h1
    · -- a store call
      have er : maxminReads ntx [(⟨EventKind.store, lv, pth, agu⟩ : Event)] t = [] := rfl
      rw [er, List.append_nil]
      have hrep : replay (nstMaxMinOp ntx) [(⟨EventKind.store, lv, pth, agu⟩ : Event)] t
          = (nstMaxMinOp ntx).store agu t := rfl
      rw [hrep]
      obtain ⟨z1, z2, z3⟩ := maxmin_store_regs ntx agu t
      rw [z1, z2, z3]
      exact ⟨i1, i2, i3, i4, i5, i6⟩

theorem load32_wordMem_nil (a : Int) : load32 (wordMem []) a = 0 := by
  unfold load32 wordMem
  simp

theorem getD_replicate_zero (n : Nat) : ∀ i, (List.replicate n 0).getD i 0 = 0 := by
  induction n with
  | zero => intro i; rfl
  | succ n ih =>
    intro i
    rw [List.replicate_succ]
    cases i with
    | zero => rfl
    | succ i => exact ih i

/-- A MAXMIN frame with polarity 0 over a stream of zero words with init value
zero: every execute call replaces, so the index register follows the counter. -/
theorem maxmin_zero_stream (k : Nat) (s1 : NtxState) (hm : s1.mem = wordMem [])
    (ha : s1.aluState = 0) (hc : s1.cntState = 0) :
    (replay (nstMaxMinOp maxZeroJob) (List.replicate k executeEvent) s1).mem = wordMem [] ∧
    (replay (nstMaxMinOp maxZeroJob) (List.replicate k executeEvent) s1).aluState = 0 ∧
    (replay (nstMaxMinOp maxZeroJob) (List.replicate k executeEvent) s1).cntState
      = k % 2 ^ 32 ∧
    (1 ≤ k → (replay (nstMaxMinOp maxZeroJob) (List.replicate k executeEvent) s1).idxState
      = (k - 1) % 2 ^ 32) ∧
    maxminReads maxZeroJob (List.replicate k executeEvent) s1 = List.replicate k 0 := by
  induction k with
  | zero => exact ⟨hm, ha, hc, fun h => absurd h (by omega), rfl⟩
  | succ k ih =>
    obtain ⟨i1, i2, i3, i4, i5⟩ := ih
    rw [List.replicate_succ', replay_append, maxminReads_append, i5]
    generalize replay (nstMaxMinOp maxZeroJob) (List.replicate k executeEvent) s1 = t at *
    have hrep : replay (nstMaxMinOp maxZeroJob) [executeEvent] t
        = (nstMaxMinOp maxZeroJob).execute executeEvent.agu t := rfl
    have er : maxminReads maxZeroJob [executeEvent] t = [load32 t.mem (executeEvent.agu 1)] := rfl
    rw [hrep, er]
    obtain ⟨x1, x2, x3, _⟩ := maxmin_execute_regs maxZeroJob executeEvent.agu t
    rw [i1, load32_wordMem_nil] at x3 er ⊢
    rw [i2] at x3
    obtain ⟨y1, y2⟩ := x3 (by decide)
    rw [List.replicate_succ' k 0]
    refine ⟨by rw [x1, i1], y1, ?_, fun _ => ?_, rfl⟩
    · rw [x2, i3]
      unfold u32
      omega
    · rw [y2, i3]
      simp

/-- Counterexample to claim C39 as stated: the counter `cntState` is a
`uint32_t`. In an init frame of `2^32 + 1` execute calls with polarity 0, init
value zero and a stream of zero words, the largest index with
`b_i >= max(v, b_0..b_(i-1))` is `2^32`, the last one, and `idxState` is 0
afterwards. -/
theorem maxmin_index_wrap_counterexample :
    maxZeroJob.polarity = false ∧ initAlu maxZeroJob initEvent.agu (exampleRun []).st = 0 ∧
    maxminReads maxZeroJob (List.replicate (2 ^ 32 + 1) executeEvent)
        (initEvent.apply (nstMaxMinOp maxZeroJob) (exampleRun []).st)
      = List.replicate (2 ^ 32 + 1) 0 ∧
    maxminIndex false 0 (List.replicate (2 ^ 32 + 1) 0) (2 ^ 32) ∧
    (replay (nstMaxMinOp maxZeroJob)
        (initEvent :: List.replicate (2 ^ 32 + 1) executeEvent) (exampleRun []).st).idxState
      = 0 := by
  have h := maxmin_zero_stream (2 ^ 32 + 1)
    (initEvent.apply (nstMaxMinOp maxZeroJob) (exampleRun []).st) rfl rfl rfl
  refine ⟨rfl, rfl, h.2.2.2.2, ?_, ?_⟩
  · refine ⟨?_, ?_, ?_⟩
    · rw [List.length_replicate]
      omega
    · unfold maxminCond
      simp only [Bool.false_eq_true, if_false, getD_replicate_zero]
      exact ⟨le_refl _, fun _ _ => le_refl _⟩
    · intro j h1 h2
      rw [List.length_replicate] at h1
      omega
  · rw [replay_cons, h.2.2.2.1 (by omega)]
    norm_num

/-- Claim C39, amended. MAXMIN index semantics: over one init frame (an init
call followed by execute and store calls) of at most `2^32` execute calls, with
an init value `v` and a stream `b_0..b_(N-1)` of the words read by the execute
calls, none of them a NaN, `idxState` afterwards is, for polarity 0, the largest
index `i` with `b_i >= max(v, b_0..b_(i-1))` and, for polarity 1, the largest
index `i` with `b_i < min(v, b_0..b_(i-1))`; if no index has the condition,
`idxState` keeps the value it had before the frame (init resets `cntState` but
not `idxState`). -/
theorem maxmin_index_semantics (ntx : ntx_api) (e0 : Event) (rest : List Event) (s0 : NtxState)
    (h0 : e0.kind = EventKind.init) (hrest : ∀ e ∈ rest, e.kind ≠ EventKind.init)
    (hN : (maxminReads ntx rest (e0.apply (nstMaxMinOp ntx) s0)).length ≤ 2 ^ 32)
    (hv : fp32_isNaN (initAlu ntx e0.agu s0) = false)
    (hnan : ∀ b ∈ maxminReads ntx rest (e0.apply (nstMaxMinOp ntx) s0), fp32_isNaN b = false) :
    (∀ i, maxminIndex ntx.polarity (initAlu ntx e0.agu s0)
        (maxminReads ntx rest (e0.apply (nstMaxMinOp ntx) s0)) i →
      (replay (nstMaxMinOp ntx) (e0 :: rest) s0).idxState = i) ∧
    ((∀ i, i < (maxminReads ntx rest (e0.apply (nstMaxMinOp ntx) s0)).length →
        ¬ maxminCond ntx.polarity (initAlu ntx e0.agu s0)
          (maxminReads ntx rest (e0.apply (nstMaxMinOp ntx) s0)) i) →
      (replay (nstMaxMinOp ntx) (e0 :: rest) s0).idxState = s0.idxState) := by
  have hs1 : e0.apply (nstMaxMinOp ntx) s0
      = { s0 with aluState := initAlu ntx e0.agu s0, cntState := 0 } := by
    unfold Event.apply
    rw [h0]
    rfl
  rw [replay_cons]
  generalize e0.apply (nstMaxMinOp ntx) s0 = s1 at *
  have ha : s1.aluState = initAlu ntx e0.agu s0 := by rw [hs1]
  have hc : s1.cntState = 0 := by rw [hs1]
  have hi : s1.idxState = s0.idxState := by rw [hs1]
  rw [← ha] at hv ⊢
  obtain ⟨_, _, _, _, _, h6⟩ := maxmin_invariant ntx s1 hc hv rest hrest hN hnan
  rw [← hi]
  constructor
  · intro i hidx
    rcases h6 with ⟨_, a2⟩ | ⟨b1, b2, b3⟩
    · exact absurd hidx.2.1 (a2 i hidx.1)
    · obtain ⟨c1, c2, c3⟩ := hidx
      by_contra hne
      rcases Nat.lt_or_gt_of_ne hne with h | h
      · exact b3 i c1 h c2
      · exact c3 _ b1 h b2
  · intro hnone
    rcases h6 with ⟨a1, _⟩ | ⟨b1, b2, _⟩
    · exact a1
    · exact absurd b2 (hnone _ b1)

theorem maxmin_index_semantics_witness :
    (replay (nstMaxMinOp maxZeroJob) (initEvent :: [executeEvent, executeEvent])
      (staleRun []).st).idxState = 1 :=
  (maxmin_index_semantics maxZeroJob initEvent [executeEvent, executeEvent] (staleRun []).st
    rfl (by decide) (by decide) (by decide) (by decide)).1 1 (by decide)

end Ntx
